import Mathlib

/-!
# Octree partitioning: `zoltan/src/oct/dfs.c` and `zoltan/src/oct/octant.c`

A shallow embedding of the octant arena (`octant.c`) and of the depth-first
partitioner (`dfs.c`).

Modelling conventions.

* A `pOctant` is an address (`some a`) or `NULL` (`none`); the arena `mem`
  maps an address to the octant stored there.  Reading through `NULL` or
  through an address that holds no octant is the fault `segfault`.
* `float`/`double` values are rationals.  The definitions that carry the name of
  a C function (`LB_visit`, `LB_dfs_partition`, ...) compute with the exact
  operations on rationals: they describe the executions in which no operation
  rounds.  Their copies with the suffix `_r` (`LB_visit_r`, `LB_dfs_partition_r`,
  ...) take the floating-point arithmetic as a parameter `ρ : Arith`, which rounds
  (or faults on) the result of each operation on a cost; `binary32` and
  `binary64` are the IEEE 754 instances, rounding to nearest, ties to even.
  A division whose divisor is zero has no rational value and is the fault
  `divByZero`.
* `int` values are unbounded integers (no claim depends on wrap-around); the
  conversion of a `float` to `int` in the `_r` copies is `float_to_int32`, which
  is the fault `undefined` outside the range of a 32-bit `int`.
* Recursion over the pointer structure follows the C call structure with a
  depth budget (`fuel`); an exhausted budget is the fault `outOfFuel`, so a
  result `.ok` always stands for a terminating C execution.
* The statics of `dfs.c` (`partition`, `total`, `pcost`, `optcost`, `pmass`,
  `pcoord`, `CLOSE`, `DFS_Part_Count`) and the globals of `octant.c` are the
  fields of one explicit state, `World`.

The namespace `Tempus` embeds the time step control of
`tempus/src/Tempus_TimeStepControl_impl.hpp`; its conventions are stated at its head.
-/

namespace Zoltan

/-! ## Data model -/

/-- A `COORD` is a `double[3]`. -/
structure COORD where
  c0 : ℚ
  c1 : ℚ
  c2 : ℚ
deriving DecidableEq

/-- A `Region`: the payload entries of a terminal octant (`list`, linked through `next`). -/
structure Region where
  Coord : COORD
  Weight : ℚ
  Global_ID : Int
  Local_ID : Int
  Proc : Int
deriving DecidableEq

/-- A pointer to an octant: `none` is `NULL`. -/
abbrev pOctant := Option Nat

/-- The fields of `struct Octant` that `octant.c` and `dfs.c` read and write. -/
structure Octant where
  id : Int
  parent : pOctant
  ppid : Int
  which : Int
  numChild : Int
  child : Fin 8 → pOctant
  cpid : Fin 8 → Int
  list : List Region
  cost : ℚ
  npid : Int
  min : COORD
  max : COORD
deriving DecidableEq

/-- The ways an execution can fail to return a value of the model: the depth budget is
exhausted (`outOfFuel`), a read or write through a pointer that holds no octant (`segfault`),
a division by zero (`divByZero`), a call of `abort()` (`abort`), a conversion of a
floating-point value to `int` outside the range of `int` (`undefined`), a floating-point
result beyond the largest finite value (`overflow`), and, in the checked arithmetic only, an
operation whose result is not kept as it is (`inexact`). -/
inductive Fault where
  | outOfFuel
  | segfault
  | divByZero
  | abort
  | inexact
  | undefined
  | overflow
deriving DecidableEq

/-- The process-wide state: the arena and globals of `octant.c` and the statics of `dfs.c`. -/
structure World where
  mem : Nat → Option Octant
  OCT_rootlist : List Nat
  OCT_localpid : Int
  OCT_dimension : Int
  OCT_count : Int
  OCT_idcount : Int
  CLOSE : Int
  DFS_Part_Count : Int
  partition : Int
  total : ℚ
  pcost : ℚ
  optcost : ℚ
  pmass : ℚ
  pcoord : COORD

/-- The geometric helpers of `util.c` that the sources call but do not define; they are
parameters of the embedding. -/
structure OctUtil where
  LB_bounds_to_origin_size : COORD → COORD → COORD × COORD
  LB_bounds_to_origin : COORD → COORD → COORD
  LB_child_bounds : COORD → COORD → COORD → Fin 8 → COORD × COORD
  vector_dist : COORD → COORD → ℚ

/-- The child slots `0..7` in the order of `for (i=0; i<8; i++)`. -/
def slots : List (Fin 8) := [0, 1, 2, 3, 4, 5, 6, 7]

/-! ## Vector helpers and numeric conversions -/

/-- Modelled from the spec: `vector_set_comp` of `util.c` (not among the sources), which the
spec describes as resetting the centroid accumulator to the given components. -/
def vector_set_comp (x y z : ℚ) : COORD := ⟨x, y, z⟩

/-- Modelled from the spec: `vector_cmult` of `util.c`, the volume weighting of an origin. -/
def vector_cmult (c : ℚ) (v : COORD) : COORD := ⟨c * v.c0, c * v.c1, c * v.c2⟩

/-- Modelled from the spec: `vector_add` of `util.c`, folding a weighted origin into the
accumulator. -/
def vector_add (a b : COORD) : COORD := ⟨a.c0 + b.c0, a.c1 + b.c1, a.c2 + b.c2⟩

/-- Floating point division before rounding: the exact quotient; a zero divisor is a fault.
The `_r` copies round the quotient with their arithmetic `ρ`. -/
def fdiv (a b : ℚ) : Except Fault ℚ :=
  if b = 0 then .error .divByZero else .ok (a / b)

/-- Modelled from the spec: `vector_divc` of `util.c`, the mass normalisation of the
accumulated coordinate sum. -/
def vector_divc (a : COORD) (c : ℚ) : Except Fault COORD := do
  let x ← fdiv a.c0 c
  let y ← fdiv a.c1 c
  let z ← fdiv a.c2 c
  pure ⟨x, y, z⟩

/-- Conversion of a `float` to `int` where the truncated value fits the `int`: truncation
toward zero.  `float_to_int32` adds the range of a 32-bit `int`. -/
def float_to_int (q : ℚ) : Int := if 0 ≤ q then ⌊q⌋ else ⌈q⌉

/-! ## `octant.c` -/

/-- Reading `*oct`. -/
def deref (w : World) : pOctant → Except Fault Octant
  | none => .error .segfault
  | some a =>
    match w.mem a with
    | none => .error .segfault
    | some o => .ok o

/-- The C function `POC_child(oct, i)`: `oct->child[i]`. -/
def POC_child (w : World) (oct : pOctant) (i : Fin 8) : Except Fault pOctant := do
  let o ← deref w oct
  pure (o.child i)

/-- The C function `POC_children(oct, children)`: fills `children` slot by slot and returns
`oct->numChild`. -/
def POC_children (w : World) (oct : pOctant) : Except Fault (Int × (Fin 8 → pOctant)) := do
  let o ← deref w oct
  pure (o.numChild, fun i => o.child i)

/-- The loop of `POC_isTerminal`: `for (i=0; (!child) && (i<8); i++) child=(int)oct->child[i];`
where the conversion `(int)` keeps the pointer (an `int` as wide as a pointer) or, with wider
pointers, no octant sits at an address whose low 32 bits are 0: `child` is then non-zero
exactly for a pointer other than `NULL`, and is kept as that truth value.
`POC_isTerminal_scan_int` is the loop with the conversion to a 32-bit `int` of a 64-bit
pointer, and `POC_isTerminal_int_agrees` relates the two. -/
def POC_isTerminal_scan (o : Octant) : List (Fin 8) → Bool → Bool
  | [], child => child
  | i :: rest, child => if child then child else POC_isTerminal_scan o rest (o.child i).isSome

/-- The C function `POC_isTerminal(oct)`: 1 (`true`) when the scan found no child, under the
reading of the conversion stated at `POC_isTerminal_scan` (`POC_isTerminal_int` is the
function with 64-bit pointers). -/
def POC_isTerminal (w : World) (oct : pOctant) : Except Fault Bool := do
  let o ← deref w oct
  pure (!(POC_isTerminal_scan o slots false))

/-- The C function `POC_modify_newpid(oct, newpid)`: `oct->npid = newpid`. -/
def POC_modify_newpid (w : World) (oct : pOctant) (newpid : Int) : Except Fault World :=
  match oct with
  | none => .error .segfault
  | some a =>
    match w.mem a with
    | none => .error .segfault
    | some o => .ok { w with mem := Function.update w.mem a (some { o with npid := newpid }) }

/-- The C function `POC_data_cost(oct)`: `oct->cost`. -/
def POC_data_cost (w : World) (oct : pOctant) : Except Fault ℚ := do
  let o ← deref w oct
  pure o.cost

/-- The C function `POC_data_newpid(oct)`: `oct->npid`. -/
def POC_data_newpid (w : World) (oct : pOctant) : Except Fault Int := do
  let o ← deref w oct
  pure o.npid

/-- The C function `POC_bounds(oct, min, max)`. -/
def POC_bounds (w : World) (oct : pOctant) : Except Fault (COORD × COORD) := do
  let o ← deref w oct
  pure (o.min, o.max)

/-- The C function `POC_origin_volume(oct, origin, &volume)`. -/
def POC_origin_volume (U : OctUtil) (w : World) (oct : pOctant) : Except Fault (COORD × ℚ) := do
  let (min, max) ← POC_bounds w oct
  let (origin, size) := U.LB_bounds_to_origin_size min max
  pure (origin, size.c0 * size.c1 * size.c2)

/-- The C function `POC_local(octant, i)`: whether the `i`-th child is tagged with the local
process. -/
def POC_local (w : World) (octant : pOctant) (i : Fin 8) : Except Fault Bool := do
  let o ← deref w octant
  pure (if o.cpid i = w.OCT_localpid then true else false)

/-- The C function `POC_localroots()`. -/
def POC_localroots (w : World) : List Nat := w.OCT_rootlist

/-! ## `dfs.c` -/

/-- Modelled from the spec: `LB_costs_value` of `costs.c` (not among the sources); the spec's
`costOf(octant)` is the accumulated cost kept in the octant's balancing field. -/
def LB_costs_value (w : World) (octant : pOctant) : Except Fault ℚ :=
  POC_data_cost w octant

/-- The C function `LB_dfs_set_visit_criterion(visit)`. -/
def LB_dfs_set_visit_criterion (w : World) (visit : Int) : World :=
  if visit < 0 ∨ visit > 1 then w else { w with CLOSE := visit }

/-- The C function `LB_tag_subtree(octant, partition)`. -/
def LB_tag_subtree : Nat → World → pOctant → Int → Except Fault World
  | 0, _, _, _ => .error .outOfFuel
  | fuel + 1, w, octant, partition => do
    let w ← POC_modify_newpid w octant partition
    if (← POC_isTerminal w octant) then
      pure w
    else
      let (_, children) ← POC_children w octant
      slots.foldlM (fun w i =>
        if (children i).isSome then do
          if (← POC_local w octant i) then LB_tag_subtree fuel w (children i) partition
          else pure w
        else pure w) w

/-- The locals of `LB_visit_by_dist` that live across iterations of its outer loop;
`minchild` is `none` for `-1`. -/
structure DistLocals where
  mindist : ℚ
  pcentroid : COORD
  visited : Fin 8 → Bool

/-- The inner loop of `LB_visit_by_dist` (lines 411-419): the scan for the closest child. -/
def LB_visit_by_dist_scan (U : OctUtil) (w : World) (octant : pOctant) (corigin : Fin 8 → COORD)
    (pcentroid : COORD) (visited : Fin 8 → Bool) :
    List (Fin 8) → ℚ → Option (Fin 8) → Except Fault (ℚ × Option (Fin 8))
  | [], mindist, minchild => pure (mindist, minchild)
  | i :: rest, mindist, minchild => do
    if (← POC_local w octant i) && !(visited i) then
      let dist := U.vector_dist pcentroid (corigin i)
      if w.pmass = 0 ∨ minchild = none ∨ dist < mindist then
        LB_visit_by_dist_scan U w octant corigin pcentroid visited rest dist (some i)
      else
        LB_visit_by_dist_scan U w octant corigin pcentroid visited rest mindist minchild
    else
      LB_visit_by_dist_scan U w octant corigin pcentroid visited rest mindist minchild

/-- The head of one iteration of the outer loop of `LB_visit_by_dist` (lines 405-419): the
centroid is recomputed when `pmass > 0` and the slots are scanned; the result is the centroid,
`mindist` and `minchild`. -/
def LB_visit_by_dist_pick (U : OctUtil) (w : World) (octant : pOctant) (corigin : Fin 8 → COORD)
    (L : DistLocals) : Except Fault (COORD × ℚ × Option (Fin 8)) := do
  let pcentroid ← (if w.pmass > 0 then vector_divc w.pcoord w.pmass else pure L.pcentroid)
  let (mindist, minchild) ←
    LB_visit_by_dist_scan U w octant corigin pcentroid L.visited slots L.mindist none
  pure (pcentroid, mindist, minchild)

/-- The outer loop of `LB_visit_by_dist` (lines 404-426), `for(minchild=0; minchild>=0; )`;
`visit` is the recursive call `LB_visit`. -/
def LB_visit_by_dist_loop (U : OctUtil) (visit : World → pOctant → Except Fault World)
    (octant : pOctant) (children : Fin 8 → pOctant) (corigin : Fin 8 → COORD) :
    Nat → World → DistLocals → Except Fault World
  | 0, _, _ => .error .outOfFuel
  | n + 1, w, L => do
    let (pcentroid, mindist, minchild) ← LB_visit_by_dist_pick U w octant corigin L
    match minchild with
    | none => pure w
    | some i =>
      let w ← visit w (children i)
      LB_visit_by_dist_loop U visit octant children corigin n w
        { mindist := mindist, pcentroid := pcentroid,
          visited := Function.update L.visited i true }

/-- The origins of the eight children that `LB_visit_by_dist` derives from the bounds of the
octant (lines 391-401). -/
def LB_visit_by_dist_corigin (U : OctUtil) (min max : COORD) : Fin 8 → COORD := fun i =>
  let origin := U.LB_bounds_to_origin min max
  let b := U.LB_child_bounds min max origin i
  U.LB_bounds_to_origin b.1 b.2

/-- The locals of `LB_visit_by_dist` as initialised in lines 387-398. -/
def initDistLocals : DistLocals :=
  { mindist := 0, pcentroid := ⟨0, 0, 0⟩, visited := fun _ => false }

/-- The C function `LB_visit_by_dist(octant, children)`.  The outer loop is given a budget of
nine iterations (eight slots and the closing pass). -/
def LB_visit_by_dist (U : OctUtil) (visit : World → pOctant → Except Fault World)
    (w : World) (octant : pOctant) (children : Fin 8 → pOctant) : Except Fault World := do
  let (min, max) ← POC_bounds w octant
  LB_visit_by_dist_loop U visit octant children (LB_visit_by_dist_corigin U min max) 9 w
    initDistLocals

/-- The C function `LB_visit(octant)`, in exact arithmetic: the executions in which no sum,
difference or product of lines 185-243 rounds.  `LB_visit_r` is the same function over a
rounding arithmetic, and `LB_visit_r exactArith = LB_visit` (`LB_visit_r_exact`). -/
def LB_visit (U : OctUtil) : Nat → World → pOctant → Except Fault World
  | 0, _, _ => .error .outOfFuel
  | fuel + 1, w, octant => do
    let w := { w with DFS_Part_Count := w.DFS_Part_Count + 1 }
    let cost ← LB_costs_value w octant
    let behind := (w.partition : ℚ) * w.optcost - w.total
    if cost = 0 ∨ w.pcost + cost ≤ w.optcost + behind then
      let w ← LB_tag_subtree (fuel + 1) w octant w.partition
      let w := { w with pcost := w.pcost + cost }
      let (origin, volume) ← POC_origin_volume U w octant
      let prod := vector_cmult volume origin
      let w := { w with pmass := w.pmass + volume }
      pure { w with pcoord := vector_add w.pcoord prod }
    else if !(← POC_isTerminal w octant) then
      let w ← POC_modify_newpid w octant w.partition
      let (_, children) ← POC_children w octant
      if w.CLOSE ≠ 0 then
        LB_visit_by_dist U (fun w c => LB_visit U fuel w c) w octant children
      else
        slots.foldlM (fun w i =>
          if (children i).isSome then do
            if (← POC_local w octant i) then LB_visit U fuel w (children i)
            else pure w
          else pure w) w
    else
      let togo := behind + w.optcost - w.pcost
      let w := if cost - togo ≥ togo then
          { w with partition := w.partition + 1, total := w.total + w.pcost, pcost := 0,
                   pmass := 0, pcoord := vector_set_comp 0 0 0 }
        else w
      let w ← POC_modify_newpid w octant w.partition
      let w := { w with pcost := w.pcost + cost }
      let (origin, volume) ← POC_origin_volume U w octant
      let prod := vector_cmult volume origin
      let w := { w with pmass := w.pmass + volume }
      pure { w with pcoord := vector_add w.pcoord prod }

/-- The C function `LB_visit_all_subtrees()`: `LB_visit` on each entry of the local root list, in
list order. -/
def LB_visit_all_subtrees (U : OctUtil) (fuel : Nat) (w : World) : Except Fault World :=
  (POC_localroots w).foldlM (fun w r => LB_visit U fuel w (some r)) w

/-- Lines 65-96 of `LB_dfs_partition`: the seeding of the statics, in exact arithmetic and
with an unbounded `int` (`LB_dfs_partition_seed_r` rounds each operation and checks the range
of the conversion).  `globalcost` is the value delivered by `MPI_Allreduce` and `prefcost`
the value returned by `LB_msg_float_scan`. -/
def LB_dfs_partition_seed (Num_Proc : Int) (globalcost prefcost : ℚ) (w : World) :
    Except Fault World := do
  let w := { w with DFS_Part_Count := 0 }
  let optcost ← fdiv globalcost (Num_Proc : ℚ)
  let w := { w with optcost := optcost }
  let q ← fdiv prefcost w.optcost
  let w := { w with partition := float_to_int q }
  let w := if w.partition = Num_Proc then { w with partition := Num_Proc - 1 } else w
  let w := { w with total := (w.partition : ℚ) * w.optcost }
  let w := { w with pcost := prefcost - (w.partition : ℚ) * w.optcost }
  let w := { w with pmass := 0 }
  pure { w with pcoord := vector_set_comp 0 0 0 }

/-- The C function `LB_dfs_partition(lb, counter, c1)` with `lb->Num_Proc = Num_Proc`, in exact
arithmetic; `mycost` is the value of `LB_costs_global_compute()`.  The result is the final
state with `*counter` and `*c1`. -/
def LB_dfs_partition (U : OctUtil) (fuel : Nat) (Num_Proc : Int) (mycost globalcost prefcost : ℚ)
    (w : World) : Except Fault (World × Int × ℚ) := do
  let w ← LB_dfs_partition_seed Num_Proc globalcost prefcost w
  let w ← LB_visit_all_subtrees U fuel w
  pure (w, w.DFS_Part_Count, mycost)


/-! ## Predicates used to state the properties -/

/-- Overwriting the new-owner field. -/
def setNpid (p : Int) (o : Octant) : Octant := { o with npid := p }

/-- The octant `c` sits in a non-empty child slot of `a` that is tagged with the local process. -/
def LocalChild (w : World) (a c : Nat) : Prop :=
  ∃ o i, w.mem a = some o ∧ o.child i = some c ∧ o.cpid i = w.OCT_localpid

/-- The octant `b` is `a` or a descendant of `a` through non-empty, locally tagged child slots. -/
def Reach (w : World) : Nat → Nat → Prop := Relation.ReflTransGen (LocalChild w)

/-- The octant `c` sits in a non-empty child slot of `a`. -/
def AnyChild (w : World) (a c : Nat) : Prop :=
  ∃ o i, w.mem a = some o ∧ o.child i = some c

/-- The octant `b` is `a` or a descendant of `a` through non-empty child slots. -/
def Desc (w : World) : Nat → Nat → Prop := Relation.ReflTransGen (AnyChild w)

/-- The subtree of `a` through non-empty, locally tagged slots lies in the arena and has at
most `n` levels. -/
inductive Depth (w : World) : Nat → Nat → Prop
  | node {n a o} : w.mem a = some o →
      (∀ i c, o.child i = some c → o.cpid i = w.OCT_localpid → Depth w n c) →
      Depth w (n + 1) a

/-- What the partitioner never changes: every field of every octant other than `npid`, and the
globals of `octant.c`, the mode flag and `optcost`. -/
structure Frame (w w' : World) : Prop where
  mem : ∀ a, (w'.mem a).map (setNpid 0) = (w.mem a).map (setNpid 0)
  rootlist : w'.OCT_rootlist = w.OCT_rootlist
  localpid : w'.OCT_localpid = w.OCT_localpid
  dimension : w'.OCT_dimension = w.OCT_dimension
  count : w'.OCT_count = w.OCT_count
  idcount : w'.OCT_idcount = w.OCT_idcount
  close : w'.CLOSE = w.CLOSE
  optcost : w'.optcost = w.optcost

/-- The state `w'` is `w` with `npid := p` written on the octants of `S` and nothing else
changed. -/
def TagRel (w w' : World) (S : Nat → Prop) (p : Int) : Prop :=
  w' = { w with mem := w'.mem } ∧
  (∀ b, S b → w'.mem b = (w.mem b).map (setNpid p)) ∧
  (∀ b, ¬ S b → w'.mem b = w.mem b)

/-- The origin that `POC_origin_volume` computes for an octant. -/
def octOrigin (U : OctUtil) (o : Octant) : COORD := (U.LB_bounds_to_origin_size o.min o.max).1

/-- The volume that `POC_origin_volume` computes for an octant. -/
def octVolume (U : OctUtil) (o : Octant) : ℚ :=
  (U.LB_bounds_to_origin_size o.min o.max).2.c0 * (U.LB_bounds_to_origin_size o.min o.max).2.c1 *
    (U.LB_bounds_to_origin_size o.min o.max).2.c2

/-- The state after `pcost += cost` and the folding of an octant into the centroid
accumulator (lines 190-196 and 243-250 of `LB_visit`). -/
def accumulate (U : OctUtil) (o : Octant) (w : World) : World :=
  { w with pcost := w.pcost + o.cost, pmass := w.pmass + octVolume U o,
           pcoord := vector_add w.pcoord (vector_cmult (octVolume U o) (octOrigin U o)) }

/-- The state after `DFS_Part_Count++`. -/
def countVisit (w : World) : World := { w with DFS_Part_Count := w.DFS_Part_Count + 1 }

/-- The state after `oct->npid = p` for the octant `o` stored at `a`. -/
def writeNpid (w : World) (a : Nat) (o : Octant) (p : Int) : World :=
  { w with mem := Function.update w.mem a (some (setNpid p o)) }

/-- The state after closing the current partition (lines 234-238 of `LB_visit`). -/
def closePartition (w : World) : World :=
  { w with partition := w.partition + 1, total := w.total + w.pcost, pcost := 0, pmass := 0,
           pcoord := vector_set_comp 0 0 0 }

/-- The value of `behind` in `LB_visit`. -/
def behindOf (w : World) : ℚ := (w.partition : ℚ) * w.optcost - w.total

/-- The test of line 188 of `LB_visit`: the octant of cost `cost` does not overflow the current
partition. -/
def Fits (w : World) (cost : ℚ) : Prop :=
  cost = 0 ∨ w.pcost + cost ≤ w.optcost + behindOf w

/-- The value of `togo` in `LB_visit`. -/
def togoOf (w : World) : ℚ := behindOf w + w.optcost - w.pcost

/-- The cost already accounted for: the closed partitions and the open one. -/
def spent (w : World) : ℚ := w.total + w.pcost

/-- The cost that the descent through slot `i` of `o` can consume: the cost of the child when
the slot is non-empty and locally tagged, zero otherwise. -/
def childCost (w : World) (o : Octant) (i : Fin 8) : ℚ :=
  match o.child i with
  | none => 0
  | some c =>
    if o.cpid i = w.OCT_localpid then
      match w.mem c with
      | some oc => oc.cost
      | none => 0
    else 0

/-- Costs are coherent: no octant has a negative cost, and the costs of the children in
non-empty, locally tagged slots add up to at most the cost of their parent. -/
def CostOK (w : World) : Prop :=
  ∀ a o, w.mem a = some o → 0 ≤ o.cost ∧ (slots.map (childCost w o)).sum ≤ o.cost

/-- Every child slot tagged with the local process holds an octant. -/
def LocalSlotsFilled (w : World) : Prop :=
  ∀ a o i, w.mem a = some o → o.cpid i = w.OCT_localpid → (o.child i).isSome

/-- The slot `i` of `o` is non-empty and tagged with the process `lp`. -/
def localSlot (o : Octant) (lp : Int) (i : Fin 8) : Bool :=
  (o.child i).isSome && decide (o.cpid i = lp)

/-- The octants that `LB_visit` on `a` has covered once the slots `vis` of `a` are done. -/
def Covered (w : World) (a : Nat) (o : Octant) (vis : List (Fin 8)) (b : Nat) : Prop :=
  b = a ∨ ∃ i ∈ vis, ∃ c, o.child i = some c ∧ o.cpid i = w.OCT_localpid ∧ Reach w c b

/-- What one call `LB_visit(a)` achieves, from the state `w` to the state `w'`; `o` is the
octant stored at `a`. -/
structure Post (w w' : World) (a : Nat) (o : Octant) : Prop where
  frame : Frame w w'
  outside : ∀ b, ¬ Reach w a b → w'.mem b = w.mem b
  part_mono : w.partition ≤ w'.partition
  inside : ∀ b, Reach w a b →
    ∃ o', w'.mem b = some o' ∧ w.partition ≤ o'.npid ∧ o'.npid ≤ w'.partition
  cost : CostOK w → spent w ≤ spent w' ∧ spent w' ≤ spent w + o.cost ∧
    (0 < w.optcost → ∀ K : Int, w.partition < K → spent w + o.cost ≤ (K : ℚ) * w.optcost →
      w'.partition < K)

/-- The loop invariant of the descent of `LB_visit(a)` over the children of `a`, after the
slots `vis` have been visited. -/
structure DescInv (w : World) (a : Nat) (o : Octant) (vis : List (Fin 8)) (s : World) : Prop where
  frame : Frame w s
  self : s.mem a = some (setNpid w.partition o)
  outside : ∀ b, ¬ Covered w a o vis b → s.mem b = w.mem b
  part_mono : w.partition ≤ s.partition
  inside : ∀ b, Covered w a o vis b →
    ∃ o', s.mem b = some o' ∧ w.partition ≤ o'.npid ∧ o'.npid ≤ s.partition
  nodup : vis.Nodup
  cost : CostOK w → spent w ≤ spent s ∧ spent s ≤ spent w + (vis.map (childCost w o)).sum ∧
    (0 < w.optcost → ∀ K : Int, w.partition < K → spent w + o.cost ≤ (K : ℚ) * w.optcost →
      s.partition < K)

/-- The cost of the octant stored at `r` (zero when there is none). -/
def costAt (w : World) (r : Nat) : ℚ :=
  match w.mem r with
  | some o => o.cost
  | none => 0

/-- The sum of the costs of the local roots: the local cost of the process. -/
def localCost (w : World) : ℚ := (w.OCT_rootlist.map (costAt w)).sum

/-- Modelled from the spec: the result of the sum-reduce of section 4.2 (`MPI_Allreduce`,
performed by the communication collaborator), `globalcost` = sum of `mycost` across all
processes; `costs` lists `mycost` by rank. -/
def spec_globalcost (costs : List ℚ) : ℚ := costs.sum

/-- Modelled from the spec: the result of the scan of section 4.2 (`LB_msg_float_scan`, not
among the sources), `prefcost` = ordered sum of `mycost` over the ranks strictly less than
the local rank, plus the local `mycost` itself (an inclusive scan). -/
def spec_prefcost (costs : List ℚ) (rank : Nat) : ℚ := (costs.take (rank + 1)).sum

/-- The sum of `mycost` over the ranks strictly less than `rank`: the "sum of costs from
previous processors" of the declaration of `prefcost` in `LB_dfs_partition`. -/
def prevcost (costs : List ℚ) (rank : Nat) : ℚ := (costs.take rank).sum

/-- The `npid` of the octant at address `a` after a pass that returned (`none` when the pass
did not return or no octant is stored at `a`). -/
def npidAfter (r : Except Fault (World × Int × ℚ)) (a : Nat) : Option Int :=
  match r with
  | .ok (w, _, _) => (w.mem a).map (fun o => o.npid)
  | .error _ => none

/-- The children of `o` that sit in non-empty slots tagged with the process `lp`, in slot
order. -/
def localChildren (o : Octant) (lp : Int) : List Nat :=
  (slots.filter (localSlot o lp)).filterMap o.child

/-- No octant sits in two child slots. -/
def UniqueParent (w : World) : Prop :=
  ∀ p q op oq i j c, w.mem p = some op → w.mem q = some oq →
    op.child i = some c → oq.child j = some c → p = q ∧ i = j

/-- No octant is its own descendant. -/
def Acyclic (w : World) : Prop := ∀ x, ¬ Relation.TransGen (AnyChild w) x x

/-- The fault with which an execution ended (`none` when it returned). -/
def faultOf {α : Type} (r : Except Fault α) : Option Fault :=
  match r with
  | .ok _ => none
  | .error e => some e


/-! ## Sample data -/

/-- Sample geometric helpers: the origin of a box is its midpoint, its size the side lengths,
the `i`-th child box is the half of the box chosen by the bits of `i` in each coordinate, and
the distance is the squared Euclidean distance (which orders pairs of points as the Euclidean
distance does). -/
def sampleUtil : OctUtil where
  LB_bounds_to_origin_size := fun mn mx =>
    (⟨(mn.c0 + mx.c0) / 2, (mn.c1 + mx.c1) / 2, (mn.c2 + mx.c2) / 2⟩,
     ⟨mx.c0 - mn.c0, mx.c1 - mn.c1, mx.c2 - mn.c2⟩)
  LB_bounds_to_origin := fun mn mx =>
    ⟨(mn.c0 + mx.c0) / 2, (mn.c1 + mx.c1) / 2, (mn.c2 + mx.c2) / 2⟩
  LB_child_bounds := fun mn mx origin i =>
    (⟨if i.val % 2 = 0 then mn.c0 else origin.c0,
      if i.val / 2 % 2 = 0 then mn.c1 else origin.c1,
      if i.val / 4 % 2 = 0 then mn.c2 else origin.c2⟩,
     ⟨if i.val % 2 = 0 then origin.c0 else mx.c0,
      if i.val / 2 % 2 = 0 then origin.c1 else mx.c1,
      if i.val / 4 % 2 = 0 then origin.c2 else mx.c2⟩)
  vector_dist := fun a b => (a.c0 - b.c0) ^ 2 + (a.c1 - b.c1) ^ 2 + (a.c2 - b.c2) ^ 2

/-- A terminal octant of the given cost on process 0, as `POC_new` leaves it. -/
def sampleLeaf (cost : ℚ) : Octant :=
  { id := 0, parent := none, ppid := 0, which := -1, numChild := 0,
    child := fun _ => none, cpid := fun _ => -1, list := [], cost := cost, npid := 0,
    min := ⟨0, 0, 0⟩, max := ⟨1, 1, 1⟩ }

/-- A root of cost 4 whose slots 0..3 hold the local octants 1..4. -/
def sampleRoot4 : Octant :=
  { sampleLeaf 4 with
    numChild := 4
    child := fun i => if i.val < 4 then some (i.val + 1) else none
    cpid := fun i => if i.val < 4 then 0 else -1 }

/-- A state with no octant at all; the base of the sample states. -/
def emptyWorld : World :=
  { mem := fun _ => none, OCT_rootlist := [], OCT_localpid := 0, OCT_dimension := 3,
    OCT_count := 0, OCT_idcount := 0, CLOSE := 0, DFS_Part_Count := 0, partition := 0,
    total := 0, pcost := 0, optcost := 0, pmass := 0, pcoord := ⟨0, 0, 0⟩ }

/-- One process, one local root (address 0) with four leaves of weight 1 (addresses 1..4);
`optcost = 4`. -/
def fourLeafWorld : World :=
  { emptyWorld with
    mem := fun a => if a = 0 then some sampleRoot4 else if a ≤ 4 then some (sampleLeaf 1) else none
    OCT_rootlist := [0]
    OCT_count := 5
    OCT_idcount := 5
    optcost := 4 }

/-- One terminal octant of cost 5 at address 0, with `pcost = 0`, `optcost = 3` and
`behind = 0`. -/
def overflowWorld : World :=
  { emptyWorld with
    mem := fun a => if a = 0 then some (sampleLeaf 5) else none
    OCT_rootlist := [0]
    OCT_count := 1
    OCT_idcount := 1
    optcost := 3 }

/-- One process whose only octant is a terminal local root of cost 1 at address 0. -/
def oneLeafWorld : World :=
  { emptyWorld with
    mem := fun a => if a = 0 then some (sampleLeaf 1) else none
    OCT_rootlist := [0]
    OCT_count := 1
    OCT_idcount := 1 }

/-- A root of cost 10 whose slot 0 holds the local octant 1, whose slot 1 holds the octant 2
tagged with process 5, and whose slot 2 holds the local octant 3. -/
def sampleRootMixed : Octant :=
  { sampleLeaf 10 with
    numChild := 3
    child := fun i => if i.val < 3 then some (i.val + 1) else none
    cpid := fun i => if i.val = 1 then 5 else if i.val < 3 then 0 else -1 }

/-- The local root `sampleRootMixed` at address 0 with three leaves of cost 1 at the addresses
1..3; `optcost = 1`, index order. -/
def mixedWorld : World :=
  { emptyWorld with
    mem := fun a => if a = 0 then some sampleRootMixed else if a ≤ 3 then some (sampleLeaf 1)
      else none
    OCT_rootlist := [0]
    OCT_count := 4
    OCT_idcount := 4
    optcost := 1 }

/-- A root of cost 10 whose slot 0 holds the local octant 1 and whose slot 1 is tagged with
the local process but is empty. -/
def sampleRootGap : Octant :=
  { sampleLeaf 10 with
    numChild := 1
    child := fun i => if i.val = 0 then some 1 else none
    cpid := fun i => if i.val < 2 then 0 else -1 }

/-- The local root `sampleRootGap` at address 0 with one leaf of cost 1 at address 1;
`optcost = 1`, nearest-centroid order (`CLOSE = 1`). -/
def gapWorld : World :=
  { emptyWorld with
    mem := fun a => if a = 0 then some sampleRootGap else if a = 1 then some (sampleLeaf 1)
      else none
    OCT_rootlist := [0]
    OCT_count := 2
    OCT_idcount := 2
    CLOSE := 1
    optcost := 1 }

/-- A root of cost 10 with bounds `(0,0,0)`-`(2,2,2)` whose slots 0 and 7 hold the local
octants 1 and 2. -/
def sampleRootFar : Octant :=
  { sampleLeaf 10 with
    numChild := 2
    max := ⟨2, 2, 2⟩
    child := fun i => if i.val = 0 then some 1 else if i.val = 7 then some 2 else none
    cpid := fun i => if i.val = 0 ∨ i.val = 7 then 0 else -1 }

/-- The local root `sampleRootFar` at address 0 with two leaves of cost 1 at the addresses 1
and 2; `optcost = 1`, nearest-centroid order, `pmass = 0` as at the start of a pass. -/
def farWorld : World :=
  { emptyWorld with
    mem := fun a => if a = 0 then some sampleRootFar else if a ≤ 2 then some (sampleLeaf 1)
      else none
    OCT_rootlist := [0]
    OCT_count := 3
    OCT_idcount := 3
    CLOSE := 1
    optcost := 1 }


/-! ## More of `octant.c`: creation and the depth-first successor -/

/-- The C function `POC_malloc()`.  The pointer returned by `malloc` is the argument `ptr`
(`NULL` when the allocation fails) and `raw` is the content of the block it returns, which
`malloc` does not initialise. -/
def POC_malloc (w : World) (ptr : pOctant) (raw : Octant) : Except Fault (World × Nat) :=
  match ptr with
  | none => .error .abort
  | some a =>
    .ok ({ w with mem := Function.update w.mem a (some raw), OCT_count := w.OCT_count + 1 }, a)

/-- The loop of `POC_new` over the slots: `new->child[i] = NULL; new->cpid[i] = -1;`. -/
def POC_new_clear (o : Octant) : List (Fin 8) → Octant
  | [] => o
  | i :: rest =>
    POC_new_clear
      { o with child := Function.update o.child i none, cpid := Function.update o.cpid i (-1) }
      rest

/-- The C function `POC_new()`; `ptr` and `raw` are passed on to `POC_malloc`.  The result is
the new state and the address of the new octant. -/
def POC_new (w : World) (ptr : pOctant) (raw : Octant) : Except Fault (World × Nat) := do
  let (w, a) ← POC_malloc w ptr raw
  let o ← deref w (some a)
  let o := POC_new_clear o slots
  let o := { o with parent := none, ppid := w.OCT_localpid, id := w.OCT_idcount, which := -1,
                    numChild := 0, list := [], cost := 0, npid := w.OCT_localpid }
  pure ({ w with mem := Function.update w.mem a (some o), OCT_idcount := w.OCT_idcount + 1 }, a)

/-- The C function `POC_nOctants()`. -/
def POC_nOctants (w : World) : Int := w.OCT_count

/-- The C function `POC_parent(oct)`: `oct->parent`. -/
def POC_parent (w : World) (oct : pOctant) : Except Fault pOctant := do
  let o ← deref w oct
  pure o.parent

/-- The scans of `POC_nextDfs` over child slots: the first non-empty slot among `l`, in the
order of `l`. -/
def firstChild (o : Octant) : List (Fin 8) → pOctant
  | [] => none
  | i :: rest =>
    match o.child i with
    | some c => some c
    | none => firstChild o rest

/-- The `while (parent)` loop of `POC_nextDfs` (lines 678-688), started at `octant`: the
first non-empty slot of the parent after slot `octant->which`, else the same search one level
up.  Reading `parent->child[i+1]` with `i+1 < 0` is outside the array and a fault. -/
def POC_nextDfs_up (w : World) : Nat → Nat → Except Fault pOctant
  | 0, _ => .error .outOfFuel
  | fuel + 1, octant => do
    let o ← deref w (some octant)
    match o.parent with
    | none => pure none
    | some p => do
      let po ← deref w (some p)
      if o.which < -1 then .error .segfault
      else
        match firstChild po (slots.filter (fun j => o.which < (j.val : Int))) with
        | some c => pure (some c)
        | none => POC_nextDfs_up w fuel p

/-- The C function `POC_nextDfs(octant)`; `fuel` bounds the number of levels climbed. -/
def POC_nextDfs (w : World) (fuel : Nat) (octant : pOctant) : Except Fault pOctant :=
  match octant with
  | none => pure none
  | some a => do
    let o ← deref w (some a)
    match firstChild o slots with
    | some c => pure (some c)
    | none => POC_nextDfs_up w fuel a

/-! ## More of `dfs.c`: the hand-over to the migration -/

/-- The loop `for (oct=lroots->oct; oct; oct=POC_nextDfs(oct))` of `LB_dfs_migrate` (lines
314-322) for one local root; `acc` holds `docts` and `dpids` up to `dcount`.  The two arrays
are allocated only `if(POC_nOctants())` (lines 301-308) and are `NULL` otherwise, so that the
stores `docts[dcount]=oct; dpids[dcount++]=pid;` are a memory fault when `POC_nOctants()` is
0.  The loop compares `dcount` with nothing: a store beyond the end of allocated arrays
writes memory that the model does not track and is let pass, so that the count check after
the loop is reached. -/
def LB_dfs_migrate_walk (w : World) (Num_Proc : Int) :
    Nat → pOctant → List (Nat × Int) → Except Fault (List (Nat × Int))
  | _, none, acc => pure acc
  | 0, some _, _ => .error .outOfFuel
  | fuel + 1, some a, acc => do
    let pid ← POC_data_newpid w (some a)
    if pid < 0 ∨ pid ≥ Num_Proc then .error .abort
    else if POC_nOctants w = 0 then .error .segfault
    else
      let next ← POC_nextDfs w fuel (some a)
      LB_dfs_migrate_walk w Num_Proc fuel next (acc ++ [(a, pid)])

/-- The C function `LB_dfs_migrate`, up to the call of `LB_Migrate_Objects`: the result `.ok l`
stands for that call with `docts`, `dpids` and `dcount` holding the list `l`, and
`.error .abort` for a call of `abort()`.  `alloc_ok` tells whether the two `malloc` calls
succeed. -/
def LB_dfs_migrate (w : World) (Num_Proc : Int) ( alloc_ok : Bool) (fuel : Nat) :
    Except Fault (List (Nat × Int)) := do
  if POC_nOctants w ≠ 0 ∧ alloc_ok = false then .error .abort
  else
    let l ← (POC_localroots w).foldlM
      (fun acc r => LB_dfs_migrate_walk w Num_Proc fuel (some r) acc) []
    if (l.length : Int) ≠ POC_nOctants w then .error .abort
    else pure l

/-! ## Sample data for the second group of claims -/

/-- One process whose only octant is a terminal local root of cost 0 at address 0: every
process has local cost 0. -/
def zeroLeafWorld : World :=
  { emptyWorld with
    mem := fun a => if a = 0 then some (sampleLeaf 0) else none
    OCT_rootlist := [0]
    OCT_count := 1
    OCT_idcount := 1 }

/-! ## Predicates for the traversal claims -/

/-- Child and parent links agree: each non-empty child slot `i` of `p` holds an octant of the
arena whose parent is `p` and whose child number is `i`. -/
def ParentLinked (w : World) : Prop :=
  ∀ p op i c, w.mem p = some op → op.child i = some c →
    ∃ oc, w.mem c = some oc ∧ oc.parent = some p ∧ oc.which = ((i.val : Nat) : Int)

/-- The subtree of `a` through all non-empty slots lies in the arena and has at most `n`
levels. -/
inductive Height (w : World) : Nat → Nat → Prop
  | node {n a o} : w.mem a = some o → (∀ i c, o.child i = some c → Height w n c) →
      Height w (n + 1) a

/-- The octants in the non-empty child slots of `o`, in slot order. -/
def childList (o : Octant) : List Nat := slots.filterMap o.child

/-- The canonical pre-order listing of the subtree of `a` (all non-empty slots), cut off below
`n` levels: the octant, then the listings of its children in slot order. -/
def dfsList (w : World) : Nat → Nat → List Nat
  | 0, _ => []
  | n + 1, a =>
    match w.mem a with
    | none => []
    | some o => a :: (childList o).flatMap (dfsList w n)

/-- The octants obtained by iterating `POC_nextDfs` from `oct` until it returns `NULL`. -/
def dfsWalk (w : World) : Nat → pOctant → Except Fault (List Nat)
  | _, none => pure []
  | 0, some _ => .error .outOfFuel
  | fuel + 1, some a => do
    let next ← POC_nextDfs w fuel (some a)
    let rest ← dfsWalk w fuel next
    pure (a :: rest)

/-- With at least `G` levels of climbing allowed, `POC_nextDfs(a)` returns `x`. -/
def StepTo (w : World) (G : Nat) (a : Nat) (x : pOctant) : Prop :=
  ∀ f, G ≤ f → POC_nextDfs w f (some a) = .ok x

/-- With at least `G` levels of climbing allowed, the `while` loop of `POC_nextDfs` started at
`a` returns `x`. -/
def UpTo (w : World) (G : Nat) (a : Nat) (x : pOctant) : Prop :=
  ∀ f, G ≤ f → POC_nextDfs_up w f a = .ok x

/-- Each octant of the list is followed, under `POC_nextDfs`, by the next octant of the list,
and the last one by `k`. -/
def NextChain (w : World) (G : Nat) : List Nat → pOctant → Prop
  | [], _ => True
  | [x], k => StepTo w G x k
  | x :: y :: rest, k => StepTo w G x (some y) ∧ NextChain w G (y :: rest) k

/-- The enumeration of `LB_dfs_migrate`: the walks from the local roots, in root-list order. -/
def dfsEnumerate (w : World) (fuel : Nat) : Except Fault (List Nat) :=
  (POC_localroots w).foldlM (fun acc r => do
    let l ← dfsWalk w fuel (some r)
    pure (acc ++ l)) []

/-- The `npid` stored at `a` (0 when there is no octant). -/
def npidAt (w : World) (a : Nat) : Int :=
  match w.mem a with
  | some o => o.npid
  | none => 0


/-! ## A sample tree with parent pointers -/

/-- The root of the sample tree: no parent, slot 1 holds octant 1 and slot 5 holds octant 2. -/
def treeRoot : Octant :=
  { sampleLeaf 2 with
    numChild := 2
    child := fun i => if i.val = 1 then some 1 else if i.val = 5 then some 2 else none
    cpid := fun i => if i.val = 1 ∨ i.val = 5 then 0 else -1 }

/-- The inner octant of the sample tree: child 1 of octant 0, slot 0 holds octant 3 and slot 7
holds octant 4. -/
def treeInner : Octant :=
  { sampleLeaf 2 with
    parent := some 0
    which := 1
    numChild := 2
    child := fun i => if i.val = 0 then some 3 else if i.val = 7 then some 4 else none
    cpid := fun i => if i.val = 0 ∨ i.val = 7 then 0 else -1 }

/-- A terminal octant of cost 1 that is child `which` of the octant at `p`. -/
def treeLeaf (p : Nat) (which : Int) : Octant :=
  { sampleLeaf 1 with parent := some p, which := which }

/-- A three-level tree of five octants on process 0 with one local root (address 0); its
pre-order listing is 0, 1, 3, 4, 2. -/
def treeWorld : World :=
  { emptyWorld with
    mem := fun a =>
      match a with
      | 0 => some treeRoot
      | 1 => some treeInner
      | 2 => some (treeLeaf 0 5)
      | 3 => some (treeLeaf 1 0)
      | 4 => some (treeLeaf 1 7)
      | _ => none
    OCT_rootlist := [0]
    OCT_count := 5
    OCT_idcount := 5 }

/-- The sample tree with an octant count of 4 for its five octants. -/
def shortCountWorld : World := { treeWorld with OCT_count := 4 }

/-- The sample tree with an octant count of 0 for its five octants. -/
def zeroCountWorld : World := { treeWorld with OCT_count := 0 }

/-- The pre-order listings of the subtrees of the local roots, in root-list order, each octant
paired with its `npid`. -/
def migrateList (w : World) (h : Nat) : List (Nat × Int) :=
  ((POC_localroots w).flatMap (dfsList w h)).map (fun a => (a, npidAt w a))

/-! ## The cost accounted to each partition

The state of a pass that matters for the assignment of a terminal octant is the partition
index and the cost accounted for so far, `total + pcost`: the two tests of `LB_visit` compare
`(partition + 1) * optcost` with that cost. -/

/-- The rules of `LB_visit` for a terminal octant of cost `c` reached on its own, in terms of
the partition index `st.1` and the cost `st.2 = total + pcost` accounted for so far: the
partition index assigned to the octant, and the state after it. -/
def stepLeaf (opt : ℚ) (st : Int × ℚ) (c : ℚ) : Int × (Int × ℚ) :=
  if c = 0 ∨ st.2 + c ≤ ((st.1 : ℚ) + 1) * opt then (st.1, (st.1, st.2 + c))
  else if c - (((st.1 : ℚ) + 1) * opt - st.2) ≥ ((st.1 : ℚ) + 1) * opt - st.2 then
    (st.1 + 1, (st.1 + 1, st.2 + c))
  else (st.1, (st.1, st.2 + c))

/-- The rules of `stepLeaf` along a list of costs: each cost with the partition index assigned
to it, and the state at the end. -/
def runLeaves (opt : ℚ) : Int × ℚ → List ℚ → List (ℚ × Int) × (Int × ℚ)
  | st, [] => ([], st)
  | st, c :: rest =>
    ((c, (stepLeaf opt st c).1) :: (runLeaves opt (stepLeaf opt st c).2 rest).1,
     (runLeaves opt (stepLeaf opt st c).2 rest).2)

/-- The sum of the costs that a list of (cost, partition index) pairs assigns to `k`. -/
def tally (k : Int) (l : List (ℚ × Int)) : ℚ :=
  ((l.filter (fun e => decide (e.2 = k))).map Prod.fst).sum

/-- The partition index with which `LB_dfs_partition` starts when the cost of the previous
processes is `S` (lines 87-90). -/
def seedPart (opt : ℚ) (P : Int) (S : ℚ) : Int :=
  if float_to_int (S / opt) = P then P - 1 else float_to_int (S / opt)

/-- The assignments of the processes in rank order: each process starts from the cost `S` of
the processes before it and runs along the costs of its terminal octants. -/
def globalPairs (opt : ℚ) (P : Int) : ℚ → List (List ℚ) → List (ℚ × Int)
  | _, [] => []
  | S, cs :: rest =>
    (runLeaves opt (seedPart opt P S, S) cs).1 ++ globalPairs opt P (S + cs.sum) rest

/-- The invariant of the accounting: `p` is the current partition index, `S` the cost
accounted for so far, `acc k` the cost assigned to partition `k` so far, `C` a bound of the
cost of one terminal octant, `G = P * opt` the global cost. -/
structure Balanced (opt C : ℚ) (P : Int) (G : ℚ) (p : Int) (S : ℚ) (acc : Int → ℚ) : Prop where
  p_nonneg : 0 ≤ p
  p_le : p ≤ P - 1
  lower : (p : ℚ) * opt ≤ S
  upper : S ≤ G
  acc_nonneg : ∀ k, 0 ≤ acc k
  acc_zero : ∀ k, p < k → acc k = 0
  start : acc p ≤ S - ((p : ℚ) * opt - C / 2)
  cur : acc p ≤ C ∨ S ≤ ((p : ℚ) + 1) * opt + C / 2
  closed_le : ∀ k, 0 ≤ k → k < p → acc k ≤ opt + C
  small : C < opt → S ≤ ((p : ℚ) + 1) * opt + C / 2 ∧
    (p < P - 1 → S - acc p ≤ (p : ℚ) * opt + C / 2) ∧
    ∀ k, 0 ≤ k → k < p → opt - C ≤ acc k

/-! ## The pass with a log of its invocations and stores

The functions of this section are `LB_tag_subtree`, `LB_visit_by_dist`, `LB_visit`,
`LB_visit_all_subtrees` and `LB_dfs_partition` once more, with a log that records each
invocation of `LB_visit` and each store `oct->npid = p` of `POC_modify_newpid`; apart from the
log they are the functions above (theorems `LB_tag_subtree_log_erase`, `LB_visit_log_erase`,
`LB_dfs_partition_log_erase`). -/

/-- An entry of the log: `LB_visit(oct)` was entered, or `POC_modify_newpid(oct, p)` stored
`oct->npid = p`. -/
inductive Event
  | call (oct : pOctant)
  | store (oct : pOctant) (p : Int)
  deriving DecidableEq

/-- The C function `LB_tag_subtree(octant, partition)`, with the log. -/
def LB_tag_subtree_log :
    Nat → World × List Event → pOctant → Int → Except Fault (World × List Event)
  | 0, _, _, _ => .error .outOfFuel
  | fuel + 1, s, octant, partition => do
    let w ← POC_modify_newpid s.1 octant partition
    let ev := s.2 ++ [Event.store octant partition]
    if (← POC_isTerminal w octant) then
      pure (w, ev)
    else
      let (_, children) ← POC_children w octant
      slots.foldlM (fun s i =>
        if (children i).isSome then do
          if (← POC_local s.1 octant i) then LB_tag_subtree_log fuel s (children i) partition
          else pure s
        else pure s) (w, ev)

/-- The outer loop of `LB_visit_by_dist`, with the log. -/
def LB_visit_by_dist_loop_log (U : OctUtil)
    (visit : World × List Event → pOctant → Except Fault (World × List Event))
    (octant : pOctant) (children : Fin 8 → pOctant) (corigin : Fin 8 → COORD) :
    Nat → World × List Event → DistLocals → Except Fault (World × List Event)
  | 0, _, _ => .error .outOfFuel
  | n + 1, s, L => do
    let (pcentroid, mindist, minchild) ← LB_visit_by_dist_pick U s.1 octant corigin L
    match minchild with
    | none => pure s
    | some i =>
      let s ← visit s (children i)
      LB_visit_by_dist_loop_log U visit octant children corigin n s
        { mindist := mindist, pcentroid := pcentroid,
          visited := Function.update L.visited i true }

/-- The C function `LB_visit_by_dist(octant, children)`, with the log. -/
def LB_visit_by_dist_log (U : OctUtil)
    (visit : World × List Event → pOctant → Except Fault (World × List Event))
    (s : World × List Event) (octant : pOctant) (children : Fin 8 → pOctant) :
    Except Fault (World × List Event) := do
  let (min, max) ← POC_bounds s.1 octant
  LB_visit_by_dist_loop_log U visit octant children (LB_visit_by_dist_corigin U min max) 9 s
    initDistLocals

/-- The C function `LB_visit(octant)`, with the log. -/
def LB_visit_log (U : OctUtil) :
    Nat → World × List Event → pOctant → Except Fault (World × List Event)
  | 0, _, _ => .error .outOfFuel
  | fuel + 1, s, octant => do
    let ev := s.2 ++ [Event.call octant]
    let w := { s.1 with DFS_Part_Count := s.1.DFS_Part_Count + 1 }
    let cost ← LB_costs_value w octant
    let behind := (w.partition : ℚ) * w.optcost - w.total
    if cost = 0 ∨ w.pcost + cost ≤ w.optcost + behind then
      let (w, ev) ← LB_tag_subtree_log (fuel + 1) (w, ev) octant w.partition
      let w := { w with pcost := w.pcost + cost }
      let (origin, volume) ← POC_origin_volume U w octant
      let prod := vector_cmult volume origin
      let w := { w with pmass := w.pmass + volume }
      pure ({ w with pcoord := vector_add w.pcoord prod }, ev)
    else if !(← POC_isTerminal w octant) then
      let ev := ev ++ [Event.store octant w.partition]
      let w ← POC_modify_newpid w octant w.partition
      let (_, children) ← POC_children w octant
      if w.CLOSE ≠ 0 then
        LB_visit_by_dist_log U (fun s c => LB_visit_log U fuel s c) (w, ev) octant children
      else
        slots.foldlM (fun s i =>
          if (children i).isSome then do
            if (← POC_local s.1 octant i) then LB_visit_log U fuel s (children i)
            else pure s
          else pure s) (w, ev)
    else
      let togo := behind + w.optcost - w.pcost
      let w := if cost - togo ≥ togo then
          { w with partition := w.partition + 1, total := w.total + w.pcost, pcost := 0,
                   pmass := 0, pcoord := vector_set_comp 0 0 0 }
        else w
      let ev := ev ++ [Event.store octant w.partition]
      let w ← POC_modify_newpid w octant w.partition
      let w := { w with pcost := w.pcost + cost }
      let (origin, volume) ← POC_origin_volume U w octant
      let prod := vector_cmult volume origin
      let w := { w with pmass := w.pmass + volume }
      pure ({ w with pcoord := vector_add w.pcoord prod }, ev)

/-- The C function `LB_visit_all_subtrees()`, with the log. -/
def LB_visit_all_subtrees_log (U : OctUtil) (fuel : Nat) (s : World × List Event) :
    Except Fault (World × List Event) :=
  (POC_localroots s.1).foldlM (fun s r => LB_visit_log U fuel s (some r)) s

/-- The C function `LB_dfs_partition`, with the log of the pass. -/
def LB_dfs_partition_log (U : OctUtil) (fuel : Nat) (Num_Proc : Int)
    (mycost globalcost prefcost : ℚ) (w : World) :
    Except Fault ((World × Int × ℚ) × List Event) := do
  let w ← LB_dfs_partition_seed Num_Proc globalcost prefcost w
  let (w, ev) ← LB_visit_all_subtrees_log U fuel (w, [])
  pure ((w, w.DFS_Part_Count, mycost), ev)

/-- The stores of a log, in order. -/
def stores : List Event → List (pOctant × Int)
  | [] => []
  | Event.store oct p :: rest => (oct, p) :: stores rest
  | Event.call _ :: rest => stores rest

/-- The invocations of `LB_visit` of a log, in order. -/
def calls : List Event → List pOctant
  | [] => []
  | Event.call oct :: rest => oct :: calls rest
  | Event.store _ _ :: rest => calls rest

/-- The pre-order listing of the octants reachable from `a` through non-empty, locally tagged
child slots, cut off below `n` levels: the octant, then the listings of its local children in
slot order. -/
def localPre (w : World) : Nat → Nat → List Nat
  | 0, _ => []
  | n + 1, a =>
    match w.mem a with
    | none => []
    | some o => a :: (localChildren o w.OCT_localpid).flatMap (localPre w n)

/-- The octant at `a` has no child. -/
def TerminalAt (w : World) (a : Nat) : Prop :=
  ∃ o, w.mem a = some o ∧ ∀ i, o.child i = none

/-- The stored values start at the partition index `P` or one above it, and from one store to
the next the value stays or grows by one; it grows only at the store of a terminal octant. -/
def Steps (w : World) : Int → List (pOctant × Int) → Prop
  | _, [] => True
  | P, (oct, p) :: rest =>
    (p = P ∨ (p = P + 1 ∧ ∃ a, oct = some a ∧ TerminalAt w a)) ∧ Steps w p rest

/-- The last value stored (`P` when there is no store). -/
def lastStored : Int → List (pOctant × Int) → Int
  | P, [] => P
  | _, (_, p) :: rest => lastStored p rest

/-- The `npid` of the octant at `b` after the stores of the list, when it was `init` before. -/
def npidTrace (b : Nat) : Int → List (pOctant × Int) → Int
  | init, [] => init
  | init, (oct, p) :: rest => npidTrace b (if oct = some b then p else init) rest

/-- The octant at `b` is terminal (`false` when there is no octant). -/
def isLeaf (w : World) (b : Nat) : Bool :=
  match w.mem b with
  | some o => decide (∀ i, o.child i = none)
  | none => false

/-- The stores of a list that are on terminal octants. -/
def leafStores (w : World) (S : List (pOctant × Int)) : List (Nat × Int) :=
  S.filterMap (fun e =>
    match e.1 with
    | some b => if isLeaf w b then some (b, e.2) else none
    | none => none)

/-- Costs are exact: no octant has a negative cost, and the cost of an octant with children is
the sum of the costs of its children in non-empty, locally tagged slots. -/
def CostExact (w : World) : Prop :=
  ∀ a o, w.mem a = some o → 0 ≤ o.cost ∧
    ((¬ ∀ i, o.child i = none) →
      o.cost = ((localChildren o w.OCT_localpid).map (costAt w)).sum)

/-- The log of the stores `npid = p` on the octants of `M`, in order. -/
def storeEvents (M : List Nat) (p : Int) : List Event :=
  M.map (fun x => Event.store (some x) p)

/-- What the log `L` of a run from the state `w` to the state `s` records; `M` lists the
octants in the order of their stores.  The stores are those on `M`; the invocations of
`LB_visit` are on octants of `M`, in that order; `DFS_Part_Count` has grown by the number of
invocations; the stored values follow the running partition index; the partition index has
grown by the length of a list `T` of invocations on terminal octants; the memory of `s` is the
memory of `w` after the stores of the log; and, when costs are exact, the values stored on the
terminal octants and the state of `s` are those of `runLeaves` along the costs of these
octants. -/
structure Trace (w s : World) (M : List Nat) (L : List Event) : Prop where
  stored : (stores L).map Prod.fst = M.map some
  called : (calls L).Sublist (M.map some)
  count : s.DFS_Part_Count = w.DFS_Part_Count + ((calls L).length : Int)
  steps : Steps w w.partition (stores L)
  last : s.partition = lastStored w.partition (stores L)
  growth : ∃ T : List pOctant, T.Sublist (calls L) ∧
    (∀ t ∈ T, ∃ a, t = some a ∧ TerminalAt w a) ∧ s.partition = w.partition + (T.length : Int)
  memory : ∀ b, s.mem b = (w.mem b).map (fun o => setNpid (npidTrace b o.npid (stores L)) o)
  acct : CostExact w →
    runLeaves w.optcost (w.partition, spent w)
        ((leafStores w (stores L)).map (fun e => costAt w e.1)) =
      ((leafStores w (stores L)).map (fun e => (costAt w e.1, e.2)), (s.partition, spent s))

/-! ## All the processes -/

/-- The terminal octants under the local roots of a process, in the order of the pre-order
listings of the roots. -/
def leafList (w : World) (n : Nat) : List Nat :=
  (w.OCT_rootlist.flatMap (localPre w n)).filter (isLeaf w)

/-- The cost that a pass with the result `res` on the process `w` has assigned to partition
`k`: the sum of the costs of the terminal octants of `w` whose `npid` after the pass is `k`. -/
def assignedCost (k : Int) (n : Nat) (w : World) (res : Except Fault (World × Int × ℚ)) : ℚ :=
  (((leafList w n).filter (fun b => decide (npidAfter res b = some k))).map (costAt w)).sum

/-- Modelled from the spec: the passes of all the processes, listed in rank order, with the
values that the communication collaborator delivers to each (section 4.2): `mycost` is the
local cost, `globalcost = G` the sum of the local costs, and `prefcost = S` the sum of the
local costs of the ranks before the current one, the "sum of costs from previous processors"
of the declaration of `prefcost` in `LB_dfs_partition`. -/
def passes (U : OctUtil) (fuel : Nat) (P : Int) (G : ℚ) :
    ℚ → List World → List (Except Fault (World × Int × ℚ))
  | _, [] => []
  | S, w :: rest =>
    LB_dfs_partition U fuel P (localCost w) G S w :: passes U fuel P G (S + localCost w) rest

/-- The cost that the passes `results` of the processes `procs` have assigned to partition
`k`, all processes together. -/
def assignedTotal (k : Int) (n : Nat) (procs : List World)
    (results : List (Except Fault (World × Int × ℚ))) : ℚ :=
  ((procs.zip results).map (fun pr => assignedCost k n pr.1 pr.2)).sum

/-- A root of cost 1 on the process `lp` whose slots 0 and 1 hold local octants at the
addresses 1 and 2. -/
def sampleRoot2 (lp : Int) : Octant :=
  { sampleLeaf 1 with
    ppid := lp
    npid := lp
    numChild := 2
    child := fun i => if i.val < 2 then some (i.val + 1) else none
    cpid := fun i => if i.val < 2 then lp else -1 }

/-- The forest of the process `lp` in the sample of two processes: one local root (address 0)
of cost 1 with two terminal octants of cost 1/2 (addresses 1 and 2). -/
def pairWorld (lp : Int) : World :=
  { emptyWorld with
    mem := fun a =>
      match a with
      | 0 => some (sampleRoot2 lp)
      | 1 => some (sampleLeaf (1 / 2))
      | 2 => some (sampleLeaf (1 / 2))
      | _ => none
    OCT_rootlist := [0]
    OCT_localpid := lp
    OCT_count := 3
    OCT_idcount := 3 }

/-! ## More of `octant.c`: initialisation, wiring, regions and deletion -/

/-- The C function `POC_init(pid, dim)`. -/
def POC_init (w : World) (pid dim : Int) : World :=
  let w := { w with OCT_count := 0 }
  let w := { w with OCT_localpid := pid }
  let w := { w with OCT_rootlist := [] }
  let w := { w with OCT_idcount := 0 }
  if dim > 3 ∨ dim < 2 then { w with OCT_dimension := 3 }
  else { w with OCT_dimension := dim }

/-- The unlinking loop shared by `POC_free` (lines 120-134) and `POC_setparent` (lines
216-230): the root list is walked from its head, `ptr->oct->id` is read for each entry, and
the first entry whose octant has the id `id` is unlinked, which ends the walk. -/
def rootlist_remove (w : World) (id : Int) : List Nat → Except Fault (List Nat)
  | [] => pure []
  | r :: rest => do
    let ro ← deref w (some r)
    if ro.id = id then pure rest
    else do
      let rest ← rootlist_remove w id rest
      pure (r :: rest)

/-- The C function `POC_free(oct)`. -/
def POC_free (w : World) (oct : pOctant) : Except Fault World :=
  match oct with
  | none => .error .segfault
  | some a => do
    let o ← deref w (some a)
    let rl ← (if o.ppid ≠ w.OCT_localpid then rootlist_remove w o.id w.OCT_rootlist
              else pure w.OCT_rootlist)
    pure { w with OCT_rootlist := rl, OCT_count := w.OCT_count - 1,
                  mem := Function.update w.mem a none }

/-- The C function `POC_id(oct)`: `oct->id`. -/
def POC_id (w : World) (oct : pOctant) : Except Fault Int := do
  let o ← deref w oct
  pure o.id

/-- The C function `POC_setparent(oct, parent, ppid)`; `entry` tells whether the `malloc` of
the new root-list entry succeeds. -/
def POC_setparent (w : World) (oct parent : pOctant) (ppid : Int) (entry : Bool) :
    Except Fault World :=
  match oct with
  | none => .error .segfault
  | some a => do
    let o ← deref w (some a)
    let rl ← (if o.ppid = w.OCT_localpid then
                if ppid ≠ w.OCT_localpid then
                  if entry then pure (w.OCT_rootlist ++ [a]) else .error .abort
                else pure w.OCT_rootlist
              else if ppid = w.OCT_localpid then rootlist_remove w o.id w.OCT_rootlist
              else pure w.OCT_rootlist)
    pure { w with OCT_rootlist := rl,
                  mem := Function.update w.mem a (some { o with ppid := ppid, parent := parent }) }

/-- The C function `POC_setchild(oct, i, child)`. -/
def POC_setchild (w : World) (oct : pOctant) (i : Fin 8) (child : pOctant) : Except Fault World :=
  match oct with
  | none => .error .segfault
  | some a => do
    let o ← deref w (some a)
    let o := { o with child := Function.update o.child i child, numChild := o.numChild + 1 }
    pure { w with mem := Function.update w.mem a (some o) }

/-- The C function `POC_setchildren(oct, children, cpids)`: `POC_setchild` for each slot; the
argument `cpids` is not used. -/
def POC_setchildren (w : World) (oct : pOctant) (children : Fin 8 → pOctant)
    (_cpids : Fin 8 → Int) : Except Fault World :=
  slots.foldlM (fun w i => POC_setchild w oct i (children i)) w

/-- The C function `POC_regionlist(oct)`. -/
def POC_regionlist (w : World) (oct : pOctant) : Except Fault (List Region) := do
  if !(← POC_isTerminal w oct) then .error .abort
  else
    let o ← deref w oct
    pure o.list

/-- Modelled from the spec: the macro `LB_EQ_GID` of `lb_const.h` (not among the sources),
the comparison of two global object ids. -/
def LB_EQ_GID (a b : Int) : Bool := decide (a = b)

/-- The C function `POC_addRegion(oct, region)`; `entry` tells whether the `malloc` of the new
list entry succeeds.  The entry is a copy of the region and becomes the head of the list. -/
def POC_addRegion (w : World) (oct : pOctant) (region : Region) (entry : Bool) :
    Except Fault World :=
  match oct with
  | none => .error .abort
  | some a =>
    if entry = false then .error .abort
    else do
      let e : Region :=
        { Coord := region.Coord, Weight := region.Weight, Global_ID := region.Global_ID,
          Local_ID := region.Local_ID, Proc := region.Proc }
      let o ← deref w (some a)
      pure { w with mem := Function.update w.mem a (some { o with list := e :: o.list }) }

/-- The loop of `POC_remRegion` (lines 405-418): the first entry with the global id `gid` is
unlinked, which ends the walk. -/
def POC_remRegion_loop (gid : Int) : List Region → List Region
  | [] => []
  | r :: rest =>
    if LB_EQ_GID r.Global_ID gid then rest else r :: POC_remRegion_loop gid rest

/-- The C function `POC_remRegion(oct, region)`. -/
def POC_remRegion (w : World) (oct : pOctant) (region : Region) : Except Fault World :=
  match oct with
  | none => .error .segfault
  | some a => do
    let o ← deref w (some a)
    let o := { o with list := POC_remRegion_loop region.Global_ID o.list }
    pure { w with mem := Function.update w.mem a (some o) }

/-- The loop of `POC_clearRegions` (lines 430-434): the head entry is unlinked and freed until
the list is empty. -/
def POC_clearRegions_loop : List Region → List Region
  | [] => []
  | _ :: rest => POC_clearRegions_loop rest

/-- The C function `POC_clearRegions(oct)`. -/
def POC_clearRegions (w : World) (oct : pOctant) : Except Fault World :=
  match oct with
  | none => .error .segfault
  | some a => do
    let o ← deref w (some a)
    let o := { o with list := POC_clearRegions_loop o.list }
    pure { w with mem := Function.update w.mem a (some { o with list := [] }) }

/-- The counting loop of `POC_nRegions` (lines 455-460). -/
def POC_nRegions_count : List Region → Int → Int
  | [], count => count
  | _ :: rest, count => POC_nRegions_count rest (count + 1)

/-- The C function `POC_nRegions(oct)`. -/
def POC_nRegions (w : World) (oct : pOctant) : Except Fault Int :=
  match oct with
  | none => .error .abort
  | some a => do
    if !(← POC_isTerminal w (some a)) then .error .abort
    else
      let o ← deref w (some a)
      pure (POC_nRegions_count o.list 0)

/-- The C function `POC_delTree(root)`; `fuel` bounds the depth of the recursion.  The result
of the recursive calls is dropped, as in the source. -/
def POC_delTree : Nat → World → pOctant → Except Fault (World × Int)
  | _, w, none => pure (w, 1)
  | 0, _, some _ => .error .outOfFuel
  | fuel + 1, w, some a => do
    if (← POC_isTerminal w (some a)) then
      let w ← (if (← POC_nRegions w (some a)) ≠ 0 then POC_clearRegions w (some a) else pure w)
      let w ← POC_free w (some a)
      pure (w, 1)
    else
      let w ← slots.foldlM (fun w i => do
        let child ← POC_child w (some a) i
        if child.isSome then do
          let r ← POC_delTree fuel w child
          pure r.1
        else pure w) w
      let w ← POC_free w (some a)
      pure (w, 1)

/-! ## Sample data for the arena claims -/

/-- A region of weight 1 at the origin with the global and local id `gid`. -/
def sampleRegion (gid : Int) : Region :=
  { Coord := ⟨0, 0, 0⟩, Weight := 1, Global_ID := gid, Local_ID := gid, Proc := 0 }

/-! ## States reached by calls of the arena operations -/

/-- The operations of `octant.c` that build, rewire and take down the arena. -/
inductive OpKind where
  | new
  | setparent
  | setchild
  | setchildren
  | free
  | delTree
  | addRegion
  | remRegion
  | clearRegions
deriving DecidableEq

/-- One call of an arena operation with its arguments.  For `POC_new`, `ptr` and `raw` are the
block that `malloc` returns and its content; `entry` tells whether the `malloc` of a list
entry succeeds; `fuel` is the depth allowed to `POC_delTree`. -/
inductive ArenaOp where
  | new (ptr : Nat) (raw : Octant)
  | setparent (oct parent : pOctant) (ppid : Int) (entry : Bool)
  | setchild (oct : pOctant) (i : Fin 8) (child : pOctant)
  | setchildren (oct : pOctant) (children : Fin 8 → pOctant) (cpids : Fin 8 → Int)
  | free (oct : pOctant)
  | delTree (fuel : Nat) (root : pOctant)
  | addRegion (oct : pOctant) (region : Region) (entry : Bool)
  | remRegion (oct : pOctant) (region : Region)
  | clearRegions (oct : pOctant)

/-- The operation that a call belongs to. -/
def ArenaOp.kind : ArenaOp → OpKind
  | .new _ _ => .new
  | .setparent _ _ _ _ => .setparent
  | .setchild _ _ _ => .setchild
  | .setchildren _ _ _ => .setchildren
  | .free _ => .free
  | .delTree _ _ => .delTree
  | .addRegion _ _ _ => .addRegion
  | .remRegion _ _ => .remRegion
  | .clearRegions _ => .clearRegions

/-- The state after a call that returns. -/
def ArenaOp.run (w : World) : ArenaOp → Except Fault World
  | .new ptr raw => do
    let r ← POC_new w (some ptr) raw
    pure r.1
  | .setparent oct parent ppid entry => POC_setparent w oct parent ppid entry
  | .setchild oct i child => POC_setchild w oct i child
  | .setchildren oct children cpids => POC_setchildren w oct children cpids
  | .free oct => POC_free w oct
  | .delTree fuel root => do
    let r ← POC_delTree fuel w root
    pure r.1
  | .addRegion oct region entry => POC_addRegion w oct region entry
  | .remRegion oct region => POC_remRegion w oct region
  | .clearRegions oct => POC_clearRegions w oct

/-- What `malloc` guarantees to `POC_new`: the block it returns is not one that holds an
octant. -/
def ArenaOp.admissible (w : World) : ArenaOp → Prop
  | .new ptr _ => w.mem ptr = none
  | _ => True

/-- The calls `ops`, made in this order from the state `w`, all return and end in `w'`; each
call is of a kind in `K` and satisfies the condition `G` in the state it is made in. -/
inductive Runs (K : List OpKind) (G : World → ArenaOp → Prop) :
    World → List ArenaOp → World → Prop
  | nil (w : World) : Runs K G w [] w
  | snoc {w w1 w2 : World} {ops : List ArenaOp} (op : ArenaOp) :
      Runs K G w ops w1 → op.kind ∈ K → op.admissible w1 → G w1 op → op.run w1 = .ok w2 →
      Runs K G w (ops ++ [op]) w2

/-- The state `w` is reached by the calls `ops` from the state that `POC_init` sets up when
it is called before any octant exists. -/
def Reached (K : List OpKind) (G : World → ArenaOp → Prop) (ops : List ArenaOp) (w : World) :
    Prop :=
  ∃ w0 pid dim, (∀ a, w0.mem a = none) ∧ Runs K G (POC_init w0 pid dim) ops w

/-- No condition on the calls. -/
def anyCall (_ : World) (_ : ArenaOp) : Prop := True

/-- The number of calls of `POC_new` among `ops`. -/
def creations (ops : List ArenaOp) : Nat :=
  (ops.filter (fun op => decide (op.kind = OpKind.new))).length

/-- The invariant of the arena: ids are below the id counter and distinct, and the local root
list holds, once each, the octants whose parent-owner is not the local process. -/
structure ArenaInv (w : World) : Prop where
  id_lt : ∀ a o, w.mem a = some o → 0 ≤ o.id ∧ o.id < w.OCT_idcount
  id_inj : ∀ a b oa ob, w.mem a = some oa → w.mem b = some ob → oa.id = ob.id → a = b
  listed : ∀ a, a ∈ w.OCT_rootlist ↔ ∃ o, w.mem a = some o ∧ o.ppid ≠ w.OCT_localpid
  nodup : w.OCT_rootlist.Nodup
  counter : 0 ≤ w.OCT_idcount

/-- The relation between the states before and after a call that creates no octant: the
invariant of the arena carries over and the id counter and the local process id stay. -/
def Keeps (w w' : World) : Prop :=
  ArenaInv w →
    ArenaInv w' ∧ w'.OCT_idcount = w.OCT_idcount ∧ w'.OCT_localpid = w.OCT_localpid

/-- The local root list after `POC_setparent(oct, parent, ppid)` for the octant `o` stored at
`a`, when every entry of the list is an octant of the arena and ids are distinct. -/
def rootsAfterSetparent (w : World) (a : Nat) (o : Octant) (ppid : Int) : List Nat :=
  if o.ppid = w.OCT_localpid then
    if ppid ≠ w.OCT_localpid then w.OCT_rootlist ++ [a] else w.OCT_rootlist
  else if ppid = w.OCT_localpid then w.OCT_rootlist.erase a
  else w.OCT_rootlist

/-- The caller's side of the payload rule: regions are added to terminal octants only, and a
child is stored only in an octant without regions. -/
def Disciplined (w : World) : ArenaOp → Prop
  | .addRegion oct _ _ => POC_isTerminal w oct = .ok true
  | .setchild oct _ child => child = none ∨ ∃ o, deref w oct = .ok o ∧ o.list = []
  | .setchildren oct children _ =>
    (∀ i, children i = none) ∨ ∃ o, deref w oct = .ok o ∧ o.list = []
  | _ => True

/-- No octant has both a region and a child. -/
def Exclusive (w : World) : Prop :=
  ∀ a o, w.mem a = some o → o.list = [] ∨ ∀ i, o.child i = none

/-! ## Sample runs of the arena operations -/

/-- The state that `POC_init(0, 3)` sets up before any octant exists. -/
def arenaInit : World := POC_init emptyWorld 0 3

/-- The state after the calls `ops` made from `arenaInit` (`emptyWorld` when one of them does
not return). -/
def stateAfter (ops : List ArenaOp) : World :=
  match ops.foldlM ArenaOp.run arenaInit with
  | .ok w => w
  | .error _ => emptyWorld

/-- Two octants are created, the second becomes child 0 of the first, the first is freed and
its block is handed out again by `malloc`. -/
def reuseOps : List ArenaOp :=
  [.new 0 sampleRoot4, .new 1 sampleRoot4, .setchild (some 0) 0 (some 1), .free (some 0),
   .new 0 sampleRoot4]

/-- Three octants are created; the first becomes the global root (no parent, parent-owner -1)
and the third gets a parent on process 5. -/
def rootsOps : List ArenaOp :=
  [.new 0 sampleRoot4, .new 1 sampleRoot4, .new 2 sampleRoot4,
   .setparent (some 0) none (-1) true, .setparent (some 2) none 5 true]

/-- Two octants are created, the first receives a region and then the second as child 0. -/
def mixedOps : List ArenaOp :=
  [.new 0 sampleRoot4, .new 1 sampleRoot4, .addRegion (some 0) (sampleRegion 7) true,
   .setchild (some 0) 0 (some 1)]

/-- Two octants are created, the second receives a region and then becomes child 0 of the
first. -/
def tidyOps : List ArenaOp :=
  [.new 0 sampleRoot4, .new 1 sampleRoot4, .addRegion (some 1) (sampleRegion 7) true,
   .setchild (some 0) 0 (some 1)]

/-- All operations of the arena. -/
def allKinds : List OpKind :=
  [.new, .setparent, .setchild, .setchildren, .free, .delTree, .addRegion, .remRegion,
   .clearRegions]

/-- The octant stored at `a` (a fresh terminal octant when there is none). -/
def octAt (w : World) (a : Nat) : Octant := (w.mem a).getD (sampleLeaf 0)

/-! ## `POC_delTree` with a record of its calls -/

/-- The calls that `POC_delTree` makes: `POC_clearRegions(oct)`, and `POC_free(oct)` together
with the region list that `oct` holds when it is freed. -/
inductive DelEvent where
  | cleared (oct : pOctant)
  | freed (oct : pOctant) (list : List Region)
deriving DecidableEq

/-- The call `POC_free(oct)` with its record. -/
def POC_free_log (s : World × List DelEvent) (oct : pOctant) :
    Except Fault (World × List DelEvent) := do
  let o ← deref s.1 oct
  let w ← POC_free s.1 oct
  pure (w, s.2 ++ [DelEvent.freed oct o.list])

/-- The C function `POC_delTree(root)` with a record of its calls of `POC_clearRegions` and
`POC_free`, in the order in which they are made. -/
def POC_delTree_log :
    Nat → World × List DelEvent → pOctant → Except Fault ((World × List DelEvent) × Int)
  | _, s, none => pure (s, 1)
  | 0, _, some _ => .error .outOfFuel
  | fuel + 1, s, some a => do
    if (← POC_isTerminal s.1 (some a)) then
      let s ← (if (← POC_nRegions s.1 (some a)) ≠ 0 then do
                 let w ← POC_clearRegions s.1 (some a)
                 pure (w, s.2 ++ [DelEvent.cleared (some a)])
               else pure s)
      let s ← POC_free_log s (some a)
      pure (s, 1)
    else
      let s ← slots.foldlM (fun s i => do
        let child ← POC_child s.1 (some a) i
        if child.isSome then do
          let r ← POC_delTree_log fuel s child
          pure r.1
        else pure s) s
      let s ← POC_free_log s (some a)
      pure (s, 1)

/-- The post-order listing of the subtree of `a` (all non-empty slots), cut off below `n`
levels: the listings of the children in slot order, then the octant. -/
def postList (w : World) : Nat → Nat → List Nat
  | 0, _ => []
  | n + 1, a =>
    match w.mem a with
    | none => []
    | some o => (childList o).flatMap (postList w n) ++ [a]

/-- The calls that the deletion of the octant at `x` consists of: for a terminal octant the
clearing of its region list when it has regions and the `POC_free` with an empty list, for an
octant with children the `POC_free` alone. -/
def delEventsAt (w : World) (x : Nat) : List DelEvent :=
  match w.mem x with
  | none => []
  | some o =>
    if ∀ i, o.child i = none then
      (if o.list ≠ [] then [DelEvent.cleared (some x)] else []) ++ [DelEvent.freed (some x) []]
    else [DelEvent.freed (some x) o.list]

/-- The state in which the octants of `L` have left the arena, the root list and the octant
count. -/
def freeAll (w : World) (L : List Nat) : World :=
  { w with mem := fun b => if b ∈ L then none else w.mem b
           OCT_rootlist := w.OCT_rootlist.filter (fun r => decide (r ∉ L))
           OCT_count := w.OCT_count - (L.length : Int) }

/-- The octants that the calls of `POC_free` in a record were made on, in order. -/
def freedList : List DelEvent → List pOctant
  | [] => []
  | DelEvent.freed oct _ :: rest => oct :: freedList rest
  | DelEvent.cleared _ :: rest => freedList rest

/-- A test for `Height`: the subtree of `a` lies in the arena and has at most `n` levels. -/
def heightB (w : World) : Nat → Nat → Bool
  | 0, _ => false
  | n + 1, a =>
    match w.mem a with
    | none => false
    | some o =>
      slots.all (fun i =>
        match o.child i with
        | none => true
        | some c => heightB w n c)

/-- Five octants are created; four are wired into a tree (octant 0 with the children 1 and 2
in the slots 1 and 5, octant 1 with the child 3 in slot 0), the terminal octant 3 receives two
regions, octant 4 gets the parent-owner 5, and octant 0 becomes the global root. -/
def delOps : List ArenaOp :=
  [.new 0 sampleRoot4, .new 1 sampleRoot4, .new 2 sampleRoot4, .new 3 sampleRoot4,
   .new 4 sampleRoot4,
   .setchild (some 0) 1 (some 1), .setchild (some 0) 5 (some 2), .setchild (some 1) 0 (some 3),
   .setparent (some 1) (some 0) 0 true, .setparent (some 2) (some 0) 0 true,
   .setparent (some 3) (some 1) 0 true,
   .addRegion (some 3) (sampleRegion 7) true, .addRegion (some 3) (sampleRegion 8) true,
   .setparent (some 4) none 5 true, .setparent (some 0) none (-1) true]

/-! ## Child counts and the order of the local root list -/

/-- The number of non-empty child slots of an octant. -/
def childCount (o : Octant) : Nat := (slots.filter (fun i => (o.child i).isSome)).length

/-- Two octants are created and the second is stored twice in slot 0 of the first. -/
def twiceOps : List ArenaOp :=
  [.new 0 sampleRoot4, .new 1 sampleRoot4, .setchild (some 0) 0 (some 1),
   .setchild (some 0) 0 (some 1)]

/-- One octant is created and `POC_setchildren` stores eight `NULL` children in it. -/
def nullOps : List ArenaOp :=
  [.new 0 sampleRoot4, .setchildren (some 0) (fun _ => none) (fun _ => -1)]

/-- Three octants are created and the last two become the children 0 and 1 of the first, each
slot being set once. -/
def onceOps : List ArenaOp :=
  [.new 0 sampleRoot4, .new 1 sampleRoot4, .new 2 sampleRoot4, .setchild (some 0) 0 (some 1),
   .setchild (some 0) 1 (some 2)]

/-- The call `op`, made in the state `w`, is a call of `POC_setparent` that turns the octant
at `a` from one whose parent-owner is the local process into one whose parent-owner is not. -/
def becomesNonlocal (w : World) (op : ArenaOp) (a : Nat) : Bool :=
  match op with
  | .setparent oct _ ppid _ =>
    decide (oct = some a) &&
      ((match w.mem a with
        | some o => decide (o.ppid = w.OCT_localpid)
        | none => false) && decide (ppid ≠ w.OCT_localpid))
  | _ => false

/-- For each address, the position of the last call at which the octant there became
non-local, along the calls `ops` made from the state `w`; the first of these calls has the
position `j`, and `τ` holds the positions found before. -/
def nonlocalSince (w : World) : List ArenaOp → Nat → (Nat → Option Nat) → Nat → Option Nat
  | [], _, τ => τ
  | op :: ops, j, τ =>
    match op.run w with
    | .ok w1 =>
      nonlocalSince w1 ops (j + 1) (fun a => if becomesNonlocal w op a then some j else τ a)
    | .error _ => τ

/-- The octant `x` became non-local before the octant `y` did. -/
def EarlierNonlocal (τ : Nat → Option Nat) (x y : Nat) : Prop :=
  ∃ i k, τ x = some i ∧ τ y = some k ∧ i < k

/-- Three octants are created; the octants 0 and 2 become non-local in this order, then
octant 0 gets a local parent and after that a parent on another process again. -/
def orderOps : List ArenaOp :=
  [.new 0 sampleRoot4, .new 1 sampleRoot4, .new 2 sampleRoot4,
   .setparent (some 0) none (-1) true, .setparent (some 2) none 5 true,
   .setparent (some 0) (some 1) 0 true, .setparent (some 0) none 7 true]

/-- The invariant of the order: every listed octant has a position below `j`, and the
positions grow along the list. -/
def RootOrder (w : World) (τ : Nat → Option Nat) (j : Nat) : Prop :=
  (∀ x ∈ w.OCT_rootlist, ∃ i, τ x = some i ∧ i < j) ∧
  w.OCT_rootlist.Pairwise (EarlierNonlocal τ)

/-! ## The pass with a record of the costs it adds

`LB_visit_by_dist` and `LB_visit` once more, with a record of the statements `pcost += cost`
(lines 190 and 243 of `dfs.c`): each entry is the octant of the call and the cost added.
Apart from the record they are the functions above (theorem `LB_visit_acct_erase`). -/

/-- The record of the costs added: the octant of the call and the value of `cost`. -/
abbrev CostLog := List (pOctant × ℚ)

/-- The outer loop of `LB_visit_by_dist`, with the record. -/
def LB_visit_by_dist_loop_acct (U : OctUtil)
    (visit : World × CostLog → pOctant → Except Fault (World × CostLog))
    (octant : pOctant) (children : Fin 8 → pOctant) (corigin : Fin 8 → COORD) :
    Nat → World × CostLog → DistLocals → Except Fault (World × CostLog)
  | 0, _, _ => .error .outOfFuel
  | n + 1, s, L => do
    let (pcentroid, mindist, minchild) ← LB_visit_by_dist_pick U s.1 octant corigin L
    match minchild with
    | none => pure s
    | some i =>
      let s ← visit s (children i)
      LB_visit_by_dist_loop_acct U visit octant children corigin n s
        { mindist := mindist, pcentroid := pcentroid,
          visited := Function.update L.visited i true }

/-- The C function `LB_visit_by_dist(octant, children)`, with the record. -/
def LB_visit_by_dist_acct (U : OctUtil)
    (visit : World × CostLog → pOctant → Except Fault (World × CostLog))
    (s : World × CostLog) (octant : pOctant) (children : Fin 8 → pOctant) :
    Except Fault (World × CostLog) := do
  let (min, max) ← POC_bounds s.1 octant
  LB_visit_by_dist_loop_acct U visit octant children (LB_visit_by_dist_corigin U min max) 9 s
    initDistLocals

/-- The C function `LB_visit(octant)`, with the record. -/
def LB_visit_acct (U : OctUtil) :
    Nat → World × CostLog → pOctant → Except Fault (World × CostLog)
  | 0, _, _ => .error .outOfFuel
  | fuel + 1, s, octant => do
    let w := { s.1 with DFS_Part_Count := s.1.DFS_Part_Count + 1 }
    let cost ← LB_costs_value w octant
    let behind := (w.partition : ℚ) * w.optcost - w.total
    if cost = 0 ∨ w.pcost + cost ≤ w.optcost + behind then
      let w ← LB_tag_subtree (fuel + 1) w octant w.partition
      let w := { w with pcost := w.pcost + cost }
      let (origin, volume) ← POC_origin_volume U w octant
      let prod := vector_cmult volume origin
      let w := { w with pmass := w.pmass + volume }
      pure ({ w with pcoord := vector_add w.pcoord prod }, s.2 ++ [(octant, cost)])
    else if !(← POC_isTerminal w octant) then
      let w ← POC_modify_newpid w octant w.partition
      let (_, children) ← POC_children w octant
      if w.CLOSE ≠ 0 then
        LB_visit_by_dist_acct U (fun s c => LB_visit_acct U fuel s c) (w, s.2) octant children
      else
        slots.foldlM (fun s i =>
          if (children i).isSome then do
            if (← POC_local s.1 octant i) then LB_visit_acct U fuel s (children i)
            else pure s
          else pure s) (w, s.2)
    else
      let togo := behind + w.optcost - w.pcost
      let w := if cost - togo ≥ togo then
          { w with partition := w.partition + 1, total := w.total + w.pcost, pcost := 0,
                   pmass := 0, pcoord := vector_set_comp 0 0 0 }
        else w
      let w ← POC_modify_newpid w octant w.partition
      let w := { w with pcost := w.pcost + cost }
      let (origin, volume) ← POC_origin_volume U w octant
      let prod := vector_cmult volume origin
      let w := { w with pmass := w.pmass + volume }
      pure ({ w with pcoord := vector_add w.pcoord prod }, s.2 ++ [(octant, cost)])

/-- From `s` to `s'` the record has grown by entries whose costs add up to the growth of
`total + pcost`. -/
def Accounted (s s' : World × CostLog) : Prop :=
  ∃ new : CostLog, s'.2 = s.2 ++ new ∧ spent s'.1 = spent s.1 + (new.map Prod.snd).sum

/-- The running costs are the same in both states. -/
def SameCosts (w w' : World) : Prop := w'.total = w.total ∧ w'.pcost = w.pcost

/-- The cost of every octant with children is the sum of the costs of its children in
non-empty, locally tagged slots. -/
def CostSum (w : World) : Prop :=
  ∀ a o, w.mem a = some o → (¬ ∀ i, o.child i = none) →
    o.cost = (slots.map (childCost w o)).sum

/-! ## The pointer conversion of `POC_isTerminal` -/

/-- The conversion `(int)p` of an octant pointer where pointers have 64 bits and `int` has 32:
the low 32 bits of the machine address, read as a signed value; `NULL` converts to 0.  `addr`
is the memory layout: the machine address of the block that the model addresses by `a`. -/
def pointer_to_int (addr : Nat → Nat) : pOctant → Int
  | none => 0
  | some a =>
    if addr a % 2 ^ 32 < 2 ^ 31 then ((addr a % 2 ^ 32 : Nat) : Int)
    else ((addr a % 2 ^ 32 : Nat) : Int) - 2 ^ 32

/-- The loop of `POC_isTerminal`, `for (i=0; (!child) && (i<8); i++) child=(int)oct->child[i];`
with the `int` variable `child` and the conversion of the layout `addr`. -/
def POC_isTerminal_scan_int (addr : Nat → Nat) (o : Octant) : List (Fin 8) → Int → Int
  | [], child => child
  | i :: rest, child =>
    if child ≠ 0 then child
    else POC_isTerminal_scan_int addr o rest (pointer_to_int addr (o.child i))

/-- The C function `POC_isTerminal(oct)` with its `int` result, on a machine with 64-bit
pointers laid out by `addr`: `child=0;` the loop; `if(child == 0) return(1); else return(0);`. -/
def POC_isTerminal_int (addr : Nat → Nat) (w : World) (oct : pOctant) : Except Fault Int := do
  let o ← deref w oct
  pure (if POC_isTerminal_scan_int addr o slots 0 = 0 then 1 else 0)

/-- A layout with blocks of 256 bytes from the address `2^32 - 256` on: block 1 starts at the
address `2^32`. -/
def wideLayout (a : Nat) : Nat := 2 ^ 32 - 256 + 256 * a

/-- A layout with blocks of 256 bytes from the address 4096 on. -/
def lowLayout (a : Nat) : Nat := 4096 + 256 * a

/-! ## A local root below an octant of another process -/

/-- One process (pid 0) with a single terminal octant at address 0 whose parent is local and
absent, not yet on the root list. -/
def loneWorld : World :=
  { emptyWorld with
    mem := fun a => if a = 0 then some (sampleLeaf 1) else none
    OCT_rootlist := []
    OCT_count := 1
    OCT_idcount := 1 }

/-- The state `loneWorld` after `POC_setparent(oct, parent, 1)` with `parent` the address 9 of
an octant of process 1: the octant is a local root, and its parent pointer is not `NULL`. -/
def remoteRootWorld : World :=
  { emptyWorld with
    mem := fun a =>
      if a = 0 then some { sampleLeaf 1 with parent := some 9, ppid := 1 } else none
    OCT_rootlist := [0]
    OCT_count := 1
    OCT_idcount := 1 }

/-! ## Floating-point arithmetic as a parameter

`dfs.c` computes on `float` locals (`cost`, `togo`, `behind`, `mycost`, `globalcost`,
`prefcost`) and on the statics `partition`, `total`, `pcost` and `optcost`, which are declared
in `dfs.h` (not among the sources).  The copies below of `LB_dfs_partition` and `LB_visit`
pass the exact result of every operation on these values through an arithmetic `ρ`, which
returns the value that the machine keeps.  The centroid bookkeeping (`pmass`, `pcoord`) stays
exact: it enters no comparison of `LB_visit` in index order (`CLOSE = 0`), and the statements
over an arithmetic are about that order. -/

/-- The places of `LB_dfs_partition` and `LB_visit` at which a floating-point value is produced: the
stores of `mycost` (line 66), `globalcost` (line 83) and `prefcost` (line 84); the conversion of
`lb->Num_Proc` (`count`) and the quotient of line 87 (`optcost`); the quotient of line 88 before
its conversion to `int` (`quotient`); the conversion of `partition` (`index`) and the product
`partition*optcost` (`product`) of lines 92, 93 and 185; the store to `total` of line 92
(`seedTotal`); the difference of line 93 (`seedPcost`); the store to `cost` of line 184; the
difference of line 185 (`behind`); the two sums of line 188 (`load`, `room`); the sums
`pcost+=cost` of lines 190 and 243 (`pcost`); the sum and the difference of line 228 (`togoSum`,
`togo`); the difference of line 230 (`over`); the sum `total += pcost` of line 235 (`total`). -/
inductive Site where
  | mycost
  | globalcost
  | prefcost
  | count
  | optcost
  | quotient
  | index
  | product
  | seedTotal
  | seedPcost
  | cost
  | behind
  | load
  | room
  | pcost
  | togoSum
  | togo
  | over
  | total
deriving DecidableEq

/-- Conversion of a floating-point value to a 32-bit `int`: truncation toward zero when the
truncated value is in `[-2^31, 2^31 - 1]`, undefined otherwise. -/
def float_to_int32 (q : ℚ) : Except Fault Int :=
  if -(2 : ℚ) ^ 31 - 1 < q ∧ q < (2 : ℚ) ^ 31 then .ok (float_to_int q) else .error .undefined

/-- A floating-point arithmetic.  `op s x` is the value kept at the site `s` for the exact
result `x`, or a fault.  `toInt x` is the `int` that line 88, `partition=prefcost/optcost`,
stores for the exact quotient `x`: the quotient is rounded and then converted. -/
structure Arith where
  op : Site → ℚ → Except Fault ℚ
  toInt : ℚ → Except Fault Int

/-- The arithmetic that keeps every exact result. -/
def exactArith : Arith where
  op := fun _ x => .ok x
  toInt := float_to_int32

/-- The arithmetic that rounds by `R`. -/
def roundedArith (R : Site → ℚ → ℚ) : Arith where
  op := fun s x => .ok (R s x)
  toInt := fun x => float_to_int32 (R .quotient x)

/-- The arithmetic `ρ` with a check: an operation whose exact result `ρ` does not keep as it
is (it rounds it, or it faults) is the fault `inexact`, and so is a conversion of the
quotient of line 88 that does not give the `int` of the exact quotient. -/
def checkedArith (ρ : Arith) : Arith where
  op := fun s x =>
    match ρ.op s x with
    | .ok y => if y = x then .ok x else .error .inexact
    | .error _ => .error .inexact
  toInt := fun x =>
    match ρ.toInt x, float_to_int32 x with
    | .ok a, .ok b => if a = b then .ok a else .error .inexact
    | _, _ => .error .inexact

/-- The position of the leading binary digit of `n` (0 for `n < 2`), found by halving; `fuel`
bounds the number of halvings. -/
def leadingDigit : Nat → Nat → Nat
  | 0, _ => 0
  | fuel + 1, n => if n < 2 then 0 else leadingDigit fuel (n / 2) + 1

/-- The exponent `e` of the leading binary digit of the positive rational `n / d`:
`2^e ≤ n / d < 2^(e+1)`. -/
def binExponent (n d : Nat) : Int :=
  let e0 : Int := (leadingDigit n n : Int) - (leadingDigit d d : Int)
  if 0 ≤ e0 then (if d * 2 ^ e0.toNat ≤ n then e0 else e0 - 1)
  else (if d ≤ n * 2 ^ (-e0).toNat then e0 else e0 - 1)

/-- The power `2^e` for an integer `e`. -/
def pow2 (e : Int) : ℚ := if 0 ≤ e then (2 : ℚ) ^ e.toNat else 1 / (2 : ℚ) ^ (-e).toNat

/-- The integer nearest to `m ≥ 0`, the even one of two nearest. -/
def roundHalfEven (m : ℚ) : Int :=
  if m - (⌊m⌋ : ℚ) < 1 / 2 then ⌊m⌋
  else if 1 / 2 < m - (⌊m⌋ : ℚ) then ⌊m⌋ + 1
  else if ⌊m⌋ % 2 = 0 then ⌊m⌋ else ⌊m⌋ + 1

/-- Rounding to the nearest binary floating-point number with `prec` significant digits and
least quantum `2^emin` (gradual underflow), ties to even, with no largest exponent. -/
def roundNearestEven (prec : Nat) (emin : Int) (x : ℚ) : ℚ :=
  if x = 0 then 0
  else
    (if x < 0 then -1 else 1) *
      (roundHalfEven
        (|x| / pow2 (max (binExponent x.num.natAbs x.den - ((prec : Int) - 1)) emin)) : ℚ) *
      pow2 (max (binExponent x.num.natAbs x.den - ((prec : Int) - 1)) emin)

/-- An IEEE 754 binary format: rounding to nearest, ties to even; a rounded value of
magnitude `2^(emax+1)` or more is the fault `overflow`. -/
def ieee (prec : Nat) (emin emax : Int) (x : ℚ) : Except Fault ℚ :=
  if |roundNearestEven prec emin x| < pow2 (emax + 1) then .ok (roundNearestEven prec emin x)
  else .error .overflow

/-- The arithmetic in which every operation is in one IEEE 754 binary format. -/
def ieeeArith (prec : Nat) (emin emax : Int) : Arith where
  op := fun _ => ieee prec emin emax
  toInt := fun x => ieee prec emin emax x >>= float_to_int32

/-- The arithmetic in which every operation is in IEEE 754 binary32 (`float`). -/
def binary32 : Arith := ieeeArith 24 (-149) 127

/-- The arithmetic in which every operation is in IEEE 754 binary64 (`double`). -/
def binary64 : Arith := ieeeArith 53 (-1074) 1023

/-- Lines 65-96 of `LB_dfs_partition` over the arithmetic `ρ`; `globalcost` is the value
delivered by `MPI_Allreduce` and `prefcost` the value returned by `LB_msg_float_scan`, both
stored in `float` variables. -/
def LB_dfs_partition_seed_r (ρ : Arith) (Num_Proc : Int) (globalcost prefcost : ℚ) (w : World) :
    Except Fault World := do
  let w := { w with DFS_Part_Count := 0 }
  let globalcost ← ρ.op .globalcost globalcost
  let prefcost ← ρ.op .prefcost prefcost
  let count ← ρ.op .count (Num_Proc : ℚ)
  let exact ← fdiv globalcost count
  let optcost ← ρ.op .optcost exact
  let w := { w with optcost := optcost }
  let exact ← fdiv prefcost w.optcost
  let p ← ρ.toInt exact
  let w := { w with partition := p }
  let w := if w.partition = Num_Proc then { w with partition := Num_Proc - 1 } else w
  let index ← ρ.op .index (w.partition : ℚ)
  let product ← ρ.op .product (index * w.optcost)
  let total ← ρ.op .seedTotal product
  let w := { w with total := total }
  let index ← ρ.op .index (w.partition : ℚ)
  let product ← ρ.op .product (index * w.optcost)
  let pcost ← ρ.op .seedPcost (prefcost - product)
  let w := { w with pcost := pcost }
  let w := { w with pmass := 0 }
  pure { w with pcoord := vector_set_comp 0 0 0 }

/-- Line 185 of `LB_visit` over the arithmetic `ρ`: `behind = partition * optcost - total`. -/
def LB_visit_behind_r (ρ : Arith) (w : World) : Except Fault ℚ := do
  let index ← ρ.op .index (w.partition : ℚ)
  let product ← ρ.op .product (index * w.optcost)
  ρ.op .behind (product - w.total)

/-- The test of line 188 of `LB_visit` over the arithmetic `ρ`:
`cost==0 || (pcost+cost) <= (optcost+behind)`; the sums are computed only when `cost` is not
0. -/
def LB_visit_fits_r (ρ : Arith) (w : World) (cost behind : ℚ) : Except Fault Bool :=
  if cost = 0 then pure true
  else do
    let load ← ρ.op .load (w.pcost + cost)
    let room ← ρ.op .room (w.optcost + behind)
    pure (decide (load ≤ room))

/-- Lines 190-196 and 243-250 of `LB_visit` over the arithmetic `ρ`: `pcost += cost` and the
centroid bookkeeping. -/
def LB_visit_account_r (ρ : Arith) (U : OctUtil) (w : World) (octant : pOctant) (cost : ℚ) :
    Except Fault World := do
  let pcost ← ρ.op .pcost (w.pcost + cost)
  let w := { w with pcost := pcost }
  let (origin, volume) ← POC_origin_volume U w octant
  let prod := vector_cmult volume origin
  let w := { w with pmass := w.pmass + volume }
  pure { w with pcoord := vector_add w.pcoord prod }

/-- Lines 234-238 of `LB_visit` over the arithmetic `ρ`: the current partition is closed. -/
def LB_visit_close_r (ρ : Arith) (w : World) : Except Fault World := do
  let total ← ρ.op .total (w.total + w.pcost)
  pure { w with partition := w.partition + 1, total := total, pcost := 0, pmass := 0,
                pcoord := vector_set_comp 0 0 0 }

/-- Lines 228-239 of `LB_visit` over the arithmetic `ρ`: `togo = behind + optcost - pcost`
and the decision `if ((cost-togo) >= togo)` to close the current partition. -/
def LB_visit_decide_r (ρ : Arith) (w : World) (cost behind : ℚ) : Except Fault World := do
  let sum ← ρ.op .togoSum (behind + w.optcost)
  let togo ← ρ.op .togo (sum - w.pcost)
  let over ← ρ.op .over (cost - togo)
  if over ≥ togo then LB_visit_close_r ρ w else pure w

/-- The C function `LB_visit(octant)` over the arithmetic `ρ`. -/
def LB_visit_r (ρ : Arith) (U : OctUtil) : Nat → World → pOctant → Except Fault World
  | 0, _, _ => .error .outOfFuel
  | fuel + 1, w, octant => do
    let w := { w with DFS_Part_Count := w.DFS_Part_Count + 1 }
    let stored ← LB_costs_value w octant
    let cost ← ρ.op .cost stored
    let behind ← LB_visit_behind_r ρ w
    let fits ← LB_visit_fits_r ρ w cost behind
    if fits then
      let w ← LB_tag_subtree (fuel + 1) w octant w.partition
      LB_visit_account_r ρ U w octant cost
    else
      let terminal ← POC_isTerminal w octant
      if !terminal then
        let w ← POC_modify_newpid w octant w.partition
        let (_, children) ← POC_children w octant
        if w.CLOSE ≠ 0 then
          LB_visit_by_dist U (fun w c => LB_visit_r ρ U fuel w c) w octant children
        else
          slots.foldlM (fun w i =>
            if (children i).isSome then do
              if (← POC_local w octant i) then LB_visit_r ρ U fuel w (children i)
              else pure w
            else pure w) w
      else
        let w ← LB_visit_decide_r ρ w cost behind
        let w ← POC_modify_newpid w octant w.partition
        LB_visit_account_r ρ U w octant cost

/-- The C function `LB_visit_all_subtrees()` over the arithmetic `ρ`. -/
def LB_visit_all_subtrees_r (ρ : Arith) (U : OctUtil) (fuel : Nat) (w : World) :
    Except Fault World :=
  (POC_localroots w).foldlM (fun w r => LB_visit_r ρ U fuel w (some r)) w

/-- The C function `LB_dfs_partition(lb, counter, c1)` over the arithmetic `ρ`, with
`lb->Num_Proc = Num_Proc`; `mycost` is the value of `LB_costs_global_compute()`.  The result
is the final state with `*counter` and `*c1`. -/
def LB_dfs_partition_r (ρ : Arith) (U : OctUtil) (fuel : Nat) (Num_Proc : Int)
    (mycost globalcost prefcost : ℚ) (w : World) : Except Fault (World × Int × ℚ) := do
  let mycost ← ρ.op .mycost mycost
  let w ← LB_dfs_partition_seed_r ρ Num_Proc globalcost prefcost w
  let w ← LB_visit_all_subtrees_r ρ U fuel w
  pure (w, w.DFS_Part_Count, mycost)

/-- Modelled from the spec: the passes of all the processes over the arithmetic `ρ`, listed in
rank order, with the values that the communication collaborator delivers to each
(section 4.2) when its sums are exact: `mycost` is the local cost, `globalcost = G` the sum of
the local costs, and `prefcost = S` the sum of the local costs of the ranks before the current
one. -/
def passes_r (ρ : Arith) (U : OctUtil) (fuel : Nat) (P : Int) (G : ℚ) :
    ℚ → List World → List (Except Fault (World × Int × ℚ))
  | _, [] => []
  | S, w :: rest =>
    LB_dfs_partition_r ρ U fuel P (localCost w) G S w ::
      passes_r ρ U fuel P G (S + localCost w) rest

/-- The execution `y` follows the execution `x`: whenever `x` returns a value, `y` returns
the same value, or `Bad` holds and `y` is the fault `e`. -/
def Sim (Bad : Prop) (e : Fault) {α : Type} (x y : Except Fault α) : Prop :=
  ∀ a, x = .ok a → y = .ok a ∨ (Bad ∧ y = .error e)

/-- The arithmetic `ρ2` follows the arithmetic `ρ1` at every site. -/
def ArithSim (Bad : Prop) (e : Fault) (ρ1 ρ2 : Arith) : Prop :=
  (∀ s x, Sim Bad e (ρ1.op s x) (ρ2.op s x)) ∧ ∀ x, Sim Bad e (ρ1.toInt x) (ρ2.toInt x)

/-! ## Sample data for the floating-point runs -/

/-- A forest of terminal local roots with the costs `costs`, at the addresses `0, 1, ...` in
root-list order, on process `lp`. -/
def rootsWorld (lp : Int) (costs : List ℚ) : World :=
  { emptyWorld with
    mem := fun a => (costs[a]?).map (fun c => { sampleLeaf c with ppid := lp, npid := lp })
    OCT_rootlist := List.range costs.length
    OCT_localpid := lp
    OCT_count := costs.length
    OCT_idcount := costs.length }

/-- A root of cost 2 on process 2 whose slots 0, 1 and 2 hold local octants at the addresses
1, 2 and 3. -/
def roundingRoot : Octant :=
  { sampleLeaf 2 with
    ppid := 2
    npid := 2
    numChild := 3
    child := fun i => if i.val < 3 then some (i.val + 1) else none
    cpid := fun i => if i.val < 3 then 2 else -1 }

/-- The forest of process 2 of 3: one local root (address 0) of cost 2 over three terminal
octants of the costs `1`, `1 - 2^-24` and `2^-24` (addresses 1, 2, 3), all binary32
values. -/
def roundingWorld : World :=
  { emptyWorld with
    mem := fun a =>
      match a with
      | 0 => some roundingRoot
      | 1 => some (sampleLeaf 1)
      | 2 => some (sampleLeaf (1 - 1 / 2 ^ 24))
      | 3 => some (sampleLeaf (1 / 2 ^ 24))
      | _ => none
    OCT_rootlist := [0]
    OCT_localpid := 2
    OCT_count := 4
    OCT_idcount := 4 }

/-- Five binary32 costs with the binary32 sum `1 + 2^-21`. -/
def tieCosts : List ℚ := [1 + 1 / 2 ^ 23, 1 / 2 ^ 24, 1 / 2 ^ 23, 1 / 2 ^ 24, 1 / 2 ^ 23]

/-- Thirteen binary32 costs of at most `1/2` with the sum 4. -/
def driftCosts : List ℚ :=
  [1 / 2, 1 / 2, 699051 / 8388608, 1 / 2, 1 / 2, 1398101 / 4194304, 1 / 33554432,
    1 / 33554432, 1 / 33554432, 1 / 2, 1 / 2, 1 / 2, 2796201 / 33554432]

/-- Fifteen binary32 costs with the sum 6. -/
def absorbCosts : List ℚ :=
  [1, 1 / 2, 1, 1 - 1 / 2 ^ 23, 1 / 2 ^ 25, 1 / 2 ^ 25, 1 / 2 ^ 25, 1 / 2 ^ 25, 1 / 2 ^ 25,
    1 / 2 ^ 25, 1 / 2 ^ 25, 1 / 2 ^ 25, 1, 1, 1 / 2 - 1 / 2 ^ 23]

/-! ## The values of the seeding under a rounding -/

/-- The value of `optcost` after line 87 under the rounding `R`. -/
def seed_optcost (R : Site → ℚ → ℚ) (Num_Proc : Int) (globalcost : ℚ) : ℚ :=
  R .optcost (R .globalcost globalcost / R .count (Num_Proc : ℚ))

/-- The value of the quotient `prefcost/optcost` of line 88 under the rounding `R`. -/
def seed_quotient (R : Site → ℚ → ℚ) (Num_Proc : Int) (globalcost prefcost : ℚ) : ℚ :=
  R .quotient (R .prefcost prefcost / seed_optcost R Num_Proc globalcost)

/-- The value of `partition` after lines 88-90 under the rounding `R`. -/
def seed_partition (R : Site → ℚ → ℚ) (Num_Proc : Int) (globalcost prefcost : ℚ) : Int :=
  if float_to_int (seed_quotient R Num_Proc globalcost prefcost) = Num_Proc then Num_Proc - 1
  else float_to_int (seed_quotient R Num_Proc globalcost prefcost)

/-- The value of the product `partition*optcost` of lines 92 and 93 under the rounding `R`. -/
def seed_product (R : Site → ℚ → ℚ) (Num_Proc : Int) (globalcost prefcost : ℚ) : ℚ :=
  R .product (R .index (seed_partition R Num_Proc globalcost prefcost : ℚ) *
    seed_optcost R Num_Proc globalcost)

/-- The rounding of IEEE 754 binary32 at every site, with no largest exponent. -/
def round32 : Site → ℚ → ℚ := fun _ => roundNearestEven 24 (-149)

/-- Two binary32 costs whose sum is not a binary32 (nor a binary64) value. -/
def tinyCosts : List ℚ := [1, 1 / 2 ^ 60]

end Zoltan

namespace Tempus

/-!
# Time step control: `tempus/src/Tempus_TimeStepControl_impl.hpp`

A shallow embedding of `TimeStepControl<Scalar>`.

Modelling conventions.

* `Scalar` and `double` values are exact rationals; `int` values are unbounded integers, so
  that `order + 1` is the mathematical successor.
* A `std::string` is its list of characters; a position of type `size_type` is `some i`, or
  `none` for `std::string::npos`.
* A call that throws is the result `.error` with the class of the exception.  The loops run
  on a budget (`fuel`); an exhausted budget is `outOfFuel`, so a result `.ok` always stands
  for a terminating C++ execution.
* The conversions `std::stod` and `std::stoi` of the C++ library are parameters.
-/

/-- The enumeration `Tempus::StepType`. -/
inductive StepType where
  | CONSTANT_STEP_SIZE
  | VARIABLE_STEP_SIZE
deriving DecidableEq

/-- The classes of the exceptions thrown, and the exhausted budget of the model. -/
inductive Thrown where
  | logic_error
  | out_of_range
  | invalid_argument
  | outOfFuel
deriving DecidableEq

/-- The data members of `TimeStepControl` that `setParameterList` assigns and that
`getNextTimeStep` and `timeInRange` read, with `dtConstant`, which the constructor sets. -/
structure TimeStepControl where
  timeMin : ℚ
  timeMax : ℚ
  dtMin : ℚ
  dtMax : ℚ
  iStepMin : Int
  iStepMax : Int
  errorMaxAbs : ℚ
  errorMaxRel : ℚ
  orderMin : Int
  orderMax : Int
  stepType : StepType
  dtConstant : ℚ
  outputIndices : List Int
  outputTimes : List ℚ
  nFailuresMax : Int
  nConsecutiveFailuresMax : Int
deriving DecidableEq

/-- The fields of the working state's meta data that `getNextTimeStep` binds in lines
144-151: `time`, `iStep`, `errorAbs` and `errorRel` by value, `order`, `dt`, `suggestedDt` and
`output` by reference. -/
structure MetaData where
  time : ℚ
  iStep : Int
  errorAbs : ℚ
  errorRel : ℚ
  order : Int
  dt : ℚ
  suggestedDt : ℚ
  output : Bool

/-- How a call of `getNextTimeStep` ends: it returns, or it throws. -/
inductive Ending where
  | returned
  | threw (e : Thrown)
deriving DecidableEq

/-- The state that a call of `getNextTimeStep` leaves: the meta data, the reference argument
`integratorStatus`, and how the call ended. -/
structure Outcome where
  metaData : MetaData
  integratorStatus : Bool
  ending : Ending

/-- The macro `TEUCHOS_TEST_FOR_EXCEPTION(test, exception, msg)`: throws when the test
holds. -/
def test_for_exception (test : Prop) [Decidable test] (e : Thrown) : Except Thrown Unit :=
  if test then .error e else .ok ()

/-! ## `getNextTimeStep` -/

/-- The search `std::find(outputIndices.begin(), outputIndices.end(), i) != end`. -/
def found (outputIndices : List Int) (i : Int) : Bool := outputIndices.contains i

/-- The loop over `outputTimes` of lines 238-243 and 288-294: the first output time `t` with
`time < t && t <= time + dt`, if there is one. -/
def firstOutputTime (outputTimes : List ℚ) (time dt : ℚ) : Option ℚ :=
  outputTimes.find? (fun t => decide (time < t) && decide (t ≤ time + dt))

/-- Lines 153-162 of `getNextTimeStep`: `output` is reset, and a step size below `dtMin` is
raised to `dtMin`. -/
def resetStep (tsc : TimeStepControl) (m : MetaData) : MetaData :=
  let m := { m with output := false }
  if m.dt < tsc.dtMin then { m with dt := tsc.dtMin } else m

/-- The block of lines 167-184 of `getNextTimeStep`, which lines 187-207 and 210-230 repeat
with the tests of the two errors: when the test `failed` holds, the order is raised by one if
`order+1 <= orderMax`, and otherwise `integratorStatus` is set to `false` and the call
returns.  The error side of the result is that early return, with the state it leaves. -/
def raiseOrder (tsc : TimeStepControl) (failed : Prop) [Decidable failed] (m : MetaData) :
    Except Outcome MetaData :=
  if failed then
    if m.order + 1 ≤ tsc.orderMax then pure { m with order := m.order + 1 }
    else .error ⟨m, false, .returned⟩
  else pure m

/-- Lines 232-266 and 311 of `getNextTimeStep`: the output flag and the consistency checks
of the constant-step branch, and the assignment of `suggestedDt`.  The error side of the
result is the end of the call by an exception. -/
def constantChecks (tsc : TimeStepControl) (m : MetaData) (integratorStatus : Bool) :
    Except Outcome Outcome :=
  -- Check if to output this step
  let m := if found tsc.outputIndices (m.iStep + 1) then { m with output := true } else m
  let m := if !m.output then
      match firstOutputTime tsc.outputTimes m.time m.dt with
      | some _ => { m with output := true }
      | none => m
    else m
  let m := if m.time + m.dt < tsc.timeMin ∨ m.time + m.dt > tsc.timeMax then
      { m with output := true }
    else m
  -- Consistency checks
  if m.dt ≠ tsc.dtConstant then .error ⟨m, integratorStatus, .threw .out_of_range⟩
  else if m.order < tsc.orderMin ∨ m.order > tsc.orderMax then
    .error ⟨m, integratorStatus, .threw .out_of_range⟩
  else pure ⟨{ m with suggestedDt := m.dt }, integratorStatus, .returned⟩

/-- Lines 271-311 of `getNextTimeStep`: the variable-step branch and the assignment of
`suggestedDt`.  The error side of the result is the end of the call by an exception. -/
def variableStep (tsc : TimeStepControl) (m : MetaData) (stepperStatus integratorStatus : Bool) :
    Except Outcome Outcome :=
  let m := if stepperStatus ≠ true then { m with dt := m.dt / 2 } else m
  let m := if m.errorAbs > tsc.errorMaxAbs then { m with dt := m.dt / 2 } else m
  let m := if m.errorRel > tsc.errorMaxRel then { m with dt := m.dt / 2 } else m
  let m := if m.order < tsc.orderMin then { m with dt := m.dt * 2 } else m
  let m := if m.order > tsc.orderMax then { m with dt := m.dt / 2 } else m
  let m := if m.dt < tsc.dtMin then { m with dt := tsc.dtMin } else m
  let m := if m.dt > tsc.dtMax then { m with dt := tsc.dtMax } else m
  let m := if m.time + m.dt > tsc.timeMax then { m with dt := tsc.timeMax - m.time } else m
  -- Check if to output this step
  let m := if found tsc.outputIndices m.iStep then { m with output := true } else m
  let m := if !m.output then
      match firstOutputTime tsc.outputTimes m.time m.dt with
      | some t => { m with output := true, dt := t - m.time }
      | none => m
    else m
  -- Consistency checks
  if m.time + m.dt < tsc.timeMin then .error ⟨m, integratorStatus, .threw .out_of_range⟩
  else if m.time + m.dt > tsc.timeMax then
    .error ⟨m, integratorStatus, .threw .out_of_range⟩
  else pure ⟨{ m with suggestedDt := m.dt }, integratorStatus, .returned⟩

/-- The body of `getNextTimeStep`; the error side of the result is an early end of the call,
by `return` or by an exception, with the state left at that point. -/
def getNextTimeStep_body (tsc : TimeStepControl) (m : MetaData)
    (stepperStatus integratorStatus : Bool) : Except Outcome Outcome := do
  let m := resetStep tsc m
  if tsc.stepType = StepType.CONSTANT_STEP_SIZE then
    -- Stepper failure
    let m ← raiseOrder tsc (stepperStatus ≠ true) m
    -- Absolute error failure
    let m ← raiseOrder tsc (m.errorAbs > tsc.errorMaxAbs) m
    -- Relative error failure
    let m ← raiseOrder tsc (m.errorRel > tsc.errorMaxRel) m
    constantChecks tsc m integratorStatus
  else variableStep tsc m stepperStatus integratorStatus

/-- The member function `getNextTimeStep(solutionHistory, stepperStatus, integratorStatus)`,
on the meta data of the working state. -/
def getNextTimeStep (tsc : TimeStepControl) (m : MetaData)
    (stepperStatus integratorStatus : Bool) : Outcome :=
  match getNextTimeStep_body tsc m stepperStatus integratorStatus with
  | .ok r => r
  | .error r => r

/-- The number of the three failure conditions of the constant-step branch that hold. -/
def failureCount (tsc : TimeStepControl) (m : MetaData) (stepperStatus : Bool) : Int :=
  (if stepperStatus = false then 1 else 0) + (if m.errorAbs > tsc.errorMaxAbs then 1 else 0) +
    (if m.errorRel > tsc.errorMaxRel then 1 else 0)

/-! ## `timeInRange` and `indexInRange` -/

/-- The member function `timeInRange(time)`. -/
def timeInRange (tsc : TimeStepControl) (time : ℚ) : Bool :=
  let relTol : ℚ := 1 / 10 ^ 14
  let tir :=
    decide (tsc.timeMin * (1 - relTol) ≤ time) && decide (time < tsc.timeMax * (1 - relTol))
  tir

/-- The member function `indexInRange(iStep)`. -/
def indexInRange (tsc : TimeStepControl) (iStep : Int) : Bool :=
  let iir := decide (tsc.iStepMin ≤ iStep) && decide (iStep < tsc.iStepMax)
  iir

/-! ## `setParameterList` -/

/-- The entries of a `Teuchos::ParameterList` that `setParameterList` reads, by name and
type; an entry is `none` when the list does not have it.  The step type is the integral value
that the validator of the entry `"Step Type"` delivers. -/
structure ParameterList where
  timeMin : Option ℚ
  timeMax : Option ℚ
  dtMin : Option ℚ
  dtMax : Option ℚ
  iStepMin : Option Int
  iStepMax : Option Int
  errorMaxAbs : Option ℚ
  errorMaxRel : Option ℚ
  orderMin : Option Int
  orderMax : Option Int
  stepType : Option StepType
  outputTimeList : Option (List Char)
  outputIndexList : Option (List Char)
  outputTimeInterval : Option ℚ
  outputIndexInterval : Option Int
  nFailuresMax : Option Int
  nConsecutiveFailuresMax : Option Int

/-- Modelled from the spec: `Teuchos::ParameterList::get<T>(name, def)` (not among the
sources), the entry of that name when the list has one and the default `def` otherwise. -/
def get {T : Type} (entry : Option T) (default_value : T) : T := entry.getD default_value

/-- The value `std::numeric_limits<double>::max()`. -/
def double_max : ℚ := (2 ^ 53 - 1) * 2 ^ 971

/-- The value `std::numeric_limits<double>::epsilon()`. -/
def double_epsilon : ℚ := 1 / 2 ^ 52

/-- The value `std::numeric_limits<int>::max()`. -/
def int_max : Int := 2 ^ 31 - 1

/-- Line 16. -/
def timeMin_default : ℚ := 0

/-- Line 19. -/
def timeMax_default : ℚ := double_max

/-- Line 22. -/
def dtMin_default : ℚ := double_epsilon

/-- Line 25. -/
def dtMax_default : ℚ := double_max

/-- Line 28. -/
def iStepMin_default : Int := 0

/-- Line 31. -/
def iStepMax_default : Int := int_max

/-- Line 34. -/
def errorMaxAbs_default : ℚ := 1 / 10 ^ 8

/-- Line 37. -/
def errorMaxRel_default : ℚ := 1 / 10 ^ 8

/-- Line 40. -/
def orderMin_default : Int := 1

/-- Line 43. -/
def orderMax_default : Int := 4

/-- Line 48. -/
def StepType_default : StepType := StepType.VARIABLE_STEP_SIZE

/-- Line 64. -/
def outputTimeList_default : List Char := []

/-- Line 66. -/
def outputIndexList_default : List Char := []

/-- Line 68. -/
def outputTimeInterval_default : ℚ := 100

/-- Line 70. -/
def outputIndexInterval_default : Int := 100

/-- Line 74. -/
def nFailuresMax_default : Int := 10

/-- Line 77. -/
def nConsecutiveFailuresMax_default : Int := 5

/-- The entries of the list that `getValidParameters` builds: every entry with its
default. -/
def getValidParameters : ParameterList :=
  { timeMin := some timeMin_default
    timeMax := some timeMax_default
    dtMin := some dtMin_default
    dtMax := some dtMax_default
    iStepMin := some iStepMin_default
    iStepMax := some iStepMax_default
    errorMaxAbs := some errorMaxAbs_default
    errorMaxRel := some errorMaxRel_default
    orderMin := some orderMin_default
    orderMax := some orderMax_default
    stepType := some StepType_default
    outputTimeList := some outputTimeList_default
    outputIndexList := some outputIndexList_default
    outputTimeInterval := some outputTimeInterval_default
    outputIndexInterval := some outputIndexInterval_default
    nFailuresMax := some nFailuresMax_default
    nConsecutiveFailuresMax := some nConsecutiveFailuresMax_default }

/-- The scan of `find_first_of` and `find_first_not_of`: the position of the first character
of `s` that satisfies `p`, where `s` starts at the position `i`. -/
def findFrom (p : Char → Bool) : List Char → Nat → Option Nat
  | [], _ => none
  | c :: rest, i => if p c then some i else findFrom p rest (i + 1)

/-- The member `str.find_first_of(delimiters, pos)` of `std::string`: the first position from
`pos` on that holds one of the delimiters; `npos` when there is none or `pos` is `npos`. -/
def find_first_of (str delimiters : List Char) (pos : Option Nat) : Option Nat :=
  match pos with
  | none => none
  | some k => findFrom (fun c => delimiters.contains c) (str.drop k) k

/-- The member `str.find_first_not_of(delimiters, pos)` of `std::string`: the first position
from `pos` on that holds no delimiter; `npos` when there is none or `pos` is `npos`. -/
def find_first_not_of (str delimiters : List Char) (pos : Option Nat) : Option Nat :=
  match pos with
  | none => none
  | some k => findFrom (fun c => !delimiters.contains c) (str.drop k) k

/-- The count `pos - lastPos` handed to `substr`, in the arithmetic of `size_type`: `some n`
for a count `n` within the string, `none` for a count that reaches beyond every string (the
difference with `pos = npos`, or a difference that wraps around). -/
def countBetween (pos lastPos : Option Nat) : Option Nat :=
  match pos, lastPos with
  | some q, some p => if p ≤ q then some (q - p) else none
  | none, some _ => none
  | some q, none => some (q + 1)
  | none, none => some 0

/-- The member `str.substr(pos, count)` of `std::string`: it throws `std::out_of_range` when
`pos` is beyond the size of the string. -/
def substr (str : List Char) (pos count : Option Nat) : Except Thrown (List Char) :=
  match pos with
  | none => .error .out_of_range
  | some p =>
    if str.length < p then .error .out_of_range
    else
      match count with
      | none => .ok (str.drop p)
      | some n => .ok ((str.drop p).take n)

/-- The loops of lines 436-444 and 466-474,
`while ((pos != npos) || (lastPos != npos))`, with the conversion `convert` of a token
(`std::stod` or `std::stoi`); `out` is the vector that the values are pushed to. -/
def tokenLoop {T : Type} (convert : List Char → Except Thrown T) (str delimiters : List Char) :
    Nat → Option Nat → Option Nat → List T → Except Thrown (List T)
  | 0, _, _, _ => .error .outOfFuel
  | fuel + 1, lastPos, pos, out =>
    if pos ≠ none ∨ lastPos ≠ none then do
      let token ← substr str lastPos (countBetween pos lastPos)
      let v ← convert token
      let out := out ++ [v]
      if pos = none then pure out
      else
        let lastPos := find_first_not_of str delimiters pos
        let pos := find_first_of str delimiters lastPos
        tokenLoop convert str delimiters fuel lastPos pos out
    else pure out

/-- Lines 431-444 and 461-474: the values of the tokens of a comma-delimited string, in
order. -/
def parseList {T : Type} (convert : List Char → Except Thrown T) (fuel : Nat)
    (str : List Char) : Except Thrown (List T) :=
  let delimiters := [',']
  let lastPos := find_first_not_of str delimiters (some 0)
  let pos := find_first_of str delimiters lastPos
  tokenLoop convert str delimiters fuel lastPos pos []

/-- The loops of lines 449-452 and 479-482,
`while (x <= max) { v.push_back(x); x += interval; }`, on the `Scalar` variable `x`;
`narrow` is the conversion of a `Scalar` to the element type of the vector. -/
def intervalLoop {T : Type} (narrow : ℚ → T) (max interval : ℚ) :
    Nat → ℚ → List T → Except Thrown (List T)
  | 0, _, _ => .error .outOfFuel
  | fuel + 1, x, out =>
    if x ≤ max then intervalLoop narrow max interval fuel (x + interval) (out ++ [narrow x])
    else pure out

/-- The conversion of a `Scalar` to `int`: the fractional part is discarded. -/
def scalar_to_int (x : ℚ) : Int := if 0 ≤ x then ⌊x⌋ else ⌈x⌉

/-- The call `std::sort(v.begin(), v.end())`: the elements in ascending order. -/
def std_sort {T : Type} [LinearOrder T] (v : List T) : List T := v.insertionSort (· ≤ ·)

/-- The member function `setParameterList(pList_)`; `stod` and `stoi` are the conversions of
the C++ library, `fuel` is the budget of each loop, and the result is the object with the
members assigned.  The validation of the list against `getValidParameters` concerns the
names and types of its entries, which `ParameterList` fixes; the verbosity sublist does not
reach the members modelled. -/
def setParameterList (stod : List Char → Except Thrown ℚ)
    (stoi : List Char → Except Thrown Int) (fuel : Nat) (pList_ : Option ParameterList)
    (tsc : TimeStepControl) :
    Except Thrown TimeStepControl :=
  match pList_ with
  | none => .error .logic_error
  | some pList => do
    let timeMin := get pList.timeMin timeMin_default
    let timeMax := get pList.timeMax timeMax_default
    test_for_exception (timeMin > timeMax) .logic_error
    let dtMin := get pList.dtMin dtMin_default
    let dtMax := get pList.dtMax dtMax_default
    test_for_exception (dtMin < 0) .logic_error
    test_for_exception (dtMax < 0) .logic_error
    test_for_exception (dtMin > dtMax) .logic_error
    let iStepMin := get pList.iStepMin iStepMin_default
    let iStepMax := get pList.iStepMax iStepMax_default
    test_for_exception (iStepMin > iStepMax) .logic_error
    let errorMaxAbs := get pList.errorMaxAbs errorMaxAbs_default
    let errorMaxRel := get pList.errorMaxRel errorMaxRel_default
    test_for_exception (errorMaxAbs < 0) .logic_error
    test_for_exception (errorMaxRel < 0) .logic_error
    let orderMin := get pList.orderMin orderMin_default
    let orderMax := get pList.orderMax orderMax_default
    test_for_exception ((orderMin : ℚ) < 0) .logic_error
    test_for_exception ((orderMax : ℚ) < 0) .logic_error
    test_for_exception (orderMin > orderMax) .logic_error
    let stepType := get pList.stepType StepType_default
    -- Parse output times
    let outputTimes ←
      parseList stod fuel (get pList.outputTimeList outputTimeList_default)
    let outputTimeInterval : ℚ :=
      get pList.outputTimeInterval outputTimeInterval_default
    let outputTimes ← intervalLoop id timeMax outputTimeInterval fuel timeMin outputTimes
    let outputTimes := std_sort outputTimes
    -- Parse output indices
    let outputIndices ←
      parseList stoi fuel (get pList.outputIndexList outputIndexList_default)
    let outputIndexInterval : ℚ :=
      ((get pList.outputIndexInterval outputIndexInterval_default : Int) : ℚ)
    let outputIndices ←
      intervalLoop scalar_to_int (iStepMax : ℚ) outputIndexInterval fuel (iStepMin : ℚ)
        outputIndices
    let outputIndices := std_sort outputIndices
    let nFailuresMax := get pList.nFailuresMax nFailuresMax_default
    let nConsecutiveFailuresMax :=
      get pList.nConsecutiveFailuresMax nConsecutiveFailuresMax_default
    pure { tsc with
      timeMin := timeMin, timeMax := timeMax, dtMin := dtMin, dtMax := dtMax,
      iStepMin := iStepMin, iStepMax := iStepMax, errorMaxAbs := errorMaxAbs,
      errorMaxRel := errorMaxRel, orderMin := orderMin, orderMax := orderMax,
      stepType := stepType, outputIndices := outputIndices, outputTimes := outputTimes,
      nFailuresMax := nFailuresMax, nConsecutiveFailuresMax := nConsecutiveFailuresMax }

/-! ## The output index list in the words of its description -/

/-- The fields of a comma-delimited string that are not empty, in order. -/
def fields (str : List Char) : List (List Char) :=
  (str.splitOn ',').filter (fun t => !t.isEmpty)

/-- The indices `iStepMin + k * d` for `k = 0, 1, ...` up to the last one that is at most
`iStepMax`, for a positive interval `d`. -/
def indexProgression (iStepMin d iStepMax : Int) : List Int :=
  (List.range ((iStepMax - iStepMin) / d + 1).toNat).map
    (fun k : Nat => iStepMin + (k : Int) * d)

/-! ## Sample data -/

/-- The value of a decimal digit. -/
def digitValue (c : Char) : Option Int :=
  if '0'.toNat ≤ c.toNat ∧ c.toNat ≤ '9'.toNat then some ((c.toNat : Int) - '0'.toNat)
  else none

/-- A conversion of tokens for the samples: the value of a non-empty string of decimal
digits; `std::invalid_argument` for every other token. -/
def sampleStoi (token : List Char) : Except Thrown Int :=
  match token with
  | [] => .error .invalid_argument
  | _ =>
    token.foldlM (fun acc c =>
      match digitValue c with
      | some v => .ok (acc * 10 + v)
      | none => .error .invalid_argument) 0

/-- A conversion of tokens to `Scalar` for the samples: that of `sampleStoi`. -/
def sampleStod (token : List Char) : Except Thrown ℚ :=
  (sampleStoi token).map (fun z => (z : ℚ))

/-- A parameter list: times from 0 to 10 every 5, indices from 2 to 11 every 4, and the index
list `",7,,3,"`. -/
def sampleList : ParameterList :=
  { getValidParameters with
    timeMax := some 10
    outputTimeInterval := some 5
    iStepMin := some 2
    iStepMax := some 11
    outputIndexInterval := some 4
    outputIndexList := some [',', '7', ',', ',', '3', ','] }

/-- A control object before `setParameterList`. -/
def blankControl : TimeStepControl :=
  { timeMin := 0, timeMax := 0, dtMin := 0, dtMax := 0, iStepMin := 0, iStepMax := 0,
    errorMaxAbs := 0, errorMaxRel := 0, orderMin := 0, orderMax := 0,
    stepType := StepType.VARIABLE_STEP_SIZE, dtConstant := 0, outputIndices := [],
    outputTimes := [], nFailuresMax := 0, nConsecutiveFailuresMax := 0 }

/-- A control object with constant steps of size 1 and orders from 1 to 3. -/
def constantControl : TimeStepControl :=
  { blankControl with
    timeMax := 10, dtMax := 1, errorMaxAbs := 1, errorMaxRel := 1, orderMin := 1, orderMax := 3,
    stepType := StepType.CONSTANT_STEP_SIZE, dtConstant := 1 }

/-- Meta data of a working state of order 2 with both errors at 2. -/
def sampleMetaData : MetaData :=
  { time := 0, iStep := 0, errorAbs := 2, errorRel := 2, order := 2, dt := 1, suggestedDt := 7,
    output := false }

/-- What makes `setParameterList` accept a parameter list: the ranges are consistent, the
tokens of the two lists convert, and the two intervals are positive. -/
structure Admissible (stod : List Char → Except Thrown ℚ)
    (stoi : List Char → Except Thrown Int) (pList : ParameterList) : Prop where
  time : get pList.timeMin timeMin_default ≤ get pList.timeMax timeMax_default
  dtMin : 0 ≤ get pList.dtMin dtMin_default
  dt : get pList.dtMin dtMin_default ≤ get pList.dtMax dtMax_default
  iStep : get pList.iStepMin iStepMin_default ≤ get pList.iStepMax iStepMax_default
  errorMaxAbs : 0 ≤ get pList.errorMaxAbs errorMaxAbs_default
  errorMaxRel : 0 ≤ get pList.errorMaxRel errorMaxRel_default
  orderMin : 0 ≤ get pList.orderMin orderMin_default
  order : get pList.orderMin orderMin_default ≤ get pList.orderMax orderMax_default
  times : ∃ v, (fields (get pList.outputTimeList outputTimeList_default)).mapM stod = .ok v
  indices : ∃ v, (fields (get pList.outputIndexList outputIndexList_default)).mapM stoi = .ok v
  timeInterval : 0 < get pList.outputTimeInterval outputTimeInterval_default
  indexInterval : 0 < get pList.outputIndexInterval outputIndexInterval_default

/-- The control object that `setParameterList` makes of `blankControl` with `sampleList`. -/
def sampleControl : TimeStepControl :=
  { timeMin := 0, timeMax := 10, dtMin := double_epsilon, dtMax := double_max, iStepMin := 2,
    iStepMax := 11, errorMaxAbs := 1 / 10 ^ 8, errorMaxRel := 1 / 10 ^ 8, orderMin := 1,
    orderMax := 4, stepType := StepType.VARIABLE_STEP_SIZE, dtConstant := 0,
    outputIndices := [2, 3, 6, 7, 10], outputTimes := [0, 5, 10], nFailuresMax := 10,
    nConsecutiveFailuresMax := 5 }

end Tempus

namespace Zoltan

/-! # Theorems -/

/-! ## Basic facts -/

@[simp] theorem ok_bind {α β : Type} (a : α) (f : α → Except Fault β) :
    (Except.ok a >>= f) = f a := rfl

@[simp] theorem error_bind {α β : Type} (e : Fault) (f : α → Except Fault β) :
    ((Except.error e : Except Fault α) >>= f) = Except.error e := rfl

@[simp] theorem pure_eq_ok {α : Type} (a : α) : (pure a : Except Fault α) = Except.ok a := rfl

theorem mem_slots (i : Fin 8) : i ∈ slots := by
  revert i; decide

theorem slots_nodup : slots.Nodup := by decide

theorem deref_some {w : World} {a : Nat} {o : Octant} (h : w.mem a = some o) :
    deref w (some a) = .ok o := by
  simp [deref, h]

theorem isTerminal_scan_eq (o : Octant) (l : List (Fin 8)) (child : Bool) :
    POC_isTerminal_scan o l child = (child || l.any (fun i => (o.child i).isSome)) := by
  induction l generalizing child with
  | nil => simp [POC_isTerminal_scan]
  | cons i rest ih =>
    cases child
    · simp [POC_isTerminal_scan, ih]
    · simp [POC_isTerminal_scan]

theorem isTerminal_scan_false (o : Octant) :
    POC_isTerminal_scan o slots false = false ↔ ∀ i, o.child i = none := by
  rw [isTerminal_scan_eq]
  simp only [Bool.false_or, List.any_eq_false]
  constructor
  · intro h i
    have := h i (mem_slots i)
    simpa using this
  · intro h i _
    simp [h i]

theorem POC_isTerminal_some {w : World} {a : Nat} {o : Octant} (h : w.mem a = some o) :
    POC_isTerminal w (some a) = .ok (decide (∀ i, o.child i = none)) := by
  simp only [POC_isTerminal, deref_some h, ok_bind, pure_eq_ok]
  congr 1
  by_cases hc : ∀ i, o.child i = none
  · simp [(isTerminal_scan_false o).2 hc, hc]
  · have : POC_isTerminal_scan o slots false ≠ false := fun hf => hc ((isTerminal_scan_false o).1 hf)
    simp [hc, this]


/-! ## The frame of a pass -/

theorem setNpid_setNpid (p q : Int) (o : Octant) : setNpid p (setNpid q o) = setNpid p o := rfl

theorem setNpid_fields {o o' : Octant} (h : setNpid 0 o' = setNpid 0 o) :
    o' = setNpid o'.npid o := by
  cases o; cases o'
  simp only [setNpid, Octant.mk.injEq] at h ⊢
  simp_all

theorem Frame.refl (w : World) : Frame w w :=
  ⟨fun _ => rfl, rfl, rfl, rfl, rfl, rfl, rfl, rfl⟩

theorem Frame.comp {w w1 w2 : World} (h1 : Frame w w1) (h2 : Frame w1 w2) : Frame w w2 :=
  ⟨fun a => (h2.mem a).trans (h1.mem a), h2.rootlist.trans h1.rootlist,
   h2.localpid.trans h1.localpid, h2.dimension.trans h1.dimension, h2.count.trans h1.count,
   h2.idcount.trans h1.idcount, h2.close.trans h1.close, h2.optcost.trans h1.optcost⟩

theorem Frame.symm {w w' : World} (h : Frame w w') : Frame w' w :=
  ⟨fun a => (h.mem a).symm, h.rootlist.symm, h.localpid.symm, h.dimension.symm, h.count.symm,
   h.idcount.symm, h.close.symm, h.optcost.symm⟩

theorem Frame.mem_some {w w' : World} (h : Frame w w') {a : Nat} {o : Octant}
    (hm : w.mem a = some o) : ∃ o', w'.mem a = some o' ∧ o' = setNpid o'.npid o := by
  have := h.mem a
  rw [hm] at this
  cases hm' : w'.mem a with
  | none => rw [hm'] at this; simp at this
  | some o' =>
    rw [hm'] at this
    simp only [Option.map_some', Option.some.injEq] at this
    exact ⟨o', rfl, setNpid_fields this⟩

theorem Frame.mem_none {w w' : World} (h : Frame w w') {a : Nat}
    (hm : w.mem a = none) : w'.mem a = none := by
  have := h.mem a
  rw [hm] at this
  simpa using this

theorem Frame.localChild {w w' : World} (h : Frame w w') {a c : Nat}
    (hc : LocalChild w a c) : LocalChild w' a c := by
  obtain ⟨o, i, hm, hch, hcp⟩ := hc
  obtain ⟨o', hm', ho'⟩ := h.mem_some hm
  refine ⟨o', i, hm', ?_, ?_⟩
  · rw [ho']; exact hch
  · rw [ho', h.localpid]; exact hcp

theorem Frame.reach_iff {w w' : World} (h : Frame w w') {a b : Nat} :
    Reach w' a b ↔ Reach w a b :=
  ⟨Relation.ReflTransGen.mono (fun _ _ hc => h.symm.localChild hc),
   Relation.ReflTransGen.mono (fun _ _ hc => h.localChild hc)⟩

theorem Frame.depth {w w' : World} (h : Frame w w') {n a : Nat} (hd : Depth w n a) :
    Depth w' n a := by
  induction hd with
  | node hm _ ih =>
    obtain ⟨o', hm', ho'⟩ := h.mem_some hm
    refine Depth.node hm' (fun i c hch hcp => ih i c ?_ ?_)
    · rw [ho'] at hch; exact hch
    · rw [ho', h.localpid] at hcp; exact hcp

theorem Depth.mono {w : World} {n m a : Nat} (hd : Depth w n a) (hnm : n ≤ m) : Depth w m a := by
  induction hd generalizing m with
  | node hm _ ih =>
    cases m with
    | zero => omega
    | succ m => exact Depth.node hm (fun i c hch hcp => ih i c hch hcp (by omega))

theorem Depth.live {w : World} {n a : Nat} (hd : Depth w n a) : ∃ o, w.mem a = some o := by
  cases hd with
  | node hm _ => exact ⟨_, hm⟩

theorem Depth.child {w : World} {n a c : Nat} (hd : Depth w (n + 1) a) (hc : LocalChild w a c) :
    Depth w n c := by
  obtain ⟨o, i, hm, hch, hcp⟩ := hc
  cases hd with
  | node hm' hk =>
    rw [hm] at hm'
    cases hm'
    exact hk i c hch hcp

theorem Depth.of_reach {w : World} {a b : Nat} (hr : Reach w a b) :
    ∀ {n : Nat}, Depth w n a → Depth w n b := by
  induction hr with
  | refl => exact fun h => h
  | tail _ hc ih =>
    intro n hd
    have hb := ih hd
    cases n with
    | zero => cases hb
    | succ n => exact (hb.child hc).mono (by omega)

/-! ## Tagging relations -/

theorem TagRel.frame {w w' : World} {S : Nat → Prop} {p : Int} (h : TagRel w w' S p) :
    Frame w w' := by
  obtain ⟨hw, hS, hN⟩ := h
  refine ⟨fun b => ?_, ?_, ?_, ?_, ?_, ?_, ?_, ?_⟩
  · by_cases hb : S b
    · rw [hS b hb]; cases w.mem b <;> rfl
    · rw [hN b hb]
  all_goals rw [hw]

theorem TagRel.empty (w : World) (p : Int) : TagRel w w (fun _ => False) p :=
  ⟨rfl, fun _ h => h.elim, fun _ _ => rfl⟩

theorem TagRel.congr {w w' : World} {S T : Nat → Prop} {p : Int} (h : TagRel w w' S p)
    (hST : ∀ b, S b ↔ T b) : TagRel w w' T p :=
  ⟨h.1, fun b hb => h.2.1 b ((hST b).2 hb), fun b hb => h.2.2 b (fun hs => hb ((hST b).1 hs))⟩

theorem TagRel.union {w w1 w2 : World} {S T : Nat → Prop} {p : Int}
    (h1 : TagRel w w1 S p) (h2 : TagRel w1 w2 T p) : TagRel w w2 (fun b => S b ∨ T b) p := by
  obtain ⟨e1, s1, n1⟩ := h1
  obtain ⟨e2, s2, n2⟩ := h2
  refine ⟨?_, fun b hb => ?_, fun b hb => ?_⟩
  · rw [e2, e1]
  · by_cases hT : T b
    · rw [s2 b hT]
      by_cases hS : S b
      · rw [s1 b hS]; cases w.mem b <;> rfl
      · rw [n1 b hS]
    · rw [n2 b hT]
      exact s1 b (hb.resolve_right hT)
  · rw [n2 b (fun h => hb (Or.inr h)), n1 b (fun h => hb (Or.inl h))]

/-- An invariant rule for loops over a list in the `Except` monad: the invariant is indexed by
the part of the list already processed. -/
theorem foldlM_inv {α σ : Type} (f : σ → α → Except Fault σ) (I : List α → σ → Prop)
    (l : List α)
    (hstep : ∀ pre x suf s, pre ++ x :: suf = l → I pre s →
      ∃ s', f s x = .ok s' ∧ I (pre ++ [x]) s')
    (s : σ) (h0 : I [] s) : ∃ s', l.foldlM f s = .ok s' ∧ I l s' := by
  have key : ∀ (suf pre : List α) (s : σ), pre ++ suf = l → I pre s →
      ∃ s', suf.foldlM f s = .ok s' ∧ I l s' := by
    intro suf
    induction suf with
    | nil =>
      intro pre s hl hI
      rw [List.append_nil] at hl
      subst hl
      exact ⟨s, rfl, hI⟩
    | cons x suf ih =>
      intro pre s hl hI
      obtain ⟨s1, hf, hI1⟩ := hstep pre x suf s hl hI
      obtain ⟨s2, hf2, hI2⟩ := ih (pre ++ [x]) s1 (by simpa using hl) hI1
      refine ⟨s2, ?_, hI2⟩
      simp only [List.foldlM_cons, hf, ok_bind]
      exact hf2
  exact key l [] s rfl h0


/-! ## `LB_tag_subtree` -/

theorem POC_modify_newpid_some {w : World} {a : Nat} {o : Octant} (h : w.mem a = some o)
    (p : Int) : POC_modify_newpid w (some a) p =
      .ok { w with mem := Function.update w.mem a (some (setNpid p o)) } := by
  simp [POC_modify_newpid, h, setNpid]

theorem POC_local_some {w : World} {a : Nat} {o : Octant} (h : w.mem a = some o) (i : Fin 8) :
    POC_local w (some a) i = .ok (decide (o.cpid i = w.OCT_localpid)) := by
  simp only [POC_local, deref_some h, ok_bind, pure_eq_ok]
  by_cases hc : o.cpid i = w.OCT_localpid <;> simp [hc]

theorem POC_children_some {w : World} {a : Nat} {o : Octant} (h : w.mem a = some o) :
    POC_children w (some a) = .ok (o.numChild, o.child) := by
  simp [POC_children, deref_some h]

theorem TagRel.single {w : World} {a : Nat} {o : Octant} (h : w.mem a = some o) (p : Int) :
    TagRel w { w with mem := Function.update w.mem a (some (setNpid p o)) } (fun b => b = a) p := by
  refine ⟨rfl, fun b hb => ?_, fun b hb => ?_⟩
  · subst hb; simp [h]
  · simp [Function.update_noteq hb]

theorem reach_of_no_child {w : World} {a b : Nat} {o : Octant} (hm : w.mem a = some o)
    (hno : ∀ i c, o.child i = some c → o.cpid i ≠ w.OCT_localpid) (hr : Reach w a b) : b = a := by
  rcases Relation.ReflTransGen.cases_head hr with h | ⟨c, ⟨o', i, hm', hch, hcp⟩, _⟩
  · exact h.symm
  · rw [hm] at hm'; cases hm'
    exact (hno i c hch hcp).elim

theorem reach_iff_children {w : World} {a b : Nat} {o : Octant} (hm : w.mem a = some o) :
    Reach w a b ↔ (b = a ∨ ∃ i c, o.child i = some c ∧ o.cpid i = w.OCT_localpid ∧ Reach w c b) := by
  constructor
  · intro hr
    rcases Relation.ReflTransGen.cases_head hr with h | ⟨c, ⟨o', i, hm', hch, hcp⟩, hcb⟩
    · exact Or.inl h.symm
    · rw [hm] at hm'; cases hm'
      exact Or.inr ⟨i, c, hch, hcp, hcb⟩
  · rintro (h | ⟨i, c, hch, hcp, hcb⟩)
    · subst h; exact Relation.ReflTransGen.refl
    · exact Relation.ReflTransGen.head ⟨o, i, hm, hch, hcp⟩ hcb

/-- The invariant rule for the loop `for (i=0; i<8; i++) if (children[i] && POC_local(octant,i))
g(children[i])` shared by `LB_tag_subtree` and `LB_visit`. -/
theorem children_loop_inv (g : World → pOctant → Except Fault World) (a : Nat) (o : Octant)
    (lp : Int) (children : Fin 8 → pOctant) (I : List (Fin 8) → World → Prop)
    (hmem : ∀ pre s, I pre s → ∃ o', s.mem a = some o' ∧ o'.cpid = o.cpid ∧ s.OCT_localpid = lp)
    (hskip : ∀ pre x s, x ∉ pre → I pre s → (children x = none ∨ o.cpid x ≠ lp) →
      I (pre ++ [x]) s)
    (hvisit : ∀ pre x s c, x ∉ pre → I pre s → children x = some c → o.cpid x = lp →
      ∃ s', g s (some c) = .ok s' ∧ I (pre ++ [x]) s')
    (s : World) (h0 : I [] s) :
    ∃ s', slots.foldlM (fun w i =>
        if (children i).isSome then do
          if (← POC_local w (some a) i) then g w (children i)
          else pure w
        else pure w) s = .ok s' ∧ I slots s' := by
  refine foldlM_inv _ I slots (fun pre x suf s hl hI => ?_) s h0
  have hx : x ∉ pre := by
    have hnd := slots_nodup
    rw [← hl] at hnd
    intro hmem
    have := (List.nodup_append.1 hnd).2.2
    exact this hmem (List.mem_cons_self _ _) 
  obtain ⟨o', hm', hcp, hlp⟩ := hmem pre s hI
  cases hch : children x with
  | none =>
    simp only [Option.isSome_none, Bool.false_eq_true, if_false, pure_eq_ok]
    exact ⟨s, rfl, hskip pre x s hx hI (Or.inl hch)⟩
  | some c =>
    simp only [Option.isSome_some, if_true, POC_local_some hm', ok_bind, hcp, hlp]
    by_cases hloc : o.cpid x = lp
    · simp only [hloc, decide_True, if_true]
      exact hvisit pre x s c hx hI hch hloc
    · simp only [hloc, decide_False, Bool.false_eq_true, if_false, pure_eq_ok]
      exact ⟨s, rfl, hskip pre x s hx hI (Or.inr hloc)⟩

theorem LB_tag_subtree_spec (p : Int) : ∀ (fuel : Nat) (w : World) (n a : Nat),
    Depth w n a → n ≤ fuel →
    ∃ w', LB_tag_subtree fuel w (some a) p = .ok w' ∧ TagRel w w' (Reach w a) p := by
  intro fuel
  induction fuel with
  | zero =>
    intro w n a hd hn
    have : n = 0 := by omega
    subst this
    cases hd
  | succ fuel ih =>
    intro w n a hd hn
    cases hd with
    | @node n' _ o hm hk =>
      have hm1 : ({ w with mem := Function.update w.mem a (some (setNpid p o)) } : World).mem a
          = some (setNpid p o) := by simp
      rw [LB_tag_subtree]
      simp only [POC_modify_newpid_some hm, ok_bind, POC_isTerminal_some hm1]
      by_cases hterm : ∀ i, o.child i = none
      · have hterm' : ∀ i, (setNpid p o).child i = none := hterm
        simp only [hterm', decide_True, if_true, pure_eq_ok]
        refine ⟨_, rfl, (TagRel.single hm p).congr (fun b => ?_)⟩
        constructor
        · intro hb; subst hb; exact Relation.ReflTransGen.refl
        · exact reach_of_no_child hm (fun i c hch => by rw [hterm i] at hch; cases hch)
      · have hterm' : ¬ ∀ i, (setNpid p o).child i = none := hterm
        simp only [hterm', decide_False, POC_children_some hm1, ok_bind, Bool.false_eq_true,
          if_false]
        obtain ⟨w', hw', hI⟩ := children_loop_inv (fun w c => LB_tag_subtree fuel w c p) a o
          w.OCT_localpid (setNpid p o).child
          (fun pre s => TagRel w s (fun b => b = a ∨ ∃ i ∈ pre, ∃ c, o.child i = some c ∧
            o.cpid i = w.OCT_localpid ∧ Reach w c b) p)
          (fun pre s hI => by
            refine ⟨setNpid p o, ?_, rfl, ?_⟩
            · rw [hI.2.1 a (Or.inl rfl), hm]; rfl
            · rw [hI.1])
          (fun pre x s hx hI hsk => by
            refine hI.congr (fun b => ?_)
            constructor
            · rintro (h | ⟨i, hi, c, h1, h2, h3⟩)
              · exact Or.inl h
              · exact Or.inr ⟨i, List.mem_append_left _ hi, c, h1, h2, h3⟩
            · rintro (h | ⟨i, hi, c, h1, h2, h3⟩)
              · exact Or.inl h
              · rcases List.mem_append.1 hi with hi | hi
                · exact Or.inr ⟨i, hi, c, h1, h2, h3⟩
                · rw [List.mem_singleton] at hi; subst hi
                  rcases hsk with hsk | hsk
                  · have : o.child i = none := hsk
                    rw [this] at h1; cases h1
                  · exact (hsk h2).elim)
          (fun pre x s c hx hI hch hloc => by
            have hfr := hI.frame
            obtain ⟨s', hs', hT⟩ := ih s n' c (hfr.depth (hk x c hch hloc)) (by omega)
            refine ⟨s', hs', ((hI.union hT).congr (fun b => ?_))⟩
            rw [hfr.reach_iff]
            constructor
            · rintro ((h | ⟨i, hi, c', h1, h2, h3⟩) | h)
              · exact Or.inl h
              · exact Or.inr ⟨i, List.mem_append_left _ hi, c', h1, h2, h3⟩
              · exact Or.inr ⟨x, by simp, c, hch, hloc, h⟩
            · rintro (h | ⟨i, hi, c', h1, h2, h3⟩)
              · exact Or.inl (Or.inl h)
              · rcases List.mem_append.1 hi with hi | hi
                · exact Or.inl (Or.inr ⟨i, hi, c', h1, h2, h3⟩)
                · rw [List.mem_singleton] at hi; subst hi
                  have : o.child i = some c := hch
                  rw [this] at h1; cases h1
                  exact Or.inr h3)
          _ ((TagRel.single hm p).congr (fun b => by simp))
        refine ⟨w', hw', hI.congr (fun b => ?_)⟩
        rw [reach_iff_children hm]
        constructor
        · rintro (h | ⟨i, _, c, h1, h2, h3⟩)
          · exact Or.inl h
          · exact Or.inr ⟨i, c, h1, h2, h3⟩
        · rintro (h | ⟨i, c, h1, h2, h3⟩)
          · exact Or.inl h
          · exact Or.inr ⟨i, mem_slots i, c, h1, h2, h3⟩


/-! ## `LB_visit`: the three rules -/

theorem POC_origin_volume_eq (U : OctUtil) (w : World) (a : Nat) :
    POC_origin_volume U w (some a) =
      match w.mem a with
      | none => .error .segfault
      | some o => .ok (octOrigin U o, octVolume U o) := by
  simp only [POC_origin_volume, POC_bounds, deref]
  cases w.mem a <;> rfl

theorem LB_costs_value_eq (w : World) (a : Nat) :
    LB_costs_value w (some a) =
      match w.mem a with
      | none => .error .segfault
      | some o => .ok o.cost := by
  simp only [LB_costs_value, POC_data_cost, deref]
  cases w.mem a <;> rfl

theorem POC_isTerminal_eq (w : World) (a : Nat) :
    POC_isTerminal w (some a) =
      match w.mem a with
      | none => .error .segfault
      | some o => .ok (decide (∀ i, o.child i = none)) := by
  cases h : w.mem a with
  | none => simp [POC_isTerminal, deref, h]
  | some o => exact POC_isTerminal_some h

theorem POC_children_eq (w : World) (a : Nat) :
    POC_children w (some a) =
      match w.mem a with
      | none => .error .segfault
      | some o => .ok (o.numChild, o.child) := by
  simp only [POC_children, deref]
  cases w.mem a <;> rfl

theorem POC_modify_newpid_eq (w : World) (a : Nat) (p : Int) :
    POC_modify_newpid w (some a) p =
      match w.mem a with
      | none => .error .segfault
      | some o => .ok { w with mem := Function.update w.mem a (some (setNpid p o)) } := by
  simp only [POC_modify_newpid]
  cases w.mem a <;> rfl

theorem POC_bounds_eq (w : World) (a : Nat) :
    POC_bounds w (some a) =
      match w.mem a with
      | none => .error .segfault
      | some o => .ok (o.min, o.max) := by
  simp only [POC_bounds, deref]
  cases w.mem a <;> rfl

theorem LB_visit_fits (U : OctUtil) {fuel n : Nat} {w : World} {a : Nat} {o : Octant}
    (hm : w.mem a = some o)
    (hfit : o.cost = 0 ∨ w.pcost + o.cost ≤ w.optcost + ((w.partition : ℚ) * w.optcost - w.total))
    (hd : Depth w n a) (hn : n ≤ fuel + 1) :
    ∃ wt, TagRel { w with DFS_Part_Count := w.DFS_Part_Count + 1 } wt (Reach w a) w.partition ∧
      LB_visit U (fuel + 1) w (some a) = .ok (accumulate U o wt) := by
  have hfr : Frame w { w with DFS_Part_Count := w.DFS_Part_Count + 1 } :=
    ⟨fun _ => rfl, rfl, rfl, rfl, rfl, rfl, rfl, rfl⟩
  obtain ⟨wt, hwt, hT⟩ := LB_tag_subtree_spec w.partition (fuel + 1)
    { w with DFS_Part_Count := w.DFS_Part_Count + 1 } n a (hfr.depth hd) hn
  have hT' : TagRel { w with DFS_Part_Count := w.DFS_Part_Count + 1 } wt (Reach w a) w.partition :=
    hT.congr (fun b => hfr.reach_iff)
  refine ⟨wt, hT', ?_⟩
  have hma : wt.mem a = some (setNpid w.partition o) := by
    rw [hT'.2.1 a Relation.ReflTransGen.refl]
    show Option.map _ (w.mem a) = _
    rw [hm]; rfl
  rw [LB_visit]
  simp only [LB_costs_value_eq, hm, ok_bind, if_pos hfit, hwt, POC_origin_volume_eq, hma,
    pure_eq_ok]
  rfl

theorem LB_visit_terminal (U : OctUtil) {fuel : Nat} {w : World} {a : Nat} {o : Octant}
    (hm : w.mem a = some o) (hnofit : ¬ Fits w o.cost) (hterm : ∀ i, o.child i = none) :
    LB_visit U (fuel + 1) w (some a) =
      .ok (accumulate U o
        (if o.cost - togoOf w ≥ togoOf w then
          writeNpid (closePartition (countVisit w)) a o (w.partition + 1)
        else writeNpid (countVisit w) a o w.partition)) := by
  have hnofit' : ¬ (o.cost = 0 ∨
      w.pcost + o.cost ≤ w.optcost + ((w.partition : ℚ) * w.optcost - w.total)) := hnofit
  rw [LB_visit]
  simp only [LB_costs_value_eq, hm, ok_bind, if_neg hnofit', POC_isTerminal_eq, hterm,
    implies_true, decide_True, Bool.not_true, Bool.false_eq_true, if_false]
  by_cases hc : o.cost - togoOf w ≥ togoOf w
  · have hc' : o.cost - ((w.partition : ℚ) * w.optcost - w.total + w.optcost - w.pcost) ≥
        (w.partition : ℚ) * w.optcost - w.total + w.optcost - w.pcost := hc
    simp only [if_pos hc, if_pos hc', POC_modify_newpid_eq, hm, ok_bind, POC_origin_volume_eq,
      Function.update_same, pure_eq_ok]
    rfl
  · have hc' : ¬ (o.cost - ((w.partition : ℚ) * w.optcost - w.total + w.optcost - w.pcost) ≥
        (w.partition : ℚ) * w.optcost - w.total + w.optcost - w.pcost) := hc
    simp only [if_neg hc, if_neg hc', POC_modify_newpid_eq, hm, ok_bind, POC_origin_volume_eq,
      Function.update_same, pure_eq_ok]
    rfl

theorem LB_visit_descend (U : OctUtil) {fuel : Nat} {w : World} {a : Nat} {o : Octant}
    (hm : w.mem a = some o) (hnofit : ¬ Fits w o.cost) (hnt : ¬ ∀ i, o.child i = none) :
    LB_visit U (fuel + 1) w (some a) =
      if w.CLOSE ≠ 0 then
        LB_visit_by_dist U (fun w c => LB_visit U fuel w c)
          (writeNpid (countVisit w) a o w.partition) (some a) o.child
      else
        slots.foldlM (fun w i =>
          if (o.child i).isSome then do
            if (← POC_local w (some a) i) then LB_visit U fuel w (o.child i)
            else pure w
          else pure w) (writeNpid (countVisit w) a o w.partition) := by
  have hnofit' : ¬ (o.cost = 0 ∨
      w.pcost + o.cost ≤ w.optcost + ((w.partition : ℚ) * w.optcost - w.total)) := hnofit
  rw [LB_visit]
  simp only [LB_costs_value_eq, hm, ok_bind, if_neg hnofit', POC_isTerminal_eq, hnt,
    decide_False, Bool.not_false, if_true, POC_modify_newpid_eq, POC_children_eq,
    Function.update_same]
  rfl


/-! ## Costs and acyclicity -/

theorem Depth.acyclic {w : World} {a c : Nat} (hc : LocalChild w a c) (hr : Reach w c a) :
    ∀ n, ¬ Depth w n a := by
  intro n
  induction n with
  | zero => intro h; cases h
  | succ n ih =>
    intro hd
    exact ih ((hd.child hc).of_reach hr)

theorem Frame.childCost_eq {w w' : World} (h : Frame w w') (o : Octant) (i : Fin 8) :
    childCost w' o i = childCost w o i := by
  unfold childCost
  cases o.child i with
  | none => rfl
  | some c =>
    simp only [h.localpid]
    cases hm : w.mem c with
    | none => rw [h.mem_none hm]
    | some oc =>
      obtain ⟨oc', hm', ho'⟩ := h.mem_some hm
      rw [hm', ho']
      rfl

theorem Frame.costOK {w w' : World} (h : Frame w w') (hc : CostOK w) : CostOK w' := by
  intro a o' hm'
  obtain ⟨o, hm, ho⟩ := h.symm.mem_some hm'
  have := hc a o hm
  have e : o' = setNpid o'.npid o := by
    rw [ho]; cases o'; rfl
  have hcc : ∀ i, childCost w' o' i = childCost w o i := by
    intro i
    rw [h.childCost_eq, e]
    rfl
  have hmap : slots.map (childCost w' o') = slots.map (childCost w o) :=
    List.map_congr_left (fun i _ => hcc i)
  rw [hmap, e]
  exact this

theorem childCost_nonneg {w : World} (hc : CostOK w) (o : Octant) (i : Fin 8) :
    0 ≤ childCost w o i := by
  unfold childCost
  cases o.child i with
  | none => exact le_refl 0
  | some c =>
    simp only
    split
    · cases hm : w.mem c with
      | none => exact le_refl 0
      | some oc => exact (hc c oc hm).1
    · exact le_refl 0

theorem childCost_of_local {w : World} {o oc : Octant} {i : Fin 8} {c : Nat}
    (hch : o.child i = some c) (hcp : o.cpid i = w.OCT_localpid) (hm : w.mem c = some oc) :
    childCost w o i = oc.cost := by
  simp [childCost, hch, hcp, hm]

theorem sum_visited_le {w : World} (hc : CostOK w) (o : Octant) {vis : List (Fin 8)}
    (hnd : vis.Nodup) : (vis.map (childCost w o)).sum ≤ (slots.map (childCost w o)).sum := by
  rw [← List.sum_toFinset _ hnd, ← List.sum_toFinset _ slots_nodup]
  exact Finset.sum_le_sum_of_subset_of_nonneg (fun i _ => by simp [mem_slots i])
    (fun i _ _ => childCost_nonneg hc o i)


/-! ## What one call of `LB_visit` achieves -/

theorem frame_countVisit (w : World) : Frame w (countVisit w) :=
  ⟨fun _ => rfl, rfl, rfl, rfl, rfl, rfl, rfl, rfl⟩

theorem frame_accumulate (U : OctUtil) (o : Octant) (w : World) : Frame w (accumulate U o w) :=
  ⟨fun _ => rfl, rfl, rfl, rfl, rfl, rfl, rfl, rfl⟩

theorem frame_closePartition (w : World) : Frame w (closePartition w) :=
  ⟨fun _ => rfl, rfl, rfl, rfl, rfl, rfl, rfl, rfl⟩

theorem frame_writeNpid {w : World} {a : Nat} {o : Octant} (hm : w.mem a = some o) (p : Int) :
    Frame w (writeNpid w a o p) := by
  refine ⟨fun b => ?_, rfl, rfl, rfl, rfl, rfl, rfl, rfl⟩
  by_cases hb : b = a
  · subst hb
    simp [writeNpid, hm, setNpid]
  · simp [writeNpid, Function.update_noteq hb]

theorem Post_fits (U : OctUtil) {w wt : World} {a n : Nat} {o : Octant}
    (hm : w.mem a = some o) (hd : Depth w n a)
    (hT : TagRel (countVisit w) wt (Reach w a) w.partition) :
    Post w (accumulate U o wt) a o := by
  have e : wt = { countVisit w with mem := wt.mem } := hT.1
  have ep : wt.partition = w.partition := by rw [e]; rfl
  have et : wt.total = w.total := by rw [e]; rfl
  have ec : wt.pcost = w.pcost := by rw [e]; rfl
  refine ⟨((frame_countVisit w).comp hT.frame).comp (frame_accumulate U o wt), hT.2.2,
    le_of_eq ep.symm, fun b hr => ?_, fun hc => ?_⟩
  · obtain ⟨ob, hob⟩ := (hd.of_reach hr).live
    refine ⟨setNpid w.partition ob, ?_, le_refl _, le_of_eq ep.symm⟩
    show wt.mem b = _
    rw [hT.2.1 b hr]
    show Option.map _ (w.mem b) = _
    rw [hob]; rfl
  · have hsp : spent (accumulate U o wt) = spent w + o.cost := by
      show wt.total + (wt.pcost + o.cost) = w.total + w.pcost + o.cost
      rw [et, ec]; ring
    refine ⟨?_, le_of_eq hsp, fun _ K hK _ => ?_⟩
    · rw [hsp]
      have := (hc a o hm).1
      linarith
    · show wt.partition < K
      rw [ep]; exact hK

theorem not_fits_gt {w : World} {cost : ℚ} (h : ¬ Fits w cost) :
    cost ≠ 0 ∧ ((w.partition : ℚ) + 1) * w.optcost < spent w + cost := by
  unfold Fits behindOf at h
  push_neg at h
  refine ⟨h.1, ?_⟩
  have := h.2
  unfold spent
  linarith

theorem Post_terminal (U : OctUtil) {w : World} {a : Nat} {o : Octant}
    (hm : w.mem a = some o) (hnofit : ¬ Fits w o.cost) (hterm : ∀ i, o.child i = none) :
    Post w (accumulate U o
        (if o.cost - togoOf w ≥ togoOf w then
          writeNpid (closePartition (countVisit w)) a o (w.partition + 1)
        else writeNpid (countVisit w) a o w.partition)) a o := by
  have hreach : ∀ b, Reach w a b → b = a := fun b hr =>
    reach_of_no_child hm (fun i c hch => by rw [hterm i] at hch; cases hch) hr
  have hgt := not_fits_gt hnofit
  by_cases hc : o.cost - togoOf w ≥ togoOf w
  · rw [if_pos hc]
    have hm1 : (closePartition (countVisit w)).mem a = some o := hm
    refine ⟨(((frame_countVisit w).comp (frame_closePartition _)).comp
      (frame_writeNpid hm1 _)).comp (frame_accumulate U o _), fun b hb => ?_, ?_,
      fun b hr => ?_, fun hcost => ?_⟩
    · have hba : b ≠ a := fun h => hb (h ▸ Relation.ReflTransGen.refl)
      show Function.update w.mem a _ b = w.mem b
      exact Function.update_noteq hba _ _
    · show w.partition ≤ w.partition + 1
      omega
    · rw [hreach b hr]
      refine ⟨setNpid (w.partition + 1) o, ?_, ?_, ?_⟩
      · show Function.update w.mem a _ a = _
        exact Function.update_same _ _ _
      · show w.partition ≤ w.partition + 1
        omega
      · exact le_refl _
    · have hsp : spent (accumulate U o (writeNpid (closePartition (countVisit w)) a o
          (w.partition + 1))) = spent w + o.cost := by
        show w.total + w.pcost + (0 + o.cost) = w.total + w.pcost + o.cost
        ring
      refine ⟨?_, le_of_eq hsp, fun hopt K hK hle => ?_⟩
      · rw [hsp]
        have := (hcost a o hm).1
        linarith
      · show w.partition + 1 < K
        have h1 : ((w.partition : ℚ) + 1) * w.optcost < (K : ℚ) * w.optcost :=
          lt_of_lt_of_le hgt.2 hle
        have h2 : (w.partition : ℚ) + 1 < (K : ℚ) := lt_of_mul_lt_mul_right h1 hopt.le
        exact_mod_cast h2
  · rw [if_neg hc]
    have hm1 : (countVisit w).mem a = some o := hm
    refine ⟨((frame_countVisit w).comp (frame_writeNpid hm1 _)).comp (frame_accumulate U o _),
      fun b hb => ?_, le_refl _, fun b hr => ?_, fun hcost => ?_⟩
    · have hba : b ≠ a := fun h => hb (h ▸ Relation.ReflTransGen.refl)
      show Function.update w.mem a _ b = w.mem b
      exact Function.update_noteq hba _ _
    · rw [hreach b hr]
      refine ⟨setNpid w.partition o, ?_, le_refl _, le_refl _⟩
      show Function.update w.mem a _ a = _
      exact Function.update_same _ _ _
    · have hsp : spent (accumulate U o (writeNpid (countVisit w) a o w.partition)) =
          spent w + o.cost := by
        show w.total + (w.pcost + o.cost) = w.total + w.pcost + o.cost
        ring
      refine ⟨?_, le_of_eq hsp, fun _ K hK _ => hK⟩
      rw [hsp]
      have := (hcost a o hm).1
      linarith

theorem covered_reach {w : World} {a : Nat} {o : Octant} (hm : w.mem a = some o)
    {vis : List (Fin 8)} {b : Nat} (h : Covered w a o vis b) : Reach w a b := by
  rw [reach_iff_children hm]
  rcases h with h | ⟨i, _, c, h1, h2, h3⟩
  · exact Or.inl h
  · exact Or.inr ⟨i, c, h1, h2, h3⟩

theorem DescInv_init {w : World} {a : Nat} {o : Octant} (hm : w.mem a = some o) :
    DescInv w a o [] (writeNpid (countVisit w) a o w.partition) := by
  have hm1 : (countVisit w).mem a = some o := hm
  refine ⟨(frame_countVisit w).comp (frame_writeNpid hm1 _), ?_, fun b hb => ?_, le_refl _,
    fun b hb => ?_, List.nodup_nil, fun _ => ⟨le_refl _, ?_, fun _ K hK _ => hK⟩⟩
  · show Function.update w.mem a _ a = _
    exact Function.update_same _ _ _
  · have hba : b ≠ a := fun h => hb (Or.inl h)
    show Function.update w.mem a _ b = w.mem b
    exact Function.update_noteq hba _ _
  · rcases hb with hb | ⟨i, hi, _⟩
    · subst hb
      refine ⟨setNpid w.partition o, ?_, le_refl _, le_refl _⟩
      show Function.update w.mem b _ b = _
      exact Function.update_same _ _ _
    · cases hi
  · show w.total + w.pcost ≤ w.total + w.pcost + (List.map _ []).sum
    simp

theorem DescInv_step {w s s' : World} {a c n : Nat} {o oc' : Octant} {vis : List (Fin 8)}
    {x : Fin 8} (hm : w.mem a = some o) (hd : Depth w n a) (hI : DescInv w a o vis s)
    (hx : x ∉ vis) (hch : o.child x = some c) (hcp : o.cpid x = w.OCT_localpid)
    (hmc : s.mem c = some oc') (hP : Post s s' c oc') :
    DescInv w a o (vis ++ [x]) s' := by
  have hlc : LocalChild w a c := ⟨o, x, hm, hch, hcp⟩
  have hnr : ¬ Reach s c a := fun h => Depth.acyclic hlc (hI.frame.reach_iff.1 h) n hd
  have hcov : ∀ b, Covered w a o (vis ++ [x]) b ↔ (Covered w a o vis b ∨ Reach w c b) := by
    intro b
    constructor
    · rintro (h | ⟨i, hi, c', h1, h2, h3⟩)
      · exact Or.inl (Or.inl h)
      · rcases List.mem_append.1 hi with hi | hi
        · exact Or.inl (Or.inr ⟨i, hi, c', h1, h2, h3⟩)
        · rw [List.mem_singleton] at hi; subst hi
          rw [hch] at h1; cases h1
          exact Or.inr h3
    · rintro ((h | ⟨i, hi, c', h1, h2, h3⟩) | h)
      · exact Or.inl h
      · exact Or.inr ⟨i, List.mem_append_left _ hi, c', h1, h2, h3⟩
      · exact Or.inr ⟨x, by simp, c, hch, hcp, h⟩
  refine ⟨hI.frame.comp hP.frame, ?_, fun b hb => ?_, le_trans hI.part_mono hP.part_mono,
    fun b hb => ?_, ?_, fun hcost => ?_⟩
  · rw [hP.outside a hnr]; exact hI.self
  · rw [hcov] at hb
    push_neg at hb
    rw [hP.outside b (fun h => hb.2 (hI.frame.reach_iff.1 h))]
    exact hI.outside b hb.1
  · by_cases hr : Reach w c b
    · obtain ⟨o', h1, h2, h3⟩ := hP.inside b (hI.frame.reach_iff.2 hr)
      exact ⟨o', h1, le_trans hI.part_mono h2, h3⟩
    · have hb' : Covered w a o vis b := ((hcov b).1 hb).resolve_right hr
      obtain ⟨o', h1, h2, h3⟩ := hI.inside b hb'
      refine ⟨o', ?_, h2, le_trans h3 hP.part_mono⟩
      rw [hP.outside b (fun h => hr (hI.frame.reach_iff.1 h))]
      exact h1
  · exact List.nodup_append.2 ⟨hI.nodup, List.nodup_singleton x, by
      intro y hy hy'
      rw [List.mem_singleton] at hy'
      subst hy'
      exact hx hy⟩
  · obtain ⟨h1, h2, h3⟩ := hI.cost hcost
    obtain ⟨g1, g2, g3⟩ := hP.cost (hI.frame.costOK hcost)
    obtain ⟨oc, hoc, hoc'⟩ := hI.frame.symm.mem_some hmc
    have hcc : childCost w o x = oc'.cost := by
      rw [childCost_of_local hch hcp hoc, hoc']
      rfl
    have hsum : ((vis ++ [x]).map (childCost w o)).sum =
        (vis.map (childCost w o)).sum + oc'.cost := by
      simp [hcc]
    have hnd : (vis ++ [x]).Nodup := List.nodup_append.2 ⟨hI.nodup, List.nodup_singleton x, by
      intro y hy hy'
      rw [List.mem_singleton] at hy'
      subst hy'
      exact hx hy⟩
    refine ⟨le_trans h1 g1, ?_, fun hopt K hK hle => ?_⟩
    · rw [hsum]; linarith
    · have hbound := sum_visited_le hcost o hnd
      have hco := (hcost a o hm).2
      rw [hsum] at hbound
      refine g3 (by rw [hI.frame.optcost]; exact hopt) K (h3 hopt K hK hle) ?_
      rw [hI.frame.optcost]
      linarith

theorem DescInv_final {w s : World} {a : Nat} {o : Octant} {vis : List (Fin 8)}
    (hm : w.mem a = some o) (hI : DescInv w a o vis s)
    (hvis : ∀ i, i ∈ vis ↔ localSlot o w.OCT_localpid i = true) : Post w s a o := by
  have hcov : ∀ b, Reach w a b → Covered w a o vis b := by
    intro b hr
    rcases (reach_iff_children hm).1 hr with h | ⟨i, c, h1, h2, h3⟩
    · exact Or.inl h
    · exact Or.inr ⟨i, (hvis i).2 (by simp [localSlot, h1, h2]), c, h1, h2, h3⟩
  refine ⟨hI.frame, fun b hb => hI.outside b (fun h => hb (covered_reach hm h)), hI.part_mono,
    fun b hr => hI.inside b (hcov b hr), fun hcost => ?_⟩
  obtain ⟨h1, h2, h3⟩ := hI.cost hcost
  refine ⟨h1, ?_, h3⟩
  have := sum_visited_le hcost o hI.nodup
  have hco := (hcost a o hm).2
  linarith


/-! ## The two orders of descent -/

/-- The invariant rule for the index-order loop of `LB_visit`, with the invariant indexed by
the list of slots visited so far. -/
theorem index_loop_inv (g : World → pOctant → Except Fault World) (a : Nat) (o : Octant)
    (lp : Int) (I : List (Fin 8) → World → Prop)
    (hmem : ∀ vis s, I vis s → ∃ o', s.mem a = some o' ∧ o'.cpid = o.cpid ∧ s.OCT_localpid = lp)
    (hvisit : ∀ vis x s c, x ∉ vis → I vis s → o.child x = some c → o.cpid x = lp →
      ∃ s', g s (some c) = .ok s' ∧ I (vis ++ [x]) s')
    (s : World) (h0 : I [] s) :
    ∃ s', slots.foldlM (fun w i =>
        if (o.child i).isSome then do
          if (← POC_local w (some a) i) then g w (o.child i)
          else pure w
        else pure w) s = .ok s' ∧ I (slots.filter (localSlot o lp)) s' := by
  refine children_loop_inv g a o lp o.child (fun pre s => I (pre.filter (localSlot o lp)) s)
    (fun pre s hI => hmem _ s hI) (fun pre x s _ hI hsk => ?_) (fun pre x s c hx hI hch hcp => ?_)
    s h0
  · have : localSlot o lp x = false := by
      rcases hsk with h | h
      · simp [localSlot, h]
      · simp [localSlot, h]
    simpa [List.filter_append, List.filter_cons, this] using hI
  · have hls : localSlot o lp x = true := by simp [localSlot, hch, hcp]
    have hx' : x ∉ pre.filter (localSlot o lp) := fun h => hx (List.mem_filter.1 h).1
    obtain ⟨s', hs', hI'⟩ := hvisit _ x s c hx' hI hch hcp
    refine ⟨s', hs', ?_⟩
    simpa [List.filter_append, List.filter_cons, hls] using hI'

theorem mem_filter_localSlot (o : Octant) (lp : Int) (i : Fin 8) :
    i ∈ slots.filter (localSlot o lp) ↔ localSlot o lp i = true := by
  simp [List.mem_filter, mem_slots]

/-- The scan of `LB_visit_by_dist` returns, and it returns a slot exactly when some slot is
tagged local and not yet visited (or one was already chosen); a newly chosen slot is such a
slot. -/
theorem scan_spec (U : OctUtil) {w : World} {a : Nat} {o : Octant} (hm : w.mem a = some o)
    (corigin : Fin 8 → COORD) (pcentroid : COORD) (visited : Fin 8 → Bool) :
    ∀ (l : List (Fin 8)) (mindist : ℚ) (minchild : Option (Fin 8)),
    ∃ md mc, LB_visit_by_dist_scan U w (some a) corigin pcentroid visited l mindist minchild
        = .ok (md, mc) ∧
      (mc = none → minchild = none ∧
        ∀ i ∈ l, ¬ (o.cpid i = w.OCT_localpid ∧ visited i = false)) ∧
      (∀ i, mc = some i →
        minchild = some i ∨ (i ∈ l ∧ o.cpid i = w.OCT_localpid ∧ visited i = false)) := by
  intro l
  induction l with
  | nil =>
    intro mindist minchild
    exact ⟨mindist, minchild, rfl, fun h => ⟨h, fun i hi => by cases hi⟩, fun i h => Or.inl h⟩
  | cons x rest ih =>
    intro mindist minchild
    rw [LB_visit_by_dist_scan]
    simp only [POC_local_some hm, ok_bind]
    by_cases hcand : o.cpid x = w.OCT_localpid ∧ visited x = false
    · have hc1 : (decide (o.cpid x = w.OCT_localpid) && !visited x) = true := by
        simp [hcand.1, hcand.2]
      simp only [hc1, if_true]
      by_cases hsel : w.pmass = 0 ∨ minchild = none ∨
          U.vector_dist pcentroid (corigin x) < mindist
      · rw [if_pos hsel]
        obtain ⟨md, mc, h, h1, h2⟩ := ih (U.vector_dist pcentroid (corigin x)) (some x)
        refine ⟨md, mc, h, fun hn => ?_, fun i hi => ?_⟩
        · exact absurd (h1 hn).1 (by simp)
        · rcases h2 i hi with h3 | ⟨h3, h4⟩
          · cases h3
            exact Or.inr ⟨List.mem_cons_self _ _, hcand⟩
          · exact Or.inr ⟨List.mem_cons_of_mem _ h3, h4⟩
      · rw [if_neg hsel]
        obtain ⟨md, mc, h, h1, h2⟩ := ih mindist minchild
        refine ⟨md, mc, h, fun hn => ?_, fun i hi => ?_⟩
        · push_neg at hsel
          exact absurd (h1 hn).1 hsel.2.1
        · rcases h2 i hi with h3 | ⟨h3, h4⟩
          · exact Or.inl h3
          · exact Or.inr ⟨List.mem_cons_of_mem _ h3, h4⟩
    · have hc1 : (decide (o.cpid x = w.OCT_localpid) && !visited x) = false := by
        by_cases h1 : o.cpid x = w.OCT_localpid
        · have : visited x ≠ false := fun h => hcand ⟨h1, h⟩
          simp [h1, this]
        · simp [h1]
      simp only [hc1, Bool.false_eq_true, if_false]
      obtain ⟨md, mc, h, h1, h2⟩ := ih mindist minchild
      refine ⟨md, mc, h, fun hn => ⟨(h1 hn).1, fun i hi => ?_⟩, fun i hi => ?_⟩
      · rcases List.mem_cons.1 hi with h3 | h3
        · subst h3; exact hcand
        · exact (h1 hn).2 i h3
      · rcases h2 i hi with h3 | ⟨h3, h4⟩
        · exact Or.inl h3
        · exact Or.inr ⟨List.mem_cons_of_mem _ h3, h4⟩

theorem vector_divc_ok (a : COORD) {c : ℚ} (hc : c ≠ 0) :
    vector_divc a c = .ok ⟨a.c0 / c, a.c1 / c, a.c2 / c⟩ := by
  simp [vector_divc, fdiv, hc]

theorem centroid_ok (w : World) (pc : COORD) :
    ∃ c, (if w.pmass > 0 then vector_divc w.pcoord w.pmass else pure pc) = Except.ok c := by
  by_cases h : w.pmass > 0
  · rw [if_pos h, vector_divc_ok _ (ne_of_gt h)]
    exact ⟨_, rfl⟩
  · rw [if_neg h]
    exact ⟨pc, rfl⟩

/-- The centroid that an iteration of the outer loop of `LB_visit_by_dist` works with. -/
theorem pick_spec (U : OctUtil) {w : World} {a : Nat} {o : Octant} (hm : w.mem a = some o)
    (corigin : Fin 8 → COORD) (L : DistLocals) :
    ∃ pc md mc, LB_visit_by_dist_pick U w (some a) corigin L = .ok (pc, md, mc) ∧
      (if w.pmass > 0 then vector_divc w.pcoord w.pmass else pure L.pcentroid) = Except.ok pc ∧
      LB_visit_by_dist_scan U w (some a) corigin pc L.visited slots L.mindist none
        = .ok (md, mc) := by
  obtain ⟨pc, hpc⟩ := centroid_ok w L.pcentroid
  obtain ⟨md, mc, hscan, _, _⟩ := scan_spec U hm corigin pc L.visited slots L.mindist none
  refine ⟨pc, md, mc, ?_, hpc, hscan⟩
  unfold LB_visit_by_dist_pick
  rw [hpc]
  simp only [ok_bind, hscan, pure_eq_ok]

/-- The invariant rule for the outer loop of `LB_visit_by_dist`, with the invariant indexed by
the list of slots visited so far: the loop ends, within its budget, when every locally tagged
slot has been visited once. -/
theorem by_dist_loop_inv (U : OctUtil) (visit : World → pOctant → Except Fault World) (a : Nat)
    (o : Octant) (lp : Int) (children : Fin 8 → pOctant) (corigin : Fin 8 → COORD)
    (I : List (Fin 8) → World → Prop)
    (hmem : ∀ vis s, I vis s → ∃ o', s.mem a = some o' ∧ o'.cpid = o.cpid ∧ s.OCT_localpid = lp)
    (hvisit : ∀ vis x s, x ∉ vis → I vis s → o.cpid x = lp →
      ∃ s', visit s (children x) = .ok s' ∧ I (vis ++ [x]) s') :
    ∀ (n : Nat) (vis : List (Fin 8)) (s : World) (L : DistLocals), vis.Nodup →
      (∀ i, L.visited i = true ↔ i ∈ vis) → (∀ i ∈ vis, o.cpid i = lp) → I vis s →
      9 ≤ n + vis.length →
      ∃ s' vis', LB_visit_by_dist_loop U visit (some a) children corigin n s L = .ok s' ∧
        I vis' s' ∧ vis'.Nodup ∧ ∀ i, i ∈ vis' ↔ o.cpid i = lp := by
  intro n
  induction n with
  | zero =>
    intro vis s L hnd _ _ _ hlen
    have := hnd.length_le_card
    simp at this
    omega
  | succ n ih =>
    intro vis s L hnd hvis hloc hI hlen
    obtain ⟨o', hm', hcp, hlp⟩ := hmem vis s hI
    obtain ⟨pc, md, mc, hpick, _, hscan⟩ := pick_spec U hm' corigin L
    obtain ⟨md2, mc2, hscan2, hnone, hsome⟩ :=
      scan_spec U hm' corigin pc L.visited slots L.mindist none
    rw [hscan] at hscan2
    cases hscan2
    rw [LB_visit_by_dist_loop]
    simp only [hpick, ok_bind]
    cases mc with
    | none =>
      refine ⟨s, vis, rfl, hI, hnd, fun i => ⟨fun h => hloc i h, fun h => ?_⟩⟩
      have := (hnone rfl).2 i (mem_slots i)
      rw [hcp, hlp] at this
      have hv : L.visited i = true := by
        cases hvi : L.visited i
        · exact absurd ⟨h, hvi⟩ this
        · rfl
      exact (hvis i).1 hv
    | some x =>
      have hx := hsome x rfl
      rcases hx with hx | ⟨_, hxl, hxv⟩
      · cases hx
      · rw [hcp, hlp] at hxl
        have hxn : x ∉ vis := fun h => by
          have := (hvis x).2 h
          rw [hxv] at this
          cases this
        obtain ⟨s1, hs1, hI1⟩ := hvisit vis x s hxn hI hxl
        simp only [hs1, ok_bind]
        refine ih (vis ++ [x]) s1 _ ?_ (fun i => ?_) (fun i hi => ?_) hI1 ?_
        · exact List.nodup_append.2 ⟨hnd, List.nodup_singleton x, by
            intro y hy hy'
            rw [List.mem_singleton] at hy'
            subst hy'
            exact hxn hy⟩
        · by_cases hix : i = x
          · subst hix
            simp
          · simp [Function.update_noteq hix, hvis i, hix]
        · rcases List.mem_append.1 hi with h | h
          · exact hloc i h
          · rw [List.mem_singleton] at h; subst h; exact hxl
        · simp only [List.length_append, List.length_singleton]
          omega


theorem Frame.localSlotsFilled {w w' : World} (h : Frame w w') (hf : LocalSlotsFilled w) :
    LocalSlotsFilled w' := by
  intro a o' i hm' hcp
  obtain ⟨o, hm, ho⟩ := h.symm.mem_some hm'
  have e : o' = setNpid o'.npid o := by
    rw [ho]; cases o'; rfl
  rw [e] at hcp ⊢
  rw [h.localpid] at hcp
  exact hf a o i hm hcp

theorem Frame.mode {w w' : World} (h : Frame w w')
    (hmode : w.CLOSE = 0 ∨ LocalSlotsFilled w) : w'.CLOSE = 0 ∨ LocalSlotsFilled w' := by
  rcases hmode with h0 | hf
  · exact Or.inl (by rw [h.close]; exact h0)
  · exact Or.inr (h.localSlotsFilled hf)

/-- Every call of `LB_visit` on an octant whose local subtree has at most `fuel` levels
returns, in both orders of descent, and achieves `Post`. -/
theorem LB_visit_post (U : OctUtil) : ∀ (fuel : Nat) (w : World) (n a : Nat) (o : Octant),
    w.mem a = some o → Depth w n a → n ≤ fuel → (w.CLOSE = 0 ∨ LocalSlotsFilled w) →
    ∃ w', LB_visit U fuel w (some a) = .ok w' ∧ Post w w' a o := by
  intro fuel
  induction fuel with
  | zero =>
    intro w n a o _ hd hn
    have : n = 0 := by omega
    subst this
    cases hd
  | succ fuel ih =>
    intro w n a o hm hd hn hmode
    by_cases hfit : Fits w o.cost
    · obtain ⟨wt, hT, hv⟩ := LB_visit_fits U hm hfit hd hn
      exact ⟨_, hv, Post_fits U hm hd hT⟩
    · by_cases hterm : ∀ i, o.child i = none
      · exact ⟨_, LB_visit_terminal U hm hfit hterm, Post_terminal U hm hfit hterm⟩
      · rw [LB_visit_descend U hm hfit hterm]
        have hkids : ∀ (s : World), Frame w s → ∀ x c, o.child x = some c →
            o.cpid x = w.OCT_localpid →
            ∃ oc', s.mem c = some oc' ∧ ∃ s', LB_visit U fuel s (some c) = .ok s' ∧
              Post s s' c oc' := by
          intro s hfr x c hch hcp
          cases hd with
          | @node n' _ o2 hm2 hk =>
            rw [hm] at hm2; cases hm2
            have hdc : Depth w n' c := hk x c hch hcp
            obtain ⟨oc, hoc⟩ := hdc.live
            obtain ⟨oc', hoc', _⟩ := hfr.mem_some hoc
            exact ⟨oc', hoc', ih s n' c oc' hoc' (hfr.depth hdc) (by omega) (hfr.mode hmode)⟩
        have hmemI : ∀ vis s, DescInv w a o vis s →
            ∃ o', s.mem a = some o' ∧ o'.cpid = o.cpid ∧ s.OCT_localpid = w.OCT_localpid :=
          fun vis s hI => ⟨_, hI.self, rfl, hI.frame.localpid⟩
        by_cases hclose : w.CLOSE ≠ 0
        · rw [if_pos hclose]
          have hfilled : LocalSlotsFilled w := hmode.resolve_left hclose
          have hm1 : (writeNpid (countVisit w) a o w.partition).mem a
              = some (setNpid w.partition o) := (DescInv_init hm).self
          unfold LB_visit_by_dist
          simp only [POC_bounds_eq, hm1, ok_bind]
          obtain ⟨s', vis', hs', hI', _, hv'⟩ := by_dist_loop_inv U
            (fun w c => LB_visit U fuel w c) a o w.OCT_localpid o.child _ (DescInv w a o) hmemI
            (fun vis x s hx hI hcp => by
              have hsome := hfilled a o x hm hcp
              obtain ⟨c, hc⟩ := Option.isSome_iff_exists.1 hsome
              obtain ⟨oc', hoc', s', hs', hP⟩ := hkids s hI.frame x c hc hcp
              rw [hc]
              exact ⟨s', hs', DescInv_step hm hd hI hx hc hcp hoc' hP⟩)
            9 [] _ initDistLocals
            List.nodup_nil (fun i => by simp [initDistLocals]) (fun i hi => by cases hi)
            (DescInv_init hm)
            (by simp)
          refine ⟨s', hs', DescInv_final hm hI' (fun i => ?_)⟩
          rw [hv' i]
          constructor
          · intro hcp
            have := hfilled a o i hm hcp
            simp [localSlot, this, hcp]
          · intro hls
            simp only [localSlot, Bool.and_eq_true, decide_eq_true_eq] at hls
            exact hls.2
        · rw [if_neg hclose]
          obtain ⟨s', hs', hI'⟩ := index_loop_inv (fun w c => LB_visit U fuel w c) a o
            w.OCT_localpid (DescInv w a o) hmemI
            (fun vis x s c hx hI hch hcp => by
              obtain ⟨oc', hoc', s', hs', hP⟩ := hkids s hI.frame x c hch hcp
              exact ⟨s', hs', DescInv_step hm hd hI hx hch hcp hoc' hP⟩)
            _ (DescInv_init hm)
          exact ⟨s', hs', DescInv_final hm hI' (mem_filter_localSlot o w.OCT_localpid)⟩


/-! ## A whole pass -/

theorem Depth.transfer {w w' : World} (hmem : w'.mem = w.mem)
    (hlp : w'.OCT_localpid = w.OCT_localpid) {n a : Nat} (hd : Depth w n a) : Depth w' n a := by
  induction hd with
  | node hm _ ih =>
    refine Depth.node (by rw [hmem]; exact hm) (fun i c hch hcp => ih i c hch ?_)
    rw [← hlp]; exact hcp

theorem Frame.costAt_eq {w w' : World} (h : Frame w w') (r : Nat) : costAt w' r = costAt w r := by
  unfold costAt
  cases hm : w.mem r with
  | none => rw [h.mem_none hm]
  | some o =>
    obtain ⟨o', hm', ho'⟩ := h.mem_some hm
    rw [hm', ho']
    rfl

/-- The loop of `LB_visit_all_subtrees` over the local roots: it returns, never moves the
partition index down nor past `P - 1`, and leaves every octant under a local root with an
`npid` between the starting and the final partition index. -/
theorem visit_all_spec (U : OctUtil) (fuel n : Nat) (ws : World) (P : Int)
    (hroots : ∀ r ∈ ws.OCT_rootlist, Depth ws n r) (hn : n ≤ fuel)
    (hmode : ws.CLOSE = 0 ∨ LocalSlotsFilled ws) (hcost : CostOK ws) (hopt : 0 < ws.optcost)
    (hpart : ws.partition < P)
    (hB : spent ws + localCost ws ≤ (P : ℚ) * ws.optcost) :
    ∃ w', LB_visit_all_subtrees U fuel ws = .ok w' ∧ Frame ws w' ∧
      ws.partition ≤ w'.partition ∧ w'.partition < P ∧
      (∀ r ∈ ws.OCT_rootlist, ∀ b, Reach ws r b →
        ∃ o', w'.mem b = some o' ∧ ws.partition ≤ o'.npid ∧ o'.npid ≤ w'.partition) ∧
      ∀ b, (∀ r ∈ ws.OCT_rootlist, ¬ Reach ws r b) → w'.mem b = ws.mem b := by
  unfold LB_visit_all_subtrees POC_localroots
  obtain ⟨w', hw', hI⟩ := foldlM_inv (fun w r => LB_visit U fuel w (some r))
    (fun pre s => Frame ws s ∧ ws.partition ≤ s.partition ∧ s.partition < P ∧
      spent s ≤ spent ws + (pre.map (costAt ws)).sum ∧
      (∀ r ∈ pre, ∀ b, Reach ws r b →
        ∃ o', s.mem b = some o' ∧ ws.partition ≤ o'.npid ∧ o'.npid ≤ s.partition) ∧
      ∀ b, (∀ r ∈ pre, ¬ Reach ws r b) → s.mem b = ws.mem b)
    ws.OCT_rootlist
    (fun pre x suf s hl hI => by
      obtain ⟨hfr, hp1, hp2, hsp, hin, hout⟩ := hI
      have hx : x ∈ ws.OCT_rootlist := by rw [← hl]; simp
      have hdx := hroots x hx
      obtain ⟨ox, hox⟩ := hdx.live
      obtain ⟨ox', hox', hoe⟩ := hfr.mem_some hox
      obtain ⟨s', hs', hP⟩ := LB_visit_post U fuel s n x ox' hox' (hfr.depth hdx) hn
        (hfr.mode hmode)
      obtain ⟨g1, g2, g3⟩ := hP.cost (hfr.costOK hcost)
      have hcx : ox'.cost = costAt ws x := by
        unfold costAt; rw [hox, hoe]; rfl
      have hsufnn : 0 ≤ (suf.map (costAt ws)).sum := by
        apply List.sum_nonneg
        intro q hq
        obtain ⟨r, _, rfl⟩ := List.mem_map.1 hq
        unfold costAt
        cases hm : ws.mem r with
        | none => exact le_refl 0
        | some o => exact (hcost r o hm).1
      have hsplit : localCost ws =
          (pre.map (costAt ws)).sum + costAt ws x + (suf.map (costAt ws)).sum := by
        unfold localCost
        rw [← hl]
        simp [add_assoc]
      refine ⟨s', hs', hfr.comp hP.frame, le_trans hp1 hP.part_mono, ?_, ?_, ?_, ?_⟩
      · refine g3 (by rw [hfr.optcost]; exact hopt) P hp2 ?_
        rw [hfr.optcost, hcx]
        linarith
      · simp only [List.map_append, List.sum_append, List.map_cons, List.map_nil,
          List.sum_cons, List.sum_nil]
        rw [← hcx]
        linarith
      · intro r hr b hb
        by_cases hxb : Reach ws x b
        · obtain ⟨o', h1, h2, h3⟩ := hP.inside b (hfr.reach_iff.2 hxb)
          exact ⟨o', h1, le_trans hp1 h2, h3⟩
        · rcases List.mem_append.1 hr with hr | hr
          · obtain ⟨o', h1, h2, h3⟩ := hin r hr b hb
            refine ⟨o', ?_, h2, le_trans h3 hP.part_mono⟩
            rw [hP.outside b (fun h => hxb (hfr.reach_iff.1 h))]
            exact h1
          · rw [List.mem_singleton] at hr
            subst hr
            exact absurd hb hxb
      · intro b hb
        rw [hP.outside b (fun h => hb x (by simp) (hfr.reach_iff.1 h))]
        exact hout b (fun r hr => hb r (List.mem_append_left _ hr)))
    ws ⟨Frame.refl ws, le_refl _, hpart, (by simp), (fun r hr => by cases hr), (fun _ _ => rfl)⟩
  exact ⟨w', hw', hI.1, hI.2.1, hI.2.2.1, hI.2.2.2.2.1, hI.2.2.2.2.2⟩


/-! ## Claims on the seeding and on the three rules of `LB_visit` -/

theorem float_to_int_nonneg {q : ℚ} (h : 0 ≤ q) : float_to_int q = ⌊q⌋ := by
  simp [float_to_int, h]

theorem seed_eq {Num_Proc : Int} {globalcost : ℚ} (prefcost : ℚ) (w : World)
    (hP : Num_Proc ≠ 0) (hg : globalcost ≠ 0) :
    LB_dfs_partition_seed Num_Proc globalcost prefcost w =
      .ok { w with
        DFS_Part_Count := 0
        optcost := globalcost / Num_Proc
        partition :=
          if float_to_int (prefcost / (globalcost / Num_Proc)) = Num_Proc then Num_Proc - 1
          else float_to_int (prefcost / (globalcost / Num_Proc))
        total := ((if float_to_int (prefcost / (globalcost / Num_Proc)) = Num_Proc
            then Num_Proc - 1 else float_to_int (prefcost / (globalcost / Num_Proc)) : Int) : ℚ)
          * (globalcost / Num_Proc)
        pcost := prefcost - ((if float_to_int (prefcost / (globalcost / Num_Proc)) = Num_Proc
            then Num_Proc - 1 else float_to_int (prefcost / (globalcost / Num_Proc)) : Int) : ℚ)
          * (globalcost / Num_Proc)
        pmass := 0
        pcoord := ⟨0, 0, 0⟩ } := by
  have hP' : (Num_Proc : ℚ) ≠ 0 := by exact_mod_cast hP
  have ho : globalcost / (Num_Proc : ℚ) ≠ 0 := div_ne_zero hg hP'
  simp only [LB_dfs_partition_seed, fdiv, if_neg hP', ok_bind, if_neg ho, pure_eq_ok,
    vector_set_comp]
  split <;> rfl


theorem seed_partition_range {Num_Proc : Int} {globalcost prefcost : ℚ}
    (hP : 1 ≤ Num_Proc) (hg : 0 < globalcost) (h0 : 0 ≤ prefcost) (h1 : prefcost ≤ globalcost) :
    (if float_to_int (prefcost / (globalcost / Num_Proc)) = Num_Proc then Num_Proc - 1
      else float_to_int (prefcost / (globalcost / Num_Proc))) =
      min ⌊prefcost / (globalcost / Num_Proc)⌋ (Num_Proc - 1) ∧
    0 ≤ min ⌊prefcost / (globalcost / Num_Proc)⌋ (Num_Proc - 1) := by
  have hPq : (0 : ℚ) < Num_Proc := by exact_mod_cast (show (0 : Int) < Num_Proc by omega)
  have ho : 0 < globalcost / (Num_Proc : ℚ) := div_pos hg hPq
  have hq0 : 0 ≤ prefcost / (globalcost / Num_Proc) := div_nonneg h0 ho.le
  have hqP : prefcost / (globalcost / Num_Proc) ≤ Num_Proc := by
    rw [div_le_iff₀ ho]
    have : (Num_Proc : ℚ) * (globalcost / Num_Proc) = globalcost := by
      field_simp
    rw [this]; exact h1
  have hfl0 : 0 ≤ ⌊prefcost / (globalcost / Num_Proc)⌋ := Int.floor_nonneg.2 hq0
  have hflP : ⌊prefcost / (globalcost / Num_Proc)⌋ ≤ Num_Proc := by
    have := Int.floor_le (prefcost / (globalcost / Num_Proc))
    have h2 : ((⌊prefcost / (globalcost / Num_Proc)⌋ : Int) : ℚ) ≤ (Num_Proc : ℚ) :=
      le_trans this hqP
    exact_mod_cast h2
  refine ⟨?_, le_min hfl0 (by omega)⟩
  rw [float_to_int_nonneg hq0]
  split
  · rw [min_eq_right (by omega)]
  · rw [min_eq_left (by omega)]

theorem localCost_nonneg {w : World} (hcost : CostOK w) : 0 ≤ localCost w := by
  unfold localCost
  apply List.sum_nonneg
  intro q hq
  obtain ⟨r, _, rfl⟩ := List.mem_map.1 hq
  unfold costAt
  cases hm : w.mem r with
  | none => exact le_refl 0
  | some o => exact (hcost r o hm).1

/-- A whole pass of `LB_dfs_partition` whose `prefcost` leaves room for the local cost below
`globalcost` returns and assigns every octant under a local root a partition in
`[0, Num_Proc)`. -/
theorem pass_coverage (U : OctUtil) (fuel n : Nat) (w : World) (Num_Proc : Int)
    (mycost globalcost prefcost : ℚ) (hP : 1 ≤ Num_Proc) (hg : 0 < globalcost)
    (h0 : 0 ≤ prefcost) (hsum : prefcost + localCost w ≤ globalcost)
    (hroots : ∀ r ∈ w.OCT_rootlist, Depth w n r) (hn : n ≤ fuel)
    (hmode : w.CLOSE = 0 ∨ LocalSlotsFilled w) (hcost : CostOK w) :
    ∃ w', LB_dfs_partition U fuel Num_Proc mycost globalcost prefcost w
        = .ok (w', w'.DFS_Part_Count, mycost) ∧
      (∀ r ∈ w.OCT_rootlist, ∀ b, Reach w r b →
        ∃ o, w'.mem b = some o ∧ 0 ≤ o.npid ∧ o.npid < Num_Proc) ∧
      ∀ b, (∀ r ∈ w.OCT_rootlist, ¬ Reach w r b) → w'.mem b = w.mem b := by
  have hPq : (0 : ℚ) < Num_Proc := by exact_mod_cast (show (0 : Int) < Num_Proc by omega)
  have hle : prefcost ≤ globalcost := by
    have := localCost_nonneg hcost
    linarith
  obtain ⟨hkey, hk0⟩ := seed_partition_range hP hg h0 hle
  have hseed := seed_eq prefcost w (show Num_Proc ≠ 0 by omega) hg.ne'
  rw [hkey] at hseed
  generalize hws : ({ w with
        DFS_Part_Count := 0
        optcost := globalcost / Num_Proc
        partition := min ⌊prefcost / (globalcost / Num_Proc)⌋ (Num_Proc - 1)
        total := ((min ⌊prefcost / (globalcost / Num_Proc)⌋ (Num_Proc - 1) : Int) : ℚ)
          * (globalcost / Num_Proc)
        pcost := prefcost - ((min ⌊prefcost / (globalcost / Num_Proc)⌋ (Num_Proc - 1) : Int) : ℚ)
          * (globalcost / Num_Proc)
        pmass := 0
        pcoord := ⟨0, 0, 0⟩ } : World) = ws at hseed
  have hmem : ws.mem = w.mem := by rw [← hws]
  have hlp : ws.OCT_localpid = w.OCT_localpid := by rw [← hws]
  have hrl : ws.OCT_rootlist = w.OCT_rootlist := by rw [← hws]
  have hcl : ws.CLOSE = w.CLOSE := by rw [← hws]
  have hpart : ws.partition = min ⌊prefcost / (globalcost / Num_Proc)⌋ (Num_Proc - 1) := by
    rw [← hws]
  have hopt : ws.optcost = globalcost / Num_Proc := by rw [← hws]
  have hspent : spent ws = prefcost := by
    rw [← hws]
    show _ * _ + (prefcost - _ * _) = prefcost
    ring
  have hreach : ∀ a b, Reach ws a b ↔ Reach w a b := by
    intro a b
    rw [← hws]
    exact Iff.rfl
  have hcostws : CostOK ws := by
    rw [← hws]
    exact hcost
  have hlc : localCost ws = localCost w := by
    rw [← hws]
    rfl
  have hmodews : ws.CLOSE = 0 ∨ LocalSlotsFilled ws := by
    rw [← hws]
    exact hmode
  obtain ⟨w', hw', _, hlo, hhi, hin, hout⟩ := visit_all_spec U fuel n ws Num_Proc
    (fun r hr => Depth.transfer hmem hlp (hroots r (hrl ▸ hr))) hn hmodews hcostws
    (by rw [hopt]; exact div_pos hg hPq)
    (by rw [hpart]; exact lt_of_le_of_lt (min_le_right _ _) (by omega))
    (by
      rw [hspent, hlc, hopt]
      have : (Num_Proc : ℚ) * (globalcost / Num_Proc) = globalcost := by field_simp
      rw [this]; exact hsum)
  refine ⟨w', ?_, fun r hr b hb => ?_, fun b hb => ?_⟩
  · simp only [LB_dfs_partition, hseed, ok_bind, hw', pure_eq_ok]
  · obtain ⟨o, h1, h2, h3⟩ := hin r (hrl ▸ hr) b ((hreach r b).2 hb)
    refine ⟨o, h1, ?_, lt_of_le_of_lt h3 hhi⟩
    rw [hpart] at h2
    exact le_trans hk0 h2
  · rw [hout b (fun r hr => fun h => hb r (hrl ▸ hr) ((hreach r b).1 h)), hmem]

theorem prevcost_nonneg {costs : List ℚ} (hnn : ∀ c ∈ costs, 0 ≤ c) (rank : Nat) :
    0 ≤ prevcost costs rank :=
  List.sum_nonneg (fun c hc => hnn c (List.mem_of_mem_take hc))

theorem prevcost_add_le {costs : List ℚ} (hnn : ∀ c ∈ costs, 0 ≤ c) {rank : Nat}
    (hrank : rank < costs.length) :
    prevcost costs rank + costs.getD rank 0 ≤ spec_globalcost costs := by
  unfold prevcost spec_globalcost
  have hsplit : costs = costs.take rank ++ costs[rank] :: costs.drop (rank + 1) := by
    rw [← List.drop_eq_getElem_cons hrank, List.take_append_drop]
  have hget : costs.getD rank 0 = costs[rank] := by
    simp [List.getD, List.getElem?_eq_getElem hrank]
  have htail : 0 ≤ (costs.drop (rank + 1)).sum :=
    List.sum_nonneg (fun c hc => hnn c (List.mem_of_mem_drop hc))
  rw [hget]
  conv_rhs => rw [hsplit]
  rw [List.sum_append, List.sum_cons]
  linarith


/-! ## Trees -/

theorem LocalChild.anyChild {w : World} {a c : Nat} (h : LocalChild w a c) : AnyChild w a c := by
  obtain ⟨o, i, hm, hch, _⟩ := h
  exact ⟨o, i, hm, hch⟩

theorem Reach.desc {w : World} {a b : Nat} (h : Reach w a b) : Desc w a b :=
  Relation.ReflTransGen.mono (fun _ _ hc => hc.anyChild) h

/-- In a tree, two children of `a` that have a common descendant sit in the same slot. -/
theorem slot_unique {w : World} (hu : UniqueParent w) (hac : Acyclic w) {a : Nat} {o : Octant}
    (hm : w.mem a = some o) {i j : Fin 8} {c c' : Nat} (hi : o.child i = some c)
    (hj : o.child j = some c') {d : Nat} (h1 : Desc w c d) : Desc w c' d → i = j := by
  induction h1 with
  | refl =>
    intro h2
    rcases Relation.ReflTransGen.cases_tail h2 with h | ⟨y, hy, ⟨oy, k, hmy, hk⟩⟩
    · subst h
      exact (hu a a o o i j c hm hm hi hj).2
    · have := (hu a y o oy i k c hm hmy hi hk).1
      subst this
      exact absurd (Relation.TransGen.head' ⟨o, j, hm, hj⟩ hy) (hac a)
  | @tail y d hcy hyd ih =>
    intro h2
    obtain ⟨oy, k, hmy, hk⟩ := hyd
    rcases Relation.ReflTransGen.cases_tail h2 with h | ⟨y', hy', ⟨oy', k', hmy', hk'⟩⟩
    · subst h
      have := (hu a y o oy j k d hm hmy hj hk).1
      subst this
      exact absurd (Relation.TransGen.head' ⟨o, i, hm, hi⟩ hcy) (hac a)
    · have := (hu y y' oy oy' k k' d hmy hmy' hk hk').1
      subst this
      exact ih hy'

/-- In a tree, the octants below a slot of `a` that is not tagged local are not reachable from
`a` through locally tagged slots. -/
theorem not_reach_of_nonlocal {w : World} (hu : UniqueParent w) (hac : Acyclic w) {a : Nat}
    {o : Octant} (hm : w.mem a = some o) {i : Fin 8} {c : Nat} (hi : o.child i = some c)
    (hnl : o.cpid i ≠ w.OCT_localpid) {d : Nat} (hd : Desc w c d) : ¬ Reach w a d := by
  intro hr
  rcases (reach_iff_children hm).1 hr with h | ⟨j, c', hj, hjl, hcd⟩
  · subst h
    exact absurd (Relation.TransGen.head' ⟨o, i, hm, hi⟩ hd) (hac d)
  · have := slot_unique hu hac hm hi hj hd hcd.desc
    subst this
    exact hnl hjl

theorem filterMap_append_singleton (f : Fin 8 → Option Nat) (vis : List (Fin 8)) (x : Fin 8)
    (c : Nat) (h : f x = some c) :
    (vis ++ [x]).filterMap f = vis.filterMap f ++ [c] := by
  simp [List.filterMap_append, List.filterMap_cons, h]

/-- The descent of `LB_visit` in index order: the call returns, it is the sequence of the calls
on the children in the non-empty, locally tagged slots in slot order, started after the tag of
`a` itself, and it achieves `DescInv`. -/
theorem LB_visit_index_descend (U : OctUtil) (fuel n : Nat) (w : World) (a : Nat) (o : Octant)
    (hm : w.mem a = some o) (hd : Depth w (n + 1) a) (hn : n ≤ fuel)
    (hnofit : ¬ Fits w o.cost) (hnt : ¬ ∀ i, o.child i = none) (hclose : w.CLOSE = 0) :
    ∃ w', LB_visit U (fuel + 1) w (some a) = .ok w' ∧
      (localChildren o w.OCT_localpid).foldlM (fun s c => LB_visit U fuel s (some c))
        (writeNpid (countVisit w) a o w.partition) = .ok w' ∧
      DescInv w a o (slots.filter (localSlot o w.OCT_localpid)) w' := by
  rw [LB_visit_descend U hm hnofit hnt, if_neg (by simp [hclose])]
  obtain ⟨s', hs', hI'⟩ := index_loop_inv (fun w c => LB_visit U fuel w c) a o
    w.OCT_localpid
    (fun vis s => DescInv w a o vis s ∧
      (vis.filterMap o.child).foldlM (fun s c => LB_visit U fuel s (some c))
        (writeNpid (countVisit w) a o w.partition) = .ok s)
    (fun vis s hI => ⟨_, hI.1.self, rfl, hI.1.frame.localpid⟩)
    (fun vis x s c hx hI hch hcp => by
      have hdc : Depth w n c := hd.child ⟨o, x, hm, hch, hcp⟩
      obtain ⟨oc, hoc⟩ := hdc.live
      obtain ⟨oc', hoc', _⟩ := hI.1.frame.mem_some hoc
      obtain ⟨s', hs', hP⟩ := LB_visit_post U fuel s n c oc' hoc' (hI.1.frame.depth hdc) hn
        (Or.inl (by rw [hI.1.frame.close]; exact hclose))
      refine ⟨s', hs', DescInv_step hm hd hI.1 hx hch hcp hoc' hP, ?_⟩
      rw [filterMap_append_singleton _ _ _ _ hch, List.foldlM_append, hI.2]
      simp only [ok_bind, List.foldlM_cons, List.foldlM_nil, hs', pure_eq_ok])
    _ ⟨DescInv_init hm, rfl⟩
  exact ⟨s', hs', hI'.2, hI'.1⟩


/-! ## The choice made by the scan of `LB_visit_by_dist` -/

theorem slots_sorted : slots.Pairwise (· < ·) := by decide

/-- With `pmass ≠ 0` the scan keeps the first slot of minimal distance among the candidates. -/
theorem scan_min (U : OctUtil) {w : World} {a : Nat} {o : Octant} (hm : w.mem a = some o)
    (hp : w.pmass ≠ 0) (corigin : Fin 8 → COORD) (pc : COORD) (visited : Fin 8 → Bool) :
    ∀ (l : List (Fin 8)) (md : ℚ) (mc : Option (Fin 8)) (md' : ℚ) (mc' : Option (Fin 8)),
      (∀ i0, mc = some i0 → md = U.vector_dist pc (corigin i0)) →
      LB_visit_by_dist_scan U w (some a) corigin pc visited l md mc = .ok (md', mc') →
      ∀ i, mc' = some i → md' = U.vector_dist pc (corigin i) ∧
        (∀ j ∈ l, o.cpid j = w.OCT_localpid ∧ visited j = false →
          U.vector_dist pc (corigin i) ≤ U.vector_dist pc (corigin j)) ∧
        (∀ i0, mc = some i0 → U.vector_dist pc (corigin i) ≤ U.vector_dist pc (corigin i0)) := by
  intro l
  induction l with
  | nil =>
    intro md mc md' mc' hinv h i hi
    rw [LB_visit_by_dist_scan] at h
    cases h
    refine ⟨hinv i hi, fun j hj => ?_, fun i0 h0 => ?_⟩
    · cases hj
    · rw [hi] at h0; cases h0; exact le_refl _
  | cons x rest ih =>
    intro md mc md' mc' hinv h i hi
    rw [LB_visit_by_dist_scan] at h
    simp only [POC_local_some hm, ok_bind] at h
    by_cases hcand : o.cpid x = w.OCT_localpid ∧ visited x = false
    · have hc1 : (decide (o.cpid x = w.OCT_localpid) && !visited x) = true := by
        simp [hcand.1, hcand.2]
      simp only [hc1, if_true] at h
      by_cases hsel : w.pmass = 0 ∨ mc = none ∨ U.vector_dist pc (corigin x) < md
      · rw [if_pos hsel] at h
        obtain ⟨h1, h2, h3⟩ := ih _ (some x) md' mc' (fun i0 h0 => by cases h0; rfl) h i hi
        have hx := h3 x rfl
        refine ⟨h1, fun j hj hcj => ?_, fun i0 h0 => ?_⟩
        · rcases List.mem_cons.1 hj with hj | hj
          · subst hj; exact hx
          · exact h2 j hj hcj
        · rcases hsel with hs | hs | hs
          · exact absurd hs hp
          · rw [h0] at hs; cases hs
          · rw [hinv i0 h0] at hs
            exact le_trans hx hs.le
      · rw [if_neg hsel] at h
        push_neg at hsel
        obtain ⟨h1, h2, h3⟩ := ih md mc md' mc' hinv h i hi
        refine ⟨h1, fun j hj hcj => ?_, h3⟩
        rcases List.mem_cons.1 hj with hj | hj
        · subst hj
          obtain ⟨i0, h0⟩ := Option.ne_none_iff_exists'.1 hsel.2.1
          have := hsel.2.2
          rw [hinv i0 h0] at this
          exact le_trans (h3 i0 h0) this
        · exact h2 j hj hcj
    · have hc1 : (decide (o.cpid x = w.OCT_localpid) && !visited x) = false := by
        by_cases h1 : o.cpid x = w.OCT_localpid
        · have : visited x ≠ false := fun h => hcand ⟨h1, h⟩
          simp [h1, this]
        · simp [h1]
      simp only [hc1, Bool.false_eq_true, if_false] at h
      obtain ⟨h1, h2, h3⟩ := ih md mc md' mc' hinv h i hi
      refine ⟨h1, fun j hj hcj => ?_, h3⟩
      rcases List.mem_cons.1 hj with hj | hj
      · subst hj; exact absurd hcj hcand
      · exact h2 j hj hcj

/-- With `pmass = 0` the scan keeps the last candidate, whatever the distances. -/
theorem scan_last (U : OctUtil) {w : World} {a : Nat} {o : Octant} (hm : w.mem a = some o)
    (hp : w.pmass = 0) (corigin : Fin 8 → COORD) (pc : COORD) (visited : Fin 8 → Bool) :
    ∀ (l : List (Fin 8)) (md : ℚ) (mc : Option (Fin 8)) (md' : ℚ) (mc' : Option (Fin 8)),
      l.Pairwise (· < ·) → (∀ i0, mc = some i0 → ∀ j ∈ l, i0 < j) →
      LB_visit_by_dist_scan U w (some a) corigin pc visited l md mc = .ok (md', mc') →
      ∀ i, mc' = some i →
        (∀ j ∈ l, o.cpid j = w.OCT_localpid ∧ visited j = false → j ≤ i) ∧
        (∀ i0, mc = some i0 → i0 ≤ i) := by
  intro l
  induction l with
  | nil =>
    intro md mc md' mc' _ _ h i hi
    rw [LB_visit_by_dist_scan] at h
    cases h
    refine ⟨fun j hj => ?_, fun i0 h0 => ?_⟩
    · cases hj
    · rw [hi] at h0; cases h0; exact le_refl _
  | cons x rest ih =>
    intro md mc md' mc' hsorted hlt h i hi
    rw [LB_visit_by_dist_scan] at h
    simp only [POC_local_some hm, ok_bind] at h
    have hsr : rest.Pairwise (· < ·) := (List.pairwise_cons.1 hsorted).2
    have hxr : ∀ j ∈ rest, x < j := (List.pairwise_cons.1 hsorted).1
    by_cases hcand : o.cpid x = w.OCT_localpid ∧ visited x = false
    · have hc1 : (decide (o.cpid x = w.OCT_localpid) && !visited x) = true := by
        simp [hcand.1, hcand.2]
      simp only [hc1, if_true] at h
      rw [if_pos (Or.inl hp)] at h
      obtain ⟨h2, h3⟩ := ih _ (some x) md' mc' hsr (fun i0 h0 j hj => by
        cases h0; exact hxr j hj) h i hi
      have hx := h3 x rfl
      refine ⟨fun j hj hcj => ?_, fun i0 h0 => ?_⟩
      · rcases List.mem_cons.1 hj with hj | hj
        · subst hj; exact hx
        · exact h2 j hj hcj
      · exact le_trans (hlt i0 h0 x (List.mem_cons_self _ _)).le hx
    · have hc1 : (decide (o.cpid x = w.OCT_localpid) && !visited x) = false := by
        by_cases h1 : o.cpid x = w.OCT_localpid
        · have : visited x ≠ false := fun h => hcand ⟨h1, h⟩
          simp [h1, this]
        · simp [h1]
      simp only [hc1, Bool.false_eq_true, if_false] at h
      obtain ⟨h2, h3⟩ := ih md mc md' mc' hsr (fun i0 h0 j hj =>
        hlt i0 h0 j (List.mem_cons_of_mem _ hj)) h i hi
      refine ⟨fun j hj hcj => ?_, h3⟩
      rcases List.mem_cons.1 hj with hj | hj
      · subst hj; exact absurd hcj hcand
      · exact h2 j hj hcj

theorem centroid_eq (w : World) (pc0 pc : COORD)
    (h : (if w.pmass > 0 then vector_divc w.pcoord w.pmass else pure pc0) = Except.ok pc) :
    pc = if w.pmass > 0 then
        ⟨w.pcoord.c0 / w.pmass, w.pcoord.c1 / w.pmass, w.pcoord.c2 / w.pmass⟩
      else pc0 := by
  by_cases hp : w.pmass > 0
  · rw [if_pos hp, vector_divc_ok _ (ne_of_gt hp)] at h
    rw [if_pos hp]
    cases h; rfl
  · rw [if_neg hp] at h
    rw [if_neg hp]
    cases h; rfl


/-! ## Facts about the sample data -/

theorem fourLeafWorld_depth : Depth fourLeafWorld 2 0 := by
  refine Depth.node (o := sampleRoot4) rfl (fun i c hch _ => ?_)
  have hc : 1 ≤ c ∧ c ≤ 4 := by
    simp only [sampleRoot4] at hch
    split at hch
    · cases hch; omega
    · cases hch
  refine Depth.node (o := sampleLeaf 1) ?_ (fun j d hd _ => by simp [sampleLeaf] at hd)
  have h0 : c ≠ 0 := by omega
  simp [fourLeafWorld, h0, hc.2]

theorem fourLeafWorld_roots : ∀ r ∈ fourLeafWorld.OCT_rootlist, Depth fourLeafWorld 2 r := by
  intro r hr
  have : r = 0 := by simpa [fourLeafWorld] using hr
  subst this
  exact fourLeafWorld_depth

theorem fourLeafWorld_costOK : CostOK fourLeafWorld := by
  intro a o hm
  by_cases h0 : a = 0
  · subst h0
    have : o = sampleRoot4 := by
      have h : some sampleRoot4 = some o := hm
      cases h; rfl
    subst this
    decide!
  · by_cases h4 : a ≤ 4
    · have : o = sampleLeaf 1 := by
        simp only [fourLeafWorld, if_neg h0, if_pos h4] at hm
        cases hm; rfl
      subst this
      decide!
    · simp [fourLeafWorld, h0, h4] at hm

theorem oneLeafWorld_roots : ∀ r ∈ oneLeafWorld.OCT_rootlist, Depth oneLeafWorld 1 r := by
  intro r hr
  have : r = 0 := by simpa [oneLeafWorld] using hr
  subst this
  exact Depth.node (o := sampleLeaf 1) rfl (fun j d hd _ => by simp [sampleLeaf] at hd)

theorem oneLeafWorld_costOK : CostOK oneLeafWorld := by
  intro a o hm
  by_cases h0 : a = 0
  · subst h0
    have : o = sampleLeaf 1 := by
      have h : some (sampleLeaf 1) = some o := hm
      cases h; rfl
    subst this
    decide!
  · simp [oneLeafWorld, emptyWorld, h0] at hm

theorem mixedWorld_child {p : Nat} {op : Octant} {i : Fin 8} {c : Nat}
    (hm : mixedWorld.mem p = some op) (hch : op.child i = some c) :
    p = 0 ∧ op = sampleRootMixed ∧ c = i.val + 1 ∧ i.val < 3 := by
  by_cases h0 : p = 0
  · subst h0
    have : op = sampleRootMixed := by
      have h : some sampleRootMixed = some op := hm
      cases h; rfl
    subst this
    simp only [sampleRootMixed] at hch
    split at hch
    · cases hch
      exact ⟨rfl, rfl, rfl, by assumption⟩
    · cases hch
  · by_cases h3 : p ≤ 3
    · have : op = sampleLeaf 1 := by
        simp only [mixedWorld, if_neg h0, if_pos h3] at hm
        cases hm; rfl
      subst this
      simp [sampleLeaf] at hch
    · simp [mixedWorld, emptyWorld, h0, h3] at hm

theorem mixedWorld_depth : Depth mixedWorld 2 0 := by
  refine Depth.node (o := sampleRootMixed) rfl (fun i c hch _ => ?_)
  obtain ⟨_, _, hc, hi⟩ := mixedWorld_child (p := 0) rfl hch
  refine Depth.node (o := sampleLeaf 1) ?_ (fun j d hd _ => by simp [sampleLeaf] at hd)
  have h0 : c ≠ 0 := by omega
  have h3 : c ≤ 3 := by omega
  simp [mixedWorld, h0, h3]

theorem mixedWorld_uniqueParent : UniqueParent mixedWorld := by
  intro p q op oq i j c hp hq hi hj
  obtain ⟨h1, _, h3, _⟩ := mixedWorld_child hp hi
  obtain ⟨g1, _, g3, _⟩ := mixedWorld_child hq hj
  refine ⟨by rw [h1, g1], ?_⟩
  apply Fin.ext
  omega

theorem mixedWorld_acyclic : Acyclic mixedWorld := by
  intro x hx
  have hfirst : x = 0 := by
    rcases Relation.TransGen.head'_iff.1 hx with ⟨y, ⟨o, i, hm, hch⟩, _⟩
    exact (mixedWorld_child hm hch).1
  have hlast : 1 ≤ x := by
    rcases Relation.TransGen.tail'_iff.1 hx with ⟨y, _, ⟨o, i, hm, hch⟩⟩
    have := (mixedWorld_child hm hch).2.2.1
    omega
  omega


/-! ## Creation -/

theorem POC_new_clear_spec (l : List (Fin 8)) : ∀ (o : Octant),
    (∀ i, i ∈ l → (POC_new_clear o l).child i = none ∧ (POC_new_clear o l).cpid i = -1) ∧
    (∀ i, i ∉ l → (POC_new_clear o l).child i = o.child i ∧
      (POC_new_clear o l).cpid i = o.cpid i) ∧
    POC_new_clear o l = { o with child := (POC_new_clear o l).child,
                                 cpid := (POC_new_clear o l).cpid } := by
  induction l with
  | nil =>
    intro o
    exact ⟨fun i hi => (by cases hi), fun i _ => ⟨rfl, rfl⟩, rfl⟩
  | cons x rest ih =>
    intro o
    obtain ⟨h1, h2, h3⟩ := ih
      { o with child := Function.update o.child x none, cpid := Function.update o.cpid x (-1) }
    refine ⟨fun i hi => ?_, fun i hi => ?_, ?_⟩
    · by_cases hir : i ∈ rest
      · exact h1 i hir
      · have hix : i = x := by
          rcases List.mem_cons.1 hi with h | h
          · exact h
          · exact absurd h hir
        subst hix
        have := h2 i hir
        simp only [POC_new_clear]
        rw [this.1, this.2]
        simp
    · have hir : i ∉ rest := fun h => hi (List.mem_cons_of_mem _ h)
      have hix : i ≠ x := fun h => hi (h ▸ List.mem_cons_self _ _)
      have := h2 i hir
      simp only [POC_new_clear]
      rw [this.1, this.2]
      simp [Function.update_noteq hix]
    · simp only [POC_new_clear]
      rw [h3]

theorem POC_new_eq (w : World) (a : Nat) (raw : Octant) :
    POC_new w (some a) raw = .ok
      ({ w with
          mem := Function.update w.mem a (some
            { POC_new_clear raw slots with
              parent := none, ppid := w.OCT_localpid, id := w.OCT_idcount, which := -1,
              numChild := 0, list := [], cost := 0, npid := w.OCT_localpid })
          OCT_count := w.OCT_count + 1
          OCT_idcount := w.OCT_idcount + 1 }, a) := by
  simp only [POC_new, POC_malloc, ok_bind, deref, Function.update_same, pure_eq_ok,
    Function.update_idem]


/-! ## The depth-first successor -/

theorem firstChild_eq (o : Octant) (l : List (Fin 8)) :
    firstChild o l = (l.filterMap o.child).head? := by
  induction l with
  | nil => rfl
  | cons i rest ih =>
    cases h : o.child i with
    | none => simp [firstChild, h, ih, List.filterMap_cons]
    | some c => simp [firstChild, h, List.filterMap_cons]

theorem filter_gt_of_sorted {i : Fin 8} : ∀ {pre rest : List (Fin 8)},
    (pre ++ i :: rest).Pairwise (· < ·) →
    (pre ++ i :: rest).filter (fun j => decide (((i.val : Nat) : Int) < ((j.val : Nat) : Int)))
      = rest := by
  intro pre rest hs
  have hpre : ∀ j ∈ pre, j < i := fun j hj =>
    (List.pairwise_append.1 hs).2.2 j hj i (List.mem_cons_self _ _)
  have hrest : ∀ j ∈ rest, i < j := fun j hj =>
    (List.pairwise_cons.1 (List.pairwise_append.1 hs).2.1).1 j hj
  rw [List.filter_append, List.filter_cons]
  have h1 : pre.filter (fun j => decide (((i.val : Nat) : Int) < ((j.val : Nat) : Int))) = [] := by
    rw [List.filter_eq_nil_iff]
    intro j hj
    have := hpre j hj
    simp only [decide_eq_true_eq, not_lt]
    exact_mod_cast (Fin.le_of_lt this)
  have h2 : rest.filter (fun j => decide (((i.val : Nat) : Int) < ((j.val : Nat) : Int)))
      = rest := by
    rw [List.filter_eq_self]
    intro j hj
    have := hrest j hj
    simp only [decide_eq_true_eq]
    exact_mod_cast this
  rw [h1, h2]
  simp

theorem slots_filter_gt {i : Fin 8} {pre rest : List (Fin 8)} (h : pre ++ i :: rest = slots) :
    slots.filter (fun j => decide (((i.val : Nat) : Int) < ((j.val : Nat) : Int))) = rest := by
  have hs := slots_sorted
  rw [← h] at hs ⊢
  exact filter_gt_of_sorted hs

/-- The climb of `POC_nextDfs` from a child `c` in slot `i` of `p`: the first non-empty slot
of `p` after `i`, else the climb from `p`. -/
theorem up_of_child {w : World} (hpl : ParentLinked w) {p c : Nat} {op : Octant} {i : Fin 8}
    (hp : w.mem p = some op) (hc : op.child i = some c) (f : Nat) :
    POC_nextDfs_up w (f + 1) c =
      match firstChild op
          (slots.filter (fun j => decide (((i.val : Nat) : Int) < ((j.val : Nat) : Int)))) with
      | some c' => .ok (some c')
      | none => POC_nextDfs_up w f p := by
  obtain ⟨oc, hoc, hpar, hwh⟩ := hpl p op i c hp hc
  have hnot : ¬ (((i.val : Nat) : Int) < -1) := by
    have : (0 : Int) ≤ ((i.val : Nat) : Int) := Int.natCast_nonneg _
    omega
  rw [POC_nextDfs_up]
  simp only [deref, hoc, ok_bind, hpar, hp, hwh, if_neg hnot]
  rfl

theorem up_of_root {w : World} {r : Nat} {o : Octant} (hr : w.mem r = some o)
    (hpar : o.parent = none) : UpTo w 1 r none := by
  intro f hf
  obtain ⟨f', rfl⟩ : ∃ f', f = f' + 1 := ⟨f - 1, by omega⟩
  rw [POC_nextDfs_up]
  simp only [deref, hr, ok_bind, hpar]
  rfl

theorem StepTo.weaken {w : World} {G G' : Nat} {a : Nat} {x : pOctant} (h : StepTo w G a x)
    (hG : G ≤ G') : StepTo w G' a x :=
  fun f hf => h f (le_trans hG hf)

theorem NextChain.relax {w : World} {G G' : Nat} (hG : G ≤ G') :
    ∀ {l : List Nat} {k : pOctant}, NextChain w G l k → NextChain w G' l k := by
  intro l
  induction l with
  | nil => intro k _; trivial
  | cons x rest ih =>
    intro k h
    cases rest with
    | nil => exact StepTo.weaken h hG
    | cons y rest' => exact ⟨StepTo.weaken h.1 hG, ih h.2⟩

theorem NextChain.append {w : World} {G : Nat} {y : Nat} {l2 : List Nat} {k : pOctant} :
    ∀ {l1 : List Nat}, NextChain w G l1 (some y) → NextChain w G (y :: l2) k →
      NextChain w G (l1 ++ y :: l2) k := by
  intro l1
  induction l1 with
  | nil => intro _ h2; exact h2
  | cons x rest ih =>
    intro h1 h2
    cases rest with
    | nil => exact ⟨h1, h2⟩
    | cons z rest' => exact ⟨h1.1, ih h1.2 h2⟩


theorem Height.alive {w : World} {n a : Nat} (h : Height w n a) : ∃ o, w.mem a = some o := by
  cases h with
  | node hm _ => exact ⟨_, hm⟩

theorem Height.kid {w : World} {n a c : Nat} {o : Octant} {i : Fin 8}
    (h : Height w (n + 1) a) (hm : w.mem a = some o) (hc : o.child i = some c) :
    Height w n c := by
  cases h with
  | node hm' hk =>
    rw [hm] at hm'
    cases hm'
    exact hk i c hc

theorem Height.raise {w : World} {n m a : Nat} (h : Height w n a) (hnm : n ≤ m) :
    Height w m a := by
  induction h generalizing m with
  | node hm _ ih =>
    cases m with
    | zero => omega
    | succ m => exact Height.node hm (fun i c hc => ih i c hc (by omega))

theorem Height.pos {w : World} {n a : Nat} (h : Height w n a) : ∃ n', n = n' + 1 := by
  cases h with
  | node _ _ => exact ⟨_, rfl⟩

theorem dfsList_succ {w : World} {a : Nat} {o : Octant} (hm : w.mem a = some o) (n : Nat) :
    dfsList w (n + 1) a = a :: (childList o).flatMap (dfsList w n) := by
  rw [dfsList]
  simp only [hm]

theorem dfsList_head {w : World} {n a : Nat} (h : Height w n a) :
    ∃ tl, dfsList w n a = a :: tl := by
  obtain ⟨o, hm⟩ := h.alive
  obtain ⟨n', rfl⟩ := h.pos
  exact ⟨_, dfsList_succ hm n'⟩

/-- The pre-order listing of the children found in the slots `sl` of `o`. -/
theorem kids_chain {w : World} (hpl : ParentLinked w) {a : Nat} {o : Octant}
    (hm : w.mem a = some o) {h F : Nat} {k : pOctant}
    (hkids : ∀ i c, o.child i = some c → Height w h c)
    (hup : UpTo w F a k)
    (ih : ∀ c F' k', Height w h c → UpTo w F' c k' → NextChain w (F' + h) (dfsList w h c) k') :
    ∀ (sl pre : List (Fin 8)), pre ++ sl = slots →
      NextChain w (F + 1 + h) ((sl.filterMap o.child).flatMap (dfsList w h)) k ∧
      ((sl.filterMap o.child).flatMap (dfsList w h)).head? = firstChild o sl := by
  intro sl
  induction sl with
  | nil =>
    intro pre _
    exact ⟨trivial, rfl⟩
  | cons i rest ihl =>
    intro pre hpre
    obtain ⟨hchain, hhead⟩ := ihl (pre ++ [i]) (by simpa using hpre)
    cases hci : o.child i with
    | none =>
      simp only [List.filterMap_cons, hci, firstChild]
      exact ⟨hchain, hhead⟩
    | some c =>
      have hhc : Height w h c := hkids i c hci
      obtain ⟨tl, htl⟩ := dfsList_head hhc
      have hupc : UpTo w (F + 1) c
          (match firstChild o rest with
           | some c' => some c'
           | none => k) := by
        intro f hf
        obtain ⟨f', rfl⟩ : ∃ f', f = f' + 1 := ⟨f - 1, by omega⟩
        rw [up_of_child hpl hm hci f', slots_filter_gt hpre]
        cases hfc : firstChild o rest with
        | some c' => rfl
        | none => exact hup f' (by omega)
      have hc := ih c (F + 1) _ hhc hupc
      simp only [List.filterMap_cons, hci, List.flatMap_cons, firstChild]
      refine ⟨?_, by rw [htl]; rfl⟩
      cases hfc : firstChild o rest with
      | none =>
        rw [hfc] at hhead hc
        have hnil : (rest.filterMap o.child).flatMap (dfsList w h) = [] := by
          cases hl : (rest.filterMap o.child).flatMap (dfsList w h) with
          | nil => rfl
          | cons y ys => rw [hl] at hhead; cases hhead
        rw [hnil, List.append_nil]
        exact hc
      | some c' =>
        rw [hfc] at hhead hc
        cases hl : (rest.filterMap o.child).flatMap (dfsList w h) with
        | nil => rw [hl] at hhead; cases hhead
        | cons y ys =>
          rw [hl] at hhead hchain
          cases hhead
          exact NextChain.append hc hchain

/-- In a tree with agreeing links, `POC_nextDfs` leads from each octant of the pre-order
listing of the subtree of `a` to the next one, and from the last one to whatever the climb
from `a` returns. -/
theorem chain_subtree {w : World} (hpl : ParentLinked w) :
    ∀ (h a F : Nat) (k : pOctant), Height w h a → UpTo w F a k →
      NextChain w (F + h) (dfsList w h a) k := by
  intro h
  induction h with
  | zero =>
    intro a F k hh
    cases hh
  | succ h ih =>
    intro a F k hh hup
    obtain ⟨o, hm⟩ := hh.alive
    obtain ⟨hchain, hhead⟩ := kids_chain hpl hm (fun i c hc => hh.kid hm hc) hup
      (fun c F' k' h1 h2 => ih c F' k' h1 h2) slots [] rfl
    rw [dfsList_succ hm]
    show NextChain w (F + (h + 1)) (a :: (slots.filterMap o.child).flatMap (dfsList w h)) k
    have hG : F + 1 + h = F + (h + 1) := by omega
    rw [hG] at hchain
    cases hl : (slots.filterMap o.child).flatMap (dfsList w h) with
    | nil =>
      rw [hl] at hhead
      intro f hf
      simp only [POC_nextDfs, deref, hm, ok_bind, ← hhead]
      exact hup f (by omega)
    | cons y ys =>
      rw [hl] at hhead hchain
      refine ⟨fun f _ => ?_, hchain⟩
      simp only [POC_nextDfs, deref, hm, ok_bind, ← hhead]
      rfl

/-- Iterating `POC_nextDfs` along a chain lists the chain and goes on from its end. -/
theorem walk_chain {w : World} {G : Nat} {k : pOctant} :
    ∀ (l : List Nat) (x : Nat), NextChain w G (x :: l) k → ∀ f, (x :: l).length + G ≤ f →
      dfsWalk w f (some x) = (do
        let rest ← dfsWalk w (f - (x :: l).length) k
        pure (x :: l ++ rest)) := by
  intro l
  induction l with
  | nil =>
    intro x hc f hf
    obtain ⟨f', rfl⟩ : ∃ f', f = f' + 1 := ⟨f - 1, by simp at hf; omega⟩
    have hstep : POC_nextDfs w f' (some x) = .ok k := hc f' (by simp at hf; omega)
    rw [dfsWalk]
    simp only [hstep, ok_bind, List.length_singleton, Nat.add_sub_cancel]
    rfl
  | cons y rest ih =>
    intro x hc f hf
    obtain ⟨f', rfl⟩ : ∃ f', f = f' + 1 := ⟨f - 1, by simp at hf; omega⟩
    have hstep : POC_nextDfs w f' (some x) = .ok (some y) :=
      hc.1 f' (by simp at hf; omega)
    have hrec := ih y hc.2 f' (by simp at hf ⊢; omega)
    rw [dfsWalk]
    simp only [hstep, ok_bind, hrec]
    have hlen : f' + 1 - (x :: y :: rest).length = f' - (y :: rest).length := by
      simp
    rw [hlen]
    cases dfsWalk w (f' - (y :: rest).length) k with
    | error e => rfl
    | ok r => rfl


/-! ## The canonical pre-order listing -/

theorem Height.of_desc {w : World} {n a b : Nat} (h : Height w n a) (hd : Desc w a b) :
    Height w n b := by
  induction hd with
  | refl => exact h
  | @tail y b _ hyb ih =>
    obtain ⟨oy, i, hmy, hch⟩ := hyb
    obtain ⟨n', rfl⟩ := ih.pos
    exact (ih.kid hmy hch).raise (Nat.le_succ n')

theorem Height.no_cycle {w : World} {a : Nat} :
    ∀ n, Height w n a → ¬ Relation.TransGen (AnyChild w) a a := by
  intro n
  induction n with
  | zero => intro h; cases h
  | succ n ih =>
    intro hh hc
    obtain ⟨c, ⟨o, i, hm, hch⟩, hca⟩ := Relation.TransGen.head'_iff.1 hc
    exact ih ((hh.kid hm hch).of_desc hca) hc

theorem ParentLinked.uniqueParent {w : World} (hpl : ParentLinked w) : UniqueParent w := by
  intro p q op oq i j c hp hq hi hj
  obtain ⟨oc, hoc, hpar, hwh⟩ := hpl p op i c hp hi
  obtain ⟨oc', hoc', hpar', hwh'⟩ := hpl q oq j c hq hj
  rw [hoc] at hoc'
  cases hoc'
  rw [hpar] at hpar'
  rw [hwh] at hwh'
  refine ⟨by cases hpar'; rfl, ?_⟩
  apply Fin.ext
  exact_mod_cast hwh'

/-- Two children of `a` that have a common descendant sit in the same slot, when parents are
unique and `a` is not its own descendant. -/
theorem slot_unique_at {w : World} (hu : UniqueParent w) {a : Nat}
    (hac : ¬ Relation.TransGen (AnyChild w) a a) {o : Octant}
    (hm : w.mem a = some o) {i j : Fin 8} {c c' : Nat} (hi : o.child i = some c)
    (hj : o.child j = some c') {d : Nat} (h1 : Desc w c d) : Desc w c' d → i = j := by
  induction h1 with
  | refl =>
    intro h2
    rcases Relation.ReflTransGen.cases_tail h2 with h | ⟨y, hy, ⟨oy, k, hmy, hk⟩⟩
    · subst h
      exact (hu a a o o i j c hm hm hi hj).2
    · have := (hu a y o oy i k c hm hmy hi hk).1
      subst this
      exact absurd (Relation.TransGen.head' ⟨o, j, hm, hj⟩ hy) hac
  | @tail y d hcy hyd ih =>
    intro h2
    obtain ⟨oy, k, hmy, hk⟩ := hyd
    rcases Relation.ReflTransGen.cases_tail h2 with h | ⟨y', hy', ⟨oy', k', hmy', hk'⟩⟩
    · subst h
      have := (hu a y o oy j k d hm hmy hj hk).1
      subst this
      exact absurd (Relation.TransGen.head' ⟨o, i, hm, hi⟩ hcy) hac
    · have := (hu y y' oy oy' k k' d hmy hmy' hk hk').1
      subst this
      exact ih hy'

theorem mem_childList {o : Octant} {c : Nat} : c ∈ childList o ↔ ∃ i, o.child i = some c := by
  unfold childList
  rw [List.mem_filterMap]
  constructor
  · rintro ⟨i, _, h⟩
    exact ⟨i, h⟩
  · rintro ⟨i, h⟩
    exact ⟨i, mem_slots i, h⟩

theorem mem_dfsList {w : World} {b : Nat} :
    ∀ (n a : Nat), Height w n a → (b ∈ dfsList w n a ↔ Desc w a b) := by
  intro n
  induction n with
  | zero => intro a h; cases h
  | succ n ih =>
    intro a hh
    obtain ⟨o, hm⟩ := hh.alive
    rw [dfsList_succ hm, List.mem_cons, List.mem_flatMap]
    constructor
    · rintro (h | ⟨c, hc, hb⟩)
      · subst h
        exact Relation.ReflTransGen.refl
      · obtain ⟨i, hi⟩ := mem_childList.1 hc
        exact Relation.ReflTransGen.head ⟨o, i, hm, hi⟩ ((ih c (hh.kid hm hi)).1 hb)
    · intro hd
      rcases Relation.ReflTransGen.cases_head hd with h | ⟨c, ⟨o', i, hm', hi⟩, hcb⟩
      · exact Or.inl h.symm
      · rw [hm] at hm'
        cases hm'
        exact Or.inr ⟨c, mem_childList.2 ⟨i, hi⟩, (ih c (hh.kid hm hi)).2 hcb⟩

theorem pairwise_filterMap_slots {R : Nat → Nat → Prop} (o : Octant)
    (h : ∀ i j c c', i ≠ j → o.child i = some c → o.child j = some c' → R c c') :
    (childList o).Pairwise R := by
  unfold childList
  rw [List.pairwise_filterMap]
  refine slots_nodup.imp_of_mem ?_
  intro i j _ _ hij c hc c' hc'
  exact h i j c c' hij (Option.mem_def.1 hc) (Option.mem_def.1 hc')

theorem nodup_dfsList {w : World} (hu : UniqueParent w) :
    ∀ (n a : Nat), Height w n a → (dfsList w n a).Nodup := by
  intro n
  induction n with
  | zero => intro a h; cases h
  | succ n ih =>
    intro a hh
    obtain ⟨o, hm⟩ := hh.alive
    have hac := Height.no_cycle _ hh
    rw [dfsList_succ hm, List.nodup_cons, List.mem_flatMap, List.nodup_flatMap]
    refine ⟨?_, ?_, ?_⟩
    · rintro ⟨c, hc, ha⟩
      obtain ⟨i, hi⟩ := mem_childList.1 hc
      exact hac (Relation.TransGen.head' ⟨o, i, hm, hi⟩ ((mem_dfsList n c (hh.kid hm hi)).1 ha))
    · intro c hc
      obtain ⟨i, hi⟩ := mem_childList.1 hc
      exact ih c (hh.kid hm hi)
    · refine pairwise_filterMap_slots o ?_
      intro i j c c' hij hi hj
      show List.Disjoint (dfsList w n c) (dfsList w n c')
      intro x hx hx'
      exact hij (slot_unique_at hu hac hm hi hj ((mem_dfsList n c (hh.kid hm hi)).1 hx)
        ((mem_dfsList n c' (hh.kid hm hj)).1 hx'))

/-- In a chain each octant is followed by the next element of the list, the last one by the
end of the chain. -/
theorem NextChain.step_at {w : World} {G : Nat} {k : pOctant} :
    ∀ (l : List Nat) (i x : Nat), NextChain w G l k → l[i]? = some x →
      StepTo w G x (match l[i + 1]? with
        | some y => some y
        | none => k) := by
  intro l
  induction l with
  | nil => intro i x _ h; simp at h
  | cons a rest ih =>
    intro i x hc hx
    cases rest with
    | nil =>
      cases i with
      | zero =>
        simp at hx
        subst hx
        exact hc
      | succ i => simp at hx
    | cons y ys =>
      cases i with
      | zero =>
        simp at hx
        subst hx
        simpa using hc.1
      | succ i =>
        have hx' : (y :: ys)[i]? = some x := by simpa using hx
        have := ih i x hc.2 hx'
        simpa using this

/-- Iterating `POC_nextDfs` along a chain that ends in `NULL` lists the chain. -/
theorem walk_of_chain {w : World} {G : Nat} (l : List Nat) (x : Nat)
    (hc : NextChain w G (x :: l) none) (f : Nat) (hf : (x :: l).length + G ≤ f) :
    dfsWalk w f (some x) = .ok (x :: l) := by
  rw [walk_chain l x hc f hf]
  have : dfsWalk w (f - (x :: l).length) none = .ok [] := by
    cases f - (x :: l).length with
    | zero => rfl
    | succ m => rfl
  rw [this]
  simp [ok_bind]

/-- In a tree with agreeing links below a root without parent pointer, the pre-order listing
is a chain of `POC_nextDfs` that ends in `NULL`. -/
theorem chain_root {w : World} (hpl : ParentLinked w) {r h : Nat} {o : Octant}
    (hr : w.mem r = some o) (hpar : o.parent = none) (hh : Height w h r) :
    NextChain w (h + 1) (dfsList w h r) none := by
  have := chain_subtree hpl h r 1 none hh (up_of_root hr hpar)
  rwa [Nat.add_comm] at this

theorem walk_root {w : World} (hpl : ParentLinked w) {r h : Nat} {o : Octant}
    (hr : w.mem r = some o) (hpar : o.parent = none) (hh : Height w h r) (f : Nat)
    (hf : (dfsList w h r).length + (h + 1) ≤ f) :
    dfsWalk w f (some r) = .ok (dfsList w h r) := by
  obtain ⟨tl, htl⟩ := dfsList_head hh
  have hc := chain_root hpl hr hpar hh
  rw [htl] at hc hf ⊢
  exact walk_of_chain tl r hc f hf

/-! ## The hand-over to the migration -/

theorem npidAt_some {w : World} {a : Nat} {o : Octant} (hm : w.mem a = some o) :
    npidAt w a = o.npid := by
  simp [npidAt, hm]

/-- Along a chain of `POC_nextDfs` that ends in `NULL`, with valid `npid` values and room in
the arrays, the loop of `LB_dfs_migrate` appends the chain to the arrays. -/
theorem migrate_walk_chain {w : World} {N : Int} {G : Nat} :
    ∀ (l : List Nat) (x : Nat) (acc : List (Nat × Int)), NextChain w G (x :: l) none →
      (∀ y ∈ x :: l, ∃ o, w.mem y = some o ∧ 0 ≤ o.npid ∧ o.npid < N) →
      ((acc.length + (x :: l).length : Nat) : Int) ≤ POC_nOctants w →
      ∀ f, (x :: l).length + G ≤ f →
      LB_dfs_migrate_walk w N f (some x) acc =
        .ok (acc ++ (x :: l).map (fun a => (a, npidAt w a))) := by
  intro l
  induction l with
  | nil =>
    intro x acc hc hv hcap f hf
    obtain ⟨f', rfl⟩ : ∃ f', f = f' + 1 := ⟨f - 1, by simp at hf; omega⟩
    obtain ⟨o, hm, h0, hN⟩ := hv x (List.mem_cons_self _ _)
    have hstep : POC_nextDfs w f' (some x) = .ok none := hc f' (by simp at hf; omega)
    have hpid : ¬ (o.npid < 0 ∨ o.npid ≥ N) := by omega
    have hroom : ¬ (POC_nOctants w = 0) := by
      simp only [List.length_singleton] at hcap
      push_cast at hcap
      omega
    rw [LB_dfs_migrate_walk]
    simp only [POC_data_newpid, deref, hm, ok_bind, pure_eq_ok, if_neg hpid, if_neg hroom, hstep]
    cases f' with
    | zero => simp [LB_dfs_migrate_walk, npidAt_some hm]
    | succ m => simp [LB_dfs_migrate_walk, npidAt_some hm]
  | cons y rest ih =>
    intro x acc hc hv hcap f hf
    obtain ⟨f', rfl⟩ : ∃ f', f = f' + 1 := ⟨f - 1, by simp at hf; omega⟩
    obtain ⟨o, hm, h0, hN⟩ := hv x (List.mem_cons_self _ _)
    have hstep : POC_nextDfs w f' (some x) = .ok (some y) := hc.1 f' (by simp at hf; omega)
    have hpid : ¬ (o.npid < 0 ∨ o.npid ≥ N) := by omega
    have hroom : ¬ (POC_nOctants w = 0) := by
      simp only [List.length_cons] at hcap
      push_cast at hcap
      omega
    have hrec := ih y (acc ++ [(x, o.npid)]) hc.2
      (fun z hz => hv z (List.mem_cons_of_mem _ hz))
      (by simp only [List.length_append, List.length_cons, List.length_nil] at hcap ⊢
          push_cast at hcap ⊢
          omega)
      f' (by simp at hf ⊢; omega)
    rw [LB_dfs_migrate_walk]
    simp only [POC_data_newpid, deref, hm, ok_bind, pure_eq_ok, if_neg hpid, if_neg hroom, hstep]
    rw [hrec]
    simp [npidAt_some hm]

/-- The loop of `LB_dfs_migrate` over the local roots, in a forest with agreeing links whose
roots have no parent pointer, with valid `npid` values and room in the arrays. -/
theorem migrate_fold {w : World} {N : Int} {h : Nat} (hpl : ParentLinked w)
    (hvalid : ∀ a o, w.mem a = some o → 0 ≤ o.npid ∧ o.npid < N) (f : Nat) :
    ∀ (roots : List Nat) (acc : List (Nat × Int)),
      (∀ r ∈ roots, ∃ o, w.mem r = some o ∧ o.parent = none ∧ Height w h r) →
      ((acc.length + (roots.flatMap (dfsList w h)).length : Nat) : Int) ≤ POC_nOctants w →
      (roots.flatMap (dfsList w h)).length + (h + 1) ≤ f →
      roots.foldlM (fun acc r => LB_dfs_migrate_walk w N f (some r) acc) acc =
        .ok (acc ++ (roots.flatMap (dfsList w h)).map (fun a => (a, npidAt w a))) := by
  intro roots
  induction roots with
  | nil =>
    intro acc _ _ _
    simp [List.foldlM]
  | cons r rest ih =>
    intro acc hroots hcap hf
    obtain ⟨o, hr, hpar, hh⟩ := hroots r (List.mem_cons_self _ _)
    obtain ⟨tl, htl⟩ := dfsList_head hh
    have hc := chain_root hpl hr hpar hh
    simp only [List.flatMap_cons, List.length_append] at hcap hf
    have hlive : ∀ y ∈ dfsList w h r, ∃ oy, w.mem y = some oy ∧ 0 ≤ oy.npid ∧ oy.npid < N := by
      intro y hy
      obtain ⟨oy, hmy⟩ := (hh.of_desc ((mem_dfsList h r hh).1 hy)).alive
      exact ⟨oy, hmy, hvalid y oy hmy⟩
    rw [htl] at hc hlive
    have hwalk := migrate_walk_chain tl r acc hc hlive
      (by rw [← htl]; push_cast at hcap ⊢; omega) f (by rw [← htl]; omega)
    rw [← htl] at hwalk
    rw [List.foldlM_cons, hwalk, ok_bind]
    rw [ih _ (fun r' hr' => hroots r' (List.mem_cons_of_mem _ hr'))
      (by simp only [List.length_append, List.length_map]; push_cast at hcap ⊢; omega)
      (by omega)]
    simp [List.flatMap_cons]

/-- The pre-order listings of the local roots hold every live octant once, when each live
octant lies below exactly one entry of the root list. -/
theorem roots_listing {w : World} {h : Nat} (hu : UniqueParent w) (roots : List Nat)
    (hroots : ∀ r ∈ roots, Height w h r) (hnd : roots.Nodup)
    (hone : ∀ a o, w.mem a = some o → ∃ r ∈ roots, Desc w r a ∧
      ∀ r' ∈ roots, Desc w r' a → r' = r) :
    (roots.flatMap (dfsList w h)).Nodup ∧
    ∀ a, a ∈ roots.flatMap (dfsList w h) ↔ ∃ o, w.mem a = some o := by
  constructor
  · rw [List.nodup_flatMap]
    refine ⟨fun r hr => nodup_dfsList hu h r (hroots r hr), ?_⟩
    refine hnd.imp_of_mem ?_
    intro r r' hr hr' hne
    show List.Disjoint (dfsList w h r) (dfsList w h r')
    intro x hx hx'
    have hd := (mem_dfsList h r (hroots r hr)).1 hx
    have hd' := (mem_dfsList h r' (hroots r' hr')).1 hx'
    obtain ⟨ox, hmx⟩ := ((hroots r hr).of_desc hd).alive
    obtain ⟨r0, _, _, huniq⟩ := hone x ox hmx
    exact hne ((huniq r hr hd).trans (huniq r' hr' hd').symm)
  · intro a
    rw [List.mem_flatMap]
    constructor
    · rintro ⟨r, hr, ha⟩
      exact ((hroots r hr).of_desc ((mem_dfsList h r (hroots r hr)).1 ha)).alive
    · rintro ⟨o, hm⟩
      obtain ⟨r, hr, hd, _⟩ := hone a o hm
      exact ⟨r, hr, (mem_dfsList h r (hroots r hr)).2 hd⟩

/-! ## The sample tree -/

theorem treeWorld_child {p : Nat} {op : Octant} {i : Fin 8} {c : Nat}
    (hm : treeWorld.mem p = some op) (hch : op.child i = some c) :
    (p = 0 ∧ i.val = 1 ∧ c = 1) ∨ (p = 0 ∧ i.val = 5 ∧ c = 2) ∨
    (p = 1 ∧ i.val = 0 ∧ c = 3) ∨ (p = 1 ∧ i.val = 7 ∧ c = 4) := by
  match p, hm with
  | 0, hm =>
    have h : some treeRoot = some op := hm
    cases h
    simp only [treeRoot] at hch
    split at hch
    · cases hch; exact Or.inl ⟨rfl, by assumption, rfl⟩
    · split at hch
      · cases hch; exact Or.inr (Or.inl ⟨rfl, by assumption, rfl⟩)
      · cases hch
  | 1, hm =>
    have h : some treeInner = some op := hm
    cases h
    simp only [treeInner] at hch
    split at hch
    · cases hch; exact Or.inr (Or.inr (Or.inl ⟨rfl, by assumption, rfl⟩))
    · split at hch
      · cases hch; exact Or.inr (Or.inr (Or.inr ⟨rfl, by assumption, rfl⟩))
      · cases hch
  | 2, hm =>
    have h : some (treeLeaf 0 5) = some op := hm
    cases h
    simp [treeLeaf, sampleLeaf] at hch
  | 3, hm =>
    have h : some (treeLeaf 1 0) = some op := hm
    cases h
    simp [treeLeaf, sampleLeaf] at hch
  | 4, hm =>
    have h : some (treeLeaf 1 7) = some op := hm
    cases h
    simp [treeLeaf, sampleLeaf] at hch
  | n + 5, hm =>
    have h : (none : Option Octant) = some op := hm
    cases h

theorem treeWorld_linked : ParentLinked treeWorld := by
  intro p op i c hp hc
  rcases treeWorld_child hp hc with ⟨_, hi, rfl⟩ | ⟨_, hi, rfl⟩ | ⟨_, hi, rfl⟩ | ⟨_, hi, rfl⟩ <;>
    subst_vars
  · exact ⟨treeInner, rfl, rfl, by rw [hi]; rfl⟩
  · exact ⟨treeLeaf 0 5, rfl, rfl, by rw [hi]; rfl⟩
  · exact ⟨treeLeaf 1 0, rfl, rfl, by rw [hi]; rfl⟩
  · exact ⟨treeLeaf 1 7, rfl, rfl, by rw [hi]; rfl⟩

theorem treeWorld_leaf {a p : Nat} {x : Int} (hm : treeWorld.mem a = some (treeLeaf p x)) :
    Height treeWorld 1 a :=
  Height.node hm (fun i c hc => by simp [treeLeaf, sampleLeaf] at hc)

theorem treeWorld_height : Height treeWorld 3 0 := by
  refine Height.node (o := treeRoot) rfl (fun i c hc => ?_)
  rcases treeWorld_child (p := 0) rfl hc with ⟨_, _, rfl⟩ | ⟨_, _, rfl⟩ | ⟨h, _⟩ | ⟨h, _⟩
  · refine Height.node (o := treeInner) rfl (fun j d hd => ?_)
    rcases treeWorld_child (p := 1) rfl hd with ⟨h, _⟩ | ⟨h, _⟩ | ⟨_, _, rfl⟩ | ⟨_, _, rfl⟩
    · cases h
    · cases h
    · exact treeWorld_leaf (p := 1) (x := 0) rfl
    · exact treeWorld_leaf (p := 1) (x := 7) rfl
  · exact (treeWorld_leaf (a := 2) (p := 0) (x := 5) rfl).raise (by decide)
  · cases h
  · cases h

theorem treeWorld_dfsList : dfsList treeWorld 3 0 = [0, 1, 3, 4, 2] := by
  decide

theorem treeWorld_live {a : Nat} : (∃ o, treeWorld.mem a = some o) ↔ a < 5 := by
  constructor
  · rintro ⟨o, hm⟩
    match a, hm with
    | 0, _ => decide
    | 1, _ => decide
    | 2, _ => decide
    | 3, _ => decide
    | 4, _ => decide
    | n + 5, hm =>
      have h : (none : Option Octant) = some o := hm
      cases h
  · intro h
    have hmem : a ∈ dfsList treeWorld 3 0 := by
      rw [treeWorld_dfsList]
      simp only [List.mem_cons, List.mem_singleton, List.mem_nil_iff]
      omega
    exact (treeWorld_height.of_desc ((mem_dfsList 3 0 treeWorld_height).1 hmem)).alive

theorem treeWorld_npid {a : Nat} {o : Octant} (hm : treeWorld.mem a = some o) : o.npid = 0 := by
  match a, hm with
  | 0, hm =>
    have h : some treeRoot = some o := hm
    cases h; rfl
  | 1, hm =>
    have h : some treeInner = some o := hm
    cases h; rfl
  | 2, hm =>
    have h : some (treeLeaf 0 5) = some o := hm
    cases h; rfl
  | 3, hm =>
    have h : some (treeLeaf 1 0) = some o := hm
    cases h; rfl
  | 4, hm =>
    have h : some (treeLeaf 1 7) = some o := hm
    cases h; rfl
  | n + 5, hm =>
    have h : (none : Option Octant) = some o := hm
    cases h

theorem treeWorld_desc {a : Nat} {o : Octant} (hm : treeWorld.mem a = some o) :
    Desc treeWorld 0 a := by
  have h5 : a < 5 := treeWorld_live.1 ⟨o, hm⟩
  refine (mem_dfsList 3 0 treeWorld_height).1 ?_
  rw [treeWorld_dfsList]
  simp only [List.mem_cons, List.mem_singleton, List.mem_nil_iff]
  omega

/-! ## The log does not change the pass -/

theorem map_fst_eq_ok {r : Except Fault (World × List Event)} {w : World}
    (h : r.map Prod.fst = .ok w) : ∃ ev, r = .ok (w, ev) := by
  cases r with
  | error e => cases h
  | ok s =>
    obtain ⟨w1, ev⟩ := s
    cases h
    exact ⟨ev, rfl⟩

theorem foldlM_erase {α : Type}
    (fL : World × List Event → α → Except Fault (World × List Event))
    (f : World → α → Except Fault World)
    (h : ∀ s x, (fL s x).map Prod.fst = f s.1 x) :
    ∀ (l : List α) (s : World × List Event),
      (l.foldlM fL s).map Prod.fst = l.foldlM f s.1 := by
  intro l
  induction l with
  | nil => intro s; rfl
  | cons x rest ih =>
    intro s
    have hx := h s x
    rw [List.foldlM_cons, List.foldlM_cons]
    cases hr : fL s x with
    | error e =>
      rw [hr] at hx
      rw [← hx]
      rfl
    | ok s1 =>
      rw [hr] at hx
      rw [← hx]
      exact ih s1

theorem slot_step_erase (w : World × List Event) (octant : pOctant) (children : Fin 8 → pOctant)
    (gL : World × List Event → pOctant → Except Fault (World × List Event))
    (g : World → pOctant → Except Fault World)
    (h : ∀ s c, (gL s c).map Prod.fst = g s.1 c) (i : Fin 8) :
    (if (children i).isSome then do
        if (← POC_local w.1 octant i) then gL w (children i)
        else pure w
      else pure w : Except Fault (World × List Event)).map Prod.fst =
    (if (children i).isSome then do
        if (← POC_local w.1 octant i) then g w.1 (children i)
        else pure w.1
      else pure w.1) := by
  by_cases hc : (children i).isSome
  · simp only [hc, if_true]
    cases POC_local w.1 octant i with
    | error e => rfl
    | ok b =>
      cases b
      · rfl
      · simp only [ok_bind, if_true]
        exact h w (children i)
  · simp only [hc]
    rfl

theorem LB_tag_subtree_log_erase : ∀ (fuel : Nat) (s : World × List Event) (octant : pOctant)
    (p : Int), (LB_tag_subtree_log fuel s octant p).map Prod.fst = LB_tag_subtree fuel s.1 octant p := by
  intro fuel
  induction fuel with
  | zero => intro s octant p; rfl
  | succ fuel ih =>
    intro s octant p
    rw [LB_tag_subtree_log, LB_tag_subtree]
    cases POC_modify_newpid s.1 octant p with
    | error e => rfl
    | ok w =>
      simp only [ok_bind]
      cases POC_isTerminal w octant with
      | error e => rfl
      | ok b =>
        simp only [ok_bind]
        cases b
        · simp only [Bool.false_eq_true, if_false]
          cases POC_children w octant with
          | error e => rfl
          | ok pr =>
            obtain ⟨k, children⟩ := pr
            simp only [ok_bind]
            exact foldlM_erase _ _
              (fun s i => slot_step_erase s octant children _ (fun w c => LB_tag_subtree fuel w c p)
                (fun s c => ih s c p) i)
              slots (w, s.2 ++ [Event.store octant p])
        · rfl

theorem by_dist_loop_erase (U : OctUtil)
    (visitL : World × List Event → pOctant → Except Fault (World × List Event))
    (visit : World → pOctant → Except Fault World)
    (h : ∀ s c, (visitL s c).map Prod.fst = visit s.1 c)
    (octant : pOctant) (children : Fin 8 → pOctant) (corigin : Fin 8 → COORD) :
    ∀ (n : Nat) (s : World × List Event) (L : DistLocals),
      (LB_visit_by_dist_loop_log U visitL octant children corigin n s L).map Prod.fst =
        LB_visit_by_dist_loop U visit octant children corigin n s.1 L := by
  intro n
  induction n with
  | zero => intro s L; rfl
  | succ n ih =>
    intro s L
    rw [LB_visit_by_dist_loop_log, LB_visit_by_dist_loop]
    cases LB_visit_by_dist_pick U s.1 octant corigin L with
    | error e => rfl
    | ok pr =>
      obtain ⟨pc, md, mc⟩ := pr
      simp only [ok_bind]
      cases mc with
      | none => rfl
      | some i =>
        simp only []
        have hv := h s (children i)
        cases hr : visitL s (children i) with
        | error e =>
          rw [hr] at hv
          rw [← hv]
          rfl
        | ok s1 =>
          rw [hr] at hv
          rw [← hv]
          exact ih s1 _

theorem by_dist_erase (U : OctUtil)
    (visitL : World × List Event → pOctant → Except Fault (World × List Event))
    (visit : World → pOctant → Except Fault World)
    (h : ∀ s c, (visitL s c).map Prod.fst = visit s.1 c)
    (s : World × List Event) (octant : pOctant) (children : Fin 8 → pOctant) :
    (LB_visit_by_dist_log U visitL s octant children).map Prod.fst =
      LB_visit_by_dist U visit s.1 octant children := by
  unfold LB_visit_by_dist_log LB_visit_by_dist
  cases POC_bounds s.1 octant with
  | error e => rfl
  | ok pr =>
    obtain ⟨mn, mx⟩ := pr
    simp only [ok_bind]
    exact by_dist_loop_erase U visitL visit h octant children _ 9 s initDistLocals

theorem terminal_tail_erase (U : OctUtil) (w2 : World) (octant : pOctant) (cost : ℚ)
    (ev : List Event) :
    (do
      let w ← POC_modify_newpid w2 octant w2.partition
      let w := { w with pcost := w.pcost + cost }
      let (origin, volume) ← POC_origin_volume U w octant
      let prod := vector_cmult volume origin
      let w := { w with pmass := w.pmass + volume }
      pure ({ w with pcoord := vector_add w.pcoord prod }, ev) :
        Except Fault (World × List Event)).map Prod.fst =
    (do
      let w ← POC_modify_newpid w2 octant w2.partition
      let w := { w with pcost := w.pcost + cost }
      let (origin, volume) ← POC_origin_volume U w octant
      let prod := vector_cmult volume origin
      let w := { w with pmass := w.pmass + volume }
      pure { w with pcoord := vector_add w.pcoord prod }) := by
  cases POC_modify_newpid w2 octant w2.partition with
  | error e => rfl
  | ok w3 =>
    simp only [ok_bind]
    cases POC_origin_volume U { w3 with pcost := w3.pcost + cost } octant with
    | error e => rfl
    | ok pr => rfl

theorem LB_visit_log_erase (U : OctUtil) : ∀ (fuel : Nat) (s : World × List Event)
    (octant : pOctant), (LB_visit_log U fuel s octant).map Prod.fst = LB_visit U fuel s.1 octant := by
  intro fuel
  induction fuel with
  | zero => intro s octant; rfl
  | succ fuel ih =>
    intro s octant
    rw [LB_visit_log, LB_visit]
    cases LB_costs_value { s.1 with DFS_Part_Count := s.1.DFS_Part_Count + 1 } octant with
    | error e => rfl
    | ok cost =>
      simp only [ok_bind]
      split
      · have ht := LB_tag_subtree_log_erase (fuel + 1)
          ({ s.1 with DFS_Part_Count := s.1.DFS_Part_Count + 1 }, s.2 ++ [Event.call octant])
          octant s.1.partition
        cases hr : LB_tag_subtree_log (fuel + 1)
          ({ s.1 with DFS_Part_Count := s.1.DFS_Part_Count + 1 }, s.2 ++ [Event.call octant])
          octant s.1.partition with
        | error e =>
          rw [hr] at ht
          rw [← ht]
          rfl
        | ok s1 =>
          rw [hr] at ht
          rw [← ht]
          obtain ⟨w1, ev1⟩ := s1
          simp only [ok_bind, Except.map]
          cases POC_origin_volume U { w1 with pcost := w1.pcost + cost } octant with
          | error e => rfl
          | ok pr => rfl
      · cases POC_isTerminal { s.1 with DFS_Part_Count := s.1.DFS_Part_Count + 1 } octant with
        | error e => rfl
        | ok b =>
          simp only [ok_bind]
          cases b
          · simp only [Bool.not_false, if_true]
            cases POC_modify_newpid { s.1 with DFS_Part_Count := s.1.DFS_Part_Count + 1 }
              octant s.1.partition with
            | error e => rfl
            | ok w1 =>
              simp only [ok_bind]
              cases POC_children w1 octant with
              | error e => rfl
              | ok pr =>
                obtain ⟨k, children⟩ := pr
                simp only [ok_bind]
                split
                · exact by_dist_erase U _ (fun w c => LB_visit U fuel w c) (fun s c => ih s c) _ octant
                    children
                · exact foldlM_erase _ _
                    (fun s i => slot_step_erase s octant children _ (fun w c => LB_visit U fuel w c)
                      (fun s c => ih s c) i)
                    slots _
          · simp only [Bool.not_true, Bool.false_eq_true, if_false]
            exact terminal_tail_erase U _ octant cost _

theorem LB_visit_all_subtrees_log_erase (U : OctUtil) (fuel : Nat) (s : World × List Event) :
    (LB_visit_all_subtrees_log U fuel s).map Prod.fst = LB_visit_all_subtrees U fuel s.1 :=
  foldlM_erase _ _ (fun s r => LB_visit_log_erase U fuel s (some r)) _ s

theorem LB_dfs_partition_log_erase (U : OctUtil) (fuel : Nat) (Num_Proc : Int)
    (mycost globalcost prefcost : ℚ) (w : World) :
    (LB_dfs_partition_log U fuel Num_Proc mycost globalcost prefcost w).map Prod.fst =
      LB_dfs_partition U fuel Num_Proc mycost globalcost prefcost w := by
  unfold LB_dfs_partition_log LB_dfs_partition
  cases LB_dfs_partition_seed Num_Proc globalcost prefcost w with
  | error e => rfl
  | ok w1 =>
    simp only [ok_bind]
    have h := LB_visit_all_subtrees_log_erase U fuel (w1, [])
    cases hr : LB_visit_all_subtrees_log U fuel (w1, []) with
    | error e =>
      rw [hr] at h
      rw [← h]
      rfl
    | ok s1 =>
      rw [hr] at h
      rw [← h]
      rfl

/-! ## The accounting invariant -/

theorem tally_nil (k : Int) : tally k [] = 0 := rfl

theorem tally_cons (k : Int) (c : ℚ) (q : Int) (l : List (ℚ × Int)) :
    tally k ((c, q) :: l) = (if q = k then c else 0) + tally k l := by
  unfold tally
  by_cases h : q = k
  · simp [List.filter_cons, h]
  · simp [List.filter_cons, h]

theorem tally_append (k : Int) (l1 l2 : List (ℚ × Int)) :
    tally k (l1 ++ l2) = tally k l1 + tally k l2 := by
  unfold tally
  rw [List.filter_append, List.map_append, List.sum_append]

theorem Balanced.init {opt C : ℚ} {P : Int} {G : ℚ} (hP : 1 ≤ P) (hopt : 0 < opt)
    (hC : 0 ≤ C) (hG : G = (P : ℚ) * opt) : Balanced opt C P G 0 0 (fun _ => 0) where
  p_nonneg := le_refl 0
  p_le := by omega
  lower := by simp
  upper := by
    rw [hG]
    have : (0 : ℚ) ≤ (P : ℚ) := by exact_mod_cast (by omega : (0 : Int) ≤ P)
    positivity
  acc_nonneg := fun _ => le_refl 0
  acc_zero := fun _ _ => rfl
  start := by
    simp only [Int.cast_zero, zero_mul, zero_sub, sub_neg_eq_add, zero_add]
    linarith
  cur := Or.inl hC
  closed_le := fun k h0 hk => by omega
  small := fun _ => ⟨by simp only [Int.cast_zero, zero_add, one_mul]; linarith,
    fun _ => by simp only [Int.cast_zero, zero_mul, sub_zero, zero_add]; linarith,
    fun k h0 hk => by omega⟩

/-- The partition that is current is within `opt + C`. -/
theorem Balanced.cur_le {opt C : ℚ} {P : Int} {G : ℚ} {p : Int} {S : ℚ} {acc : Int → ℚ}
    (h : Balanced opt C P G p S acc) (hopt : 0 < opt) : acc p ≤ opt + C := by
  rcases h.cur with hc | hc
  · linarith
  · have := h.start
    linarith

/-- One terminal octant of cost `c` keeps the invariant. -/
theorem Balanced.step {opt C : ℚ} {P : Int} {G : ℚ} {p : Int} {S : ℚ} {acc : Int → ℚ}
    (h : Balanced opt C P G p S acc) (hopt : 0 < opt) (hG : G = (P : ℚ) * opt) {c : ℚ}
    (hc0 : 0 ≤ c) (hcC : c ≤ C) (hSc : S + c ≤ G) :
    Balanced opt C P G (stepLeaf opt (p, S) c).2.1 (S + c)
      (fun k => acc k + if (stepLeaf opt (p, S) c).1 = k then c else 0) ∧
    (stepLeaf opt (p, S) c).2.2 = S + c := by
  have hstay : Balanced opt C P G p (S + c) (fun k => acc k + if p = k then c else 0) ∨
      ¬ (c = 0 ∨ S + c ≤ ((p : ℚ) + 1) * opt ∨
        ¬ (c - (((p : ℚ) + 1) * opt - S) ≥ ((p : ℚ) + 1) * opt - S)) := by
    by_cases hcase : c = 0 ∨ S + c ≤ ((p : ℚ) + 1) * opt ∨
        ¬ (c - (((p : ℚ) + 1) * opt - S) ≥ ((p : ℚ) + 1) * opt - S)
    · left
      have hbound : c = 0 ∨ S + c ≤ ((p : ℚ) + 1) * opt + C / 2 := by
        rcases hcase with h0 | hf | ho
        · exact Or.inl h0
        · right; linarith
        · right
          push_neg at ho
          linarith
      refine ⟨h.p_nonneg, h.p_le, by linarith [h.lower], hSc, fun k => ?_, fun k hk => ?_, ?_,
        ?_, fun k h0 hk => ?_, fun hsm => ⟨?_, fun hp => ?_, fun k h0 hk => ?_⟩⟩
      · have := h.acc_nonneg k
        split_ifs <;> linarith
      · have hne : ¬ (p = k) := by omega
        simp only [if_neg hne, add_zero]
        exact h.acc_zero k hk
      · simp only [if_true]
        linarith [h.start]
      · simp only [if_true]
        rcases hbound with h0 | hb
        · subst h0
          rcases h.cur with h1 | h1
          · left; linarith
          · right; linarith
        · exact Or.inr hb
      · have hne : ¬ (p = k) := by omega
        simp only [if_neg hne, add_zero]
        exact h.closed_le k h0 hk
      · rcases hbound with h0 | hb
        · subst h0
          linarith [(h.small hsm).1]
        · exact hb
      · simp only [if_true]
        linarith [(h.small hsm).2.1 hp]
      · have hne : ¬ (p = k) := by omega
        simp only [if_neg hne, add_zero]
        exact (h.small hsm).2.2 k h0 hk
    · exact Or.inr hcase
  unfold stepLeaf
  by_cases hfit : c = 0 ∨ S + c ≤ ((p : ℚ) + 1) * opt
  · simp only [if_pos hfit]
    refine ⟨hstay.resolve_right (fun hn => hn ?_), trivial⟩
    rcases hfit with h0 | hf
    · exact Or.inl h0
    · exact Or.inr (Or.inl hf)
  · simp only [if_neg hfit]
    by_cases hclose : c - (((p : ℚ) + 1) * opt - S) ≥ ((p : ℚ) + 1) * opt - S
    · simp only [if_pos hclose]
      push_neg at hfit
      obtain ⟨hcne, hnofit⟩ := hfit
      have hp1 : p + 1 ≤ P - 1 := by
        have h1 : ((p : ℚ) + 1) * opt < (P : ℚ) * opt := by linarith
        have h2 : (p : ℚ) + 1 < (P : ℚ) := lt_of_mul_lt_mul_right h1 (le_of_lt hopt)
        have h3 : p + 1 < P := by exact_mod_cast h2
        omega
      have hcast : ((p + 1 : Int) : ℚ) = (p : ℚ) + 1 := by push_cast; ring
      refine ⟨⟨by have := h.p_nonneg; omega, hp1, ?_, hSc, fun k => ?_, fun k hk => ?_, ?_, ?_,
        fun k h0 hk => ?_, fun hsm => ⟨?_, fun hp => ?_, fun k h0 hk => ?_⟩⟩, trivial⟩
      · rw [hcast]
        linarith
      · have := h.acc_nonneg k
        split_ifs <;> linarith
      · have hne : ¬ (p + 1 = k) := by omega
        simp only [if_neg hne, add_zero]
        exact h.acc_zero k (by omega)
      · simp only [if_true]
        rw [h.acc_zero (p + 1) (by omega), hcast]
        linarith
      · simp only [if_true]
        rw [h.acc_zero (p + 1) (by omega)]
        left
        linarith
      · have hne : ¬ (p + 1 = k) := by omega
        simp only [if_neg hne, add_zero]
        by_cases hkp : k = p
        · subst hkp
          exact h.cur_le hopt
        · exact h.closed_le k h0 (by omega)
      · rw [hcast]
        linarith [(h.small hsm).1]
      · simp only [if_true]
        rw [h.acc_zero (p + 1) (by omega), hcast]
        linarith [(h.small hsm).1]
      · have hne : ¬ (p + 1 = k) := by omega
        simp only [if_neg hne, add_zero]
        by_cases hkp : k = p
        · subst hkp
          have := (h.small hsm).2.1 (by omega)
          linarith
        · exact (h.small hsm).2.2 k h0 (by omega)
    · simp only [if_neg hclose]
      refine ⟨hstay.resolve_right (fun hn => hn (Or.inr (Or.inr hclose))), trivial⟩

theorem Balanced.of_eq {opt C : ℚ} {P : Int} {G : ℚ} {p : Int} {S : ℚ} {acc acc' : Int → ℚ}
    (h : Balanced opt C P G p S acc) (he : ∀ k, acc' k = acc k) :
    Balanced opt C P G p S acc' := by
  have : acc' = acc := funext he
  rw [this]
  exact h

/-- The start of the next process keeps the invariant. -/
theorem Balanced.reseed {opt C : ℚ} {P : Int} {G : ℚ} {p : Int} {S : ℚ} {acc : Int → ℚ}
    (h : Balanced opt C P G p S acc) (hopt : 0 < opt) (hC : 0 ≤ C) (hG : G = (P : ℚ) * opt) :
    Balanced opt C P G (seedPart opt P S) S acc := by
  have hp0 : (0 : ℚ) ≤ (p : ℚ) := by exact_mod_cast h.p_nonneg
  have hS0 : 0 ≤ S := le_trans (mul_nonneg hp0 (le_of_lt hopt)) h.lower
  have hq0 : 0 ≤ S / opt := div_nonneg hS0 (le_of_lt hopt)
  have hfl : float_to_int (S / opt) = ⌊S / opt⌋ := float_to_int_nonneg hq0
  have hqle : ((⌊S / opt⌋ : Int) : ℚ) * opt ≤ S := by
    have := Int.floor_le (S / opt)
    calc ((⌊S / opt⌋ : Int) : ℚ) * opt ≤ S / opt * opt :=
          mul_le_mul_of_nonneg_right this (le_of_lt hopt)
      _ = S := by field_simp
  have hqlt : S < (((⌊S / opt⌋ : Int) : ℚ) + 1) * opt := by
    have := Int.lt_floor_add_one (S / opt)
    calc S = S / opt * opt := by field_simp
      _ < (((⌊S / opt⌋ : Int) : ℚ) + 1) * opt := mul_lt_mul_of_pos_right this hopt
  have hpq : p ≤ ⌊S / opt⌋ := by
    rw [Int.le_floor, le_div_iff₀ hopt]
    exact h.lower
  have hqP : ⌊S / opt⌋ ≤ P := by
    have h1 : S / opt ≤ (P : ℚ) := by
      rw [div_le_iff₀ hopt, ← hG]
      exact h.upper
    exact_mod_cast (Int.floor_le_floor h1).trans (by simp)
  -- the new index and what is known of it
  have key : p ≤ seedPart opt P S ∧ seedPart opt P S ≤ P - 1 ∧
      ((seedPart opt P S : Int) : ℚ) * opt ≤ S ∧
      S ≤ (((seedPart opt P S : Int) : ℚ) + 1) * opt := by
    unfold seedPart
    rw [hfl]
    by_cases hqe : ⌊S / opt⌋ = P
    · rw [if_pos hqe]
      rw [hqe] at hqle
      have hSG : S = G := le_antisymm h.upper (by rw [hG]; exact hqle)
      refine ⟨h.p_le, le_refl _, ?_, ?_⟩
      · push_cast
        rw [hSG, hG]
        nlinarith
      · push_cast
        rw [hSG, hG]
        linarith
    · rw [if_neg hqe]
      exact ⟨hpq, by omega, hqle, le_of_lt hqlt⟩
  obtain ⟨hge, hle, hlow, hup⟩ := key
  generalize seedPart opt P S = p' at hge hle hlow hup
  by_cases hsame : p' = p
  · rw [hsame]
    exact h
  · have hgt : p < p' := by omega
    have hcast : (p : ℚ) + 1 ≤ (p' : ℚ) := by exact_mod_cast hgt
    have hmul : ((p : ℚ) + 1) * opt ≤ (p' : ℚ) * opt :=
      mul_le_mul_of_nonneg_right hcast (le_of_lt hopt)
    have hz : acc p' = 0 := h.acc_zero p' hgt
    refine ⟨by have := h.p_nonneg; omega, hle, hlow, h.upper, h.acc_nonneg,
      fun k hk => h.acc_zero k (by omega), ?_, Or.inl (by rw [hz]; exact hC),
      fun k h0 hk => ?_, fun hsm => ⟨by linarith, fun _ => ?_, fun k h0 hk => ?_⟩⟩
    · rw [hz]
      linarith
    · by_cases hkp : k < p
      · exact h.closed_le k h0 hkp
      · by_cases hke : k = p
        · subst hke
          exact h.cur_le hopt
        · rw [h.acc_zero k (by omega)]
          linarith
    · rw [hz]
      have := (h.small hsm).1
      linarith
    · by_cases hkp : k < p
      · exact (h.small hsm).2.2 k h0 hkp
      · by_cases hke : k = p
        · subst hke
          have := (h.small hsm).2.1 (by omega)
          linarith
        · exfalso
          have hk2 : (k : ℚ) + 1 ≤ (p' : ℚ) := by exact_mod_cast (by omega : k + 1 ≤ p')
          have hk1 : (p : ℚ) + 1 ≤ (k : ℚ) := by exact_mod_cast (by omega : p + 1 ≤ k)
          have h1 := (h.small hsm).1
          have h2 : ((p : ℚ) + 2) * opt ≤ (p' : ℚ) * opt :=
            mul_le_mul_of_nonneg_right (by linarith) (le_of_lt hopt)
          linarith

/-- At the end of all the passes every partition but the last holds `opt` within `C`. -/
theorem Balanced.final {opt C : ℚ} {P : Int} {G : ℚ} {p : Int} {acc : Int → ℚ}
    (h : Balanced opt C P G p G acc) (hopt : 0 < opt) (hC : 0 ≤ C) (hG : G = (P : ℚ) * opt)
    (k : Int) (h0 : 0 ≤ k) (hk : k < P - 1) : |acc k - opt| ≤ C := by
  rw [abs_le]
  constructor
  · by_cases hsm : C < opt
    · have h1 := (h.small hsm).1
      have hp : P - 1 ≤ p := by
        by_contra hcon
        have h2 : (p : ℚ) + 2 ≤ (P : ℚ) := by exact_mod_cast (by omega : p + 2 ≤ P)
        have h3 : ((p : ℚ) + 2) * opt ≤ (P : ℚ) * opt :=
          mul_le_mul_of_nonneg_right h2 (le_of_lt hopt)
        linarith
      have := (h.small hsm).2.2 k h0 (by omega)
      linarith
    · have := h.acc_nonneg k
      linarith
  · by_cases hkp : k < p
    · have := h.closed_le k h0 hkp
      linarith
    · by_cases hke : k = p
      · subst hke
        have := h.cur_le hopt
        linarith
      · rw [h.acc_zero k (by omega)]
        linarith

theorem runLeaves_balanced {opt C : ℚ} {P : Int} {G : ℚ} (hopt : 0 < opt)
    (hG : G = (P : ℚ) * opt) :
    ∀ (cs : List ℚ) (p : Int) (S : ℚ) (acc : Int → ℚ), Balanced opt C P G p S acc →
      (∀ c ∈ cs, 0 ≤ c ∧ c ≤ C) → S + cs.sum ≤ G →
      Balanced opt C P G (runLeaves opt (p, S) cs).2.1 (S + cs.sum)
        (fun k => acc k + tally k (runLeaves opt (p, S) cs).1) ∧
      (runLeaves opt (p, S) cs).2.2 = S + cs.sum := by
  intro cs
  induction cs with
  | nil =>
    intro p S acc h _ _
    refine ⟨?_, by simp [runLeaves]⟩
    simp only [List.sum_nil, add_zero]
    exact h.of_eq (fun k => by simp [runLeaves, tally_nil])
  | cons c rest ih =>
    intro p S acc h hc hS
    have hcc := hc c (List.mem_cons_self _ _)
    have hrest : 0 ≤ rest.sum := List.sum_nonneg (fun x hx => (hc x (List.mem_cons_of_mem _ hx)).1)
    rw [List.sum_cons] at hS
    obtain ⟨h1, h2⟩ := h.step hopt hG hcc.1 hcc.2 (by linarith)
    have hst : (stepLeaf opt (p, S) c).2 = ((stepLeaf opt (p, S) c).2.1, S + c) :=
      Prod.ext rfl h2
    obtain ⟨h3, h4⟩ := ih (stepLeaf opt (p, S) c).2.1 (S + c) _ h1
      (fun x hx => hc x (List.mem_cons_of_mem _ hx)) (by linarith)
    rw [← hst] at h3 h4
    refine ⟨?_, ?_⟩
    · rw [List.sum_cons, ← add_assoc]
      refine h3.of_eq (fun k => ?_)
      show acc k + tally k ((c, (stepLeaf opt (p, S) c).1) ::
        (runLeaves opt (stepLeaf opt (p, S) c).2 rest).1) = _
      rw [tally_cons]
      ring
    · rw [List.sum_cons, ← add_assoc]
      exact h4

theorem globalPairs_balanced {opt C : ℚ} {P : Int} {G : ℚ} (hopt : 0 < opt) (hC : 0 ≤ C)
    (hG : G = (P : ℚ) * opt) :
    ∀ (css : List (List ℚ)) (p : Int) (S : ℚ) (acc : Int → ℚ), Balanced opt C P G p S acc →
      (∀ cs ∈ css, ∀ c ∈ cs, 0 ≤ c ∧ c ≤ C) → S + (css.map List.sum).sum ≤ G →
      ∃ p', Balanced opt C P G p' (S + (css.map List.sum).sum)
        (fun k => acc k + tally k (globalPairs opt P S css)) := by
  intro css
  induction css with
  | nil =>
    intro p S acc h _ _
    refine ⟨p, ?_⟩
    simp only [List.map_nil, List.sum_nil, add_zero]
    exact h.of_eq (fun k => by simp [globalPairs, tally_nil])
  | cons cs rest ih =>
    intro p S acc h hc hS
    rw [List.map_cons, List.sum_cons] at hS
    have hrest : 0 ≤ (rest.map List.sum).sum := by
      apply List.sum_nonneg
      intro x hx
      obtain ⟨l, hl, rfl⟩ := List.mem_map.1 hx
      exact List.sum_nonneg (fun y hy => (hc l (List.mem_cons_of_mem _ hl) y hy).1)
    obtain ⟨h1, _⟩ := runLeaves_balanced hopt hG cs (seedPart opt P S) S acc
      (h.reseed hopt hC hG) (hc cs (List.mem_cons_self _ _)) (by linarith)
    obtain ⟨p', h2⟩ := ih _ (S + cs.sum) _ h1
      (fun l hl => hc l (List.mem_cons_of_mem _ hl)) (by linarith)
    refine ⟨p', ?_⟩
    rw [List.map_cons, List.sum_cons, ← add_assoc]
    refine h2.of_eq (fun k => ?_)
    show acc k + tally k ((runLeaves opt (seedPart opt P S, S) cs).1 ++
      globalPairs opt P (S + cs.sum) rest) = _
    rw [tally_append]
    ring

/-- The balance of the accounting: when the processes, in rank order, run along the costs of
their terminal octants, each starting from the cost of the processes before it, every
partition but the last is assigned the optimal cost within the largest cost of one terminal
octant. -/
theorem global_tally_bound (css : List (List ℚ)) (C : ℚ) (hC : 0 ≤ C)
    (hG : 0 < (css.map List.sum).sum)
    (hc : ∀ cs ∈ css, ∀ c ∈ cs, 0 ≤ c ∧ c ≤ C) (k : Int) (h0 : 0 ≤ k)
    (hk : k < (css.length : Int) - 1) :
    |tally k (globalPairs ((css.map List.sum).sum / (css.length : Int)) css.length 0 css) -
      (css.map List.sum).sum / (css.length : Int)| ≤ C := by
  have hP : (1 : Int) ≤ (css.length : Int) := by omega
  have hPq : (0 : ℚ) < ((css.length : Int) : ℚ) := by exact_mod_cast (by omega : (0 : Int) < css.length)
  have hopt : 0 < (css.map List.sum).sum / ((css.length : Int) : ℚ) := div_pos hG hPq
  have hGe : (css.map List.sum).sum =
      ((css.length : Int) : ℚ) * ((css.map List.sum).sum / ((css.length : Int) : ℚ)) := by
    have hne : ((css.length : Int) : ℚ) ≠ 0 := ne_of_gt hPq
    rw [mul_comm, div_mul_cancel₀ _ hne]
  obtain ⟨p', h⟩ := globalPairs_balanced hopt hC hGe css 0 0 (fun _ => 0)
    (Balanced.init hP hopt hC hGe) hc (by simp)
  rw [zero_add] at h
  have h' := (h.final hopt hC hGe k h0 hk)
  simpa using h'

/-! ## Terminal octants and their costs -/

theorem runLeaves_append (opt : ℚ) : ∀ (l1 l2 : List ℚ) (st : Int × ℚ),
    runLeaves opt st (l1 ++ l2) =
      ((runLeaves opt st l1).1 ++ (runLeaves opt (runLeaves opt st l1).2 l2).1,
        (runLeaves opt (runLeaves opt st l1).2 l2).2) := by
  intro l1
  induction l1 with
  | nil => intro l2 st; rfl
  | cons c rest ih =>
    intro l2 st
    show runLeaves opt st (c :: (rest ++ l2)) = _
    rw [runLeaves, ih]
    rfl

/-- Costs that fit the current partition as a whole are all assigned to it. -/
theorem runLeaves_fits (opt : ℚ) (p : Int) : ∀ (cs : List ℚ) (S : ℚ), (∀ c ∈ cs, 0 ≤ c) →
    (cs.sum = 0 ∨ S + cs.sum ≤ ((p : ℚ) + 1) * opt) →
    runLeaves opt (p, S) cs = (cs.map (fun c => (c, p)), (p, S + cs.sum)) := by
  intro cs
  induction cs with
  | nil => intro S _ _; simp [runLeaves]
  | cons c rest ih =>
    intro S hnn hfit
    have hc0 : 0 ≤ c := hnn c (List.mem_cons_self _ _)
    have hr0 : 0 ≤ rest.sum := List.sum_nonneg (fun x hx => hnn x (List.mem_cons_of_mem _ hx))
    rw [List.sum_cons] at hfit
    have hstep : stepLeaf opt (p, S) c = (p, (p, S + c)) := by
      unfold stepLeaf
      have : c = 0 ∨ S + c ≤ ((p : ℚ) + 1) * opt := by
        rcases hfit with h | h
        · exact Or.inl (by linarith)
        · exact Or.inr (by linarith)
      simp only [if_pos this]
    have hrest : rest.sum = 0 ∨ (S + c) + rest.sum ≤ ((p : ℚ) + 1) * opt := by
      rcases hfit with h | h
      · exact Or.inl (by linarith)
      · exact Or.inr (by linarith)
    rw [runLeaves, hstep, ih (S + c) (fun x hx => hnn x (List.mem_cons_of_mem _ hx)) hrest]
    simp [add_assoc]

theorem leafStores_append (w : World) (l1 l2 : List (pOctant × Int)) :
    leafStores w (l1 ++ l2) = leafStores w l1 ++ leafStores w l2 := by
  unfold leafStores
  rw [List.filterMap_append]

theorem leafStores_const (w : World) (p : Int) (M : List Nat) :
    leafStores w (M.map (fun x => (some x, p))) =
      (M.filter (isLeaf w)).map (fun x => (x, p)) := by
  induction M with
  | nil => rfl
  | cons x rest ih =>
    unfold leafStores at ih ⊢
    rw [List.map_cons, List.filterMap_cons, List.filter_cons]
    cases hl : isLeaf w x
    · simp only [hl, Bool.false_eq_true, if_false]
      exact ih
    · simp only [hl, if_true, List.map_cons]
      rw [ih]

theorem isLeaf_iff {w : World} {a : Nat} {o : Octant} (hm : w.mem a = some o) :
    isLeaf w a = true ↔ ∀ i, o.child i = none := by
  simp [isLeaf, hm]

theorem Frame.isLeaf_eq {w s : World} (h : Frame w s) (b : Nat) : isLeaf s b = isLeaf w b := by
  unfold isLeaf
  cases hm : w.mem b with
  | none => rw [h.mem_none hm]
  | some o =>
    obtain ⟨o', hm', ho'⟩ := h.mem_some hm
    rw [hm', ho']
    rfl

theorem Frame.leafStores_eq {w s : World} (h : Frame w s) (S : List (pOctant × Int)) :
    leafStores s S = leafStores w S := by
  unfold leafStores
  congr 1
  funext e
  cases e.1 with
  | none => rfl
  | some b => simp only [h.isLeaf_eq b]

theorem Frame.costExact {w s : World} (h : Frame w s) (hc : CostExact w) : CostExact s := by
  intro a o' hm'
  obtain ⟨o, hm, ho⟩ := h.symm.mem_some hm'
  have e : o' = setNpid o'.npid o := by
    rw [ho]; cases o'; rfl
  obtain ⟨h1, h2⟩ := hc a o hm
  refine ⟨by rw [e]; exact h1, fun hnt => ?_⟩
  have hnt' : ¬ ∀ i, o.child i = none := by
    rw [e] at hnt
    exact hnt
  have hcost : (fun c => costAt s c) = fun c => costAt w c := funext (fun c => h.costAt_eq c)
  rw [h.localpid]
  have hlc : localChildren o' w.OCT_localpid = localChildren o w.OCT_localpid := by
    rw [e]; rfl
  rw [hlc, show costAt s = costAt w from hcost, e]
  exact h2 hnt'

theorem costAt_some {w : World} {a : Nat} {o : Octant} (hm : w.mem a = some o) :
    costAt w a = o.cost := by
  simp [costAt, hm]

theorem costAt_nonneg {w : World} (hc : CostExact w) (a : Nat) : 0 ≤ costAt w a := by
  unfold costAt
  cases hm : w.mem a with
  | none => exact le_refl 0
  | some o => exact (hc a o hm).1


/-! ## Logs -/

theorem stores_append (l1 l2 : List Event) : stores (l1 ++ l2) = stores l1 ++ stores l2 := by
  induction l1 with
  | nil => rfl
  | cons e rest ih =>
    cases e with
    | call oct => simpa [stores] using ih
    | store oct p => simpa [stores] using ih

theorem calls_append (l1 l2 : List Event) : calls (l1 ++ l2) = calls l1 ++ calls l2 := by
  induction l1 with
  | nil => rfl
  | cons e rest ih =>
    cases e with
    | call oct => simpa [calls] using ih
    | store oct p => simpa [calls] using ih

theorem stores_storeEvents (M : List Nat) (p : Int) :
    stores (storeEvents M p) = M.map (fun x => (some x, p)) := by
  induction M with
  | nil => rfl
  | cons x rest ih =>
    show (some x, p) :: stores (storeEvents rest p) = _
    rw [ih]
    rfl

theorem calls_storeEvents (M : List Nat) (p : Int) : calls (storeEvents M p) = [] := by
  induction M with
  | nil => rfl
  | cons x rest ih => exact ih

theorem storeEvents_append (M N : List Nat) (p : Int) :
    storeEvents (M ++ N) p = storeEvents M p ++ storeEvents N p := by
  simp [storeEvents]

theorem lastStored_append (P : Int) (s1 s2 : List (pOctant × Int)) :
    lastStored P (s1 ++ s2) = lastStored (lastStored P s1) s2 := by
  induction s1 generalizing P with
  | nil => rfl
  | cons e rest ih =>
    obtain ⟨oct, p⟩ := e
    exact ih p

theorem npidTrace_append (b : Nat) (init : Int) (s1 s2 : List (pOctant × Int)) :
    npidTrace b init (s1 ++ s2) = npidTrace b (npidTrace b init s1) s2 := by
  induction s1 generalizing init with
  | nil => rfl
  | cons e rest ih =>
    obtain ⟨oct, p⟩ := e
    exact ih _

theorem npidTrace_const (b : Nat) (p : Int) (M : List Nat) (init : Int) :
    npidTrace b init (M.map (fun x => (some x, p))) = if b ∈ M then p else init := by
  induction M generalizing init with
  | nil => rfl
  | cons x rest ih =>
    show npidTrace b (if some x = some b then p else init) _ = _
    rw [ih]
    by_cases hxb : x = b
    · subst hxb
      simp
    · have h1 : ¬ (some x = some b) := fun h => hxb (Option.some.inj h)
      have h2 : b ≠ x := fun h => hxb h.symm
      simp [h1, h2]

theorem npidTrace_not_mem (b : Nat) (init : Int) (s : List (pOctant × Int))
    (h : some b ∉ s.map Prod.fst) : npidTrace b init s = init := by
  induction s generalizing init with
  | nil => rfl
  | cons e rest ih =>
    obtain ⟨oct, p⟩ := e
    have h1 : ¬ (oct = some b) := fun h' => h (by simp [h'])
    show npidTrace b (if oct = some b then p else init) rest = init
    rw [if_neg h1]
    exact ih init (fun h' => h (List.mem_cons_of_mem _ h'))

theorem lastStored_const (P p : Int) (M : List Nat) (hM : M ≠ []) :
    lastStored P (M.map (fun x => (some x, p))) = p := by
  induction M generalizing P with
  | nil => exact absurd rfl hM
  | cons x rest ih =>
    cases rest with
    | nil => rfl
    | cons y ys => exact ih p (by simp)

theorem TerminalAt.of_frame {w s : World} (h : Frame w s) {a : Nat} :
    TerminalAt s a ↔ TerminalAt w a := by
  constructor
  · rintro ⟨o', hm', ht⟩
    obtain ⟨o, hm, ho⟩ := h.symm.mem_some hm'
    refine ⟨o, hm, fun i => ?_⟩
    rw [ho]
    exact ht i
  · rintro ⟨o, hm, ht⟩
    obtain ⟨o', hm', ho⟩ := h.mem_some hm
    refine ⟨o', hm', fun i => ?_⟩
    rw [ho]
    exact ht i

theorem Steps.unframe {w s : World} (h : Frame w s) :
    ∀ {P : Int} {l : List (pOctant × Int)}, Steps s P l → Steps w P l := by
  intro P l
  induction l generalizing P with
  | nil => intro _; trivial
  | cons e rest ih =>
    obtain ⟨oct, p⟩ := e
    rintro ⟨h1, h2⟩
    refine ⟨?_, ih h2⟩
    rcases h1 with h1 | ⟨h1, a, ha, ht⟩
    · exact Or.inl h1
    · exact Or.inr ⟨h1, a, ha, (TerminalAt.of_frame h).1 ht⟩

theorem Steps.concat {w : World} :
    ∀ {P : Int} {l1 l2 : List (pOctant × Int)}, Steps w P l1 →
      Steps w (lastStored P l1) l2 → Steps w P (l1 ++ l2) := by
  intro P l1
  induction l1 generalizing P with
  | nil => intro l2 _ h; exact h
  | cons e rest ih =>
    obtain ⟨oct, p⟩ := e
    intro l2 h1 h2
    exact ⟨h1.1, ih h1.2 h2⟩

theorem Steps.const (w : World) (P : Int) (M : List Nat) :
    Steps w P (M.map (fun x => (some x, P))) := by
  induction M with
  | nil => trivial
  | cons x rest ih => exact ⟨Or.inl rfl, ih⟩

/-- The stored values of a log that follows the running partition index do not decrease and
lie between the partition index before and the partition index after. -/
theorem Steps.sorted {w : World} :
    ∀ {P : Int} {l : List (pOctant × Int)}, Steps w P l →
      (l.map Prod.snd).Pairwise (· ≤ ·) ∧
      ∀ e ∈ l, P ≤ e.2 ∧ e.2 ≤ lastStored P l := by
  intro P l
  induction l generalizing P with
  | nil => intro _; exact ⟨List.Pairwise.nil, fun e he => by cases he⟩
  | cons e rest ih =>
    obtain ⟨oct, p⟩ := e
    rintro ⟨h1, h2⟩
    obtain ⟨hs, hb⟩ := ih h2
    have hPp : P ≤ p := by
      rcases h1 with h1 | ⟨h1, _⟩ <;> omega
    have hlast : p ≤ lastStored p rest := by
      cases rest with
      | nil => exact le_refl p
      | cons e2 r2 =>
        exact le_trans (hb e2 (List.mem_cons_self _ _)).1 (hb e2 (List.mem_cons_self _ _)).2
    refine ⟨?_, ?_⟩
    · rw [List.map_cons, List.pairwise_cons]
      refine ⟨fun q hq => ?_, hs⟩
      obtain ⟨e2, he2, rfl⟩ := List.mem_map.1 hq
      exact (hb e2 he2).1
    · intro e2 he2
      rcases List.mem_cons.1 he2 with h | h
      · subst h
        exact ⟨hPp, hlast⟩
      · exact ⟨le_trans hPp (hb e2 h).1, (hb e2 h).2⟩

/-- Composition of two runs. -/
theorem Trace.seq {w s s' : World} {M M' : List Nat} {L L' : List Event}
    (h1 : Trace w s M L) (hfr : Frame w s) (h2 : Trace s s' M' L') :
    Trace w s' (M ++ M') (L ++ L') where
  stored := by
    rw [stores_append, List.map_append, List.map_append, h1.stored, h2.stored]
  called := by
    rw [calls_append, List.map_append]
    exact h1.called.append h2.called
  count := by
    rw [calls_append, List.length_append, h2.count, h1.count]
    push_cast
    ring
  steps := by
    rw [stores_append]
    refine Steps.concat h1.steps ?_
    rw [← h1.last]
    exact Steps.unframe hfr h2.steps
  last := by
    rw [stores_append, lastStored_append, ← h1.last, h2.last]
  growth := by
    obtain ⟨T1, hs1, ht1, hp1⟩ := h1.growth
    obtain ⟨T2, hs2, ht2, hp2⟩ := h2.growth
    refine ⟨T1 ++ T2, ?_, ?_, ?_⟩
    · rw [calls_append]
      exact hs1.append hs2
    · intro t ht
      rcases List.mem_append.1 ht with h | h
      · exact ht1 t h
      · obtain ⟨a, ha, hta⟩ := ht2 t h
        exact ⟨a, ha, (TerminalAt.of_frame hfr).1 hta⟩
    · rw [hp2, hp1, List.length_append]
      push_cast
      ring
  memory := by
    intro b
    rw [h2.memory b, h1.memory b, stores_append]
    cases w.mem b with
    | none => rfl
    | some o =>
      show some (setNpid (npidTrace b (npidTrace b o.npid (stores L)) (stores L')) _) =
        some (setNpid (npidTrace b o.npid (stores L ++ stores L')) o)
      rw [npidTrace_append]
      rfl
  acct := by
    intro hce
    have a1 := h1.acct hce
    have a2 := h2.acct (hfr.costExact hce)
    have hcost : costAt s = costAt w := funext (fun c => hfr.costAt_eq c)
    rw [hfr.leafStores_eq, hfr.optcost, hcost] at a2
    rw [stores_append, leafStores_append, List.map_append, List.map_append, runLeaves_append,
      a1, a2]

/-- A run without stores and invocations. -/
theorem Trace.nil (w : World) : Trace w w [] [] where
  stored := rfl
  called := List.Sublist.refl _
  count := by simp [calls]
  steps := trivial
  last := rfl
  growth := ⟨[], List.Sublist.refl _, fun t ht => (by cases ht), (by simp)⟩
  memory := by
    intro b
    cases w.mem b with
    | none => rfl
    | some o => rfl
  acct := fun _ => rfl

/-! ## The local pre-order listing -/

theorem localPre_succ {w : World} {a : Nat} {o : Octant} (hm : w.mem a = some o) (n : Nat) :
    localPre w (n + 1) a = a :: (localChildren o w.OCT_localpid).flatMap (localPre w n) := by
  rw [localPre]
  simp only [hm]

theorem mem_localChildren {o : Octant} {lp : Int} {c : Nat} :
    c ∈ localChildren o lp ↔ ∃ i, o.child i = some c ∧ o.cpid i = lp := by
  unfold localChildren
  rw [List.mem_filterMap]
  constructor
  · rintro ⟨i, hi, h⟩
    have := (List.mem_filter.1 hi).2
    simp only [localSlot, Bool.and_eq_true, decide_eq_true_eq] at this
    exact ⟨i, h, this.2⟩
  · rintro ⟨i, h, hcp⟩
    refine ⟨i, List.mem_filter.2 ⟨mem_slots i, ?_⟩, h⟩
    simp [localSlot, h, hcp]

theorem Frame.localPre_eq {w s : World} (h : Frame w s) :
    ∀ (n a : Nat), localPre s n a = localPre w n a := by
  intro n
  induction n with
  | zero => intro a; rfl
  | succ n ih =>
    intro a
    cases hm : w.mem a with
    | none =>
      rw [localPre, localPre]
      simp only [hm, h.mem_none hm]
    | some o =>
      obtain ⟨o', hm', ho⟩ := h.mem_some hm
      rw [localPre_succ hm, localPre_succ hm', h.localpid]
      have hlc : localChildren o' w.OCT_localpid = localChildren o w.OCT_localpid := by
        rw [ho]
        rfl
      rw [hlc]
      congr 1
      exact List.flatMap_congr (fun c _ => ih c) |>.symm ▸ rfl

theorem mem_localPre {w : World} {b : Nat} :
    ∀ (n a : Nat), Depth w n a → (b ∈ localPre w n a ↔ Reach w a b) := by
  intro n
  induction n with
  | zero => intro a h; cases h
  | succ n ih =>
    intro a hd
    obtain ⟨o, hm⟩ := hd.live
    rw [localPre_succ hm, List.mem_cons, List.mem_flatMap, reach_iff_children hm]
    constructor
    · rintro (h | ⟨c, hc, hb⟩)
      · exact Or.inl h
      · obtain ⟨i, hi, hcp⟩ := mem_localChildren.1 hc
        exact Or.inr ⟨i, c, hi, hcp, (ih c (hd.child ⟨o, i, hm, hi, hcp⟩)).1 hb⟩
    · rintro (h | ⟨i, c, hi, hcp, hr⟩)
      · exact Or.inl h
      · exact Or.inr ⟨c, mem_localChildren.2 ⟨i, hi, hcp⟩,
          (ih c (hd.child ⟨o, i, hm, hi, hcp⟩)).2 hr⟩

theorem localPre_head {w : World} {n a : Nat} (hd : Depth w n a) :
    ∃ tl, localPre w n a = a :: tl := by
  obtain ⟨o, hm⟩ := hd.live
  cases hd with
  | node hm' _ => exact ⟨_, localPre_succ hm' _⟩

/-! ## The loops with the log -/

/-- The invariant rule of the loop over the child slots, for the functions with the log. -/
theorem children_loop_inv_log (g : World × List Event → pOctant → Except Fault (World × List Event))
    (a : Nat) (o : Octant) (lp : Int) (children : Fin 8 → pOctant)
    (I : List (Fin 8) → World × List Event → Prop)
    (hmem : ∀ pre s, I pre s →
      ∃ o', s.1.mem a = some o' ∧ o'.cpid = o.cpid ∧ s.1.OCT_localpid = lp)
    (hskip : ∀ pre x s, x ∉ pre → I pre s → (children x = none ∨ o.cpid x ≠ lp) →
      I (pre ++ [x]) s)
    (hvisit : ∀ pre x s c, x ∉ pre → I pre s → children x = some c → o.cpid x = lp →
      ∃ s', g s (some c) = .ok s' ∧ I (pre ++ [x]) s')
    (s : World × List Event) (h0 : I [] s) :
    ∃ s', slots.foldlM (fun s i =>
        if (children i).isSome then do
          if (← POC_local s.1 (some a) i) then g s (children i)
          else pure s
        else pure s) s = .ok s' ∧ I slots s' := by
  refine foldlM_inv _ I slots (fun pre x suf s hl hI => ?_) s h0
  have hx : x ∉ pre := by
    have hnd := slots_nodup
    rw [← hl] at hnd
    intro hmem
    have := (List.nodup_append.1 hnd).2.2
    exact this hmem (List.mem_cons_self _ _)
  obtain ⟨o', hm', hcp, hlp⟩ := hmem pre s hI
  cases hch : children x with
  | none =>
    simp only [Option.isSome_none, Bool.false_eq_true, if_false, pure_eq_ok]
    exact ⟨s, rfl, hskip pre x s hx hI (Or.inl hch)⟩
  | some c =>
    simp only [Option.isSome_some, if_true, POC_local_some hm', ok_bind, hcp, hlp]
    by_cases hloc : o.cpid x = lp
    · simp only [hloc, decide_True, if_true]
      exact hvisit pre x s c hx hI hch hloc
    · simp only [hloc, decide_False, Bool.false_eq_true, if_false, pure_eq_ok]
      exact ⟨s, rfl, hskip pre x s hx hI (Or.inr hloc)⟩

/-- The invariant rule of the index-order descent, for the functions with the log: the
invariant is indexed by the non-empty, locally tagged slots visited so far. -/
theorem index_loop_inv_log (g : World × List Event → pOctant → Except Fault (World × List Event))
    (a : Nat) (o : Octant) (lp : Int) (I : List (Fin 8) → World × List Event → Prop)
    (hmem : ∀ vis s, I vis s →
      ∃ o', s.1.mem a = some o' ∧ o'.cpid = o.cpid ∧ s.1.OCT_localpid = lp)
    (hvisit : ∀ vis x s c, x ∉ vis → I vis s → o.child x = some c → o.cpid x = lp →
      ∃ s', g s (some c) = .ok s' ∧ I (vis ++ [x]) s')
    (s : World × List Event) (h0 : I [] s) :
    ∃ s', slots.foldlM (fun s i =>
        if (o.child i).isSome then do
          if (← POC_local s.1 (some a) i) then g s (o.child i)
          else pure s
        else pure s) s = .ok s' ∧ I (slots.filter (localSlot o lp)) s' := by
  refine children_loop_inv_log g a o lp o.child (fun pre s => I (pre.filter (localSlot o lp)) s)
    (fun pre s hI => hmem _ s hI) (fun pre x s _ hI hsk => ?_) (fun pre x s c hx hI hch hcp => ?_)
    s h0
  · have : localSlot o lp x = false := by
      rcases hsk with h | h
      · simp [localSlot, h]
      · simp [localSlot, h]
    simpa [List.filter_append, List.filter_cons, this] using hI
  · have hls : localSlot o lp x = true := by simp [localSlot, hch, hcp]
    have hx' : x ∉ pre.filter (localSlot o lp) := fun h => hx (List.mem_filter.1 h).1
    obtain ⟨s', hs', hI'⟩ := hvisit _ x s c hx' hI hch hcp
    refine ⟨s', hs', ?_⟩
    simpa [List.filter_append, List.filter_cons, hls] using hI'

/-- The invariant rule of the outer loop of `LB_visit_by_dist`, for the functions with the
log. -/
theorem by_dist_loop_inv_log (U : OctUtil)
    (visit : World × List Event → pOctant → Except Fault (World × List Event)) (a : Nat)
    (o : Octant) (lp : Int) (children : Fin 8 → pOctant) (corigin : Fin 8 → COORD)
    (I : List (Fin 8) → World × List Event → Prop)
    (hmem : ∀ vis s, I vis s →
      ∃ o', s.1.mem a = some o' ∧ o'.cpid = o.cpid ∧ s.1.OCT_localpid = lp)
    (hvisit : ∀ vis x s, x ∉ vis → I vis s → o.cpid x = lp →
      ∃ s', visit s (children x) = .ok s' ∧ I (vis ++ [x]) s') :
    ∀ (n : Nat) (vis : List (Fin 8)) (s : World × List Event) (L : DistLocals), vis.Nodup →
      (∀ i, L.visited i = true ↔ i ∈ vis) → (∀ i ∈ vis, o.cpid i = lp) → I vis s →
      9 ≤ n + vis.length →
      ∃ s' vis', LB_visit_by_dist_loop_log U visit (some a) children corigin n s L = .ok s' ∧
        I vis' s' ∧ vis'.Nodup ∧ ∀ i, i ∈ vis' ↔ o.cpid i = lp := by
  intro n
  induction n with
  | zero =>
    intro vis s L hnd _ _ _ hlen
    have := hnd.length_le_card
    simp at this
    omega
  | succ n ih =>
    intro vis s L hnd hvis hloc hI hlen
    obtain ⟨o', hm', hcp, hlp⟩ := hmem vis s hI
    obtain ⟨pc, md, mc, hpick, _, hscan⟩ := pick_spec U hm' corigin L
    obtain ⟨md2, mc2, hscan2, hnone, hsome⟩ :=
      scan_spec U hm' corigin pc L.visited slots L.mindist none
    rw [hscan] at hscan2
    cases hscan2
    rw [LB_visit_by_dist_loop_log]
    simp only [hpick, ok_bind]
    cases mc with
    | none =>
      refine ⟨s, vis, rfl, hI, hnd, fun i => ⟨fun h => hloc i h, fun h => ?_⟩⟩
      have := (hnone rfl).2 i (mem_slots i)
      rw [hcp, hlp] at this
      have hv : L.visited i = true := by
        cases hvi : L.visited i
        · exact absurd ⟨h, hvi⟩ this
        · rfl
      exact (hvis i).1 hv
    | some x =>
      have hx := hsome x rfl
      rcases hx with hx | ⟨_, hxl, hxv⟩
      · cases hx
      · rw [hcp, hlp] at hxl
        have hxn : x ∉ vis := fun h => by
          have := (hvis x).2 h
          rw [hxv] at this
          cases this
        obtain ⟨s1, hs1, hI1⟩ := hvisit vis x s hxn hI hxl
        simp only [hs1, ok_bind]
        refine ih (vis ++ [x]) s1 _ ?_ (fun i => ?_) (fun i hi => ?_) hI1 ?_
        · exact List.nodup_append.2 ⟨hnd, List.nodup_singleton x, by
            intro y hy hy'
            rw [List.mem_singleton] at hy'
            subst hy'
            exact hxn hy⟩
        · by_cases hix : i = x
          · subst hix
            simp
          · simp [Function.update_noteq hix, hvis i, hix]
        · rcases List.mem_append.1 hi with h | h
          · exact hloc i h
          · rw [List.mem_singleton] at h; subst h; exact hxl
        · simp only [List.length_append, List.length_singleton]
          omega

/-! ## The log of `LB_tag_subtree` -/

theorem localChildren_terminal {o : Octant} (h : ∀ i, o.child i = none) (lp : Int) :
    localChildren o lp = [] := by
  unfold localChildren
  rw [List.filterMap_eq_nil_iff]
  intro i _
  exact h i

theorem localChildren_snoc (o : Octant) (vis : List (Fin 8)) (x : Fin 8) (c : Nat)
    (h : o.child x = some c) :
    (vis ++ [x]).filterMap o.child = vis.filterMap o.child ++ [c] :=
  filterMap_append_singleton o.child vis x c h

/-- The log of `LB_tag_subtree(a, p)`: one store of `p` on each octant reachable from `a`
through non-empty, locally tagged slots, in pre-order. -/
theorem LB_tag_subtree_trace (p : Int) : ∀ (fuel : Nat) (w : World) (ev : List Event)
    (n a : Nat), Depth w n a → n ≤ fuel →
    ∃ w', LB_tag_subtree_log fuel (w, ev) (some a) p =
        .ok (w', ev ++ storeEvents (localPre w n a) p) ∧
      LB_tag_subtree fuel w (some a) p = .ok w' ∧ TagRel w w' (Reach w a) p := by
  intro fuel
  induction fuel with
  | zero =>
    intro w ev n a hd hn
    have : n = 0 := by omega
    subst this
    cases hd
  | succ fuel ih =>
    intro w ev n a hd hn
    obtain ⟨w', hw', hT⟩ := LB_tag_subtree_spec p (fuel + 1) w n a hd hn
    have her := LB_tag_subtree_log_erase (fuel + 1) (w, ev) (some a) p
    rw [hw'] at her
    obtain ⟨e', he'⟩ := map_fst_eq_ok her
    refine ⟨w', ?_, hw', hT⟩
    rw [he']
    cases hd with
    | @node n' _ o hm hk =>
      have hm1 : ({ w with mem := Function.update w.mem a (some (setNpid p o)) } : World).mem a
          = some (setNpid p o) := by simp
      rw [LB_tag_subtree_log] at he'
      simp only [POC_modify_newpid_some hm, ok_bind, POC_isTerminal_some hm1] at he'
      by_cases hterm : ∀ i, o.child i = none
      · have hterm' : ∀ i, (setNpid p o).child i = none := hterm
        simp only [hterm', decide_True, if_true, pure_eq_ok] at he'
        rw [localPre_succ hm, localChildren_terminal hterm]
        cases he'
        rfl
      · have hterm' : ¬ ∀ i, (setNpid p o).child i = none := hterm
        simp only [hterm', decide_False, POC_children_some hm1, ok_bind, Bool.false_eq_true,
          if_false] at he'
        have hfr1 : Frame w { w with mem := Function.update w.mem a (some (setNpid p o)) } :=
          (TagRel.single hm p).frame
        obtain ⟨s', hs', hI⟩ := index_loop_inv_log
          (fun s c => LB_tag_subtree_log fuel s c p) a o w.OCT_localpid
          (fun vis s => Frame w s.1 ∧ s.2 = ev ++ storeEvents
            (a :: (vis.filterMap o.child).flatMap (localPre w n')) p)
          (fun vis s hI => by
            obtain ⟨o', hm', ho'⟩ := hI.1.mem_some hm
            exact ⟨o', hm', by rw [ho']; rfl, hI.1.localpid⟩)
          (fun vis x s c hx hI hch hloc => by
            obtain ⟨s1, hs1, _, hT1⟩ := ih s.1 s.2 n' c (hI.1.depth (hk x c hch hloc))
              (by omega)
            refine ⟨(s1, s.2 ++ storeEvents (localPre s.1 n' c) p), hs1,
              hI.1.comp hT1.frame, ?_⟩
            show s.2 ++ storeEvents (localPre s.1 n' c) p = _
            rw [hI.2, hI.1.localPre_eq, localChildren_snoc o vis x c hch, List.flatMap_append,
              ← List.cons_append, storeEvents_append, List.append_assoc]
            simp)
          ({ w with mem := Function.update w.mem a (some (setNpid p o)) },
            ev ++ [Event.store (some a) p]) ⟨hfr1, by simp [storeEvents]⟩
        have heq : Except.ok s' = Except.ok (w', e') := hs'.symm.trans he'
        cases heq
        have h2 : e' = _ := hI.2
        rw [h2, localPre_succ hm]
        rfl

/-! ## The costs of the terminal octants of a subtree -/

/-- With exact costs, the costs of the terminal octants of a local subtree add up to the cost
of its root. -/
theorem leaf_cost_sum {w : World} (hc : CostExact w) : ∀ (n a : Nat), Depth w n a →
    (((localPre w n a).filter (isLeaf w)).map (costAt w)).sum = costAt w a := by
  intro n
  induction n with
  | zero => intro a hd; cases hd
  | succ n ih =>
    intro a hd
    obtain ⟨o, hm⟩ := hd.live
    rw [localPre_succ hm, List.filter_cons]
    by_cases hterm : ∀ i, o.child i = none
    · rw [if_pos ((isLeaf_iff hm).2 hterm), localChildren_terminal hterm]
      simp
    · have hnl : ¬ (isLeaf w a = true) := fun h => hterm ((isLeaf_iff hm).1 h)
      rw [if_neg hnl, costAt_some hm, (hc a o hm).2 hterm]
      have key : ∀ (cl : List Nat), (∀ c ∈ cl, Depth w n c) →
          (((cl.flatMap (localPre w n)).filter (isLeaf w)).map (costAt w)).sum =
            (cl.map (costAt w)).sum := by
        intro cl
        induction cl with
        | nil => intro _; rfl
        | cons c rest ihc =>
          intro hcl
          rw [List.flatMap_cons, List.filter_append, List.map_append, List.sum_append,
            ih c (hcl c (List.mem_cons_self _ _)),
            ihc (fun x hx => hcl x (List.mem_cons_of_mem _ hx)), List.map_cons, List.sum_cons]
      refine key _ (fun c hcm => ?_)
      obtain ⟨i, hi, hcp⟩ := mem_localChildren.1 hcm
      exact hd.child ⟨o, i, hm, hi, hcp⟩

/-! ## The branches of `LB_visit`, with the log -/

theorem LB_visit_log_fits (U : OctUtil) {fuel n : Nat} {w : World} {a : Nat} {o : Octant}
    (ev : List Event) (hm : w.mem a = some o) (hfit : Fits w o.cost)
    (hd : Depth w n a) (hn : n ≤ fuel + 1) :
    ∃ wt, TagRel (countVisit w) wt (Reach w a) w.partition ∧
      LB_visit_log U (fuel + 1) (w, ev) (some a) =
        .ok (accumulate U o wt,
          ev ++ [Event.call (some a)] ++ storeEvents (localPre w n a) w.partition) := by
  have hfit' : o.cost = 0 ∨
      w.pcost + o.cost ≤ w.optcost + ((w.partition : ℚ) * w.optcost - w.total) := hfit
  have hfr : Frame w (countVisit w) := frame_countVisit w
  obtain ⟨wt, hlog, _, hT⟩ := LB_tag_subtree_trace w.partition (fuel + 1) (countVisit w)
    (ev ++ [Event.call (some a)]) n a (hfr.depth hd) hn
  have hT' : TagRel (countVisit w) wt (Reach w a) w.partition :=
    hT.congr (fun b => hfr.reach_iff)
  refine ⟨wt, hT', ?_⟩
  have hma : wt.mem a = some (setNpid w.partition o) := by
    rw [hT'.2.1 a Relation.ReflTransGen.refl]
    show Option.map _ (w.mem a) = _
    rw [hm]; rfl
  have hlog' : LB_tag_subtree_log (fuel + 1)
      ({ w with DFS_Part_Count := w.DFS_Part_Count + 1 }, ev ++ [Event.call (some a)])
      (some a) w.partition =
      .ok (wt, ev ++ [Event.call (some a)] ++ storeEvents (localPre w n a) w.partition) := by
    rw [← hfr.localPre_eq n a]
    exact hlog
  rw [LB_visit_log]
  simp only [LB_costs_value_eq, hm, ok_bind, if_pos hfit', hlog', POC_origin_volume_eq, hma,
    pure_eq_ok]
  rfl

theorem LB_visit_log_terminal (U : OctUtil) {fuel : Nat} {w : World} {a : Nat} {o : Octant}
    (ev : List Event) (hm : w.mem a = some o) (hnofit : ¬ Fits w o.cost)
    (hterm : ∀ i, o.child i = none) :
    LB_visit_log U (fuel + 1) (w, ev) (some a) =
      .ok (accumulate U o
        (if o.cost - togoOf w ≥ togoOf w then
          writeNpid (closePartition (countVisit w)) a o (w.partition + 1)
        else writeNpid (countVisit w) a o w.partition),
        ev ++ [Event.call (some a)] ++ [Event.store (some a)
          (if o.cost - togoOf w ≥ togoOf w then w.partition + 1 else w.partition)]) := by
  have hnofit' : ¬ (o.cost = 0 ∨
      w.pcost + o.cost ≤ w.optcost + ((w.partition : ℚ) * w.optcost - w.total)) := hnofit
  rw [LB_visit_log]
  simp only [LB_costs_value_eq, hm, ok_bind, if_neg hnofit', POC_isTerminal_eq, hterm,
    implies_true, decide_True, Bool.not_true, Bool.false_eq_true, if_false]
  by_cases hc : o.cost - togoOf w ≥ togoOf w
  · have hc' : o.cost - ((w.partition : ℚ) * w.optcost - w.total + w.optcost - w.pcost) ≥
        (w.partition : ℚ) * w.optcost - w.total + w.optcost - w.pcost := hc
    simp only [if_pos hc, if_pos hc', POC_modify_newpid_eq, hm, ok_bind, POC_origin_volume_eq,
      Function.update_same, pure_eq_ok]
    rfl
  · have hc' : ¬ (o.cost - ((w.partition : ℚ) * w.optcost - w.total + w.optcost - w.pcost) ≥
        (w.partition : ℚ) * w.optcost - w.total + w.optcost - w.pcost) := hc
    simp only [if_neg hc, if_neg hc', POC_modify_newpid_eq, hm, ok_bind, POC_origin_volume_eq,
      Function.update_same, pure_eq_ok]
    rfl

theorem LB_visit_log_descend (U : OctUtil) {fuel : Nat} {w : World} {a : Nat} {o : Octant}
    (ev : List Event) (hm : w.mem a = some o) (hnofit : ¬ Fits w o.cost)
    (hnt : ¬ ∀ i, o.child i = none) :
    LB_visit_log U (fuel + 1) (w, ev) (some a) =
      if w.CLOSE ≠ 0 then
        LB_visit_by_dist_log U (fun s c => LB_visit_log U fuel s c)
          (writeNpid (countVisit w) a o w.partition,
            ev ++ [Event.call (some a)] ++ [Event.store (some a) w.partition]) (some a) o.child
      else
        slots.foldlM (fun s i =>
          if (o.child i).isSome then do
            if (← POC_local s.1 (some a) i) then LB_visit_log U fuel s (o.child i)
            else pure s
          else pure s) (writeNpid (countVisit w) a o w.partition,
            ev ++ [Event.call (some a)] ++ [Event.store (some a) w.partition]) := by
  have hnofit' : ¬ (o.cost = 0 ∨
      w.pcost + o.cost ≤ w.optcost + ((w.partition : ℚ) * w.optcost - w.total)) := hnofit
  rw [LB_visit_log]
  simp only [LB_costs_value_eq, hm, ok_bind, if_neg hnofit', POC_isTerminal_eq, hnt,
    decide_False, Bool.not_false, if_true, POC_modify_newpid_eq, POC_children_eq,
    Function.update_same]
  rfl

/-! ## The log of `LB_visit` -/

theorem log_run_erase (U : OctUtil) {fuel : Nat} {w w' : World} {ev e' : List Event}
    {oct : pOctant} (h : LB_visit_log U fuel (w, ev) oct = .ok (w', e')) :
    LB_visit U fuel w oct = .ok w' := by
  have := LB_visit_log_erase U fuel (w, ev) oct
  rw [h] at this
  exact this.symm

theorem setNpid_self (o : Octant) : setNpid o.npid o = o := by
  cases o
  rfl

theorem lastStored_same (P : Int) (M : List Nat) :
    lastStored P (M.map (fun x => (some x, P))) = P := by
  induction M with
  | nil => rfl
  | cons x rest ih => exact ih

/-- The log of the branch of `LB_visit` that tags a whole subtree. -/
theorem Trace_fits (U : OctUtil) {w wt : World} {a n : Nat} {o : Octant}
    (hm : w.mem a = some o) (hfit : Fits w o.cost)
    (hd : Depth w n a) (hT : TagRel (countVisit w) wt (Reach w a) w.partition) :
    Trace w (accumulate U o wt) (localPre w n a)
      ([Event.call (some a)] ++ storeEvents (localPre w n a) w.partition) where
  stored := by
    rw [stores_append, stores_storeEvents]
    simp [stores, Function.comp_def]
  called := by
    rw [calls_append, calls_storeEvents]
    obtain ⟨tl, htl⟩ := localPre_head hd
    rw [htl]
    simp [calls]
  count := by
    rw [calls_append, calls_storeEvents]
    have : wt.DFS_Part_Count = w.DFS_Part_Count + 1 := by rw [hT.1]; rfl
    simp [calls, accumulate, this]
  steps := by
    rw [stores_append, stores_storeEvents]
    exact Steps.const w w.partition _
  last := by
    rw [stores_append, stores_storeEvents]
    have : wt.partition = w.partition := by rw [hT.1]; rfl
    show wt.partition = lastStored w.partition
      ((localPre w n a).map (fun x => (some x, w.partition)))
    rw [this]
    exact (lastStored_same w.partition _).symm
  growth := by
    have : wt.partition = w.partition := by rw [hT.1]; rfl
    exact ⟨[], List.nil_sublist _, fun t ht => (by cases ht), (by simp [accumulate, this])⟩
  memory := by
    intro b
    rw [stores_append, stores_storeEvents]
    show wt.mem b = (w.mem b).map (fun o => setNpid
      (npidTrace b o.npid ((localPre w n a).map (fun x => (some x, w.partition)))) o)
    by_cases hb : Reach w a b
    · rw [hT.2.1 b hb]
      show (w.mem b).map _ = _
      cases w.mem b with
      | none => rfl
      | some ob =>
        simp only [Option.map_some']
        rw [npidTrace_const, if_pos ((mem_localPre n a hd).2 hb)]
    · rw [hT.2.2 b hb]
      show w.mem b = _
      cases w.mem b with
      | none => rfl
      | some ob =>
        simp only [Option.map_some']
        rw [npidTrace_const, if_neg (fun h => hb ((mem_localPre n a hd).1 h)), setNpid_self]
  acct := by
    intro hce
    rw [stores_append, stores_storeEvents]
    show runLeaves w.optcost (w.partition, spent w)
        ((leafStores w ((localPre w n a).map (fun x => (some x, w.partition)))).map
          (fun e => costAt w e.1)) =
      ((leafStores w ((localPre w n a).map (fun x => (some x, w.partition)))).map
          (fun e => (costAt w e.1, e.2)), ((accumulate U o wt).partition,
        spent (accumulate U o wt)))
    rw [leafStores_const, List.map_map, List.map_map]
    have hsum := leaf_cost_sum hce n a hd
    rw [costAt_some hm] at hsum
    have hcs : ((fun e : Nat × Int => costAt w e.1) ∘ fun x => (x, w.partition)) = costAt w :=
      rfl
    rw [hcs]
    have hwt1 : wt.partition = w.partition := by rw [hT.1]; rfl
    have hwt2 : wt.total = w.total := by rw [hT.1]; rfl
    have hwt3 : wt.pcost = w.pcost := by rw [hT.1]; rfl
    have hfit' : (((localPre w n a).filter (isLeaf w)).map (costAt w)).sum = 0 ∨
        spent w + (((localPre w n a).filter (isLeaf w)).map (costAt w)).sum ≤
          ((w.partition : ℚ) + 1) * w.optcost := by
      rw [hsum]
      rcases hfit with h | h
      · exact Or.inl h
      · right
        unfold behindOf at h
        unfold spent
        linarith
    rw [runLeaves_fits w.optcost w.partition _ (spent w)
      (fun c hc => by
        obtain ⟨b, _, rfl⟩ := List.mem_map.1 hc
        exact costAt_nonneg hce b) hfit', hsum, List.map_map]
    have hst : (accumulate U o wt).partition = w.partition ∧
        spent (accumulate U o wt) = spent w + o.cost := by
      refine ⟨hwt1, ?_⟩
      show wt.total + (wt.pcost + o.cost) = w.total + w.pcost + o.cost
      rw [hwt2, hwt3]
      ring
    rw [hst.1, hst.2]
    rfl

/-- The log of an invocation of `LB_visit` up to its own store. -/
theorem Trace_store {w s : World} {a : Nat} {o : Octant} {p : Int}
    (hm : w.mem a = some o)
    (hmem : s.mem = Function.update w.mem a (some (setNpid p o)))
    (hcount : s.DFS_Part_Count = w.DFS_Part_Count + 1) (hpart : s.partition = p)
    (hp : p = w.partition ∨ (p = w.partition + 1 ∧ TerminalAt w a))
    (hacct : CostExact w →
      runLeaves w.optcost (w.partition, spent w)
          ((leafStores w [(some a, p)]).map (fun e => costAt w e.1)) =
        ((leafStores w [(some a, p)]).map (fun e => (costAt w e.1, e.2)),
          (s.partition, spent s))) :
    Trace w s [a] ([Event.call (some a)] ++ [Event.store (some a) p]) where
  stored := rfl
  called := List.Sublist.refl _
  count := by
    rw [hcount]
    rfl
  steps := by
    refine ⟨?_, trivial⟩
    rcases hp with h | ⟨h, ht⟩
    · exact Or.inl h
    · exact Or.inr ⟨h, a, rfl, ht⟩
  last := hpart
  growth := by
    rcases hp with h | ⟨h, ht⟩
    · exact ⟨[], List.nil_sublist _, fun t ht => (by cases ht), (by rw [hpart, h]; simp)⟩
    · refine ⟨[some a], List.Sublist.refl _, fun t htm => ?_, (by rw [hpart, h]; simp)⟩
      rw [List.mem_singleton] at htm
      exact ⟨a, htm, ht⟩
  memory := by
    intro b
    rw [hmem]
    by_cases hb : b = a
    · subst hb
      rw [Function.update_same, hm]
      show some _ = some (setNpid (if some b = some b then p else o.npid) o)
      rw [if_pos rfl]
    · rw [Function.update_noteq hb]
      cases w.mem b with
      | none => rfl
      | some ob =>
        have hne : ¬ (some a = some b) := fun h => hb (Option.some.inj h).symm
        show some ob = some (setNpid (if some a = some b then p else ob.npid) ob)
        rw [if_neg hne, setNpid_self]
  acct := hacct

/-- The accounting of the store on an octant with children: no terminal octant is stored. -/
theorem acct_internal {w s : World} {a : Nat} {o : Octant} {p : Int}
    (hm : w.mem a = some o) (hnt : ¬ ∀ i, o.child i = none)
    (hpart : s.partition = w.partition) (hsp : spent s = spent w) :
    runLeaves w.optcost (w.partition, spent w)
        ((leafStores w [(some a, p)]).map (fun e => costAt w e.1)) =
      ((leafStores w [(some a, p)]).map (fun e => (costAt w e.1, e.2)),
        (s.partition, spent s)) := by
  have hl : isLeaf w a = false := by
    cases h : isLeaf w a
    · rfl
    · exact absurd ((isLeaf_iff hm).1 h) hnt
  have : leafStores w [(some a, p)] = [] := by
    simp [leafStores, hl]
  rw [this, hpart, hsp]
  rfl

/-- The accounting of the rule of `LB_visit` for a terminal octant that does not fit. -/
theorem acct_terminal (U : OctUtil) {w : World} {a : Nat} {o : Octant}
    (hm : w.mem a = some o) (hnofit : ¬ Fits w o.cost) (hterm : ∀ i, o.child i = none) :
    (o.cost - togoOf w ≥ togoOf w →
      runLeaves w.optcost (w.partition, spent w)
          ((leafStores w [(some a, w.partition + 1)]).map (fun e => costAt w e.1)) =
        ((leafStores w [(some a, w.partition + 1)]).map (fun e => (costAt w e.1, e.2)),
          ((accumulate U o (writeNpid (closePartition (countVisit w)) a o
              (w.partition + 1))).partition,
            spent (accumulate U o (writeNpid (closePartition (countVisit w)) a o
              (w.partition + 1)))))) ∧
    (¬ (o.cost - togoOf w ≥ togoOf w) →
      runLeaves w.optcost (w.partition, spent w)
          ((leafStores w [(some a, w.partition)]).map (fun e => costAt w e.1)) =
        ((leafStores w [(some a, w.partition)]).map (fun e => (costAt w e.1, e.2)),
          ((accumulate U o (writeNpid (countVisit w) a o w.partition)).partition,
            spent (accumulate U o (writeNpid (countVisit w) a o w.partition))))) := by
  have hl : isLeaf w a = true := (isLeaf_iff hm).2 hterm
  have hls : ∀ p : Int, leafStores w [(some a, p)] = [(a, p)] := by
    intro p
    simp [leafStores, hl]
  have hnf : ¬ (o.cost = 0 ∨ spent w + o.cost ≤ ((w.partition : ℚ) + 1) * w.optcost) := by
    intro h
    apply hnofit
    rcases h with h | h
    · exact Or.inl h
    · right
      unfold behindOf
      unfold spent at h
      linarith
  have htogo : ((w.partition : ℚ) + 1) * w.optcost - spent w = togoOf w := by
    unfold togoOf behindOf spent
    ring
  constructor
  · intro hc
    rw [hls]
    simp only [List.map_cons, List.map_nil, costAt_some hm, runLeaves, stepLeaf, if_neg hnf,
      htogo, if_pos hc]
    refine Prod.ext rfl (Prod.ext rfl ?_)
    show spent w + o.cost = (w.total + w.pcost) + (0 + o.cost)
    unfold spent
    ring
  · intro hc
    rw [hls]
    simp only [List.map_cons, List.map_nil, costAt_some hm, runLeaves, stepLeaf, if_neg hnf,
      htogo, if_neg hc]
    refine Prod.ext rfl (Prod.ext rfl ?_)
    show spent w + o.cost = w.total + (w.pcost + o.cost)
    unfold spent
    ring

theorem perm_visited {o : Octant} {lp : Int} {vis : List (Fin 8)} (hnd : vis.Nodup)
    (hv : ∀ i, i ∈ vis ↔ localSlot o lp i = true) :
    (vis.filterMap o.child).Perm (localChildren o lp) := by
  refine List.Perm.filterMap _ ?_
  refine (List.perm_ext_iff_of_nodup hnd (slots_nodup.filter _)).2 (fun i => ?_)
  rw [hv, mem_filter_localSlot]

/-- The log of a call `LB_visit(a)` on an octant with a finite local subtree, in both orders
of descent: the call returns, and the part `l` of the log that it writes records a run over
the octants `M`, a rearrangement of the local pre-order listing of `a` (the listing itself in
index order) that starts with `a`, as does the list of invocations. -/
theorem LB_visit_trace (U : OctUtil) : ∀ (fuel : Nat) (w : World) (ev : List Event)
    (n a : Nat) (o : Octant), w.mem a = some o → Depth w n a → n ≤ fuel →
    (w.CLOSE = 0 ∨ LocalSlotsFilled w) →
    ∃ w' l M, LB_visit_log U fuel (w, ev) (some a) = .ok (w', ev ++ l) ∧
      Post w w' a o ∧ Trace w w' M l ∧ M.Perm (localPre w n a) ∧
      (w.CLOSE = 0 → M = localPre w n a) ∧ M.head? = some a ∧
      (calls l).head? = some (some a) := by
  intro fuel
  induction fuel with
  | zero =>
    intro w ev n a o _ hd hn
    have : n = 0 := by omega
    subst this
    cases hd
  | succ fuel ih =>
    intro w ev n a o hm hd hn hmode
    obtain ⟨w'', hv, hP⟩ := LB_visit_post U (fuel + 1) w n a o hm hd hn hmode
    have hpost : ∀ {w' : World} {e' : List Event},
        LB_visit_log U (fuel + 1) (w, ev) (some a) = .ok (w', e') → Post w w' a o := by
      intro w' e' hlog
      have := log_run_erase U hlog
      rw [hv] at this
      cases this
      exact hP
    obtain ⟨tl, htl⟩ := localPre_head hd
    by_cases hfit : Fits w o.cost
    · obtain ⟨wt, hT, hlog⟩ := LB_visit_log_fits U ev hm hfit hd hn
      rw [List.append_assoc] at hlog
      refine ⟨_, _, localPre w n a, hlog, hpost hlog, Trace_fits U hm hfit hd hT,
        List.Perm.refl _,
        fun _ => rfl, by rw [htl]; rfl, rfl⟩
    · cases hd with
      | @node n' _ o2 hm2 hk =>
        rw [hm] at hm2
        cases hm2
        have hd : Depth w (n' + 1) a := Depth.node hm hk
        by_cases hterm : ∀ i, o.child i = none
        · have hlog : LB_visit_log U (fuel + 1) (w, ev) (some a) = _ :=
            LB_visit_log_terminal U ev hm hfit hterm
          rw [List.append_assoc] at hlog
          have hpre : localPre w (n' + 1) a = [a] := by
            rw [localPre_succ hm, localChildren_terminal hterm]
            rfl
          refine ⟨_, _, [a], hlog, hpost hlog, ?_, by rw [hpre],
            fun _ => hpre.symm, rfl, rfl⟩
          by_cases hc : o.cost - togoOf w ≥ togoOf w
          · simp only [if_pos hc]
            exact Trace_store hm rfl rfl rfl (Or.inr ⟨rfl, o, hm, hterm⟩)
              (fun _ => (acct_terminal U hm hfit hterm).1 hc)
          · simp only [if_neg hc]
            exact Trace_store hm rfl rfl rfl (Or.inl rfl)
              (fun _ => (acct_terminal U hm hfit hterm).2 hc)
        · have hlog : LB_visit_log U (fuel + 1) (w, ev) (some a) = _ :=
            LB_visit_log_descend U ev hm hfit hterm
          have hkids : ∀ (s : World) (e : List Event), Frame w s → ∀ x c,
              o.child x = some c → o.cpid x = w.OCT_localpid →
              ∃ oc' s' l' M', s.mem c = some oc' ∧
                LB_visit_log U fuel (s, e) (some c) = .ok (s', e ++ l') ∧
                Post s s' c oc' ∧ Trace s s' M' l' ∧ M'.Perm (localPre w n' c) ∧
                (w.CLOSE = 0 → M' = localPre w n' c) := by
            intro s e hfr x c hch hcp
            have hdc : Depth w n' c := hk x c hch hcp
            obtain ⟨oc, hoc⟩ := hdc.live
            obtain ⟨oc', hoc', _⟩ := hfr.mem_some hoc
            obtain ⟨s', l', M', h1, h2, h3, h4, h5, _, _⟩ :=
              ih s e n' c oc' hoc' (hfr.depth hdc) (by omega) (hfr.mode hmode)
            rw [hfr.localPre_eq] at h4 h5
            exact ⟨oc', s', l', M', hoc', h1, h2, h3, h4,
              fun h0 => h5 (by rw [hfr.close]; exact h0)⟩
          have hJ0 : DescInv w a o [] (writeNpid (countVisit w) a o w.partition) ∧
              ∃ L Mc, ev ++ [Event.call (some a)] ++ [Event.store (some a) w.partition]
                  = ev ++ L ∧
                Trace w (writeNpid (countVisit w) a o w.partition) (a :: Mc) L ∧
                Mc.Perm ((([] : List (Fin 8)).filterMap o.child).flatMap (localPre w n')) ∧
                (w.CLOSE = 0 → Mc = (([] : List (Fin 8)).filterMap o.child).flatMap
                  (localPre w n')) ∧
                (calls L).head? = some (some a) :=
            ⟨DescInv_init hm, _, [], List.append_assoc _ _ _,
              Trace_store hm rfl rfl rfl (Or.inl rfl)
                (fun _ => acct_internal hm hterm rfl rfl),
              List.Perm.refl _, fun _ => rfl, rfl⟩
          have hstep : ∀ (vis : List (Fin 8)) (x : Fin 8) (s : World × List Event) (c : Nat),
              x ∉ vis →
              (DescInv w a o vis s.1 ∧ ∃ L Mc, s.2 = ev ++ L ∧ Trace w s.1 (a :: Mc) L ∧
                Mc.Perm ((vis.filterMap o.child).flatMap (localPre w n')) ∧
                (w.CLOSE = 0 → Mc = (vis.filterMap o.child).flatMap (localPre w n')) ∧
                (calls L).head? = some (some a)) →
              o.child x = some c → o.cpid x = w.OCT_localpid →
              ∃ s', LB_visit_log U fuel s (some c) = .ok s' ∧
                (DescInv w a o (vis ++ [x]) s'.1 ∧ ∃ L Mc, s'.2 = ev ++ L ∧
                  Trace w s'.1 (a :: Mc) L ∧
                  Mc.Perm (((vis ++ [x]).filterMap o.child).flatMap (localPre w n')) ∧
                  (w.CLOSE = 0 → Mc = ((vis ++ [x]).filterMap o.child).flatMap
                    (localPre w n')) ∧
                  (calls L).head? = some (some a)) := by
            intro vis x s c hx hI hch hcp
            obtain ⟨hD, L, Mc, hL, hTr, hperm, hidx, hhead⟩ := hI
            obtain ⟨oc', s', l', M', hoc', h1, h2, h3, h4, h5⟩ :=
              hkids s.1 s.2 hD.frame x c hch hcp
            refine ⟨(s', s.2 ++ l'), h1, DescInv_step hm hd hD hx hch hcp hoc' h2,
              L ++ l', Mc ++ M', ?_, ?_, ?_, ?_, ?_⟩
            · show s.2 ++ l' = ev ++ (L ++ l')
              rw [hL, List.append_assoc]
            · exact hTr.seq hD.frame h3
            · rw [localChildren_snoc o vis x c hch, List.flatMap_append]
              simp only [List.flatMap_cons, List.flatMap_nil, List.append_nil]
              exact hperm.append h4
            · intro h0
              rw [localChildren_snoc o vis x c hch, List.flatMap_append, hidx h0, h5 h0]
              simp
            · rw [calls_append]
              cases hcl : calls L with
              | nil => rw [hcl] at hhead; cases hhead
              | cons y ys => rw [hcl] at hhead; exact hhead
          have hmemJ : ∀ (vis : List (Fin 8)) (s : World × List Event),
              (DescInv w a o vis s.1 ∧ ∃ L Mc, s.2 = ev ++ L ∧ Trace w s.1 (a :: Mc) L ∧
                Mc.Perm ((vis.filterMap o.child).flatMap (localPre w n')) ∧
                (w.CLOSE = 0 → Mc = (vis.filterMap o.child).flatMap (localPre w n')) ∧
                (calls L).head? = some (some a)) →
              ∃ o', s.1.mem a = some o' ∧ o'.cpid = o.cpid ∧
                s.1.OCT_localpid = w.OCT_localpid :=
            fun vis s hI => ⟨_, hI.1.self, rfl, hI.1.frame.localpid⟩
          by_cases hclose : w.CLOSE ≠ 0
          · rw [if_pos hclose] at hlog
            have hfilled : LocalSlotsFilled w := hmode.resolve_left hclose
            have hm1 : (writeNpid (countVisit w) a o w.partition).mem a
                = some (setNpid w.partition o) := (DescInv_init hm).self
            unfold LB_visit_by_dist_log at hlog
            simp only [POC_bounds_eq, hm1, ok_bind] at hlog
            obtain ⟨s', vis', hs', hI', hnd', hv'⟩ := by_dist_loop_inv_log U
              (fun s c => LB_visit_log U fuel s c) a o w.OCT_localpid o.child _
              (fun vis s => DescInv w a o vis s.1 ∧ ∃ L Mc, s.2 = ev ++ L ∧
                Trace w s.1 (a :: Mc) L ∧
                Mc.Perm ((vis.filterMap o.child).flatMap (localPre w n')) ∧
                (w.CLOSE = 0 → Mc = (vis.filterMap o.child).flatMap (localPre w n')) ∧
                (calls L).head? = some (some a))
              hmemJ
              (fun vis x s hx hI hcp => by
                have hsome := hfilled a o x hm hcp
                obtain ⟨c, hc⟩ := Option.isSome_iff_exists.1 hsome
                rw [hc]
                exact hstep vis x s c hx hI hc hcp)
              9 [] (writeNpid (countVisit w) a o w.partition,
                ev ++ [Event.call (some a)] ++ [Event.store (some a) w.partition]) initDistLocals
              List.nodup_nil (fun i => by simp [initDistLocals]) (fun i hi => by cases hi)
              hJ0 (by simp)
            rw [hs'] at hlog
            obtain ⟨hD, L, Mc, hL, hTr, hperm, _, hhead⟩ := hI'
            have hvis : ∀ i, i ∈ vis' ↔ localSlot o w.OCT_localpid i = true := by
              intro i
              rw [hv' i]
              constructor
              · intro hcp
                have := hfilled a o i hm hcp
                simp [localSlot, this, hcp]
              · intro hls
                simp only [localSlot, Bool.and_eq_true, decide_eq_true_eq] at hls
                exact hls.2
            have hlog' : LB_visit_log U (fuel + 1) (w, ev) (some a) = .ok (s'.1, ev ++ L) := by
              rw [hlog, ← hL]
            refine ⟨s'.1, L, a :: Mc, hlog', hpost hlog', hTr, ?_, fun h0 => absurd h0 hclose,
              rfl, hhead⟩
            rw [localPre_succ hm]
            exact List.Perm.cons a
              (hperm.trans ((perm_visited hnd' hvis).flatMap_right _))
          · rw [if_neg hclose] at hlog
            have h0 : w.CLOSE = 0 := not_not.1 hclose
            obtain ⟨s', hs', hI'⟩ := index_loop_inv_log
              (fun s c => LB_visit_log U fuel s c) a o w.OCT_localpid
              (fun vis s => DescInv w a o vis s.1 ∧ ∃ L Mc, s.2 = ev ++ L ∧
                Trace w s.1 (a :: Mc) L ∧
                Mc.Perm ((vis.filterMap o.child).flatMap (localPre w n')) ∧
                (w.CLOSE = 0 → Mc = (vis.filterMap o.child).flatMap (localPre w n')) ∧
                (calls L).head? = some (some a))
              hmemJ hstep
              (writeNpid (countVisit w) a o w.partition,
                ev ++ [Event.call (some a)] ++ [Event.store (some a) w.partition]) hJ0
            rw [hs'] at hlog
            obtain ⟨hD, L, Mc, hL, hTr, hperm, hidx, hhead⟩ := hI'
            have hlog' : LB_visit_log U (fuel + 1) (w, ev) (some a) = .ok (s'.1, ev ++ L) := by
              rw [hlog, ← hL]
            have hM : a :: Mc = localPre w (n' + 1) a := by
              rw [localPre_succ hm, hidx h0]
              rfl
            refine ⟨s'.1, L, a :: Mc, hlog', hpost hlog', hTr, by rw [hM],
              fun _ => hM, rfl, hhead⟩

/-! ## The log of a whole pass -/

theorem roots_disjoint {ws : World} {n : Nat}
    (hroots : ∀ r ∈ ws.OCT_rootlist, Depth ws n r)
    (hnd : (ws.OCT_rootlist.flatMap (localPre ws n)).Nodup) {r r' : Nat}
    (hr : r ∈ ws.OCT_rootlist) (hr' : r' ∈ ws.OCT_rootlist) (hmem : r' ∈ localPre ws n r) :
    r' = r := by
  by_contra hne
  have hpw := (List.nodup_flatMap.1 hnd).2
  have hsymm : Symmetric (Function.onFun List.Disjoint (localPre ws n)) :=
    fun x y h => List.Disjoint.symm h
  have hdis := hpw.forall hsymm hr hr' (fun h => hne h.symm)
  obtain ⟨tl, htl⟩ := localPre_head (hroots r' hr')
  exact hdis hmem (by rw [htl]; exact List.mem_cons_self _ _)

/-- The log of `LB_visit_all_subtrees`: the runs over the local roots, in root-list order. -/
theorem visit_all_trace (U : OctUtil) (fuel n : Nat) (ws : World) (ev : List Event)
    (hroots : ∀ r ∈ ws.OCT_rootlist, Depth ws n r) (hn : n ≤ fuel)
    (hmode : ws.CLOSE = 0 ∨ LocalSlotsFilled ws) :
    ∃ w' L M, LB_visit_all_subtrees_log U fuel (ws, ev) = .ok (w', ev ++ L) ∧ Frame ws w' ∧
      Trace ws w' M L ∧ M.Perm (ws.OCT_rootlist.flatMap (localPre ws n)) ∧
      (ws.CLOSE = 0 → M = ws.OCT_rootlist.flatMap (localPre ws n)) ∧
      ((ws.OCT_rootlist.flatMap (localPre ws n)).Nodup →
        (calls L).filter (fun c => decide (c ∈ ws.OCT_rootlist.map some)) =
          ws.OCT_rootlist.map some) := by
  unfold LB_visit_all_subtrees_log POC_localroots
  obtain ⟨s', hs', hI⟩ := foldlM_inv (fun s r => LB_visit_log U fuel s (some r))
    (fun pre (s : World × List Event) => Frame ws s.1 ∧ ∃ L M, s.2 = ev ++ L ∧
      Trace ws s.1 M L ∧ M.Perm (pre.flatMap (localPre ws n)) ∧
      (ws.CLOSE = 0 → M = pre.flatMap (localPre ws n)) ∧
      ((ws.OCT_rootlist.flatMap (localPre ws n)).Nodup →
        (calls L).filter (fun c => decide (c ∈ ws.OCT_rootlist.map some)) = pre.map some))
    ws.OCT_rootlist
    (fun pre x suf s hl hI => by
      obtain ⟨hfr, L, M, hL, hTr, hperm, hidx, hcalls⟩ := hI
      have hx : x ∈ ws.OCT_rootlist := by rw [← hl]; simp
      have hdx := hroots x hx
      obtain ⟨ox, hox⟩ := hdx.live
      obtain ⟨ox', hox', _⟩ := hfr.mem_some hox
      obtain ⟨w1, l, Mx, hlog, hP, hTx, hpx, hix, hMh, hch⟩ :=
        LB_visit_trace U fuel s.1 s.2 n x ox' hox' (hfr.depth hdx) hn (hfr.mode hmode)
      rw [hfr.localPre_eq] at hpx hix
      refine ⟨(w1, s.2 ++ l), hlog, hfr.comp hP.frame, L ++ l, M ++ Mx, ?_, hTr.seq hfr hTx,
        ?_, ?_, ?_⟩
      · show s.2 ++ l = ev ++ (L ++ l)
        rw [hL, List.append_assoc]
      · rw [List.flatMap_append]
        simp only [List.flatMap_cons, List.flatMap_nil, List.append_nil]
        exact hperm.append hpx
      · intro h0
        rw [List.flatMap_append, hidx h0, hix (by rw [hfr.close]; exact h0)]
        simp
      · intro hnd
        rw [calls_append, List.filter_append, hcalls hnd, List.map_append]
        congr 1
        have hcalled := hTx.called
        cases hMx : Mx with
        | nil => rw [hMx] at hMh; cases hMh
        | cons m Mt =>
          rw [hMx] at hMh hcalled hpx
          have hm : m = x := by
            have : some m = some x := hMh
            exact Option.some.inj this
          subst hm
          cases hcl : calls l with
          | nil => rw [hcl] at hch; cases hch
          | cons c ct =>
            rw [hcl] at hch hcalled
            have hc : c = some m := by
              have : some c = some (some m) := hch
              exact Option.some.inj this
            subst hc
            have hsub : ct.Sublist (Mt.map some) := List.cons_sublist_cons.1 hcalled
            have hndx : (m :: Mt).Nodup :=
              hpx.nodup_iff.2 ((List.nodup_flatMap.1 hnd).1 m hx)
            have hnil : ct.filter (fun c => decide (c ∈ ws.OCT_rootlist.map some)) = [] := by
              rw [List.filter_eq_nil_iff]
              intro c hc hdec
              have hcR : c ∈ ws.OCT_rootlist.map some := of_decide_eq_true hdec
              obtain ⟨r', hr', rfl⟩ := List.mem_map.1 hcR
              have hrMt : some r' ∈ Mt.map some := hsub.subset hc
              obtain ⟨r'', hr'', he⟩ := List.mem_map.1 hrMt
              have : r'' = r' := Option.some.inj he
              subst this
              have hmemx : r'' ∈ localPre ws n m :=
                hpx.subset (List.mem_cons_of_mem _ hr'')
              have := roots_disjoint hroots hnd hx hr' hmemx
              subst this
              exact (List.nodup_cons.1 hndx).1 hr''
            rw [List.filter_cons, hnil]
            have hdec : decide (some m ∈ ws.OCT_rootlist.map some) = true :=
              decide_eq_true (List.mem_map.2 ⟨m, hx, rfl⟩)
            simp only [hdec, if_true]
            rfl)
    (ws, ev) ⟨Frame.refl ws, [], [], by simp, Trace.nil ws, List.Perm.refl _, fun _ => rfl,
      fun _ => rfl⟩
  obtain ⟨hfr, L, M, hL, hTr, hperm, hidx, hcalls⟩ := hI
  refine ⟨s'.1, L, M, ?_, hfr, hTr, hperm, hidx, hcalls⟩
  rw [hs', ← hL]

/-! ## The pass and its log -/

theorem localPre_transfer {w w' : World} (hmem : w'.mem = w.mem)
    (hlp : w'.OCT_localpid = w.OCT_localpid) :
    ∀ (n a : Nat), localPre w' n a = localPre w n a := by
  intro n
  induction n with
  | zero => intro a; rfl
  | succ n ih =>
    intro a
    rw [localPre, localPre, hmem, hlp]
    cases w.mem a with
    | none => rfl
    | some o =>
      simp only []
      congr 1
      exact List.flatMap_congr (fun c _ => ih c) |>.symm ▸ rfl

theorem Steps.of_mem_eq {w w' : World} (hmem : w'.mem = w.mem) :
    ∀ {P : Int} {l : List (pOctant × Int)}, Steps w' P l → Steps w P l := by
  intro P l
  induction l generalizing P with
  | nil => intro _; trivial
  | cons e rest ih =>
    obtain ⟨oct, p⟩ := e
    rintro ⟨h1, h2⟩
    refine ⟨?_, ih h2⟩
    rcases h1 with h1 | ⟨h1, a, ha, o, hm, ht⟩
    · exact Or.inl h1
    · exact Or.inr ⟨h1, a, ha, o, by rw [← hmem]; exact hm, ht⟩

theorem npidTrace_of_mem {b : Nat} {p : Int} :
    ∀ (S : List (pOctant × Int)) (init : Int), (S.map Prod.fst).Nodup → (some b, p) ∈ S →
      npidTrace b init S = p := by
  intro S
  induction S with
  | nil => intro init _ h; cases h
  | cons e rest ih =>
    obtain ⟨oct, q⟩ := e
    intro init hnd hmem
    rw [List.map_cons, List.nodup_cons] at hnd
    rcases List.mem_cons.1 hmem with h | h
    · cases h
      show npidTrace b (if some b = some b then p else init) rest = p
      rw [if_pos rfl]
      exact npidTrace_not_mem b p rest hnd.1
    · exact ih _ hnd.2 h

/-- After a run whose stores are on distinct octants, each octant holds the value stored on
it. -/
theorem Trace.final_npid {w s : World} {M : List Nat} {L : List Event} (h : Trace w s M L)
    (hnd : M.Nodup) (hlive : ∀ b ∈ M, ∃ o, w.mem b = some o) :
    M.map (npidAt s) = (stores L).map Prod.snd := by
  have hndS : ((stores L).map Prod.fst).Nodup := by
    rw [h.stored]
    exact hnd.map (Option.some_injective _)
  have key : ∀ e ∈ stores L, (match e.1 with
      | some b => npidAt s b
      | none => 0) = e.2 := by
    intro e he
    obtain ⟨oct, p⟩ := e
    have hin : oct ∈ M.map some := by
      rw [← h.stored]
      exact List.mem_map.2 ⟨(oct, p), he, rfl⟩
    obtain ⟨b, hb, rfl⟩ := List.mem_map.1 hin
    obtain ⟨o, hm⟩ := hlive b hb
    show npidAt s b = p
    unfold npidAt
    rw [h.memory b, hm]
    show npidTrace b o.npid (stores L) = p
    exact npidTrace_of_mem _ _ hndS he
  have h1 : M.map (npidAt s) = (M.map some).map (fun oct => match oct with
      | some b => npidAt s b
      | none => 0) := by
    rw [List.map_map]
    rfl
  rw [h1, ← h.stored, List.map_map]
  exact List.map_congr_left key

/-- A pass that gets past its seeding, with its log. -/
theorem pass_trace (U : OctUtil) (fuel n : Nat) (w : World) (Num_Proc : Int)
    (mycost globalcost prefcost : ℚ) (hP : Num_Proc ≠ 0) (hg : globalcost ≠ 0)
    (hroots : ∀ r ∈ w.OCT_rootlist, Depth w n r) (hn : n ≤ fuel)
    (hmode : w.CLOSE = 0 ∨ LocalSlotsFilled w) :
    ∃ ws w' L M, LB_dfs_partition_seed Num_Proc globalcost prefcost w = .ok ws ∧
      ws.mem = w.mem ∧ ws.DFS_Part_Count = 0 ∧
      LB_dfs_partition_log U fuel Num_Proc mycost globalcost prefcost w =
        .ok ((w', w'.DFS_Part_Count, mycost), L) ∧
      LB_dfs_partition U fuel Num_Proc mycost globalcost prefcost w =
        .ok (w', w'.DFS_Part_Count, mycost) ∧
      Trace ws w' M L ∧ M.Perm (w.OCT_rootlist.flatMap (localPre w n)) ∧
      (w.CLOSE = 0 → M = w.OCT_rootlist.flatMap (localPre w n)) ∧
      ((w.OCT_rootlist.flatMap (localPre w n)).Nodup →
        (calls L).filter (fun c => decide (c ∈ w.OCT_rootlist.map some)) =
          w.OCT_rootlist.map some) := by
  obtain ⟨ws, hseed, hmem, hlp, hrl, hcl, hdfs⟩ :
      ∃ ws, LB_dfs_partition_seed Num_Proc globalcost prefcost w = .ok ws ∧ ws.mem = w.mem ∧
        ws.OCT_localpid = w.OCT_localpid ∧ ws.OCT_rootlist = w.OCT_rootlist ∧
        ws.CLOSE = w.CLOSE ∧ ws.DFS_Part_Count = 0 :=
    ⟨_, seed_eq prefcost w hP hg, rfl, rfl, rfl, rfl, rfl⟩
  have hmodews : ws.CLOSE = 0 ∨ LocalSlotsFilled ws := by
    rcases hmode with h | h
    · exact Or.inl (by rw [hcl]; exact h)
    · refine Or.inr (fun a o i hm hcp => h a o i (by rw [← hmem]; exact hm) ?_)
      rw [← hlp]
      exact hcp
  obtain ⟨w', L, M, hlog, _, hTr, hperm, hidx, hcalls⟩ := visit_all_trace U fuel n ws []
    (fun r hr => Depth.transfer hmem hlp (hroots r (hrl ▸ hr))) hn hmodews
  have hpre : ws.OCT_rootlist.flatMap (localPre ws n) = w.OCT_rootlist.flatMap (localPre w n) := by
    rw [hrl]
    exact List.flatMap_congr (fun r _ => localPre_transfer hmem hlp n r) |>.symm ▸ rfl
  rw [hpre] at hperm hidx hcalls
  rw [hrl] at hcalls
  rw [hcl] at hidx
  have hlog' : LB_dfs_partition_log U fuel Num_Proc mycost globalcost prefcost w =
      .ok ((w', w'.DFS_Part_Count, mycost), L) := by
    simp only [LB_dfs_partition_log, hseed, ok_bind, hlog, pure_eq_ok]
    rfl
  have her := LB_dfs_partition_log_erase U fuel Num_Proc mycost globalcost prefcost w
  rw [hlog'] at her
  exact ⟨ws, w', L, M, hseed, hmem, hdfs, hlog', her.symm, hTr, hperm, hidx, hcalls⟩

/-! ## The accounting of one pass -/

theorem pairs_of_maps {α β γ : Type} (f : α → β) (g : α → γ) :
    ∀ (l : List (β × γ)) (A : List α), l.map Prod.fst = A.map f → l.map Prod.snd = A.map g →
      l = A.map (fun a => (f a, g a)) := by
  intro l
  induction l with
  | nil =>
    intro A h1 _
    cases A with
    | nil => rfl
    | cons a rest => cases h1
  | cons e rest ih =>
    intro A h1 h2
    cases A with
    | nil => cases h1
    | cons a A' =>
      rw [List.map_cons, List.map_cons] at h1 h2
      obtain ⟨h1a, h1b⟩ := List.cons.inj h1
      obtain ⟨h2a, h2b⟩ := List.cons.inj h2
      rw [List.map_cons, ← ih A' h1b h2b]
      congr 1
      exact Prod.ext h1a h2a

theorem leafStores_map (w : World) (g : Nat → Int) (M : List Nat) :
    leafStores w (M.map (fun x => (some x, g x))) =
      (M.filter (isLeaf w)).map (fun x => (x, g x)) := by
  induction M with
  | nil => rfl
  | cons x rest ih =>
    unfold leafStores at ih ⊢
    rw [List.map_cons, List.filterMap_cons, List.filter_cons]
    cases hl : isLeaf w x
    · simp only [hl, Bool.false_eq_true, if_false]
      exact ih
    · simp only [hl, if_true, List.map_cons]
      rw [ih]

theorem tally_map {α : Type} (k : Int) (f : α → ℚ) (g : α → Int) (A : List α) :
    tally k (A.map (fun a => (f a, g a))) =
      ((A.filter (fun a => decide (g a = k))).map f).sum := by
  induction A with
  | nil => rfl
  | cons a rest ih =>
    rw [List.map_cons, tally_cons, ih, List.filter_cons]
    by_cases h : g a = k
    · simp [h]
    · simp [h]

theorem isLeaf_transfer {w w' : World} (hmem : w'.mem = w.mem) (b : Nat) :
    isLeaf w' b = isLeaf w b := by
  unfold isLeaf
  rw [hmem]

theorem costAt_transfer {w w' : World} (hmem : w'.mem = w.mem) (b : Nat) :
    costAt w' b = costAt w b := by
  unfold costAt
  rw [hmem]

theorem CostExact.same_mem {w w' : World} (hmem : w'.mem = w.mem)
    (hlp : w'.OCT_localpid = w.OCT_localpid) (hc : CostExact w) : CostExact w' := by
  intro a o hm
  rw [hmem] at hm
  obtain ⟨h1, h2⟩ := hc a o hm
  refine ⟨h1, fun hnt => ?_⟩
  rw [hlp, show costAt w' = costAt w from funext (costAt_transfer hmem)]
  exact h2 hnt

/-- With exact costs, the costs of the terminal octants under a list of octants add up to the
costs of these octants. -/
theorem leaf_cost_sum_list {w : World} (hc : CostExact w) (n : Nat) :
    ∀ (cl : List Nat), (∀ c ∈ cl, Depth w n c) →
      (((cl.flatMap (localPre w n)).filter (isLeaf w)).map (costAt w)).sum =
        (cl.map (costAt w)).sum := by
  intro cl
  induction cl with
  | nil => intro _; rfl
  | cons c rest ih =>
    intro hcl
    rw [List.flatMap_cons, List.filter_append, List.map_append, List.sum_append,
      leaf_cost_sum hc n c (hcl c (List.mem_cons_self _ _)),
      ih (fun x hx => hcl x (List.mem_cons_of_mem _ hx)), List.map_cons, List.sum_cons]

/-- One pass, as the accounting sees it: the pass returns, and the cost it assigns to each
partition is the tally of `runLeaves`, started at the seeded partition index and at the cost
of the processes before, along a list of the costs of its terminal octants. -/
theorem pass_account (U : OctUtil) (fuel n : Nat) (w : World) (P : Int) (G S : ℚ)
    (hP : P ≠ 0) (hg : G ≠ 0)
    (hroots : ∀ r ∈ w.OCT_rootlist, Depth w n r) (hn : n ≤ fuel)
    (hmode : w.CLOSE = 0 ∨ LocalSlotsFilled w) (hce : CostExact w)
    (htree : (w.OCT_rootlist.flatMap (localPre w n)).Nodup) :
    ∃ w' cs, LB_dfs_partition U fuel P (localCost w) G S w =
        .ok (w', w'.DFS_Part_Count, localCost w) ∧
      cs.sum = localCost w ∧ (∀ c ∈ cs, ∃ b ∈ leafList w n, c = costAt w b) ∧
      ∀ k, tally k (runLeaves (G / P) (seedPart (G / P) P S, S) cs).1 =
        assignedCost k n w (.ok (w', w'.DFS_Part_Count, localCost w)) := by
  obtain ⟨ws, w', L, M, hseed, hmem, _, _, hrun, hTr, hperm, _, _⟩ :=
    pass_trace U fuel n w P (localCost w) G S hP hg hroots hn hmode
  -- the seeded state
  have hseed' := seed_eq S w hP hg
  rw [hseed] at hseed'
  have hws := Except.ok.inj hseed'
  have hlp : ws.OCT_localpid = w.OCT_localpid := by rw [hws]
  have hopt : ws.optcost = G / P := by rw [hws]
  have hpart : ws.partition = seedPart (G / P) P S := by rw [hws]; rfl
  have hspent : spent ws = S := by
    rw [hws]
    show _ * _ + (S - _ * _) = S
    ring
  have hcews : CostExact ws := hce.same_mem hmem hlp
  have hleaf : isLeaf ws = isLeaf w := funext (isLeaf_transfer hmem)
  have hcost : costAt ws = costAt w := funext (costAt_transfer hmem)
  -- the stores of the log
  have hndM : M.Nodup := hperm.nodup_iff.2 htree
  have hliveE : ∀ b ∈ w.OCT_rootlist.flatMap (localPre w n), ∃ o, w.mem b = some o := by
    intro b hb
    obtain ⟨r, hr, hbr⟩ := List.mem_flatMap.1 hb
    exact ((hroots r hr).of_reach ((mem_localPre n r (hroots r hr)).1 hbr)).live
  have hliveM : ∀ b ∈ M, ∃ o, ws.mem b = some o := fun b hb => by
    rw [hmem]
    exact hliveE b (hperm.subset hb)
  have hfin := hTr.final_npid hndM hliveM
  have hstores : stores L = M.map (fun b => (some b, npidAt w' b)) :=
    pairs_of_maps some (npidAt w') (stores L) M hTr.stored hfin.symm
  have hacct := hTr.acct hcews
  rw [hstores, leafStores_map, List.map_map, List.map_map, hopt, hpart, hspent, hleaf,
    hcost] at hacct
  have hcs : ((fun e : Nat × Int => costAt w e.1) ∘ fun x => (x, npidAt w' x)) = costAt w := rfl
  have hpr : ((fun e : Nat × Int => (costAt w e.1, e.2)) ∘ fun x => (x, npidAt w' x)) =
      fun x => (costAt w x, npidAt w' x) := rfl
  rw [hcs, hpr] at hacct
  have hpermF : (M.filter (isLeaf w)).Perm (leafList w n) := hperm.filter _
  refine ⟨w', (M.filter (isLeaf w)).map (costAt w), hrun, ?_, fun c hc => ?_, fun k => ?_⟩
  · rw [(hpermF.map (costAt w)).sum_eq]
    exact leaf_cost_sum_list hce n _ hroots
  · obtain ⟨b, hb, rfl⟩ := List.mem_map.1 hc
    exact ⟨b, hpermF.subset hb, rfl⟩
  · rw [hacct]
    show tally k ((M.filter (isLeaf w)).map (fun x => (costAt w x, npidAt w' x))) = _
    rw [tally_map]
    unfold assignedCost
    have hfilt : (leafList w n).filter
          (fun b => decide (npidAfter (Except.ok (w', w'.DFS_Part_Count, localCost w)) b
            = some k)) =
        (leafList w n).filter (fun b => decide (npidAt w' b = k)) := by
      apply List.filter_congr
      intro b hb
      have hbE : b ∈ w.OCT_rootlist.flatMap (localPre w n) := (List.mem_filter.1 hb).1
      obtain ⟨o, hm⟩ := hliveE b hbE
      have hm' := hTr.memory b
      rw [hmem, hm] at hm'
      simp only [npidAfter, npidAt, hm', Option.map_some']
      by_cases hk : (setNpid (npidTrace b o.npid (stores L)) o).npid = k
      · simp [hk]
      · simp [hk]
    rw [hfilt]
    exact ((hpermF.filter _).map (costAt w)).sum_eq

/-! ## The accounting of all the passes -/

theorem assignedTotal_cons (k : Int) (n : Nat) (w : World) (procs : List World)
    (r : Except Fault (World × Int × ℚ)) (rs : List (Except Fault (World × Int × ℚ))) :
    assignedTotal k n (w :: procs) (r :: rs) = assignedCost k n w r + assignedTotal k n procs rs := by
  simp [assignedTotal]

/-- The passes of the processes in rank order, each with the cost of the processes before it
as `prefcost`, return, and the cost they assign to each partition is the tally of
`globalPairs` along the costs of the terminal octants of the processes. -/
theorem passes_account (U : OctUtil) (fuel n : Nat) (P : Int) (G C : ℚ) (hP : P ≠ 0)
    (hg : G ≠ 0) (hn : n ≤ fuel) :
    ∀ (procs : List World) (S : ℚ),
      (∀ w ∈ procs, (∀ r ∈ w.OCT_rootlist, Depth w n r) ∧
        (w.CLOSE = 0 ∨ LocalSlotsFilled w) ∧ CostExact w ∧
        (w.OCT_rootlist.flatMap (localPre w n)).Nodup ∧
        ∀ b ∈ leafList w n, costAt w b ≤ C) →
      (∀ res ∈ passes U fuel P G S procs, ∃ w' c m, res = .ok (w', c, m)) ∧
      ∃ css : List (List ℚ), css.length = procs.length ∧
        css.map List.sum = procs.map localCost ∧
        (∀ cs ∈ css, ∀ c ∈ cs, 0 ≤ c ∧ c ≤ C) ∧
        ∀ k, tally k (globalPairs (G / P) P S css) =
          assignedTotal k n procs (passes U fuel P G S procs) := by
  intro procs
  induction procs with
  | nil =>
    intro S _
    exact ⟨fun res hres => (by cases hres), [], rfl, rfl, fun cs hcs => (by cases hcs),
      fun k => rfl⟩
  | cons w rest ih =>
    intro S hw
    obtain ⟨hroots, hmode, hce, htree, hleaf⟩ := hw w (List.mem_cons_self _ _)
    obtain ⟨w', cs, hrun, hsum, hcs, htally⟩ :=
      pass_account U fuel n w P G S hP hg hroots hn hmode hce htree
    obtain ⟨hres, css, hlen, hsums, hbound, hrest⟩ := ih (S + localCost w)
      (fun x hx => hw x (List.mem_cons_of_mem _ hx))
    have hpass : passes U fuel P G S (w :: rest) =
        LB_dfs_partition U fuel P (localCost w) G S w ::
          passes U fuel P G (S + localCost w) rest := rfl
    rw [hpass]
    refine ⟨fun res hr => ?_, cs :: css, by simp [hlen], by simp [hsums, hsum],
      fun l hl c hc => ?_, fun k => ?_⟩
    · rcases List.mem_cons.1 hr with h | h
      · exact ⟨w', _, _, h.trans hrun⟩
      · exact hres res h
    · rcases List.mem_cons.1 hl with h | h
      · subst h
        obtain ⟨b, hb, rfl⟩ := hcs c hc
        exact ⟨costAt_nonneg hce b, hleaf b hb⟩
      · exact hbound l h c hc
    · rw [assignedTotal_cons, hrun, ← htally k]
      show tally k ((runLeaves (G / P) (seedPart (G / P) P S, S) cs).1 ++
        globalPairs (G / P) P (S + cs.sum) css) = _
      rw [tally_append, hsum, hrest k]

/-! ## The sample of two processes -/

theorem pairWorld_depth (lp : Int) : ∀ r ∈ (pairWorld lp).OCT_rootlist,
    Depth (pairWorld lp) 2 r := by
  intro r hr
  have : r = 0 := by simpa [pairWorld] using hr
  subst this
  refine Depth.node (o := sampleRoot2 lp) rfl (fun i c hch _ => ?_)
  simp only [sampleRoot2] at hch
  split at hch
  · cases hch
    have h2 : i.val = 0 ∨ i.val = 1 := by omega
    rcases h2 with h | h
    · rw [h]
      exact Depth.node (o := sampleLeaf (1 / 2)) rfl
        (fun j d hd _ => by simp [sampleLeaf] at hd)
    · rw [h]
      exact Depth.node (o := sampleLeaf (1 / 2)) rfl
        (fun j d hd _ => by simp [sampleLeaf] at hd)
  · cases hch

theorem pairWorld_localChildren (lp : Int) :
    localChildren (sampleRoot2 lp) lp = [1, 2] := by
  simp [localChildren, slots, localSlot, sampleRoot2, List.filter, List.filterMap]

theorem pairWorld_costExact (lp : Int) : CostExact (pairWorld lp) := by
  intro a o hm
  match a, hm with
  | 0, hm =>
    have h : some (sampleRoot2 lp) = some o := hm
    cases h
    refine ⟨by simp [sampleRoot2, sampleLeaf], fun _ => ?_⟩
    show (sampleRoot2 lp).cost = ((localChildren (sampleRoot2 lp) lp).map
      (costAt (pairWorld lp))).sum
    rw [pairWorld_localChildren]
    simp [sampleRoot2, sampleLeaf, costAt, pairWorld]
    norm_num
  | 1, hm =>
    have h : some (sampleLeaf (1 / 2)) = some o := hm
    cases h
    exact ⟨by simp [sampleLeaf], fun hnt => absurd (fun i => rfl) hnt⟩
  | 2, hm =>
    have h : some (sampleLeaf (1 / 2)) = some o := hm
    cases h
    exact ⟨by simp [sampleLeaf], fun hnt => absurd (fun i => rfl) hnt⟩
  | n + 3, hm =>
    have h : (none : Option Octant) = some o := hm
    cases h

theorem pairWorld_listing (lp : Int) :
    (pairWorld lp).OCT_rootlist.flatMap (localPre (pairWorld lp) 2) = [0, 1, 2] := by
  have h0 : (pairWorld lp).mem 0 = some (sampleRoot2 lp) := rfl
  have h1 : (pairWorld lp).mem 1 = some (sampleLeaf (1 / 2)) := rfl
  have h2 : (pairWorld lp).mem 2 = some (sampleLeaf (1 / 2)) := rfl
  have hl : localChildren (sampleLeaf (1 / 2)) lp = [] :=
    localChildren_terminal (fun _ => rfl) lp
  show [0].flatMap (localPre (pairWorld lp) 2) = _
  simp only [List.flatMap_cons, List.flatMap_nil, List.append_nil]
  rw [localPre_succ h0]
  show 0 :: (localChildren (sampleRoot2 lp) lp).flatMap (localPre (pairWorld lp) 1) = _
  rw [pairWorld_localChildren]
  simp only [List.flatMap_cons, List.flatMap_nil, List.append_nil]
  rw [localPre_succ h1, localPre_succ h2]
  show 0 :: ((1 :: (localChildren (sampleLeaf (1 / 2)) lp).flatMap _) ++
    (2 :: (localChildren (sampleLeaf (1 / 2)) lp).flatMap _)) = _
  rw [hl]
  rfl

theorem pairWorld_leafList (lp : Int) : leafList (pairWorld lp) 2 = [1, 2] := by
  unfold leafList
  rw [pairWorld_listing]
  have h0 : isLeaf (pairWorld lp) 0 = false := by
    simp [isLeaf, pairWorld, sampleRoot2]
    exact ⟨0, by simp⟩
  have h1 : isLeaf (pairWorld lp) 1 = true := by
    simp [isLeaf, pairWorld, sampleLeaf]
  have h2 : isLeaf (pairWorld lp) 2 = true := by
    simp [isLeaf, pairWorld, sampleLeaf]
  simp [List.filter, h0, h1, h2]

/-- The hypotheses of the accounting hold for each process of the sample. -/
theorem pairWorld_ok (lp : Int) :
    (∀ r ∈ (pairWorld lp).OCT_rootlist, Depth (pairWorld lp) 2 r) ∧
    ((pairWorld lp).CLOSE = 0 ∨ LocalSlotsFilled (pairWorld lp)) ∧ CostExact (pairWorld lp) ∧
    ((pairWorld lp).OCT_rootlist.flatMap (localPre (pairWorld lp) 2)).Nodup ∧
    ∀ b ∈ leafList (pairWorld lp) 2, costAt (pairWorld lp) b ≤ 1 / 2 := by
  refine ⟨pairWorld_depth lp, Or.inl rfl, pairWorld_costExact lp, ?_, fun b hb => ?_⟩
  · rw [pairWorld_listing]
    decide
  · rw [pairWorld_leafList] at hb
    simp only [List.mem_cons, List.mem_singleton, List.mem_nil_iff, or_false] at hb
    rcases hb with rfl | rfl
    · simp [costAt, pairWorld, sampleLeaf]
    · simp [costAt, pairWorld, sampleLeaf]

/-! ## Equations of the arena operations of `octant.c` -/

theorem POC_nRegions_count_eq (l : List Region) : ∀ (c : Int),
    POC_nRegions_count l c = c + (l.length : Int) := by
  induction l with
  | nil => intro c; simp [POC_nRegions_count]
  | cons r rest ih =>
    intro c
    rw [POC_nRegions_count, ih]
    simp only [List.length_cons, Nat.cast_add, Nat.cast_one]
    ring

theorem POC_clearRegions_loop_eq (l : List Region) : POC_clearRegions_loop l = [] := by
  induction l with
  | nil => rfl
  | cons r rest ih => rw [POC_clearRegions_loop, ih]

theorem POC_nRegions_eq {w : World} {a : Nat} {o : Octant} (hm : w.mem a = some o) :
    POC_nRegions w (some a) =
      if ∀ i, o.child i = none then .ok (o.list.length : Int) else .error .abort := by
  simp only [POC_nRegions, POC_isTerminal_some hm, ok_bind, deref_some hm, pure_eq_ok,
    POC_nRegions_count_eq, zero_add]
  by_cases h : ∀ i, o.child i = none
  · simp [h]
  · simp [h]

theorem POC_regionlist_eq {w : World} {a : Nat} {o : Octant} (hm : w.mem a = some o) :
    POC_regionlist w (some a) =
      if ∀ i, o.child i = none then .ok o.list else .error .abort := by
  simp only [POC_regionlist, POC_isTerminal_some hm, ok_bind, deref_some hm, pure_eq_ok]
  by_cases h : ∀ i, o.child i = none
  · simp [h]
  · simp [h]

theorem POC_addRegion_eq {w : World} {a : Nat} {o : Octant} (hm : w.mem a = some o)
    (r : Region) :
    POC_addRegion w (some a) r true =
      .ok { w with mem := Function.update w.mem a (some { o with list := r :: o.list }) } := by
  simp only [POC_addRegion, deref_some hm, ok_bind, pure_eq_ok, Bool.true_eq_false, if_false]

theorem POC_remRegion_eq {w : World} {a : Nat} {o : Octant} (hm : w.mem a = some o)
    (r : Region) :
    POC_remRegion w (some a) r =
      .ok { w with
            mem := Function.update w.mem a
              (some { o with list := POC_remRegion_loop r.Global_ID o.list }) } := by
  simp only [POC_remRegion, deref_some hm, ok_bind, pure_eq_ok]

theorem POC_clearRegions_eq {w : World} {a : Nat} {o : Octant} (hm : w.mem a = some o) :
    POC_clearRegions w (some a) =
      .ok { w with mem := Function.update w.mem a (some { o with list := [] }) } := by
  simp only [POC_clearRegions, deref_some hm, ok_bind, pure_eq_ok]

theorem POC_setchild_eq {w : World} {a : Nat} {o : Octant} (hm : w.mem a = some o)
    (i : Fin 8) (child : pOctant) :
    POC_setchild w (some a) i child =
      .ok { w with
            mem := Function.update w.mem a
              (some { o with child := Function.update o.child i child,
                             numChild := o.numChild + 1 }) } := by
  simp only [POC_setchild, deref_some hm, ok_bind, pure_eq_ok]

theorem deref_none {w : World} {a : Nat} (h : w.mem a = none) :
    deref w (some a) = .error .segfault := by
  simp [deref, h]

theorem POC_remRegion_loop_eq (gid : Int) (l : List Region) :
    POC_remRegion_loop gid l = l.eraseP (fun e => decide (e.Global_ID = gid)) := by
  induction l with
  | nil => rfl
  | cons r rest ih =>
    rw [POC_remRegion_loop, ih]
    by_cases h : r.Global_ID = gid
    · simp [LB_EQ_GID, h]
    · simp [LB_EQ_GID, h]

theorem mem_update_same (w : World) (a : Nat) (x : Option Octant) :
    ({ w with mem := Function.update w.mem a x } : World).mem a = x := by
  simp only [Function.update_same]

theorem mem_update_other (w : World) {a b : Nat} (x : Option Octant) (h : b ≠ a) :
    ({ w with mem := Function.update w.mem a x } : World).mem b = w.mem b := by
  simp only [Function.update_noteq h]

/-! ## The invariant of the arena -/

theorem rootlist_remove_eq {w : World} {a : Nat} {o : Octant} (hm : w.mem a = some o)
    (hinj : ∀ b ob, w.mem b = some ob → ob.id = o.id → b = a) :
    ∀ (l : List Nat), (∀ r ∈ l, ∃ ro, w.mem r = some ro) →
      rootlist_remove w o.id l = .ok (l.erase a) := by
  intro l
  induction l with
  | nil => intro _; rfl
  | cons r rest ih =>
    intro hl
    obtain ⟨ro, hr⟩ := hl r (List.mem_cons_self _ _)
    have ih' := ih (fun x hx => hl x (List.mem_cons_of_mem _ hx))
    by_cases hid : ro.id = o.id
    · have hra : r = a := hinj r ro hr hid
      simp only [rootlist_remove, deref_some hr, ok_bind, if_pos hid, pure_eq_ok]
      rw [hra, List.erase_cons_head]
    · have hra : r ≠ a := by
        intro h
        rw [h, hm] at hr
        cases hr
        exact hid rfl
      simp only [rootlist_remove, deref_some hr, ok_bind, if_neg hid, ih', pure_eq_ok]
      rw [List.erase_cons_tail (by simpa using hra)]

theorem Keeps.same (w : World) : Keeps w w := fun h => ⟨h, rfl, rfl⟩

theorem Keeps.chain {w1 w2 w3 : World} (h1 : Keeps w1 w2) (h2 : Keeps w2 w3) : Keeps w1 w3 := by
  intro h
  obtain ⟨ha, hb, hc⟩ := h1 h
  obtain ⟨ha', hb', hc'⟩ := h2 ha
  exact ⟨ha', hb'.trans hb, hc'.trans hc⟩

/-- A loop in the `Except` monad whose steps are related by a reflexive and transitive
relation relates its first state to its last. -/
theorem foldlM_rel {α σ : Type} (f : σ → α → Except Fault σ) (R : σ → σ → Prop)
    (hrefl : ∀ s, R s s) (htrans : ∀ a b c, R a b → R b c → R a c)
    (hstep : ∀ s x s', f s x = .ok s' → R s s') :
    ∀ (l : List α) (s s' : σ), l.foldlM f s = .ok s' → R s s' := by
  intro l
  induction l with
  | nil =>
    intro s s' h
    cases h
    exact hrefl s
  | cons x rest ih =>
    intro s s' h
    rw [List.foldlM_cons] at h
    cases hf : f s x with
    | error e =>
      rw [hf] at h
      cases h
    | ok s1 =>
      rw [hf, ok_bind] at h
      exact htrans _ _ _ (hstep s x s1 hf) (ih s1 s' h)

/-- Rewriting an octant in place without touching its id and its parent-owner keeps the
invariant. -/
theorem keeps_update {w : World} {a : Nat} {o : Octant} (hm : w.mem a = some o) (o' : Octant)
    (hid : o'.id = o.id) (hpp : o'.ppid = o.ppid) :
    Keeps w { w with mem := Function.update w.mem a (some o') } := by
  intro h
  refine ⟨⟨?_, ?_, ?_, h.nodup, h.counter⟩, rfl, rfl⟩
  · intro b ob hb
    by_cases hba : b = a
    · subst hba
      rw [mem_update_same] at hb
      cases hb
      rw [hid]
      exact h.id_lt b o hm
    · rw [mem_update_other _ _ hba] at hb
      exact h.id_lt b ob hb
  · intro b c ob oc hb hc hbc
    have key : ∀ x ox, ({ w with mem := Function.update w.mem a (some o') } : World).mem x =
        some ox → ∃ ox', w.mem x = some ox' ∧ ox'.id = ox.id := by
      intro x ox hx
      by_cases hxa : x = a
      · subst hxa
        rw [mem_update_same] at hx
        cases hx
        exact ⟨o, hm, hid.symm⟩
      · rw [mem_update_other _ _ hxa] at hx
        exact ⟨ox, hx, rfl⟩
    obtain ⟨ob', hb', hib⟩ := key b ob hb
    obtain ⟨oc', hc', hic⟩ := key c oc hc
    exact h.id_inj b c ob' oc' hb' hc' (by rw [hib, hic, hbc])
  · intro b
    show b ∈ w.OCT_rootlist ↔ _
    rw [h.listed b]
    by_cases hba : b = a
    · subst hba
      rw [mem_update_same]
      constructor
      · rintro ⟨ob, hb, hne⟩
        rw [hm] at hb
        cases hb
        exact ⟨o', rfl, by rw [hpp]; exact hne⟩
      · rintro ⟨ob, hb, hne⟩
        cases hb
        exact ⟨o, hm, by rw [← hpp]; exact hne⟩
    · rw [mem_update_other _ _ hba]

theorem ArenaInv.roots_live {w : World} (h : ArenaInv w) :
    ∀ r ∈ w.OCT_rootlist, ∃ ro, w.mem r = some ro := by
  intro r hr
  obtain ⟨ro, hro, _⟩ := (h.listed r).1 hr
  exact ⟨ro, hro⟩

theorem ArenaInv.remove_eq {w : World} (h : ArenaInv w) {a : Nat} {o : Octant}
    (hm : w.mem a = some o) :
    rootlist_remove w o.id w.OCT_rootlist = .ok (w.OCT_rootlist.erase a) :=
  rootlist_remove_eq hm (fun b ob hb hid => h.id_inj b a ob o hb hm hid) _ h.roots_live

theorem POC_free_inv_eq {w : World} (h : ArenaInv w) {a : Nat} {o : Octant}
    (hm : w.mem a = some o) :
    POC_free w (some a) =
      .ok { w with OCT_rootlist := w.OCT_rootlist.erase a, OCT_count := w.OCT_count - 1,
                   mem := Function.update w.mem a none } := by
  by_cases hp : o.ppid ≠ w.OCT_localpid
  · simp only [POC_free, deref_some hm, ok_bind, if_pos hp, h.remove_eq hm, pure_eq_ok]
  · have hnot : a ∉ w.OCT_rootlist := by
      intro ha
      obtain ⟨o', ho', hne⟩ := (h.listed a).1 ha
      rw [hm] at ho'
      cases ho'
      exact hp hne
    simp only [POC_free, deref_some hm, ok_bind, if_neg hp, pure_eq_ok,
      List.erase_of_not_mem hnot]

theorem POC_setparent_inv_eq {w : World} (h : ArenaInv w) {a : Nat} {o : Octant}
    (hm : w.mem a = some o) (parent : pOctant) (ppid : Int) :
    POC_setparent w (some a) parent ppid true =
      .ok { w with OCT_rootlist := rootsAfterSetparent w a o ppid,
                   mem := Function.update w.mem a
                     (some { o with ppid := ppid, parent := parent }) } := by
  unfold rootsAfterSetparent
  by_cases h1 : o.ppid = w.OCT_localpid
  · by_cases h2 : ppid ≠ w.OCT_localpid
    · simp only [POC_setparent, deref_some hm, ok_bind, if_pos h1, if_pos h2, if_true,
        pure_eq_ok]
    · simp only [POC_setparent, deref_some hm, ok_bind, if_pos h1, if_neg h2, pure_eq_ok]
  · by_cases h2 : ppid = w.OCT_localpid
    · simp only [POC_setparent, deref_some hm, ok_bind, if_neg h1, if_pos h2, h.remove_eq hm,
        pure_eq_ok]
    · simp only [POC_setparent, deref_some hm, ok_bind, if_neg h1, if_neg h2, pure_eq_ok]

/-- The invariant after an octant has left the arena and the root list. -/
theorem ArenaInv.free {w : World} (h : ArenaInv w) (a : Nat) :
    ArenaInv { w with OCT_rootlist := w.OCT_rootlist.erase a, OCT_count := w.OCT_count - 1,
                      mem := Function.update w.mem a none } := by
  have key : ∀ x ox, (Function.update w.mem a none) x = some ox → x ≠ a ∧ w.mem x = some ox := by
    intro x ox hx
    by_cases hxa : x = a
    · subst hxa
      rw [Function.update_same] at hx
      cases hx
    · rw [Function.update_noteq hxa] at hx
      exact ⟨hxa, hx⟩
  refine ⟨?_, ?_, ?_, h.nodup.erase a, h.counter⟩
  · intro b ob hb
    exact h.id_lt b ob (key b ob hb).2
  · intro b c ob oc hb hc hbc
    exact h.id_inj b c ob oc (key b ob hb).2 (key c oc hc).2 hbc
  · intro b
    show b ∈ w.OCT_rootlist.erase a ↔ ∃ ob, Function.update w.mem a none b = some ob ∧ _
    rw [h.nodup.mem_erase_iff, h.listed b]
    constructor
    · rintro ⟨hba, ob, hb, hne⟩
      exact ⟨ob, by rw [Function.update_noteq hba]; exact hb, hne⟩
    · rintro ⟨ob, hb, hne⟩
      obtain ⟨hba, hb'⟩ := key b ob hb
      exact ⟨hba, ob, hb', hne⟩

/-- The invariant after `POC_setparent`. -/
theorem ArenaInv.setparent {w : World} (h : ArenaInv w) {a : Nat} {o : Octant}
    (hm : w.mem a = some o) (parent : pOctant) (ppid : Int) :
    ArenaInv { w with OCT_rootlist := rootsAfterSetparent w a o ppid,
                      mem := Function.update w.mem a
                        (some { o with ppid := ppid, parent := parent }) } := by
  have key : ∀ x ox, (Function.update w.mem a
      (some { o with ppid := ppid, parent := parent })) x = some ox →
      ∃ ox', w.mem x = some ox' ∧ ox'.id = ox.id ∧ (x ≠ a → ox' = ox) := by
    intro x ox hx
    by_cases hxa : x = a
    · subst hxa
      rw [Function.update_same] at hx
      cases hx
      exact ⟨o, hm, rfl, fun hne => absurd rfl hne⟩
    · rw [Function.update_noteq hxa] at hx
      exact ⟨ox, hx, rfl, fun _ => rfl⟩
  have ha_in : a ∈ w.OCT_rootlist ↔ o.ppid ≠ w.OCT_localpid := by
    rw [h.listed a]
    constructor
    · rintro ⟨o', ho', hne⟩
      rw [hm] at ho'
      cases ho'
      exact hne
    · intro hne
      exact ⟨o, hm, hne⟩
  have hroots : (rootsAfterSetparent w a o ppid).Nodup ∧
      ∀ b, b ∈ rootsAfterSetparent w a o ppid ↔
        (b ≠ a ∧ b ∈ w.OCT_rootlist) ∨ (b = a ∧ ppid ≠ w.OCT_localpid) := by
    unfold rootsAfterSetparent
    by_cases h1 : o.ppid = w.OCT_localpid
    · have hna : a ∉ w.OCT_rootlist := fun hin => (ha_in.1 hin) h1
      by_cases h2 : ppid ≠ w.OCT_localpid
      · rw [if_pos h1, if_pos h2]
        refine ⟨?_, fun b => ?_⟩
        · rw [List.nodup_append]
          refine ⟨h.nodup, List.nodup_singleton a, ?_⟩
          intro x hx hx'
          rw [List.mem_singleton] at hx'
          subst hx'
          exact hna hx
        · rw [List.mem_append, List.mem_singleton]
          constructor
          · rintro (hb | hb)
            · exact Or.inl ⟨fun hba => hna (hba ▸ hb), hb⟩
            · exact Or.inr ⟨hb, h2⟩
          · rintro (⟨_, hb⟩ | ⟨hb, _⟩)
            · exact Or.inl hb
            · exact Or.inr hb
      · rw [if_pos h1, if_neg h2]
        refine ⟨h.nodup, fun b => ?_⟩
        constructor
        · intro hb
          exact Or.inl ⟨fun hba => hna (hba ▸ hb), hb⟩
        · rintro (⟨_, hb⟩ | ⟨_, hb⟩)
          · exact hb
          · exact absurd hb h2
    · have hain : a ∈ w.OCT_rootlist := ha_in.2 h1
      by_cases h2 : ppid = w.OCT_localpid
      · rw [if_neg h1, if_pos h2]
        refine ⟨h.nodup.erase a, fun b => ?_⟩
        rw [h.nodup.mem_erase_iff]
        constructor
        · intro hb
          exact Or.inl hb
        · rintro (hb | ⟨_, hb⟩)
          · exact hb
          · exact absurd h2 hb
      · rw [if_neg h1, if_neg h2]
        refine ⟨h.nodup, fun b => ?_⟩
        constructor
        · intro hb
          by_cases hba : b = a
          · exact Or.inr ⟨hba, h2⟩
          · exact Or.inl ⟨hba, hb⟩
        · rintro (⟨_, hb⟩ | ⟨hb, _⟩)
          · exact hb
          · exact hb ▸ hain
  refine ⟨?_, ?_, ?_, hroots.1, h.counter⟩
  · intro b ob hb
    obtain ⟨ob', hb', hid, _⟩ := key b ob hb
    rw [← hid]
    exact h.id_lt b ob' hb'
  · intro b c ob oc hb hc hbc
    obtain ⟨ob', hb', hib, _⟩ := key b ob hb
    obtain ⟨oc', hc', hic, _⟩ := key c oc hc
    exact h.id_inj b c ob' oc' hb' hc' (by rw [hib, hic, hbc])
  · intro b
    show b ∈ rootsAfterSetparent w a o ppid ↔
      ∃ ob, Function.update w.mem a (some { o with ppid := ppid, parent := parent }) b = some ob ∧
        ob.ppid ≠ w.OCT_localpid
    rw [hroots.2 b]
    by_cases hba : b = a
    · subst hba
      rw [Function.update_same]
      constructor
      · rintro (⟨hne, _⟩ | ⟨_, h2⟩)
        · exact absurd rfl hne
        · exact ⟨_, rfl, h2⟩
      · rintro ⟨ob, hob, hne⟩
        cases hob
        exact Or.inr ⟨rfl, hne⟩
    · rw [Function.update_noteq hba, h.listed b]
      constructor
      · rintro (⟨_, hb⟩ | ⟨hb, _⟩)
        · exact hb
        · exact absurd hb hba
      · intro hb
        exact Or.inl ⟨hba, hb⟩

/-! ## Every arena operation keeps the invariant -/

theorem deref_ok {w : World} {oct : pOctant} {o : Octant} (h : deref w oct = .ok o) :
    ∃ a, oct = some a ∧ w.mem a = some o := by
  cases oct with
  | none => cases h
  | some a =>
    cases hm : w.mem a with
    | none =>
      rw [deref_none hm] at h
      cases h
    | some o' =>
      rw [deref_some hm] at h
      cases h
      exact ⟨a, rfl, hm⟩

/-- An operation that reads its octant first returns only for an octant of the arena. -/
theorem live_of_ok {w : World} {oct : pOctant} {α : Type} {r : α}
    {f : Octant → Except Fault α} (h : (deref w oct >>= f) = .ok r) :
    ∃ a o, oct = some a ∧ w.mem a = some o := by
  cases hd : deref w oct with
  | error e =>
    rw [hd] at h
    cases h
  | ok o =>
    obtain ⟨a, ha, hm⟩ := deref_ok hd
    exact ⟨a, o, ha, hm⟩

theorem POC_setchild_live {w w' : World} {oct : pOctant} {i : Fin 8} {child : pOctant}
    (h : POC_setchild w oct i child = .ok w') : ∃ a o, oct = some a ∧ w.mem a = some o := by
  cases oct with
  | none => cases h
  | some a => exact live_of_ok h

theorem POC_setchild_keeps {w w' : World} {oct : pOctant} {i : Fin 8} {child : pOctant}
    (h : POC_setchild w oct i child = .ok w') : Keeps w w' := by
  obtain ⟨a, o, rfl, hm⟩ := POC_setchild_live h
  rw [POC_setchild_eq hm] at h
  cases h
  exact keeps_update hm _ rfl rfl

theorem POC_setchildren_keeps {w w' : World} {oct : pOctant} {children : Fin 8 → pOctant}
    {cpids : Fin 8 → Int} (h : POC_setchildren w oct children cpids = .ok w') : Keeps w w' :=
  foldlM_rel _ Keeps Keeps.same (fun _ _ _ => Keeps.chain)
    (fun _ _ _ hs => POC_setchild_keeps hs) slots w w' h

theorem POC_addRegion_live {w w' : World} {oct : pOctant} {r : Region} {entry : Bool}
    (h : POC_addRegion w oct r entry = .ok w') :
    ∃ a o, oct = some a ∧ w.mem a = some o ∧ entry = true := by
  cases oct with
  | none => cases h
  | some a =>
    cases entry with
    | false => cases h
    | true =>
      have h' : (deref w (some a) >>= fun o => Except.ok
          ({ w with mem := Function.update w.mem a (some { o with list := r :: o.list }) } :
            World)) = .ok w' := h
      obtain ⟨b, o, hb, hm⟩ := live_of_ok h'
      cases hb
      exact ⟨a, o, rfl, hm, rfl⟩

theorem POC_addRegion_keeps {w w' : World} {oct : pOctant} {r : Region} {entry : Bool}
    (h : POC_addRegion w oct r entry = .ok w') : Keeps w w' := by
  obtain ⟨a, o, rfl, hm, rfl⟩ := POC_addRegion_live h
  rw [POC_addRegion_eq hm] at h
  cases h
  exact keeps_update hm _ rfl rfl

theorem POC_remRegion_live {w w' : World} {oct : pOctant} {r : Region}
    (h : POC_remRegion w oct r = .ok w') : ∃ a o, oct = some a ∧ w.mem a = some o := by
  cases oct with
  | none => cases h
  | some a => exact live_of_ok h

theorem POC_remRegion_keeps {w w' : World} {oct : pOctant} {r : Region}
    (h : POC_remRegion w oct r = .ok w') : Keeps w w' := by
  obtain ⟨a, o, rfl, hm⟩ := POC_remRegion_live h
  rw [POC_remRegion_eq hm] at h
  cases h
  exact keeps_update hm _ rfl rfl

theorem POC_clearRegions_live {w w' : World} {oct : pOctant}
    (h : POC_clearRegions w oct = .ok w') : ∃ a o, oct = some a ∧ w.mem a = some o := by
  cases oct with
  | none => cases h
  | some a => exact live_of_ok h

theorem POC_clearRegions_keeps {w w' : World} {oct : pOctant}
    (h : POC_clearRegions w oct = .ok w') : Keeps w w' := by
  obtain ⟨a, o, rfl, hm⟩ := POC_clearRegions_live h
  rw [POC_clearRegions_eq hm] at h
  cases h
  exact keeps_update hm _ rfl rfl

theorem POC_free_live {w w' : World} {oct : pOctant}
    (h : POC_free w oct = .ok w') : ∃ a o, oct = some a ∧ w.mem a = some o := by
  cases oct with
  | none => cases h
  | some a => exact live_of_ok h

theorem POC_free_keeps {w w' : World} {oct : pOctant}
    (h : POC_free w oct = .ok w') : Keeps w w' := by
  intro hinv
  obtain ⟨a, o, rfl, hm⟩ := POC_free_live h
  rw [POC_free_inv_eq hinv hm] at h
  cases h
  exact ⟨hinv.free a, rfl, rfl⟩

theorem POC_setparent_live {w w' : World} {oct parent : pOctant} {ppid : Int} {entry : Bool}
    (h : POC_setparent w oct parent ppid entry = .ok w') :
    ∃ a o, oct = some a ∧ w.mem a = some o := by
  cases oct with
  | none => cases h
  | some a => exact live_of_ok h

theorem POC_setparent_keeps {w w' : World} {oct parent : pOctant} {ppid : Int} {entry : Bool}
    (h : POC_setparent w oct parent ppid entry = .ok w') : Keeps w w' := by
  intro hinv
  obtain ⟨a, o, rfl, hm⟩ := POC_setparent_live h
  cases entry with
  | true =>
    rw [POC_setparent_inv_eq hinv hm] at h
    cases h
    exact ⟨hinv.setparent hm parent ppid, rfl, rfl⟩
  | false =>
    by_cases h1 : o.ppid = w.OCT_localpid ∧ ppid ≠ w.OCT_localpid
    · simp [POC_setparent, deref_some hm, h1.1, h1.2] at h
    · have heq : POC_setparent w (some a) parent ppid false =
          POC_setparent w (some a) parent ppid true := by
        simp only [POC_setparent, deref_some hm, ok_bind]
        by_cases h2 : o.ppid = w.OCT_localpid
        · have h3 : ¬ ppid ≠ w.OCT_localpid := fun h3 => h1 ⟨h2, h3⟩
          simp only [if_pos h2, if_neg h3]
        · simp only [if_neg h2]
      rw [heq, POC_setparent_inv_eq hinv hm] at h
      cases h
      exact ⟨hinv.setparent hm parent ppid, rfl, rfl⟩

/-! ## The invariant holds in every reached state -/

theorem bind_ok_inv {α β : Type} {x : Except Fault α} {f : α → Except Fault β} {r : β}
    (h : (x >>= f) = .ok r) : ∃ a, x = .ok a ∧ f a = .ok r := by
  cases x with
  | error e => cases h
  | ok a => exact ⟨a, rfl, h⟩

theorem POC_delTree_null (fuel : Nat) (w : World) : POC_delTree fuel w none = .ok (w, 1) := by
  cases fuel <;> rfl

theorem POC_delTree_succ (fuel : Nat) (w : World) (a : Nat) :
    POC_delTree (fuel + 1) w (some a) =
      (POC_isTerminal w (some a) >>= fun t =>
        if t = true then
          (POC_nRegions w (some a) >>= fun n =>
            (if n ≠ 0 then POC_clearRegions w (some a) else pure w) >>= fun w =>
              POC_free w (some a) >>= fun w => pure (w, 1))
        else
          (slots.foldlM (fun w i =>
              POC_child w (some a) i >>= fun child =>
                if child.isSome = true then POC_delTree fuel w child >>= fun r => pure r.1
                else pure w) w >>= fun w =>
            POC_free w (some a) >>= fun w => pure (w, 1))) := by
  rw [POC_delTree]

theorem POC_delTree_keeps : ∀ (fuel : Nat) (w : World) (root : pOctant) (r : World × Int),
    POC_delTree fuel w root = .ok r → Keeps w r.1 := by
  intro fuel
  induction fuel with
  | zero =>
    intro w root r h
    cases root with
    | none =>
      rw [POC_delTree_null] at h
      cases h
      exact Keeps.same w
    | some a => cases h
  | succ fuel ih =>
    intro w root r h
    cases root with
    | none =>
      rw [POC_delTree_null] at h
      cases h
      exact Keeps.same w
    | some a =>
      rw [POC_delTree_succ] at h
      obtain ⟨t, _, h⟩ := bind_ok_inv h
      by_cases ht : t = true
      · rw [if_pos ht] at h
        obtain ⟨n, _, h⟩ := bind_ok_inv h
        obtain ⟨w1, h1, h⟩ := bind_ok_inv h
        obtain ⟨w2, h2, h⟩ := bind_ok_inv h
        cases h
        have k1 : Keeps w w1 := by
          by_cases hn : n ≠ 0
          · rw [if_pos hn] at h1
            exact POC_clearRegions_keeps h1
          · rw [if_neg hn] at h1
            cases h1
            exact Keeps.same w
        exact k1.chain (POC_free_keeps h2)
      · rw [if_neg ht] at h
        obtain ⟨w1, h1, h⟩ := bind_ok_inv h
        obtain ⟨w2, h2, h⟩ := bind_ok_inv h
        cases h
        have k1 : Keeps w w1 := by
          refine foldlM_rel _ Keeps Keeps.same (fun _ _ _ => Keeps.chain) ?_ slots w w1 h1
          intro s i s' hs
          obtain ⟨child, _, hs⟩ := bind_ok_inv hs
          by_cases hc : child.isSome = true
          · rw [if_pos hc] at hs
            obtain ⟨r', hr', hs⟩ := bind_ok_inv hs
            cases hs
            exact ih s child r' hr'
          · rw [if_neg hc] at hs
            cases hs
            exact Keeps.same s
        exact k1.chain (POC_free_keeps h2)

/-- The invariant after `POC_new` has put a new octant into a block that held none. -/
theorem ArenaInv.create {w : World} (h : ArenaInv w) {a : Nat} (hfresh : w.mem a = none)
    (o : Octant) (hid : o.id = w.OCT_idcount) (hpp : o.ppid = w.OCT_localpid) :
    ArenaInv { w with mem := Function.update w.mem a (some o),
                      OCT_count := w.OCT_count + 1,
                      OCT_idcount := w.OCT_idcount + 1 } := by
  have hcount : 0 ≤ w.OCT_idcount := h.counter
  have key : ∀ x ox, (Function.update w.mem a (some o)) x = some ox →
      (x = a ∧ ox = o) ∨ (x ≠ a ∧ w.mem x = some ox) := by
    intro x ox hx
    by_cases hxa : x = a
    · subst hxa
      rw [Function.update_same] at hx
      cases hx
      exact Or.inl ⟨rfl, rfl⟩
    · rw [Function.update_noteq hxa] at hx
      exact Or.inr ⟨hxa, hx⟩
  refine ⟨?_, ?_, ?_, h.nodup, ?_⟩
  · intro b ob hb
    show 0 ≤ ob.id ∧ ob.id < w.OCT_idcount + 1
    rcases key b ob hb with ⟨_, rfl⟩ | ⟨_, hb'⟩
    · rw [hid]
      omega
    · have := h.id_lt b ob hb'
      omega
  · intro b c ob oc hb hc hbc
    rcases key b ob hb with ⟨hba, rfl⟩ | ⟨hba, hb'⟩
    · rcases key c oc hc with ⟨hca, rfl⟩ | ⟨hca, hc'⟩
      · rw [hba, hca]
      · have := h.id_lt c oc hc'
        rw [← hbc, hid] at this
        omega
    · rcases key c oc hc with ⟨hca, rfl⟩ | ⟨hca, hc'⟩
      · have := h.id_lt b ob hb'
        rw [hbc, hid] at this
        omega
      · exact h.id_inj b c ob oc hb' hc' hbc
  · intro b
    show b ∈ w.OCT_rootlist ↔
      ∃ ob, Function.update w.mem a (some o) b = some ob ∧ ob.ppid ≠ w.OCT_localpid
    rw [h.listed b]
    constructor
    · rintro ⟨ob, hb, hne⟩
      have hba : b ≠ a := by
        intro hba
        rw [hba, hfresh] at hb
        cases hb
      exact ⟨ob, by rw [Function.update_noteq hba]; exact hb, hne⟩
    · rintro ⟨ob, hb, hne⟩
      rcases key b ob hb with ⟨_, rfl⟩ | ⟨_, hb'⟩
      · exact absurd hpp hne
      · exact ⟨ob, hb', hne⟩
  · show 0 ≤ w.OCT_idcount + 1
    omega

theorem POC_init_inv (w0 : World) (pid dim : Int) (hempty : ∀ a, w0.mem a = none) :
    ArenaInv (POC_init w0 pid dim) ∧ (POC_init w0 pid dim).OCT_idcount = 0 ∧
      (POC_init w0 pid dim).OCT_localpid = pid ∧ (POC_init w0 pid dim).mem = w0.mem ∧
      (POC_init w0 pid dim).OCT_rootlist = [] := by
  have hfields : (POC_init w0 pid dim).OCT_idcount = 0 ∧
      (POC_init w0 pid dim).OCT_localpid = pid ∧ (POC_init w0 pid dim).mem = w0.mem ∧
      (POC_init w0 pid dim).OCT_rootlist = [] := by
    unfold POC_init
    by_cases h : dim > 3 ∨ dim < 2
    · rw [if_pos h]
      exact ⟨rfl, rfl, rfl, rfl⟩
    · rw [if_neg h]
      exact ⟨rfl, rfl, rfl, rfl⟩
  obtain ⟨h1, h2, h3, h4⟩ := hfields
  refine ⟨⟨?_, ?_, ?_, ?_, ?_⟩, h1, h2, h3, h4⟩
  · intro a o ha
    rw [h3, hempty a] at ha
    cases ha
  · intro a b oa ob ha
    rw [h3, hempty a] at ha
    cases ha
  · intro a
    rw [h4, h3, hempty a]
    simp
  · rw [h4]
    exact List.nodup_nil
  · rw [h1]

theorem creations_snoc (ops : List ArenaOp) (op : ArenaOp) :
    creations (ops ++ [op]) = creations ops + (if op.kind = OpKind.new then 1 else 0) := by
  unfold creations
  rw [List.filter_append, List.length_append]
  by_cases h : op.kind = OpKind.new
  · simp [h]
  · simp [h]

/-- One call keeps the invariant and advances the id counter by one exactly when it is a
call of `POC_new`. -/
theorem ArenaOp.run_inv {w w' : World} (op : ArenaOp) (hinv : ArenaInv w)
    (hadm : op.admissible w) (hrun : op.run w = .ok w') :
    ArenaInv w' ∧
      w'.OCT_idcount = w.OCT_idcount + (if op.kind = OpKind.new then 1 else 0) ∧
      w'.OCT_localpid = w.OCT_localpid := by
  have hkeep : ∀ {w' : World}, Keeps w w' → op.kind ≠ OpKind.new →
      ArenaInv w' ∧
        w'.OCT_idcount = w.OCT_idcount + (if op.kind = OpKind.new then 1 else 0) ∧
        w'.OCT_localpid = w.OCT_localpid := by
    intro w' hk hne
    obtain ⟨h1, h2, h3⟩ := hk hinv
    rw [if_neg hne, add_zero]
    exact ⟨h1, h2, h3⟩
  cases op with
  | new ptr raw =>
    have hfresh : w.mem ptr = none := hadm
    have hrun' : (POC_new w (some ptr) raw >>= fun r => pure r.1) = .ok w' := hrun
    rw [POC_new_eq, ok_bind] at hrun'
    cases hrun'
    exact ⟨hinv.create hfresh _ rfl rfl, by simp [ArenaOp.kind], rfl⟩
  | setparent oct parent ppid entry =>
    exact hkeep (POC_setparent_keeps hrun) (by simp [ArenaOp.kind])
  | setchild oct i child =>
    exact hkeep (POC_setchild_keeps hrun) (by simp [ArenaOp.kind])
  | setchildren oct children cpids =>
    exact hkeep (@POC_setchildren_keeps w w' oct children cpids hrun) (by simp [ArenaOp.kind])
  | free oct =>
    exact hkeep (POC_free_keeps hrun) (by simp [ArenaOp.kind])
  | delTree fuel root =>
    have hrun' : (POC_delTree fuel w root >>= fun r => pure r.1) = .ok w' := hrun
    obtain ⟨r, hr, h2⟩ := bind_ok_inv hrun'
    cases h2
    exact hkeep (POC_delTree_keeps fuel w root r hr) (by simp [ArenaOp.kind])
  | addRegion oct region entry =>
    exact hkeep (POC_addRegion_keeps hrun) (by simp [ArenaOp.kind])
  | remRegion oct region =>
    exact hkeep (POC_remRegion_keeps hrun) (by simp [ArenaOp.kind])
  | clearRegions oct =>
    exact hkeep (POC_clearRegions_keeps hrun) (by simp [ArenaOp.kind])

theorem Runs.keeps_inv {K : List OpKind} {G : World → ArenaOp → Prop} {w w' : World}
    {ops : List ArenaOp} (h : Runs K G w ops w') (hinv : ArenaInv w) :
    ArenaInv w' ∧ w'.OCT_idcount = w.OCT_idcount + (creations ops : Int) ∧
      w'.OCT_localpid = w.OCT_localpid := by
  induction h with
  | nil => exact ⟨hinv, by simp [creations], rfl⟩
  | @snoc w1 w2 ops op hruns hk hadm hg hrun ih =>
    obtain ⟨h1, h2, h3⟩ := ih
    obtain ⟨h1', h2', h3'⟩ := op.run_inv h1 hadm hrun
    refine ⟨h1', ?_, h3'.trans h3⟩
    rw [h2', h2, creations_snoc]
    by_cases hn : op.kind = OpKind.new
    · simp [hn]
      ring
    · simp [hn]

theorem Runs.widen {K K' : List OpKind} {G G' : World → ArenaOp → Prop} {w w' : World}
    {ops : List ArenaOp} (hK : ∀ k ∈ K, k ∈ K') (hG : ∀ s op, G s op → G' s op)
    (h : Runs K G w ops w') : Runs K' G' w ops w' := by
  induction h with
  | nil => exact Runs.nil _
  | @snoc w1 w2 ops op _ hk hadm hg hrun ih =>
    exact Runs.snoc op ih (hK _ hk) hadm (hG _ _ hg) hrun

/-- In every reached state the invariant of the arena holds, and the id counter is the number
of octants created so far. -/
theorem Reached.arena_inv {K : List OpKind} {G : World → ArenaOp → Prop} {ops : List ArenaOp}
    {w : World} (h : Reached K G ops w) :
    ArenaInv w ∧ w.OCT_idcount = (creations ops : Int) := by
  obtain ⟨w0, pid, dim, hempty, hruns⟩ := h
  obtain ⟨hinv, hid, _, _, _⟩ := POC_init_inv w0 pid dim hempty
  obtain ⟨h1, h2, _⟩ := hruns.keeps_inv hinv
  refine ⟨h1, ?_⟩
  rw [h2, hid, zero_add]

theorem Runs.cons {K : List OpKind} {G : World → ArenaOp → Prop} {w w1 w2 : World}
    {ops : List ArenaOp} (op : ArenaOp) (hk : op.kind ∈ K) (hadm : op.admissible w)
    (hg : G w op) (hrun : op.run w = .ok w1) (h : Runs K G w1 ops w2) :
    Runs K G w (op :: ops) w2 := by
  induction h with
  | nil => exact Runs.snoc op (Runs.nil w) hk hadm hg hrun
  | @snoc w3 w4 ops' op' _ hk' hadm' hg' hrun' ih =>
    exact Runs.snoc op' ih hk' hadm' hg' hrun'

theorem reached_arenaInit (K : List OpKind) (G : World → ArenaOp → Prop) {ops : List ArenaOp}
    {w : World} (h : Runs K G arenaInit ops w) : Reached K G ops w :=
  ⟨emptyWorld, 0, 3, fun _ => rfl, h⟩

/-! ## The payload rule under disciplined calls -/

theorem POC_setparent_mem {w w' : World} {a : Nat} {o : Octant} {parent : pOctant} {ppid : Int}
    {entry : Bool} (hm : w.mem a = some o)
    (h : POC_setparent w (some a) parent ppid entry = .ok w') :
    w'.mem = Function.update w.mem a (some { o with ppid := ppid, parent := parent }) ∧
      w'.OCT_count = w.OCT_count ∧ w'.OCT_idcount = w.OCT_idcount ∧
      w'.OCT_localpid = w.OCT_localpid := by
  simp only [POC_setparent, deref_some hm, ok_bind] at h
  obtain ⟨rl, _, h⟩ := bind_ok_inv h
  cases h
  exact ⟨rfl, rfl, rfl, rfl⟩

/-- The payload rule carries over to a state that differs in one octant, when that octant
obeys the rule. -/
theorem Exclusive.of_mem {w w' : World} (hex : Exclusive w) (a : Nat)
    (hother : ∀ b, b ≠ a → w'.mem b = w.mem b)
    (ha : ∀ o', w'.mem a = some o' → o'.list = [] ∨ ∀ i, o'.child i = none) :
    Exclusive w' := by
  intro b ob hb
  by_cases hba : b = a
  · subst hba
    exact ha ob hb
  · rw [hother b hba] at hb
    exact hex b ob hb

theorem Exclusive.setchild {w w' : World} {oct : pOctant} {i : Fin 8} {child : pOctant}
    (hex : Exclusive w) (hd : child = none ∨ ∃ o, deref w oct = .ok o ∧ o.list = [])
    (h : POC_setchild w oct i child = .ok w') :
    Exclusive w' ∧ ∀ o, deref w oct = .ok o → ∃ o', deref w' oct = .ok o' ∧ o'.list = o.list := by
  obtain ⟨a, o, rfl, hm⟩ := POC_setchild_live h
  rw [POC_setchild_eq hm] at h
  cases h
  constructor
  · refine hex.of_mem a (fun b hb => mem_update_other _ _ hb) ?_
    intro o' ho'
    rw [mem_update_same] at ho'
    cases ho'
    rcases hd with hd | ⟨o2, ho2, hl⟩
    · rcases hex a o hm with hl | hc
      · exact Or.inl hl
      · refine Or.inr (fun j => ?_)
        show Function.update o.child i child j = none
        by_cases hji : j = i
        · rw [hji, Function.update_same, hd]
        · rw [Function.update_noteq hji]
          exact hc j
    · rw [deref_some hm] at ho2
      cases ho2
      exact Or.inl hl
  · intro o2 ho2
    rw [deref_some hm] at ho2
    cases ho2
    exact ⟨_, deref_some (mem_update_same _ _ _), rfl⟩

theorem Exclusive.setchildren {oct : pOctant} {children : Fin 8 → pOctant} :
    ∀ (l : List (Fin 8)) (w w' : World), Exclusive w →
      ((∀ i, children i = none) ∨ ∃ o, deref w oct = .ok o ∧ o.list = []) →
      l.foldlM (fun w i => POC_setchild w oct i (children i)) w = .ok w' → Exclusive w' := by
  intro l
  induction l with
  | nil =>
    intro w w' hex _ h
    cases h
    exact hex
  | cons i rest ih =>
    intro w w' hex hd h
    rw [List.foldlM_cons] at h
    obtain ⟨w1, h1, h⟩ := bind_ok_inv h
    have hd1 : children i = none ∨ ∃ o, deref w oct = .ok o ∧ o.list = [] := by
      rcases hd with hd | hd
      · exact Or.inl (hd i)
      · exact Or.inr hd
    obtain ⟨hex1, hlist⟩ := hex.setchild hd1 h1
    refine ih w1 w' hex1 ?_ h
    rcases hd with hd | ⟨o, ho, hl⟩
    · exact Or.inl hd
    · obtain ⟨o', ho', hl'⟩ := hlist o ho
      exact Or.inr ⟨o', ho', hl'.trans hl⟩

/-- One disciplined call of an operation other than `POC_free` and `POC_delTree` keeps the
payload rule. -/
theorem Exclusive.call {w w' : World} (op : ArenaOp) (hex : Exclusive w)
    (hk : op.kind ≠ OpKind.free ∧ op.kind ≠ OpKind.delTree) (hadm : op.admissible w)
    (hd : Disciplined w op) (hrun : op.run w = .ok w') : Exclusive w' := by
  cases op with
  | new ptr raw =>
    have hrun' : (POC_new w (some ptr) raw >>= fun r => pure r.1) = .ok w' := hrun
    rw [POC_new_eq, ok_bind] at hrun'
    cases hrun'
    refine hex.of_mem ptr (fun b hb => mem_update_other _ _ hb) ?_
    intro o' ho'
    rw [mem_update_same] at ho'
    cases ho'
    exact Or.inl rfl
  | setparent oct parent ppid entry =>
    obtain ⟨a, o, rfl, hm⟩ := POC_setparent_live hrun
    obtain ⟨hmem, _⟩ := POC_setparent_mem hm hrun
    refine hex.of_mem a (fun b hb => by rw [hmem, Function.update_noteq hb]) ?_
    intro o' ho'
    rw [hmem, Function.update_same] at ho'
    cases ho'
    exact hex a o hm
  | setchild oct i child => exact (hex.setchild hd hrun).1
  | setchildren oct children cpids => exact Exclusive.setchildren slots w w' hex hd hrun
  | free oct => exact absurd rfl hk.1
  | delTree fuel root => exact absurd rfl hk.2
  | addRegion oct region entry =>
    obtain ⟨a, o, rfl, hm, rfl⟩ := POC_addRegion_live hrun
    have hrun' : POC_addRegion w (some a) region true = .ok w' := hrun
    rw [POC_addRegion_eq hm] at hrun'
    cases hrun'
    have ht : POC_isTerminal w (some a) = .ok true := hd
    rw [POC_isTerminal_some hm] at ht
    have hc : ∀ i, o.child i = none := of_decide_eq_true (Except.ok.inj ht)
    refine hex.of_mem a (fun b hb => mem_update_other _ _ hb) ?_
    intro o' ho'
    rw [mem_update_same] at ho'
    cases ho'
    exact Or.inr hc
  | remRegion oct region =>
    obtain ⟨a, o, rfl, hm⟩ := POC_remRegion_live hrun
    have hrun' : POC_remRegion w (some a) region = .ok w' := hrun
    rw [POC_remRegion_eq hm] at hrun'
    cases hrun'
    refine hex.of_mem a (fun b hb => mem_update_other _ _ hb) ?_
    intro o' ho'
    rw [mem_update_same] at ho'
    cases ho'
    rcases hex a o hm with hl | hc
    · refine Or.inl ?_
      show POC_remRegion_loop region.Global_ID o.list = []
      rw [hl]
      rfl
    · exact Or.inr hc
  | clearRegions oct =>
    obtain ⟨a, o, rfl, hm⟩ := POC_clearRegions_live hrun
    have hrun' : POC_clearRegions w (some a) = .ok w' := hrun
    rw [POC_clearRegions_eq hm] at hrun'
    cases hrun'
    refine hex.of_mem a (fun b hb => mem_update_other _ _ hb) ?_
    intro o' ho'
    rw [mem_update_same] at ho'
    cases ho'
    exact Or.inl rfl

theorem Runs.exclusive {K : List OpKind} {w w' : World} {ops : List ArenaOp}
    (hK : OpKind.free ∉ K ∧ OpKind.delTree ∉ K) (h : Runs K Disciplined w ops w')
    (hex : Exclusive w) : Exclusive w' := by
  induction h with
  | nil => exact hex
  | @snoc w1 w2 ops op _ hk hadm hg hrun ih =>
    refine Exclusive.call op ih ⟨?_, ?_⟩ hadm hg hrun
    · intro hf
      exact hK.1 (hf ▸ hk)
    · intro hf
      exact hK.2 (hf ▸ hk)

/-! ## The record does not change the deletion -/

theorem map_bind_except {α β γ : Type} (g : β → γ) (x : Except Fault α)
    (f : α → Except Fault β) :
    Except.map g (x >>= f) = x >>= fun a => Except.map g (f a) := by
  cases x <;> rfl

theorem bind_map_except {α β γ : Type} (g : α → β) (x : Except Fault α)
    (f : β → Except Fault γ) :
    (Except.map g x >>= f) = x >>= fun a => f (g a) := by
  cases x <;> rfl

theorem map_ok_except {α β : Type} (g : α → β) (a : α) :
    Except.map g (Except.ok a : Except Fault α) = Except.ok (g a) := rfl

theorem foldlM_erase_log {α σ L : Type}
    (fL : σ × L → α → Except Fault (σ × L)) (f : σ → α → Except Fault σ)
    (h : ∀ s x, (fL s x).map Prod.fst = f s.1 x) :
    ∀ (l : List α) (s : σ × L), (l.foldlM fL s).map Prod.fst = l.foldlM f s.1 := by
  intro l
  induction l with
  | nil => intro s; rfl
  | cons x rest ih =>
    intro s
    rw [List.foldlM_cons, List.foldlM_cons, map_bind_except, ← h s x, bind_map_except]
    congr 1
    funext s1
    exact ih s1

theorem POC_free_log_erase (s : World × List DelEvent) (oct : pOctant) :
    (POC_free_log s oct).map Prod.fst = POC_free s.1 oct := by
  unfold POC_free_log
  cases oct with
  | none => rfl
  | some a =>
    cases hm : s.1.mem a with
    | none =>
      simp only [deref_none hm, POC_free, error_bind]
      rfl
    | some o =>
      rw [deref_some hm, ok_bind]
      cases POC_free s.1 (some a) <;> rfl

theorem POC_delTree_log_erase : ∀ (fuel : Nat) (s : World × List DelEvent) (root : pOctant),
    (POC_delTree_log fuel s root).map (fun r => (r.1.1, r.2)) = POC_delTree fuel s.1 root := by
  intro fuel
  induction fuel with
  | zero =>
    intro s root
    cases root <;> rfl
  | succ fuel ih =>
    intro s root
    cases root with
    | none => rfl
    | some a =>
      rw [POC_delTree_succ, POC_delTree_log, map_bind_except]
      congr 1
      funext t
      cases t with
      | true =>
        simp only [if_true]
        rw [map_bind_except]
        congr 1
        funext n
        rw [map_bind_except]
        have h1 : (if n ≠ 0 then POC_clearRegions s.1 (some a) else pure s.1) =
            Except.map Prod.fst (if n ≠ 0 then
              (POC_clearRegions s.1 (some a) >>= fun w =>
                pure (w, s.2 ++ [DelEvent.cleared (some a)]))
              else pure s) := by
          by_cases h0 : n ≠ 0
          · rw [if_pos h0, if_pos h0]
            cases POC_clearRegions s.1 (some a) <;> rfl
          · rw [if_neg h0, if_neg h0]
            rfl
        rw [h1, bind_map_except]
        congr 1
        funext s1
        rw [map_bind_except, ← POC_free_log_erase s1 (some a), bind_map_except]
        rfl
      | false =>
        simp only [Bool.false_eq_true, if_false]
        rw [map_bind_except]
        have hfold := foldlM_erase_log
          (fun (s : World × List DelEvent) (i : Fin 8) =>
            POC_child s.1 (some a) i >>= fun child =>
              if child.isSome = true then POC_delTree_log fuel s child >>= fun r => pure r.1
              else pure s)
          (fun (w : World) (i : Fin 8) =>
            POC_child w (some a) i >>= fun child =>
              if child.isSome = true then POC_delTree fuel w child >>= fun r => pure r.1
              else pure w)
          (by
            intro s1 i
            show Except.map Prod.fst (POC_child s1.1 (some a) i >>= _) = _
            rw [map_bind_except]
            congr 1
            funext child
            by_cases hs : child.isSome = true
            · rw [if_pos hs, if_pos hs, map_bind_except, ← ih s1 child, bind_map_except]
              rfl
            · rw [if_neg hs, if_neg hs]
              rfl)
          slots s
        rw [← hfold, bind_map_except]
        congr 1
        funext s1
        rw [map_bind_except, ← POC_free_log_erase s1 (some a), bind_map_except]
        rfl

/-! ## The post-order listing and the state after a deletion -/

theorem World.eq_of_fields {w1 w2 : World} (h1 : w1.mem = w2.mem)
    (h2 : w1.OCT_rootlist = w2.OCT_rootlist) (h3 : w1.OCT_localpid = w2.OCT_localpid)
    (h4 : w1.OCT_dimension = w2.OCT_dimension) (h5 : w1.OCT_count = w2.OCT_count)
    (h6 : w1.OCT_idcount = w2.OCT_idcount) (h7 : w1.CLOSE = w2.CLOSE)
    (h8 : w1.DFS_Part_Count = w2.DFS_Part_Count) (h9 : w1.partition = w2.partition)
    (h10 : w1.total = w2.total) (h11 : w1.pcost = w2.pcost) (h12 : w1.optcost = w2.optcost)
    (h13 : w1.pmass = w2.pmass) (h14 : w1.pcoord = w2.pcoord) : w1 = w2 := by
  cases w1
  cases w2
  simp only at h1 h2 h3 h4 h5 h6 h7 h8 h9 h10 h11 h12 h13 h14
  subst_vars
  rfl

theorem freeAll_nil (w : World) : freeAll w [] = w := by
  apply World.eq_of_fields <;> simp [freeAll]

theorem freeAll_append (w : World) (L1 L2 : List Nat) :
    freeAll (freeAll w L1) L2 = freeAll w (L1 ++ L2) := by
  apply World.eq_of_fields
  · funext b
    simp only [freeAll, List.mem_append]
    by_cases h2 : b ∈ L2
    · simp [h2]
    · by_cases h1 : b ∈ L1
      · simp [h1, h2]
      · simp [h1, h2]
  · simp only [freeAll, List.filter_filter, List.mem_append]
    congr 1
    funext r
    by_cases h2 : r ∈ L2
    · simp [h2]
    · by_cases h1 : r ∈ L1
      · simp [h1, h2]
      · simp [h1, h2]
  · rfl
  · rfl
  · simp only [freeAll, List.length_append, Nat.cast_add]
    ring
  all_goals rfl

/-- What `POC_free` leaves, when the root list has no duplicates, is the state with the one
octant removed. -/
theorem free_eq_freeAll (s : World) (a : Nat) (hnd : s.OCT_rootlist.Nodup) :
    ({ s with OCT_rootlist := s.OCT_rootlist.erase a, OCT_count := s.OCT_count - 1,
              mem := Function.update s.mem a none } : World) = freeAll s [a] := by
  apply World.eq_of_fields
  · funext b
    simp only [freeAll, List.mem_singleton]
    by_cases hb : b = a
    · rw [hb, Function.update_same, if_pos rfl]
    · rw [Function.update_noteq hb, if_neg hb]
  · simp only [freeAll, List.mem_singleton]
    rw [hnd.erase_eq_filter]
    congr 1
    funext r
    by_cases hr : r = a
    · simp [hr]
    · simp [hr]
  · rfl
  · rfl
  · simp [freeAll]
  all_goals rfl

theorem ArenaInv.freeAll {w : World} (h : ArenaInv w) : ∀ (L : List Nat),
    ArenaInv (freeAll w L) := by
  intro L
  induction L using List.reverseRecOn with
  | nil =>
    rw [freeAll_nil]
    exact h
  | append_singleton L x ih =>
    rw [← freeAll_append, ← free_eq_freeAll _ _ ih.nodup]
    exact ih.free x

theorem freeAll_mem_of_not_mem (w : World) {L : List Nat} {b : Nat} (h : b ∉ L) :
    (freeAll w L).mem b = w.mem b := by
  simp [freeAll, h]

theorem postList_succ {w : World} {a : Nat} {o : Octant} (hm : w.mem a = some o) (n : Nat) :
    postList w (n + 1) a = (childList o).flatMap (postList w n) ++ [a] := by
  rw [postList, hm]

theorem postList_perm {w : World} : ∀ (n a : Nat), (postList w n a).Perm (dfsList w n a) := by
  intro n
  induction n with
  | zero => intro a; exact List.Perm.refl _
  | succ n ih =>
    intro a
    cases hm : w.mem a with
    | none =>
      rw [postList, dfsList, hm]
    | some o =>
      rw [postList_succ hm, dfsList_succ hm]
      refine (List.perm_append_singleton _ _).trans (List.Perm.cons _ ?_)
      exact List.Perm.flatMap_left _ (fun c _ => ih c)

theorem mem_postList_self {w : World} {n a : Nat} (h : Height w n a) : a ∈ postList w n a := by
  obtain ⟨o, hm⟩ := h.alive
  obtain ⟨n', rfl⟩ := h.pos
  rw [postList_succ hm]
  exact List.mem_append_right _ (List.mem_singleton_self a)

/-- The listing and the height of a subtree depend only on the octants of the subtree. -/
theorem postList_agree {w s : World} : ∀ (n a : Nat), Height w n a →
    (∀ b ∈ postList w n a, s.mem b = w.mem b) →
    Height s n a ∧ postList s n a = postList w n a := by
  intro n
  induction n with
  | zero => intro a h; cases h
  | succ n ih =>
    intro a hh hag
    obtain ⟨o, hm⟩ := hh.alive
    have hs : s.mem a = some o := by rw [hag a (mem_postList_self hh), hm]
    have hsub : ∀ c ∈ childList o, ∀ b ∈ postList w n c, b ∈ postList w (n + 1) a := by
      intro c hc b hb
      rw [postList_succ hm]
      exact List.mem_append_left _ (List.mem_flatMap.2 ⟨c, hc, hb⟩)
    have hkid : ∀ c ∈ childList o, Height s n c ∧ postList s n c = postList w n c := by
      intro c hc
      obtain ⟨i, hi⟩ := mem_childList.1 hc
      exact ih c (hh.kid hm hi) (fun b hb => hag b (hsub c hc b hb))
    constructor
    · refine Height.node hs (fun i c hi => ?_)
      exact (hkid c (mem_childList.2 ⟨i, hi⟩)).1
    · rw [postList_succ hm, postList_succ hs]
      congr 1
      exact List.flatMap_congr (fun c hc => (hkid c hc).2)

theorem heightB_sound {w : World} : ∀ (n a : Nat), heightB w n a = true → Height w n a := by
  intro n
  induction n with
  | zero =>
    intro a h
    cases h
  | succ n ih =>
    intro a h
    rw [heightB] at h
    cases hm : w.mem a with
    | none =>
      rw [hm] at h
      cases h
    | some o =>
      rw [hm] at h
      simp only [List.all_eq_true] at h
      refine Height.node hm (fun i c hi => ?_)
      have hc := h i (mem_slots i)
      rw [hi] at hc
      exact ih c hc

theorem delEventsAt_agree {w s : World} {x : Nat} (h : s.mem x = w.mem x) :
    delEventsAt s x = delEventsAt w x := by
  unfold delEventsAt
  rw [h]

theorem freedList_append (l1 l2 : List DelEvent) :
    freedList (l1 ++ l2) = freedList l1 ++ freedList l2 := by
  induction l1 with
  | nil => rfl
  | cons e rest ih =>
    cases e with
    | cleared oct =>
      show freedList (rest ++ l2) = freedList rest ++ freedList l2
      exact ih
    | freed oct l =>
      show oct :: freedList (rest ++ l2) = oct :: freedList rest ++ freedList l2
      rw [ih]
      rfl

theorem freedList_delEventsAt {w : World} {x : Nat} {o : Octant} (hm : w.mem x = some o) :
    freedList (delEventsAt w x) = [some x] := by
  unfold delEventsAt
  rw [hm]
  by_cases ht : ∀ i, o.child i = none
  · by_cases hl : o.list ≠ []
    · simp only [if_pos ht, if_pos hl]
      rfl
    · simp only [if_pos ht, if_neg hl]
      rfl
  · simp only [if_neg ht]
    rfl

/-! ## What `POC_delTree` does on a tree -/

theorem POC_free_log_eq {s : World} (hinv : ArenaInv s) {a : Nat} {o : Octant}
    (hm : s.mem a = some o) (ev : List DelEvent) :
    POC_free_log (s, ev) (some a) =
      .ok (freeAll s [a], ev ++ [DelEvent.freed (some a) o.list]) := by
  simp only [POC_free_log, deref_some hm, ok_bind, POC_free_inv_eq hinv hm,
    free_eq_freeAll _ _ hinv.nodup, pure_eq_ok]

theorem POC_delTree_log_succ (fuel : Nat) (s : World × List DelEvent) (a : Nat) :
    POC_delTree_log (fuel + 1) s (some a) =
      (POC_isTerminal s.1 (some a) >>= fun t =>
        if t = true then
          (POC_nRegions s.1 (some a) >>= fun n =>
            (if n ≠ 0 then
                (POC_clearRegions s.1 (some a) >>= fun w =>
                  pure (w, s.2 ++ [DelEvent.cleared (some a)]))
              else pure s) >>= fun s =>
              POC_free_log s (some a) >>= fun s => pure (s, 1))
        else
          (slots.foldlM (fun s i =>
              POC_child s.1 (some a) i >>= fun child =>
                if child.isSome = true then POC_delTree_log fuel s child >>= fun r => pure r.1
                else pure s) s >>= fun s =>
            POC_free_log s (some a) >>= fun s => pure (s, 1))) := by
  rw [POC_delTree_log]

theorem childList_of_terminal {o : Octant} (h : ∀ i, o.child i = none) : childList o = [] := by
  unfold childList
  rw [List.filterMap_eq_nil_iff]
  intro i _
  exact h i

theorem freeAll_cleared (w : World) {a : Nat} (x : Option Octant) :
    freeAll { w with mem := Function.update w.mem a x } [a] = freeAll w [a] := by
  apply World.eq_of_fields
  · funext b
    simp only [freeAll, List.mem_singleton]
    by_cases hb : b = a
    · rw [if_pos hb, if_pos hb]
    · rw [if_neg hb, if_neg hb, Function.update_noteq hb]
  all_goals rfl

/-- The deletion of a terminal octant. -/
theorem POC_delTree_log_leaf {w : World} (hinv : ArenaInv w) {a : Nat} {o : Octant}
    (hm : w.mem a = some o) (ht : ∀ i, o.child i = none) (fuel : Nat) (ev : List DelEvent) :
    POC_delTree_log (fuel + 1) (w, ev) (some a) =
      .ok ((freeAll w [a], ev ++ delEventsAt w a), 1) := by
  have hde : delEventsAt w a =
      (if o.list ≠ [] then [DelEvent.cleared (some a)] else []) ++
        [DelEvent.freed (some a) []] := by
    unfold delEventsAt
    rw [hm]
    simp only [if_pos ht]
  rw [POC_delTree_log_succ, hde]
  simp only [POC_isTerminal_some hm, ok_bind, decide_eq_true ht, if_true, POC_nRegions_eq hm,
    if_pos ht]
  by_cases hl : o.list = []
  · have h0 : ¬ ((o.list.length : Int) ≠ 0) := by simp [hl]
    have hl' : ¬ (o.list ≠ []) := not_not.2 hl
    simp only [if_neg h0, if_neg hl', pure_eq_ok, ok_bind, POC_free_log_eq hinv hm,
      List.nil_append]
    rw [hl]
  · have h0 : (o.list.length : Int) ≠ 0 := by
      simpa using hl
    have hm1 : ({ w with mem := Function.update w.mem a (some { o with list := [] }) } :
        World).mem a = some { o with list := [] } := mem_update_same _ _ _
    have hinv1 := (keeps_update hm { o with list := [] } rfl rfl hinv).1
    simp only [if_pos h0, if_pos hl, POC_clearRegions_eq hm, ok_bind, pure_eq_ok,
      POC_free_log_eq hinv1 hm1, freeAll_cleared, List.append_assoc]

/-- The octants deleted through the slots `l` of `o`. -/
theorem flatMap_slots_append {β : Type} (o : Octant) (f : Nat → List β) (pre : List (Fin 8))
    (i : Fin 8) :
    ((pre ++ [i]).filterMap o.child).flatMap f =
      (pre.filterMap o.child).flatMap f ++
        (match o.child i with
         | none => []
         | some c => f c) := by
  rw [List.filterMap_append, List.flatMap_append]
  congr 1
  cases h : o.child i with
  | none => simp [List.filterMap_cons, h]
  | some c => simp [List.filterMap_cons, List.flatMap_cons, h]

theorem POC_delTree_log_spec : ∀ (n a : Nat) (w : World) (ev : List DelEvent) (fuel : Nat),
    n ≤ fuel → ArenaInv w → Height w n a → (postList w n a).Nodup →
    POC_delTree_log fuel (w, ev) (some a) =
      .ok ((freeAll w (postList w n a),
            ev ++ (postList w n a).flatMap (delEventsAt w)), 1) := by
  intro n
  induction n with
  | zero => intro a w ev fuel _ _ h; cases h
  | succ n ih =>
    intro a w ev fuel hfuel hinv hh hnd
    obtain ⟨o, hm⟩ := hh.alive
    obtain ⟨f, rfl⟩ : ∃ f, fuel = f + 1 := ⟨fuel - 1, by omega⟩
    have hf : n ≤ f := by omega
    by_cases ht : ∀ i, o.child i = none
    · rw [POC_delTree_log_leaf hinv hm ht, postList_succ hm, childList_of_terminal ht]
      simp only [List.flatMap_nil, List.nil_append, List.flatMap_cons, List.append_nil]
    · rw [postList_succ hm] at hnd ⊢
      obtain ⟨hndk, _, hdisj⟩ := List.nodup_append.1 hnd
      have ha_not : a ∉ (childList o).flatMap (postList w n) := fun hin =>
        hdisj hin (List.mem_singleton_self a)
      -- the loop over the slots
      have hloop := foldlM_inv
        (fun (s : World × List DelEvent) (i : Fin 8) =>
          POC_child s.1 (some a) i >>= fun child =>
            if child.isSome = true then POC_delTree_log f s child >>= fun r => pure r.1
            else pure s)
        (fun pre s => s = (freeAll w ((pre.filterMap o.child).flatMap (postList w n)),
          ev ++ ((pre.filterMap o.child).flatMap (postList w n)).flatMap (delEventsAt w)))
        slots
        (by
          intro pre i suf s hsplit hI
          subst hI
          have hall : childList o = pre.filterMap o.child ++
              ((match o.child i with
                | none => []
                | some c => [c]) ++ suf.filterMap o.child) := by
            unfold childList
            rw [← hsplit, List.filterMap_append, List.filterMap_cons]
            cases o.child i <;> rfl
          have ha_pre : a ∉ (pre.filterMap o.child).flatMap (postList w n) := by
            intro hin
            apply ha_not
            rw [hall, List.flatMap_append]
            exact List.mem_append_left _ hin
          have hma : (freeAll w ((pre.filterMap o.child).flatMap (postList w n))).mem a =
              some o := by
            rw [freeAll_mem_of_not_mem w ha_pre, hm]
          have hchild : POC_child (freeAll w ((pre.filterMap o.child).flatMap (postList w n)))
              (some a) i = .ok (o.child i) := by
            simp only [POC_child, deref_some hma, ok_bind, pure_eq_ok]
          simp only [hchild, ok_bind]
          rw [flatMap_slots_append]
          cases hc : o.child i with
          | none =>
            refine ⟨_, rfl, ?_⟩
            simp only [List.append_nil]
          | some c =>
            rw [hc] at hall
            rw [hall, List.flatMap_append, List.flatMap_append] at hndk
            obtain ⟨_, hnd2, hdis1⟩ := List.nodup_append.1 hndk
            obtain ⟨hndc, _, _⟩ := List.nodup_append.1 hnd2
            simp only [List.flatMap_cons, List.flatMap_nil, List.append_nil] at hndc hdis1
            have hdis : ∀ b ∈ postList w n c,
                b ∉ (pre.filterMap o.child).flatMap (postList w n) := by
              intro b hb hin
              exact hdis1 hin (List.mem_append_left _ hb)
            have hag : ∀ b ∈ postList w n c,
                (freeAll w ((pre.filterMap o.child).flatMap (postList w n))).mem b =
                  w.mem b :=
              fun b hb => freeAll_mem_of_not_mem w (hdis b hb)
            obtain ⟨hh', hpl⟩ := postList_agree n c (hh.kid hm hc) hag
            have hrec := ih c (freeAll w ((pre.filterMap o.child).flatMap (postList w n)))
              (ev ++ ((pre.filterMap o.child).flatMap (postList w n)).flatMap (delEventsAt w))
              f hf (hinv.freeAll _) hh' (by rw [hpl]; exact hndc)
            rw [hpl, freeAll_append] at hrec
            have hev : (postList w n c).flatMap
                (delEventsAt (freeAll w ((pre.filterMap o.child).flatMap (postList w n)))) =
                (postList w n c).flatMap (delEventsAt w) :=
              List.flatMap_congr (fun b hb => delEventsAt_agree (hag b hb))
            rw [hev] at hrec
            refine ⟨(freeAll w ((pre.filterMap o.child).flatMap (postList w n) ++ postList w n c),
              ev ++ ((pre.filterMap o.child).flatMap (postList w n)).flatMap (delEventsAt w) ++
                (postList w n c).flatMap (delEventsAt w)), ?_, ?_⟩
            · simp only [Option.isSome_some, if_true, hrec, ok_bind, pure_eq_ok]
            · simp only [List.flatMap_append, List.append_assoc])
        (w, ev)
        (by simp only [List.filterMap_nil, List.flatMap_nil, List.append_nil, freeAll_nil])
      obtain ⟨s', hfold, hI⟩ := hloop
      subst hI
      have hcl : slots.filterMap o.child = childList o := rfl
      rw [hcl] at hfold
      have hma : (freeAll w ((childList o).flatMap (postList w n))).mem a = some o := by
        rw [freeAll_mem_of_not_mem w ha_not, hm]
      have hde : delEventsAt w a = [DelEvent.freed (some a) o.list] := by
        unfold delEventsAt
        rw [hm]
        simp only [if_neg ht]
      rw [POC_delTree_log_succ]
      simp only [POC_isTerminal_some hm, ok_bind, decide_eq_false ht, Bool.false_eq_true,
        if_false]
      rw [hfold]
      simp only [ok_bind, POC_free_log_eq (hinv.freeAll _) hma, freeAll_append, pure_eq_ok,
        List.flatMap_append, List.flatMap_cons, List.flatMap_nil, List.append_nil, hde,
        List.append_assoc]

/-! ## The order of the deletion -/

theorem mem_postList {w : World} {n a b : Nat} (h : Height w n a) :
    b ∈ postList w n a ↔ Desc w a b := by
  rw [(postList_perm n a).mem_iff]
  exact mem_dfsList n a h

theorem nodup_postList {w : World} {n a : Nat} (h : (dfsList w n a).Nodup) :
    (postList w n a).Nodup :=
  (postList_perm n a).nodup_iff.2 h

theorem sublist_flatMap_of_mem {α β : Type} (f : α → List β) {l : List α} {x : α}
    (hx : x ∈ l) : (f x).Sublist (l.flatMap f) := by
  obtain ⟨l1, l2, rfl⟩ := List.append_of_mem hx
  rw [List.flatMap_append, List.flatMap_cons]
  exact (List.sublist_append_left _ _).trans (List.sublist_append_right _ _)

/-- In the post-order listing every child comes before its parent. -/
theorem postList_child_first {w : World} : ∀ (n a : Nat), Height w n a →
    ∀ p ∈ postList w n a, ∀ c, AnyChild w p c → [c, p].Sublist (postList w n a) := by
  intro n
  induction n with
  | zero => intro a h; cases h
  | succ n ih =>
    intro a hh p hp c hc
    obtain ⟨o, hm⟩ := hh.alive
    rw [postList_succ hm] at hp ⊢
    rcases List.mem_append.1 hp with hp | hp
    · obtain ⟨c', hc', hp'⟩ := List.mem_flatMap.1 hp
      obtain ⟨i, hi⟩ := mem_childList.1 hc'
      have h1 := ih c' (hh.kid hm hi) p hp' c hc
      exact (h1.trans (sublist_flatMap_of_mem _ hc')).trans (List.sublist_append_left _ _)
    · rw [List.mem_singleton] at hp
      subst hp
      obtain ⟨o', i, hm', hi⟩ := hc
      rw [hm] at hm'
      cases hm'
      have hcl : c ∈ childList o := mem_childList.2 ⟨i, hi⟩
      have hself : c ∈ postList w n c := mem_postList_self (hh.kid hm hi)
      have h1 : [c].Sublist ((childList o).flatMap (postList w n)) :=
        List.singleton_sublist.2 (List.mem_flatMap.2 ⟨c, hcl, hself⟩)
      exact h1.append (List.Sublist.refl [p])

theorem freedList_flatMap {w : World} : ∀ (L : List Nat), (∀ x ∈ L, ∃ o, w.mem x = some o) →
    freedList (L.flatMap (delEventsAt w)) = L.map some := by
  intro L
  induction L with
  | nil => intro _; rfl
  | cons x rest ih =>
    intro h
    obtain ⟨o, hm⟩ := h x (List.mem_cons_self _ _)
    rw [List.flatMap_cons, freedList_append, freedList_delEventsAt hm,
      ih (fun y hy => h y (List.mem_cons_of_mem _ hy))]
    rfl

/-- A terminal octant is freed with an empty region list. -/
theorem freed_terminal_empty {w : World} {L : List Nat} {x : Nat} {l : List Region}
    (h : DelEvent.freed (some x) l ∈ L.flatMap (delEventsAt w)) {o : Octant}
    (hm : w.mem x = some o) (ht : ∀ i, o.child i = none) : l = [] := by
  obtain ⟨y, _, hy⟩ := List.mem_flatMap.1 h
  unfold delEventsAt at hy
  cases hmy : w.mem y with
  | none =>
    rw [hmy] at hy
    cases hy
  | some oy =>
    rw [hmy] at hy
    by_cases hty : ∀ i, oy.child i = none
    · simp only [if_pos hty] at hy
      rcases List.mem_append.1 hy with h1 | h1
      · by_cases hl : oy.list ≠ []
        · rw [if_pos hl, List.mem_singleton] at h1
          cases h1
        · rw [if_neg hl] at h1
          cases h1
      · rw [List.mem_singleton] at h1
        cases h1
        rfl
    · simp only [if_neg hty, List.mem_singleton] at hy
      cases hy
      rw [hm] at hmy
      cases hmy
      exact absurd ht hty

/-! ## The order of the local root list -/

theorem Runs.of_nil {K : List OpKind} {G : World → ArenaOp → Prop} {w w' : World}
    {l : List ArenaOp} (h : Runs K G w l w') : l = [] → w' = w := by
  induction h with
  | nil => intro _; rfl
  | @snoc w1 w2 ops0 op0 _ _ _ _ _ _ =>
    intro hl
    have := congrArg List.length hl
    simp at this

theorem Runs.uncons {K : List OpKind} {G : World → ArenaOp → Prop} {w w' : World}
    {l : List ArenaOp} (h : Runs K G w l w') :
    ∀ (op : ArenaOp) (ops : List ArenaOp), l = op :: ops →
      ∃ w1, op.kind ∈ K ∧ op.admissible w ∧ G w op ∧ op.run w = .ok w1 ∧
        Runs K G w1 ops w' := by
  induction h with
  | nil => intro op ops h; cases h
  | @snoc w1 w2 ops0 op0 hruns hk hadm hg hrun ih =>
    intro op ops hl
    cases ops0 with
    | nil =>
      rw [List.nil_append] at hl
      cases hl
      have hw := hruns.of_nil rfl
      subst hw
      exact ⟨w2, hk, hadm, hg, hrun, Runs.nil _⟩
    | cons op1 ops1 =>
      rw [List.cons_append] at hl
      cases hl
      obtain ⟨wa, h1, h2, h3, h4, h5⟩ := ih op ops1 rfl
      exact ⟨wa, h1, h2, h3, h4, Runs.snoc op0 h5 hk hadm hg hrun⟩

theorem POC_setparent_ok_eq {w w' : World} (hinv : ArenaInv w) {a : Nat} {o : Octant}
    (hm : w.mem a = some o) {parent : pOctant} {ppid : Int} {entry : Bool}
    (h : POC_setparent w (some a) parent ppid entry = .ok w') :
    w' = { w with OCT_rootlist := rootsAfterSetparent w a o ppid,
                  mem := Function.update w.mem a
                    (some { o with ppid := ppid, parent := parent }) } := by
  cases entry with
  | true =>
    rw [POC_setparent_inv_eq hinv hm] at h
    exact (Except.ok.inj h).symm
  | false =>
    by_cases h1 : o.ppid = w.OCT_localpid ∧ ppid ≠ w.OCT_localpid
    · simp [POC_setparent, deref_some hm, h1.1, h1.2] at h
    · have heq : POC_setparent w (some a) parent ppid false =
          POC_setparent w (some a) parent ppid true := by
        simp only [POC_setparent, deref_some hm, ok_bind]
        by_cases h2 : o.ppid = w.OCT_localpid
        · have h3 : ¬ ppid ≠ w.OCT_localpid := fun h3 => h1 ⟨h2, h3⟩
          simp only [if_pos h2, if_neg h3]
        · simp only [if_neg h2]
      rw [heq, POC_setparent_inv_eq hinv hm] at h
      exact (Except.ok.inj h).symm

/-- How one call of `POC_new`, `POC_setparent` or `POC_free` changes the local root list: it
appends the octant that becomes non-local, or it leaves a sublist. -/
theorem roots_step {w w1 : World} (op : ArenaOp) (hinv : ArenaInv w)
    (hk : op.kind ∈ [OpKind.new, OpKind.setparent, OpKind.free]) (hrun : op.run w = .ok w1) :
    (∃ a, becomesNonlocal w op a = true ∧ (∀ b, becomesNonlocal w op b = true → b = a) ∧
        a ∉ w.OCT_rootlist ∧ w1.OCT_rootlist = w.OCT_rootlist ++ [a]) ∨
    ((∀ b, becomesNonlocal w op b = false) ∧ w1.OCT_rootlist.Sublist w.OCT_rootlist) := by
  cases op with
  | new ptr raw =>
    have hrun' : (POC_new w (some ptr) raw >>= fun r => pure r.1) = .ok w1 := hrun
    rw [POC_new_eq, ok_bind] at hrun'
    cases hrun'
    exact Or.inr ⟨fun _ => rfl, List.Sublist.refl _⟩
  | free oct =>
    obtain ⟨a, o, rfl, hm⟩ := POC_free_live hrun
    have hrun' : POC_free w (some a) = .ok w1 := hrun
    rw [POC_free_inv_eq hinv hm] at hrun'
    cases hrun'
    exact Or.inr ⟨fun _ => rfl, List.erase_sublist _ _⟩
  | setparent oct parent ppid entry =>
    obtain ⟨a, o, rfl, hm⟩ := POC_setparent_live hrun
    have hw1 := POC_setparent_ok_eq hinv hm hrun
    have hrl : w1.OCT_rootlist = rootsAfterSetparent w a o ppid := by rw [hw1]
    by_cases h1 : o.ppid = w.OCT_localpid ∧ ppid ≠ w.OCT_localpid
    · refine Or.inl ⟨a, ?_, ?_, ?_, ?_⟩
      · simp [becomesNonlocal, hm, h1.1, h1.2]
      · intro b hb
        simp only [becomesNonlocal, Bool.and_eq_true, decide_eq_true_eq] at hb
        exact (Option.some.inj hb.1).symm
      · intro hin
        obtain ⟨o', ho', hne⟩ := (hinv.listed a).1 hin
        rw [hm] at ho'
        cases ho'
        exact hne h1.1
      · rw [hrl]
        unfold rootsAfterSetparent
        rw [if_pos h1.1, if_pos h1.2]
    · refine Or.inr ⟨?_, ?_⟩
      · intro b
        by_cases hb : b = a
        · subst hb
          simp only [becomesNonlocal, hm]
          by_cases h2 : o.ppid = w.OCT_localpid
          · have h3 : ¬ ppid ≠ w.OCT_localpid := fun h3 => h1 ⟨h2, h3⟩
            simp [h2, h3]
          · simp [h2]
        · have hne : ¬ (some a = some b) := fun h => hb (Option.some.inj h).symm
          simp [becomesNonlocal, hne]
      · rw [hrl]
        unfold rootsAfterSetparent
        by_cases h2 : o.ppid = w.OCT_localpid
        · have h3 : ¬ ppid ≠ w.OCT_localpid := fun h3 => h1 ⟨h2, h3⟩
          rw [if_pos h2, if_neg h3]
        · rw [if_neg h2]
          by_cases h4 : ppid = w.OCT_localpid
          · rw [if_pos h4]
            exact List.erase_sublist _ _
          · rw [if_neg h4]
  | setchild oct i child => simp [ArenaOp.kind] at hk
  | setchildren oct children cpids => simp [ArenaOp.kind] at hk
  | delTree fuel root => simp [ArenaOp.kind] at hk
  | addRegion oct region entry => simp [ArenaOp.kind] at hk
  | remRegion oct region => simp [ArenaOp.kind] at hk
  | clearRegions oct => simp [ArenaOp.kind] at hk

theorem RootOrder.advance {w w1 : World} {τ : Nat → Option Nat} {j : Nat} (op : ArenaOp)
    (hinv : ArenaInv w) (hk : op.kind ∈ [OpKind.new, OpKind.setparent, OpKind.free])
    (hrun : op.run w = .ok w1) (h : RootOrder w τ j) :
    RootOrder w1 (fun a => if becomesNonlocal w op a then some j else τ a) (j + 1) := by
  obtain ⟨hst, hpw⟩ := h
  rcases roots_step op hinv hk hrun with ⟨a, ha, huniq, hnot, hrl⟩ | ⟨hno, hsub⟩
  · have hτ : ∀ x ∈ w.OCT_rootlist,
        (if becomesNonlocal w op x then some j else τ x) = τ x := by
      intro x hx
      have hxa : becomesNonlocal w op x ≠ true := fun hb => hnot (huniq x hb ▸ hx)
      rw [if_neg hxa]
    constructor
    · intro x hx
      rw [hrl, List.mem_append, List.mem_singleton] at hx
      rcases hx with hx | hx
      · obtain ⟨i, hi, hij⟩ := hst x hx
        exact ⟨i, (hτ x hx).trans hi, by omega⟩
      · subst hx
        exact ⟨j, if_pos ha, by omega⟩
    · rw [hrl, List.pairwise_append]
      refine ⟨?_, List.pairwise_singleton _ _, ?_⟩
      · refine hpw.imp_of_mem ?_
        intro x y hx hy hxy
        obtain ⟨i, k, hi, hk', hik⟩ := hxy
        exact ⟨i, k, (hτ x hx).trans hi, (hτ y hy).trans hk', hik⟩
      · intro x hx y hy
        rw [List.mem_singleton] at hy
        subst hy
        obtain ⟨i, hi, hij⟩ := hst x hx
        exact ⟨i, j, (hτ x hx).trans hi, if_pos ha, hij⟩
  · have hτ : (fun a => if becomesNonlocal w op a then some j else τ a) = τ := by
      funext x
      rw [hno x]
      rfl
    rw [hτ]
    constructor
    · intro x hx
      obtain ⟨i, hi, hij⟩ := hst x (hsub.subset hx)
      exact ⟨i, hi, by omega⟩
    · exact hpw.sublist hsub

theorem RootOrder.along : ∀ (ops : List ArenaOp) (w w' : World) (τ : Nat → Option Nat) (j : Nat),
    Runs [OpKind.new, OpKind.setparent, OpKind.free] anyCall w ops w' → ArenaInv w →
    RootOrder w τ j → RootOrder w' (nonlocalSince w ops j τ) (j + ops.length) := by
  intro ops
  induction ops with
  | nil =>
    intro w w' τ j hr _ h
    have := hr.of_nil rfl
    subst this
    exact h
  | cons op ops ih =>
    intro w w' τ j hr hinv h
    obtain ⟨w1, hk, hadm, _, hrun, hr1⟩ := hr.uncons op ops rfl
    have hinv1 := (op.run_inv hinv hadm hrun).1
    have h1 := RootOrder.advance op hinv hk hrun h
    have h2 := ih w1 w' _ (j + 1) hr1 hinv1 h1
    rw [nonlocalSince, hrun]
    have hlen : j + (op :: ops).length = j + 1 + ops.length := by
      rw [List.length_cons]
      omega
    rw [hlen]
    exact h2

/-! ## The record of the costs does not change the pass -/

theorem slot_step_erase_acct (w : World × CostLog) (octant : pOctant)
    (children : Fin 8 → pOctant)
    (gL : World × CostLog → pOctant → Except Fault (World × CostLog))
    (g : World → pOctant → Except Fault World)
    (h : ∀ s c, (gL s c).map Prod.fst = g s.1 c) (i : Fin 8) :
    (if (children i).isSome then do
        if (← POC_local w.1 octant i) then gL w (children i)
        else pure w
      else pure w : Except Fault (World × CostLog)).map Prod.fst =
    (if (children i).isSome then do
        if (← POC_local w.1 octant i) then g w.1 (children i)
        else pure w.1
      else pure w.1) := by
  by_cases hc : (children i).isSome
  · simp only [hc, if_true]
    cases POC_local w.1 octant i with
    | error e => rfl
    | ok b =>
      cases b
      · rfl
      · simp only [ok_bind, if_true]
        exact h w (children i)
  · simp only [hc]
    rfl

theorem by_dist_loop_erase_acct (U : OctUtil)
    (visitL : World × CostLog → pOctant → Except Fault (World × CostLog))
    (visit : World → pOctant → Except Fault World)
    (h : ∀ s c, (visitL s c).map Prod.fst = visit s.1 c)
    (octant : pOctant) (children : Fin 8 → pOctant) (corigin : Fin 8 → COORD) :
    ∀ (n : Nat) (s : World × CostLog) (L : DistLocals),
      (LB_visit_by_dist_loop_acct U visitL octant children corigin n s L).map Prod.fst =
        LB_visit_by_dist_loop U visit octant children corigin n s.1 L := by
  intro n
  induction n with
  | zero => intro s L; rfl
  | succ n ih =>
    intro s L
    rw [LB_visit_by_dist_loop_acct, LB_visit_by_dist_loop]
    cases LB_visit_by_dist_pick U s.1 octant corigin L with
    | error e => rfl
    | ok pr =>
      obtain ⟨pc, md, mc⟩ := pr
      simp only [ok_bind]
      cases mc with
      | none => rfl
      | some i =>
        simp only []
        rw [map_bind_except, ← h s (children i), bind_map_except]
        congr 1
        funext s1
        exact ih s1 _

theorem by_dist_erase_acct (U : OctUtil)
    (visitL : World × CostLog → pOctant → Except Fault (World × CostLog))
    (visit : World → pOctant → Except Fault World)
    (h : ∀ s c, (visitL s c).map Prod.fst = visit s.1 c)
    (s : World × CostLog) (octant : pOctant) (children : Fin 8 → pOctant) :
    (LB_visit_by_dist_acct U visitL s octant children).map Prod.fst =
      LB_visit_by_dist U visit s.1 octant children := by
  unfold LB_visit_by_dist_acct LB_visit_by_dist
  cases POC_bounds s.1 octant with
  | error e => rfl
  | ok pr =>
    obtain ⟨mn, mx⟩ := pr
    simp only [ok_bind]
    exact by_dist_loop_erase_acct U visitL visit h octant children _ 9 s initDistLocals

theorem tail_erase_acct (U : OctUtil) (r : Except Fault World) (octant : pOctant) (cost : ℚ)
    (ev : CostLog) :
    (do
      let w ← r
      let w := { w with pcost := w.pcost + cost }
      let (origin, volume) ← POC_origin_volume U w octant
      let prod := vector_cmult volume origin
      let w := { w with pmass := w.pmass + volume }
      pure ({ w with pcoord := vector_add w.pcoord prod }, ev) :
        Except Fault (World × CostLog)).map Prod.fst =
    (do
      let w ← r
      let w := { w with pcost := w.pcost + cost }
      let (origin, volume) ← POC_origin_volume U w octant
      let prod := vector_cmult volume origin
      let w := { w with pmass := w.pmass + volume }
      pure { w with pcoord := vector_add w.pcoord prod }) := by
  cases r with
  | error e => rfl
  | ok w3 =>
    simp only [ok_bind]
    cases POC_origin_volume U { w3 with pcost := w3.pcost + cost } octant with
    | error e => rfl
    | ok pr => rfl

theorem LB_visit_acct_erase (U : OctUtil) : ∀ (fuel : Nat) (s : World × CostLog)
    (octant : pOctant),
    (LB_visit_acct U fuel s octant).map Prod.fst = LB_visit U fuel s.1 octant := by
  intro fuel
  induction fuel with
  | zero => intro s octant; rfl
  | succ fuel ih =>
    intro s octant
    rw [LB_visit_acct, LB_visit]
    cases LB_costs_value { s.1 with DFS_Part_Count := s.1.DFS_Part_Count + 1 } octant with
    | error e => rfl
    | ok cost =>
      simp only [ok_bind]
      split
      · exact tail_erase_acct U _ octant cost _
      · cases POC_isTerminal { s.1 with DFS_Part_Count := s.1.DFS_Part_Count + 1 } octant with
        | error e => rfl
        | ok b =>
          simp only [ok_bind]
          cases b
          · simp only [Bool.not_false, if_true]
            cases POC_modify_newpid { s.1 with DFS_Part_Count := s.1.DFS_Part_Count + 1 }
              octant s.1.partition with
            | error e => rfl
            | ok w1 =>
              simp only [ok_bind]
              cases POC_children w1 octant with
              | error e => rfl
              | ok pr =>
                obtain ⟨k, children⟩ := pr
                simp only [ok_bind]
                split
                · exact by_dist_erase_acct U _ (fun w c => LB_visit U fuel w c)
                    (fun s c => ih s c) _ octant children
                · exact foldlM_erase_log _ _
                    (fun s i => slot_step_erase_acct s octant children _
                      (fun w c => LB_visit U fuel w c) (fun s c => ih s c) i)
                    slots _
          · simp only [Bool.not_true, Bool.false_eq_true, if_false]
            exact tail_erase_acct U _ octant cost _

/-! ## The running cost grows by the costs added -/

theorem SameCosts.unchanged (w : World) : SameCosts w w := ⟨rfl, rfl⟩

theorem SameCosts.followed {w1 w2 w3 : World} (h1 : SameCosts w1 w2) (h2 : SameCosts w2 w3) :
    SameCosts w1 w3 := ⟨h2.1.trans h1.1, h2.2.trans h1.2⟩

theorem POC_modify_newpid_costs {w w' : World} {oct : pOctant} {p : Int}
    (h : POC_modify_newpid w oct p = .ok w') : SameCosts w w' := by
  cases oct with
  | none => cases h
  | some a =>
    rw [POC_modify_newpid_eq] at h
    cases hm : w.mem a with
    | none =>
      rw [hm] at h
      cases h
    | some o =>
      rw [hm] at h
      cases h
      exact ⟨rfl, rfl⟩

theorem LB_tag_subtree_costs : ∀ (fuel : Nat) (w w' : World) (oct : pOctant) (p : Int),
    LB_tag_subtree fuel w oct p = .ok w' → SameCosts w w' := by
  intro fuel
  induction fuel with
  | zero => intro w w' oct p h; cases h
  | succ fuel ih =>
    intro w w' oct p h
    rw [LB_tag_subtree] at h
    obtain ⟨w1, h1, h⟩ := bind_ok_inv h
    have k1 := POC_modify_newpid_costs h1
    obtain ⟨t, _, h⟩ := bind_ok_inv h
    cases t with
    | true =>
      simp only [if_true] at h
      cases h
      exact k1
    | false =>
      simp only [Bool.false_eq_true, if_false] at h
      obtain ⟨pr, _, h⟩ := bind_ok_inv h
      obtain ⟨k, children⟩ := pr
      simp only at h
      refine k1.followed (foldlM_rel _ SameCosts SameCosts.unchanged
        (fun _ _ _ => SameCosts.followed) ?_ slots w1 w' h)
      intro s i s' hs
      by_cases hc : (children i).isSome = true
      · rw [if_pos hc] at hs
        obtain ⟨b, _, hs⟩ := bind_ok_inv hs
        cases b with
        | true =>
          simp only [if_true] at hs
          exact ih s s' _ p hs
        | false =>
          simp only [Bool.false_eq_true, if_false] at hs
          cases hs
          exact SameCosts.unchanged s
      · rw [if_neg hc] at hs
        cases hs
        exact SameCosts.unchanged s

theorem Accounted.nothing (s : World × CostLog) : Accounted s s :=
  ⟨[], by simp, by simp⟩

theorem Accounted.extend {s1 s2 s3 : World × CostLog} (h1 : Accounted s1 s2)
    (h2 : Accounted s2 s3) : Accounted s1 s3 := by
  obtain ⟨n1, hl1, hs1⟩ := h1
  obtain ⟨n2, hl2, hs2⟩ := h2
  refine ⟨n1 ++ n2, ?_, ?_⟩
  · rw [hl2, hl1, List.append_assoc]
  · rw [hs2, hs1, List.map_append, List.sum_append]
    ring

theorem by_dist_loop_accounted (U : OctUtil)
    (visit : World × CostLog → pOctant → Except Fault (World × CostLog))
    (hvisit : ∀ s c s', visit s c = .ok s' → Accounted s s')
    (octant : pOctant) (children : Fin 8 → pOctant) (corigin : Fin 8 → COORD) :
    ∀ (n : Nat) (s s' : World × CostLog) (L : DistLocals),
      LB_visit_by_dist_loop_acct U visit octant children corigin n s L = .ok s' →
        Accounted s s' := by
  intro n
  induction n with
  | zero => intro s s' L h; cases h
  | succ n ih =>
    intro s s' L h
    rw [LB_visit_by_dist_loop_acct] at h
    obtain ⟨pr, _, h⟩ := bind_ok_inv h
    obtain ⟨pc, md, mc⟩ := pr
    cases mc with
    | none =>
      simp only at h
      cases h
      exact Accounted.nothing s
    | some i =>
      simp only at h
      obtain ⟨s1, h1, h⟩ := bind_ok_inv h
      exact (hvisit s _ s1 h1).extend (ih s1 s' _ h)

theorem LB_visit_accounted (U : OctUtil) : ∀ (fuel : Nat) (s s' : World × CostLog)
    (octant : pOctant), LB_visit_acct U fuel s octant = .ok s' → Accounted s s' := by
  intro fuel
  induction fuel with
  | zero => intro s s' octant h; cases h
  | succ fuel ih =>
    intro s s' octant h
    rw [LB_visit_acct] at h
    obtain ⟨cost, _, h⟩ := bind_ok_inv h
    simp only at h
    split at h
    · obtain ⟨w1, h1, h⟩ := bind_ok_inv h
      have k1 := LB_tag_subtree_costs _ _ _ _ _ h1
      obtain ⟨pr, _, h⟩ := bind_ok_inv h
      obtain ⟨origin, volume⟩ := pr
      simp only [pure_eq_ok] at h
      cases h
      refine ⟨[(octant, cost)], rfl, ?_⟩
      simp only [spent, k1.1, k1.2, List.map_cons, List.map_nil, List.sum_cons, List.sum_nil]
      ring
    · obtain ⟨t, _, h⟩ := bind_ok_inv h
      cases t with
      | false =>
        simp only [Bool.not_false, if_true] at h
        obtain ⟨w1, h1, h⟩ := bind_ok_inv h
        have k1 := POC_modify_newpid_costs h1
        obtain ⟨pr, _, h⟩ := bind_ok_inv h
        obtain ⟨k, children⟩ := pr
        simp only at h
        have hstart : Accounted s (w1, s.2) := by
          refine ⟨[], by simp, ?_⟩
          simp only [spent, k1.1, k1.2, List.map_nil, List.sum_nil, add_zero]
        refine hstart.extend ?_
        split at h
        · unfold LB_visit_by_dist_acct at h
          obtain ⟨pb, _, h⟩ := bind_ok_inv h
          obtain ⟨mn, mx⟩ := pb
          simp only at h
          exact by_dist_loop_accounted U _ (fun s c s' hv => ih s s' c hv) octant children _ 9
            _ s' _ h
        · refine foldlM_rel _ Accounted Accounted.nothing (fun _ _ _ => Accounted.extend) ?_
            slots (w1, s.2) s' h
          intro x i x' hx
          by_cases hc : (children i).isSome = true
          · rw [if_pos hc] at hx
            obtain ⟨b, _, hx⟩ := bind_ok_inv hx
            cases b with
            | true =>
              simp only [if_true] at hx
              exact ih x x' _ hx
            | false =>
              simp only [Bool.false_eq_true, if_false] at hx
              cases hx
              exact Accounted.nothing x
          · rw [if_neg hc] at hx
            cases hx
            exact Accounted.nothing x
      | true =>
        simp only [Bool.not_true, Bool.false_eq_true, if_false] at h
        obtain ⟨w1, h1, h⟩ := bind_ok_inv h
        have k1 := POC_modify_newpid_costs h1
        obtain ⟨pr, _, h⟩ := bind_ok_inv h
        obtain ⟨origin, volume⟩ := pr
        simp only [pure_eq_ok] at h
        cases h
        refine ⟨[(octant, cost)], rfl, ?_⟩
        simp only [spent, k1.1, k1.2, List.map_cons, List.map_nil, List.sum_cons, List.sum_nil]
        split
        · simp only
          ring
        · simp only
          ring

/-! ## Exact growth of the running cost -/

theorem POC_modify_newpid_frame {w w' : World} {oct : pOctant} {p : Int}
    (h : POC_modify_newpid w oct p = .ok w') : Frame w w' := by
  cases oct with
  | none => cases h
  | some a =>
    rw [POC_modify_newpid_eq] at h
    cases hm : w.mem a with
    | none =>
      rw [hm] at h
      cases h
    | some o =>
      rw [hm] at h
      cases h
      exact frame_writeNpid hm p

theorem LB_tag_subtree_frame : ∀ (fuel : Nat) (w w' : World) (oct : pOctant) (p : Int),
    LB_tag_subtree fuel w oct p = .ok w' → Frame w w' := by
  intro fuel
  induction fuel with
  | zero => intro w w' oct p h; cases h
  | succ fuel ih =>
    intro w w' oct p h
    rw [LB_tag_subtree] at h
    obtain ⟨w1, h1, h⟩ := bind_ok_inv h
    have k1 := POC_modify_newpid_frame h1
    obtain ⟨t, _, h⟩ := bind_ok_inv h
    cases t with
    | true =>
      simp only [if_true] at h
      cases h
      exact k1
    | false =>
      simp only [Bool.false_eq_true, if_false] at h
      obtain ⟨pr, _, h⟩ := bind_ok_inv h
      obtain ⟨k, children⟩ := pr
      simp only at h
      refine k1.comp (foldlM_rel _ Frame Frame.refl (fun _ _ _ => Frame.comp) ?_
        slots w1 w' h)
      intro s i s' hs
      by_cases hc : (children i).isSome = true
      · rw [if_pos hc] at hs
        obtain ⟨b, _, hs⟩ := bind_ok_inv hs
        cases b with
        | true =>
          simp only [if_true] at hs
          exact ih s s' _ p hs
        | false =>
          simp only [Bool.false_eq_true, if_false] at hs
          cases hs
          exact Frame.refl s
      · rw [if_neg hc] at hs
        cases hs
        exact Frame.refl s

theorem Frame.costSum {w w' : World} (h : Frame w w') (hc : CostSum w) : CostSum w' := by
  intro a o' hm' hnt
  obtain ⟨o, hm, ho⟩ := h.symm.mem_some hm'
  have e : o' = setNpid o'.npid o := by
    rw [ho]; cases o'; rfl
  have hcc : ∀ i, childCost w' o' i = childCost w o i := by
    intro i
    rw [h.childCost_eq, e]
    rfl
  have hmap : slots.map (childCost w' o') = slots.map (childCost w o) :=
    List.map_congr_left (fun i _ => hcc i)
  have hnt' : ¬ ∀ i, o.child i = none := by
    intro hall
    apply hnt
    intro i
    rw [e]
    exact hall i
  rw [hmap, e]
  exact hc a o hm hnt'

theorem CostSum.same_arena {w w' : World} (hmem : w'.mem = w.mem)
    (hlp : w'.OCT_localpid = w.OCT_localpid) (hc : CostSum w) : CostSum w' := by
  intro a o hm hnt
  rw [hmem] at hm
  have hcc : childCost w' o = childCost w o := by
    funext i
    unfold childCost
    rw [hmem, hlp]
  rw [hcc]
  exact hc a o hm hnt

theorem LB_visit_live (U : OctUtil) {fuel : Nat} {w w' : World} {oct : pOctant}
    (h : LB_visit U fuel w oct = .ok w') : ∃ a o, oct = some a ∧ w.mem a = some o := by
  cases fuel with
  | zero => cases h
  | succ fuel =>
    rw [LB_visit] at h
    obtain ⟨cost, hc, _⟩ := bind_ok_inv h
    cases oct with
    | none =>
      simp [LB_costs_value, POC_data_cost, deref] at hc
    | some a =>
      rw [LB_costs_value_eq] at hc
      cases hm : w.mem a with
      | none =>
        have hm' : ({ w with DFS_Part_Count := w.DFS_Part_Count + 1 } : World).mem a = none := hm
        rw [hm'] at hc
        cases hc
      | some o => exact ⟨a, o, rfl, hm⟩

/-- A fold whose steps each add a known amount to a measure of the state adds the sum of the
amounts. -/
theorem foldlM_sum {α σ : Type} (f : σ → α → Except Fault σ) (I : σ → Prop)
    (g : σ → ℚ) (c : α → ℚ)
    (hstep : ∀ s x s', I s → f s x = .ok s' → I s' ∧ g s' = g s + c x) :
    ∀ (l : List α) (s s' : σ), I s → l.foldlM f s = .ok s' →
      I s' ∧ g s' = g s + (l.map c).sum := by
  intro l
  induction l with
  | nil =>
    intro s s' hI h
    cases h
    exact ⟨hI, by simp⟩
  | cons x rest ih =>
    intro s s' hI h
    rw [List.foldlM_cons] at h
    obtain ⟨s1, h1, h⟩ := bind_ok_inv h
    obtain ⟨hI1, hg1⟩ := hstep s x s1 hI h1
    obtain ⟨hI', hg'⟩ := ih s1 s' hI1 h
    refine ⟨hI', ?_⟩
    rw [hg', hg1, List.map_cons, List.sum_cons]
    ring

theorem sum_visited_update (c : Fin 8 → ℚ) (vis : Fin 8 → Bool) (i : Fin 8)
    (hi : vis i = false) : ∀ (l : List (Fin 8)), l.Nodup →
    (l.map (fun j => if Function.update vis i true j = true then c j else 0)).sum =
      (l.map (fun j => if vis j = true then c j else 0)).sum + (if i ∈ l then c i else 0) := by
  intro l
  induction l with
  | nil => intro _; simp
  | cons j rest ih =>
    intro hnd
    have hnd' := List.nodup_cons.1 hnd
    rw [List.map_cons, List.sum_cons, List.map_cons, List.sum_cons, ih hnd'.2]
    by_cases hji : j = i
    · subst hji
      have hnot : j ∉ rest := hnd'.1
      simp only [hi, hnot, Function.update_same, if_true, Bool.false_eq_true, if_false,
        List.mem_cons, true_or, zero_add]
      ring
    · have h1 : Function.update vis i true j = vis j := Function.update_noteq hji _ _
      have h2 : (i ∈ j :: rest) ↔ i ∈ rest := by
        simp [List.mem_cons, Ne.symm hji]
      rw [h1]
      by_cases hr : i ∈ rest
      · rw [if_pos hr, if_pos (h2.2 hr)]
        ring
      · rw [if_neg hr, if_neg (fun h => hr (h2.1 h))]
        ring

/-- The outer loop of `LB_visit_by_dist`, when it returns, has added the amounts of all the
locally tagged slots that were not yet visited. -/
theorem by_dist_loop_sum (U : OctUtil) (visit : World → pOctant → Except Fault World) (a : Nat)
    (o : Octant) (lp : Int) (children : Fin 8 → pOctant) (corigin : Fin 8 → COORD)
    (I : World → Prop) (g : World → ℚ) (c : Fin 8 → ℚ)
    (hmem : ∀ s, I s → ∃ o', s.mem a = some o' ∧ o'.cpid = o.cpid ∧ s.OCT_localpid = lp)
    (hvisit : ∀ x s s', I s → o.cpid x = lp → visit s (children x) = .ok s' →
      I s' ∧ g s' = g s + c x)
    (hzero : ∀ x, o.cpid x ≠ lp → c x = 0) :
    ∀ (n : Nat) (s s' : World) (L : DistLocals), I s →
      LB_visit_by_dist_loop U visit (some a) children corigin n s L = .ok s' →
      I s' ∧ g s' + (slots.map (fun i => if L.visited i = true then c i else 0)).sum =
        g s + (slots.map c).sum := by
  intro n
  induction n with
  | zero => intro s s' L _ h; cases h
  | succ n ih =>
    intro s s' L hI h
    obtain ⟨o', hm, hcp, hlp⟩ := hmem s hI
    rw [LB_visit_by_dist_loop] at h
    obtain ⟨pr, hpick, h⟩ := bind_ok_inv h
    obtain ⟨pc, md, mc⟩ := pr
    obtain ⟨pc', md', mc', hp', _, hscan⟩ := pick_spec U hm corigin L
    rw [hp'] at hpick
    cases hpick
    obtain ⟨md2, mc2, hs, hnone, hsome⟩ :=
      scan_spec U hm corigin pc L.visited slots L.mindist none
    rw [hs] at hscan
    cases hscan
    cases mc with
    | none =>
      simp only at h
      cases h
      refine ⟨hI, ?_⟩
      congr 1
      apply congrArg
      apply List.map_congr_left
      intro i hi
      cases hv : L.visited i with
      | true => simp
      | false =>
        simp only [Bool.false_eq_true, if_false]
        have hnl : ¬ o'.cpid i = s.OCT_localpid := fun hl => (hnone rfl).2 i hi ⟨hl, hv⟩
        rw [hcp, hlp] at hnl
        exact (hzero i hnl).symm
    | some i =>
      simp only at h
      obtain ⟨s1, h1, h⟩ := bind_ok_inv h
      have hloc : o'.cpid i = s.OCT_localpid ∧ L.visited i = false := by
        rcases hsome i rfl with h0 | h0
        · cases h0
        · exact h0.2
      have hcpi : o.cpid i = lp := by
        rw [← hcp, ← hlp]
        exact hloc.1
      obtain ⟨hI1, hg1⟩ := hvisit i s s1 hI hcpi h1
      obtain ⟨hI', hg'⟩ := ih s1 s' _ hI1 h
      refine ⟨hI', ?_⟩
      simp only at hg'
      rw [sum_visited_update c L.visited i hloc.2 slots slots_nodup, if_pos (mem_slots i)] at hg'
      rw [hg1] at hg'
      linarith

theorem LB_visit_none (U : OctUtil) (fuel : Nat) (w w' : World) :
    LB_visit U fuel w none ≠ .ok w' := by
  intro h
  obtain ⟨a, o, ha, _⟩ := LB_visit_live U h
  cases ha

/-- Whenever a call `LB_visit(a)` returns, in a state in which the cost of every octant with
children is the sum of the costs of its local children, it has changed nothing but partition
indices and its statics, and `total + pcost` has grown by the cost of `a`. -/
theorem LB_visit_exact (U : OctUtil) : ∀ (fuel : Nat) (w w' : World) (a : Nat) (o : Octant),
    CostSum w → w.mem a = some o → LB_visit U fuel w (some a) = .ok w' →
      Frame w w' ∧ spent w' = spent w + o.cost := by
  intro fuel
  induction fuel with
  | zero => intro w w' a o _ _ h; cases h
  | succ fuel ih =>
    intro w w' a o hsum hm h
    -- one visit of a child slot, in a state of the descent
    have hchild : ∀ (x : Fin 8) (s s' : World), Frame w s → o.cpid x = w.OCT_localpid →
        LB_visit U fuel s (o.child x) = .ok s' →
        Frame w s' ∧ spent s' = spent s + childCost w o x := by
      intro x s s' hfr hcp hv
      obtain ⟨cc, oc, hch, hmc⟩ := LB_visit_live U hv
      rw [hch] at hv
      obtain ⟨hfr', hsp⟩ := ih s s' cc oc (hfr.costSum hsum) hmc hv
      refine ⟨hfr.comp hfr', ?_⟩
      rw [hsp, ← hfr.childCost_eq o x,
        childCost_of_local hch (hcp.trans hfr.localpid.symm) hmc]
    by_cases hfit : Fits w o.cost
    · have hfit' : o.cost = 0 ∨
          w.pcost + o.cost ≤ w.optcost + ((w.partition : ℚ) * w.optcost - w.total) := hfit
      rw [LB_visit] at h
      simp only [LB_costs_value_eq, hm, ok_bind, if_pos hfit'] at h
      obtain ⟨wt, ht, h⟩ := bind_ok_inv h
      have kf := LB_tag_subtree_frame _ _ _ _ _ ht
      have kc := LB_tag_subtree_costs _ _ _ _ _ ht
      obtain ⟨pr, _, h⟩ := bind_ok_inv h
      obtain ⟨origin, volume⟩ := pr
      simp only [pure_eq_ok] at h
      cases h
      refine ⟨⟨kf.mem, kf.rootlist, kf.localpid, kf.dimension, kf.count, kf.idcount, kf.close,
        kf.optcost⟩, ?_⟩
      show wt.total + (wt.pcost + o.cost) = w.total + w.pcost + o.cost
      have e1 : wt.total = w.total := kc.1
      have e2 : wt.pcost = w.pcost := kc.2
      rw [e1, e2]
      ring
    · by_cases hterm : ∀ i, o.child i = none
      · rw [LB_visit_terminal U hm hfit hterm] at h
        cases h
        refine ⟨(Post_terminal U hm hfit hterm).frame, ?_⟩
        by_cases hc : o.cost - togoOf w ≥ togoOf w
        · rw [if_pos hc]
          show w.total + w.pcost + (0 + o.cost) = w.total + w.pcost + o.cost
          ring
        · rw [if_neg hc]
          show w.total + (w.pcost + o.cost) = w.total + w.pcost + o.cost
          ring
      · rw [LB_visit_descend U hm hfit hterm] at h
        have hm0 : (countVisit w).mem a = some o := hm
        have hfr1 : Frame w (writeNpid (countVisit w) a o w.partition) :=
          (frame_countVisit w).comp (frame_writeNpid hm0 _)
        have hsp1 : spent (writeNpid (countVisit w) a o w.partition) = spent w := rfl
        have hself : ∀ s, Frame w s →
            ∃ o', s.mem a = some o' ∧ o'.cpid = o.cpid ∧ s.OCT_localpid = w.OCT_localpid := by
          intro s hfr
          obtain ⟨o', hm', ho'⟩ := hfr.mem_some hm
          refine ⟨o', hm', ?_, hfr.localpid⟩
          rw [ho']
          rfl
        have hzero : ∀ x, o.cpid x ≠ w.OCT_localpid → childCost w o x = 0 := by
          intro x hx
          unfold childCost
          cases o.child x with
          | none => rfl
          | some c => simp only [if_neg hx]
        have htotal : (slots.map (childCost w o)).sum = o.cost := (hsum a o hm hterm).symm
        by_cases hclose : w.CLOSE ≠ 0
        · rw [if_pos hclose] at h
          unfold LB_visit_by_dist at h
          obtain ⟨pb, _, h⟩ := bind_ok_inv h
          obtain ⟨mn, mx⟩ := pb
          simp only at h
          obtain ⟨hfr', hg⟩ := by_dist_loop_sum U (fun w c => LB_visit U fuel w c) a o
            w.OCT_localpid o.child _ (Frame w) spent (childCost w o) hself
            (fun x s s' hI hcp hv => hchild x s s' hI hcp hv) hzero 9 _ w' initDistLocals hfr1 h
          refine ⟨hfr', ?_⟩
          have hz : (slots.map (fun i : Fin 8 =>
              if initDistLocals.visited i = true then childCost w o i else 0)).sum = 0 := by
            simp [initDistLocals]
          rw [hz, hsp1, htotal] at hg
          linarith
        · rw [if_neg hclose] at h
          have hstep : ∀ (s : World) (x : Fin 8) (s' : World), Frame w s →
              (if (o.child x).isSome then do
                  if (← POC_local s (some a) x) then LB_visit U fuel s (o.child x)
                  else pure s
                else pure s) = .ok s' →
              Frame w s' ∧ spent s' = spent s + childCost w o x := by
            intro s x s' hfr hs
            obtain ⟨o', hm', hcp', hlp'⟩ := hself s hfr
            by_cases hc : (o.child x).isSome = true
            · rw [if_pos hc, POC_local_some hm' x] at hs
              simp only [ok_bind] at hs
              by_cases hl : o.cpid x = w.OCT_localpid
              · have hl' : o'.cpid x = s.OCT_localpid := by rw [hcp', hlp']; exact hl
                simp only [hl', decide_True, if_true] at hs
                exact hchild x s s' hfr hl hs
              · have hl' : ¬ o'.cpid x = s.OCT_localpid := by rw [hcp', hlp']; exact hl
                simp only [hl', decide_False, Bool.false_eq_true, if_false, pure_eq_ok] at hs
                cases hs
                exact ⟨hfr, by rw [hzero x hl, add_zero]⟩
            · rw [if_neg hc] at hs
              cases hs
              refine ⟨hfr, ?_⟩
              have hn : o.child x = none := by
                cases hch : o.child x with
                | none => rfl
                | some c => rw [hch] at hc; exact absurd rfl hc
              unfold childCost
              rw [hn]
              simp
          obtain ⟨hfr', hg⟩ := foldlM_sum _ (Frame w) spent (childCost w o) hstep slots _ w'
            hfr1 h
          refine ⟨hfr', ?_⟩
          rw [hg, hsp1, htotal]

theorem seed_spent {P : Int} {G S : ℚ} {w ws : World}
    (h : LB_dfs_partition_seed P G S w = .ok ws) :
    spent ws = S ∧ ws.mem = w.mem ∧ ws.OCT_localpid = w.OCT_localpid ∧
      ws.OCT_rootlist = w.OCT_rootlist := by
  by_cases hP : P = 0
  · subst hP
    simp [LB_dfs_partition_seed, fdiv] at h
  · by_cases hg : G = 0
    · subst hg
      simp [LB_dfs_partition_seed, fdiv, hP] at h
    · rw [seed_eq S w hP hg] at h
      cases h
      refine ⟨?_, rfl, rfl, rfl⟩
      show _ * _ + (S - _ * _) = S
      ring

/-- Whenever a pass returns, with the cost of every octant with children the sum of the costs
of its local children, `total + pcost` at its end is the cost of the processes before plus
the costs of the local roots. -/
theorem pass_exact (U : OctUtil) {fuel : Nat} {P : Int} {mycost G S : ℚ} {w w' : World}
    {cnt : Int} {c1 : ℚ} (hsum : CostSum w)
    (h : LB_dfs_partition U fuel P mycost G S w = .ok (w', cnt, c1)) :
    spent w' = S + localCost w := by
  unfold LB_dfs_partition at h
  obtain ⟨ws, hseed, h⟩ := bind_ok_inv h
  obtain ⟨wv, hv, h⟩ := bind_ok_inv h
  cases h
  obtain ⟨hsp, hmem, hlp, hrl⟩ := seed_spent hseed
  have hsum' : CostSum ws := hsum.same_arena hmem hlp
  unfold LB_visit_all_subtrees POC_localroots at hv
  have hstep : ∀ (s : World) (r : Nat) (s' : World), Frame ws s →
      LB_visit U fuel s (some r) = .ok s' → Frame ws s' ∧ spent s' = spent s + costAt ws r := by
    intro s r s' hfr hs
    obtain ⟨a, o, ha, hm⟩ := LB_visit_live U hs
    cases ha
    obtain ⟨hfr', hsp'⟩ := LB_visit_exact U fuel s s' r o (hfr.costSum hsum') hm hs
    refine ⟨hfr.comp hfr', ?_⟩
    rw [hsp', ← hfr.costAt_eq, costAt_some hm]
  obtain ⟨_, hg⟩ := foldlM_sum (fun w r => LB_visit U fuel w (some r)) (Frame ws) spent
    (costAt ws) hstep ws.OCT_rootlist ws w' (Frame.refl ws) hv
  rw [hg, hsp, hrl]
  unfold localCost
  rw [show costAt ws = costAt w from funext (costAt_transfer hmem)]

theorem closePartition_spent (v : World) :
    spent (closePartition v) = spent v ∧ behindOf (closePartition v) = togoOf v := by
  constructor
  · show v.total + v.pcost + 0 = v.total + v.pcost
    ring
  · show ((v.partition + 1 : Int) : ℚ) * v.optcost - (v.total + v.pcost) =
      (v.partition : ℚ) * v.optcost - v.total + v.optcost - v.pcost
    push_cast
    ring

theorem fourLeafWorld_costSum : CostSum fourLeafWorld := by
  intro a o hm hnt
  by_cases h0 : a = 0
  · subst h0
    have : o = sampleRoot4 := by
      have h : some sampleRoot4 = some o := hm
      cases h; rfl
    subst this
    decide!
  · by_cases h4 : a ≤ 4
    · have : o = sampleLeaf 1 := by
        simp only [fourLeafWorld, if_neg h0, if_pos h4] at hm
        cases hm; rfl
      subst this
      exact absurd (fun i => rfl) hnt
    · simp [fourLeafWorld, h0, h4] at hm

/-- A returning call `LB_visit` is a returning call of its copy with the cost log, and the
log grows by entries whose costs add up to the growth of `total + pcost`. -/
theorem LB_visit_logged (U : OctUtil) {fuel : Nat} {v v' : World} {oct : pOctant}
    (lg : CostLog) (h : LB_visit U fuel v oct = .ok v') :
    ∃ new, LB_visit_acct U fuel (v, lg) oct = .ok (v', lg ++ new) ∧
      spent v' = spent v + (new.map Prod.snd).sum := by
  have he := LB_visit_acct_erase U fuel (v, lg) oct
  rw [h] at he
  cases hacct : LB_visit_acct U fuel (v, lg) oct with
  | error e =>
    rw [hacct] at he
    cases he
  | ok s' =>
    rw [hacct] at he
    cases he
    obtain ⟨new, hl, hs⟩ := LB_visit_accounted U fuel (v, lg) s' oct hacct
    refine ⟨new, ?_, hs⟩
    congr 1
    exact Prod.ext rfl hl

/-! ## The pointer conversion of `POC_isTerminal` -/

/-- Once the flag `child` is set, the scan of `POC_isTerminal` keeps it. -/
theorem POC_isTerminal_scan_int_stop (addr : Nat → Nat) (o : Octant) (l : List (Fin 8))
    {c : Int} (hc : c ≠ 0) : POC_isTerminal_scan_int addr o l c = c := by
  cases l with
  | nil => rfl
  | cons i rest => simp [POC_isTerminal_scan_int, hc]

/-- The scan of `POC_isTerminal` ends with the flag 0 exactly when every scanned slot converts
to 0. -/
theorem POC_isTerminal_scan_int_zero (addr : Nat → Nat) (o : Octant) (l : List (Fin 8)) :
    POC_isTerminal_scan_int addr o l 0 = 0 ↔ ∀ i ∈ l, pointer_to_int addr (o.child i) = 0 := by
  induction l with
  | nil => simp [POC_isTerminal_scan_int]
  | cons i rest ih =>
    simp only [POC_isTerminal_scan_int, ne_eq, not_true_eq_false, if_false, List.mem_cons,
      forall_eq_or_imp]
    by_cases h : pointer_to_int addr (o.child i) = 0
    · rw [h, ih]
      simp [h]
    · rw [POC_isTerminal_scan_int_stop addr o rest h]
      simp [h]

/-- The result of `POC_isTerminal` on a machine with 64-bit pointers: 1 exactly when every
child slot converts to the `int` 0. -/
theorem POC_isTerminal_int_eq (addr : Nat → Nat) (w : World) (oct : pOctant) :
    POC_isTerminal_int addr w oct =
      (deref w oct).map (fun o =>
        if ∀ i, pointer_to_int addr (o.child i) = 0 then (1 : Int) else 0) := by
  unfold POC_isTerminal_int
  cases hd : deref w oct with
  | error e => rfl
  | ok o =>
    simp only [ok_bind, pure_eq_ok, Except.map]
    congr 1
    by_cases h : ∀ i, pointer_to_int addr (o.child i) = 0
    · rw [if_pos h, if_pos ((POC_isTerminal_scan_int_zero addr o slots).2 (fun i _ => h i))]
    · rw [if_neg h, if_neg]
      intro h0
      exact h (fun i => (POC_isTerminal_scan_int_zero addr o slots).1 h0 i (mem_slots i))

/-- In a layout that puts no block at a multiple of `2^32`, a pointer converts to 0 exactly
when it is `NULL`. -/
theorem pointer_to_int_zero {addr : Nat → Nat} (h : ∀ a, addr a % 2 ^ 32 ≠ 0) (p : pOctant) :
    pointer_to_int addr p = 0 ↔ p = none := by
  cases p with
  | none => simp [pointer_to_int]
  | some a =>
    have h1 := h a
    have h2 : addr a % 2 ^ 32 < 2 ^ 32 := Nat.mod_lt _ (by norm_num)
    simp only [pointer_to_int, reduceCtorEq, iff_false]
    split_ifs <;> omega

/-- In a layout that puts no block at a multiple of `2^32`, `POC_isTerminal` with the pointer
conversion returns 1 and 0 where the test for `NULL` returns true and false. -/
theorem POC_isTerminal_int_agrees {addr : Nat → Nat} (h : ∀ a, addr a % 2 ^ 32 ≠ 0)
    (w : World) (oct : pOctant) :
    POC_isTerminal_int addr w oct =
      (POC_isTerminal w oct).map (fun b => if b then (1 : Int) else 0) := by
  rw [POC_isTerminal_int_eq]
  cases oct with
  | none => rfl
  | some a =>
    cases hm : w.mem a with
    | none => simp [deref, POC_isTerminal, hm, Except.map, bind, Except.bind]
    | some o =>
      rw [POC_isTerminal_some hm]
      simp only [deref, hm, Except.map]
      congr 1
      simp only [pointer_to_int_zero h, decide_eq_true_eq]

/-! ## Executions over two arithmetics -/

theorem sim_refl (Bad : Prop) (e : Fault) {α : Type} (x : Except Fault α) : Sim Bad e x x :=
  fun _ h => Or.inl h

theorem sim_bind {Bad : Prop} {e : Fault} {α β : Type} {x y : Except Fault α}
    {f g : α → Except Fault β} (hx : Sim Bad e x y) (hf : ∀ a, Sim Bad e (f a) (g a)) :
    Sim Bad e (x >>= f) (y >>= g) := by
  intro b hb
  obtain ⟨a, ha, hfa⟩ := bind_ok_inv hb
  rcases hx a ha with h | ⟨hB, h⟩
  · rw [h, ok_bind]
    exact hf a b hfa
  · right
    refine ⟨hB, ?_⟩
    rw [h]
    rfl

theorem sim_ite {Bad : Prop} {e : Fault} {α : Type} (c : Prop) [Decidable c]
    {x x' y y' : Except Fault α} (h : Sim Bad e x y) (h' : Sim Bad e x' y') :
    Sim Bad e (if c then x else x') (if c then y else y') := by
  by_cases hc : c
  · rw [if_pos hc, if_pos hc]
    exact h
  · rw [if_neg hc, if_neg hc]
    exact h'

theorem sim_foldlM {Bad : Prop} {e : Fault} {α β : Type} {f g : β → α → Except Fault β}
    (h : ∀ b a, Sim Bad e (f b a) (g b a)) (l : List α) :
    ∀ b, Sim Bad e (l.foldlM f b) (l.foldlM g b) := by
  induction l with
  | nil => exact fun b => sim_refl Bad e _
  | cons a rest ih =>
    intro b
    rw [List.foldlM_cons, List.foldlM_cons]
    exact sim_bind (h b a) ih

/-- The outer loop of `LB_visit_by_dist` with two visiting functions of which the second
follows the first. -/
theorem sim_by_dist_loop {Bad : Prop} {e : Fault} (U : OctUtil)
    {v1 v2 : World → pOctant → Except Fault World} (h : ∀ w c, Sim Bad e (v1 w c) (v2 w c))
    (octant : pOctant) (children : Fin 8 → pOctant) (corigin : Fin 8 → COORD) :
    ∀ n w L, Sim Bad e (LB_visit_by_dist_loop U v1 octant children corigin n w L)
      (LB_visit_by_dist_loop U v2 octant children corigin n w L) := by
  intro n
  induction n with
  | zero =>
    intro w L a ha
    simp [LB_visit_by_dist_loop] at ha
  | succ n ih =>
    intro w L
    rw [LB_visit_by_dist_loop, LB_visit_by_dist_loop]
    refine sim_bind (sim_refl Bad e _) (fun p => ?_)
    obtain ⟨pcentroid, mindist, minchild⟩ := p
    cases minchild with
    | none => exact sim_refl Bad e _
    | some i => exact sim_bind (h w (children i)) (fun w' => ih w' _)

theorem sim_by_dist {Bad : Prop} {e : Fault} (U : OctUtil)
    {v1 v2 : World → pOctant → Except Fault World} (h : ∀ w c, Sim Bad e (v1 w c) (v2 w c))
    (w : World) (octant : pOctant) (children : Fin 8 → pOctant) :
    Sim Bad e (LB_visit_by_dist U v1 w octant children)
      (LB_visit_by_dist U v2 w octant children) := by
  unfold LB_visit_by_dist
  refine sim_bind (sim_refl Bad e _) (fun p => ?_)
  obtain ⟨mn, mx⟩ := p
  exact sim_by_dist_loop U h octant children _ 9 w initDistLocals

theorem sim_behind {Bad : Prop} {e : Fault} {ρ1 ρ2 : Arith} (h : ArithSim Bad e ρ1 ρ2)
    (w : World) : Sim Bad e (LB_visit_behind_r ρ1 w) (LB_visit_behind_r ρ2 w) := by
  unfold LB_visit_behind_r
  exact sim_bind (h.1 _ _) (fun index => sim_bind (h.1 _ _) (fun product => h.1 _ _))

theorem sim_fits {Bad : Prop} {e : Fault} {ρ1 ρ2 : Arith} (h : ArithSim Bad e ρ1 ρ2)
    (w : World) (cost behind : ℚ) :
    Sim Bad e (LB_visit_fits_r ρ1 w cost behind) (LB_visit_fits_r ρ2 w cost behind) := by
  unfold LB_visit_fits_r
  exact sim_ite _ (sim_refl Bad e _)
    (sim_bind (h.1 _ _) (fun load => sim_bind (h.1 _ _) (fun room => sim_refl Bad e _)))

theorem sim_account {Bad : Prop} {e : Fault} {ρ1 ρ2 : Arith} (h : ArithSim Bad e ρ1 ρ2)
    (U : OctUtil) (w : World) (octant : pOctant) (cost : ℚ) :
    Sim Bad e (LB_visit_account_r ρ1 U w octant cost) (LB_visit_account_r ρ2 U w octant cost) := by
  unfold LB_visit_account_r
  exact sim_bind (h.1 _ _) (fun pcost => sim_refl Bad e _)

theorem sim_close {Bad : Prop} {e : Fault} {ρ1 ρ2 : Arith} (h : ArithSim Bad e ρ1 ρ2)
    (w : World) : Sim Bad e (LB_visit_close_r ρ1 w) (LB_visit_close_r ρ2 w) := by
  unfold LB_visit_close_r
  exact sim_bind (h.1 _ _) (fun total => sim_refl Bad e _)

theorem sim_decide {Bad : Prop} {e : Fault} {ρ1 ρ2 : Arith} (h : ArithSim Bad e ρ1 ρ2)
    (w : World) (cost behind : ℚ) :
    Sim Bad e (LB_visit_decide_r ρ1 w cost behind) (LB_visit_decide_r ρ2 w cost behind) := by
  unfold LB_visit_decide_r
  exact sim_bind (h.1 _ _) (fun sum => sim_bind (h.1 _ _) (fun togo => sim_bind (h.1 _ _)
    (fun over => sim_ite _ (sim_close h w) (sim_refl Bad e _))))

/-- `LB_visit` over an arithmetic that follows another one follows the run over that one. -/
theorem sim_visit {Bad : Prop} {e : Fault} {ρ1 ρ2 : Arith} (h : ArithSim Bad e ρ1 ρ2)
    (U : OctUtil) :
    ∀ fuel w octant, Sim Bad e (LB_visit_r ρ1 U fuel w octant) (LB_visit_r ρ2 U fuel w octant) := by
  intro fuel
  induction fuel with
  | zero =>
    intro w octant a ha
    simp [LB_visit_r] at ha
  | succ fuel ih =>
    intro w octant
    rw [LB_visit_r, LB_visit_r]
    refine sim_bind (sim_refl Bad e _) (fun stored => ?_)
    refine sim_bind (h.1 _ _) (fun cost => ?_)
    refine sim_bind (sim_behind h _) (fun behind => ?_)
    refine sim_bind (sim_fits h _ _ _) (fun fits => ?_)
    cases fits with
    | true =>
      simp only [if_true]
      exact sim_bind (sim_refl Bad e _) (fun w1 => sim_account h U _ _ _)
    | false =>
      simp only [Bool.false_eq_true, if_false]
      refine sim_bind (sim_refl Bad e _) (fun terminal => ?_)
      cases terminal with
      | true =>
        simp only [Bool.not_true, Bool.false_eq_true, if_false]
        exact sim_bind (sim_decide h _ _ _) (fun w1 => sim_bind (sim_refl Bad e _)
          (fun w2 => sim_account h U _ _ _))
      | false =>
        simp only [Bool.not_false, if_true]
        refine sim_bind (sim_refl Bad e _) (fun w1 => ?_)
        refine sim_bind (sim_refl Bad e _) (fun p => ?_)
        obtain ⟨nc, children⟩ := p
        refine sim_ite _ (sim_by_dist U (fun w c => ih w c) _ _ _) ?_
        refine sim_foldlM (fun w2 i => ?_) slots w1
        refine sim_ite _ ?_ (sim_refl Bad e _)
        refine sim_bind (sim_refl Bad e _) (fun loc => ?_)
        cases loc with
        | true => simpa using ih w2 (children i)
        | false => exact sim_refl Bad e _

theorem sim_all_subtrees {Bad : Prop} {e : Fault} {ρ1 ρ2 : Arith} (h : ArithSim Bad e ρ1 ρ2)
    (U : OctUtil) (fuel : Nat) (w : World) :
    Sim Bad e (LB_visit_all_subtrees_r ρ1 U fuel w) (LB_visit_all_subtrees_r ρ2 U fuel w) := by
  unfold LB_visit_all_subtrees_r
  exact sim_foldlM (fun w r => sim_visit h U fuel w (some r)) _ w

theorem sim_seed {Bad : Prop} {e : Fault} {ρ1 ρ2 : Arith} (h : ArithSim Bad e ρ1 ρ2)
    (N : Int) (G S : ℚ) (w : World) :
    Sim Bad e (LB_dfs_partition_seed_r ρ1 N G S w) (LB_dfs_partition_seed_r ρ2 N G S w) := by
  unfold LB_dfs_partition_seed_r
  refine sim_bind (h.1 _ _) (fun g => sim_bind (h.1 _ _) (fun s => sim_bind (h.1 _ _) (fun c =>
    sim_bind (sim_refl Bad e _) (fun x => sim_bind (h.1 _ _) (fun o =>
    sim_bind (sim_refl Bad e _) (fun x' => sim_bind (h.2 _) (fun p =>
    sim_bind (h.1 _ _) (fun i => sim_bind (h.1 _ _) (fun pr =>
    sim_bind (h.1 _ _) (fun t => sim_bind (h.1 _ _) (fun i' => sim_bind (h.1 _ _) (fun pr' =>
    sim_bind (h.1 _ _) (fun pc => sim_refl Bad e _)))))))))))))

/-- A pass over an arithmetic that follows another one follows the pass over that one. -/
theorem sim_pass {Bad : Prop} {e : Fault} {ρ1 ρ2 : Arith} (h : ArithSim Bad e ρ1 ρ2)
    (U : OctUtil) (fuel : Nat) (N : Int) (m G S : ℚ) (w : World) :
    Sim Bad e (LB_dfs_partition_r ρ1 U fuel N m G S w) (LB_dfs_partition_r ρ2 U fuel N m G S w) := by
  unfold LB_dfs_partition_r
  exact sim_bind (h.1 _ _) (fun m' => sim_bind (sim_seed h N G S w) (fun w1 =>
    sim_bind (sim_all_subtrees h U fuel w1) (fun w2 => sim_refl Bad e _)))

theorem checkedArith_op (ρ : Arith) (s : Site) (x : ℚ) :
    (checkedArith ρ).op s x =
      (match ρ.op s x with
      | Except.ok y => if y = x then Except.ok x else Except.error Fault.inexact
      | Except.error _ => Except.error Fault.inexact) := rfl

theorem checkedArith_toInt (ρ : Arith) (x : ℚ) :
    (checkedArith ρ).toInt x =
      (match ρ.toInt x, float_to_int32 x with
      | Except.ok a, Except.ok b => if a = b then Except.ok a else Except.error Fault.inexact
      | _, _ => Except.error Fault.inexact) := rfl

/-- The checked arithmetic follows the exact one, up to the fault `inexact`. -/
theorem exact_checked (ρ : Arith) : ArithSim True Fault.inexact exactArith (checkedArith ρ) := by
  constructor
  · intro s x a ha
    cases ha
    rw [checkedArith_op]
    cases ρ.op s x with
    | error e => exact Or.inr ⟨trivial, rfl⟩
    | ok y =>
      by_cases hy : y = x
      · left
        simp [hy]
      · right
        simp [hy]
  · intro x b hb
    have hb' : float_to_int32 x = .ok b := hb
    rw [checkedArith_toInt, hb']
    cases ρ.toInt x with
    | error e => exact Or.inr ⟨trivial, rfl⟩
    | ok a =>
      by_cases hab : a = b
      · left
        simp [hab]
      · right
        simp [hab]

/-- What a returning operation of the checked arithmetic tells. -/
theorem checked_op_ok {ρ : Arith} {s : Site} {x a : ℚ} (h : (checkedArith ρ).op s x = .ok a) :
    a = x ∧ ρ.op s x = .ok x := by
  have h' := h
  rw [checkedArith_op] at h'
  cases hρ : ρ.op s x with
  | error e' => simp [hρ] at h'
  | ok y =>
    rw [hρ] at h'
    by_cases hy : y = x
    · simp only [hy, if_true] at h'
      cases h'
      exact ⟨rfl, by rw [hy]⟩
    · simp [hy] at h'

/-- What a returning conversion of the checked arithmetic tells. -/
theorem checked_toInt_ok {ρ : Arith} {x : ℚ} {a : Int} (h : (checkedArith ρ).toInt x = .ok a) :
    ρ.toInt x = .ok a ∧ float_to_int32 x = .ok a := by
  have h' := h
  rw [checkedArith_toInt] at h'
  cases hρ : ρ.toInt x with
  | error e' => simp [hρ] at h'
  | ok c =>
    cases hx : float_to_int32 x with
    | error e' => simp [hρ, hx] at h'
    | ok b =>
      rw [hρ, hx] at h'
      by_cases hcb : c = b
      · simp only [hcb, if_true] at h'
        cases h'
        exact ⟨by rw [hcb], rfl⟩
      · simp [hcb] at h'

/-- Every arithmetic follows its checked version. -/
theorem checked_self (e : Fault) (ρ : Arith) : ArithSim False e (checkedArith ρ) ρ := by
  constructor
  · intro s x a ha
    obtain ⟨rfl, h⟩ := checked_op_ok ha
    exact Or.inl h
  · intro x a ha
    exact Or.inl (checked_toInt_ok ha).1

/-- The exact arithmetic follows every checked arithmetic. -/
theorem checked_exact (e : Fault) (ρ : Arith) : ArithSim False e (checkedArith ρ) exactArith := by
  constructor
  · intro s x a ha
    obtain ⟨rfl, _⟩ := checked_op_ok ha
    exact Or.inl rfl
  · intro x a ha
    exact Or.inl (checked_toInt_ok ha).2

/-! ## The exact arithmetic gives the exact functions -/

theorem exactArith_op (s : Site) (x : ℚ) : exactArith.op s x = .ok x := rfl

theorem exactArith_toInt (x : ℚ) : exactArith.toInt x = float_to_int32 x := rfl

theorem LB_visit_behind_r_exact (w : World) :
    LB_visit_behind_r exactArith w = .ok ((w.partition : ℚ) * w.optcost - w.total) := rfl

theorem LB_visit_fits_r_exact (w : World) (cost behind : ℚ) :
    LB_visit_fits_r exactArith w cost behind =
      .ok (decide (cost = 0 ∨ w.pcost + cost ≤ w.optcost + behind)) := by
  unfold LB_visit_fits_r
  by_cases hc : cost = 0
  · simp [hc]
  · simp [hc, exactArith_op]

theorem LB_visit_decide_r_exact (w : World) (cost behind : ℚ) :
    LB_visit_decide_r exactArith w cost behind =
      .ok (if cost - (behind + w.optcost - w.pcost) ≥ behind + w.optcost - w.pcost then
          { w with partition := w.partition + 1, total := w.total + w.pcost, pcost := 0,
                   pmass := 0, pcoord := vector_set_comp 0 0 0 }
        else w) := by
  unfold LB_visit_decide_r LB_visit_close_r
  simp only [exactArith_op, ok_bind, pure_eq_ok]
  split_ifs <;> rfl

/-- Over the exact arithmetic, `LB_visit_r` is `LB_visit`. -/
theorem LB_visit_r_exact (U : OctUtil) :
    ∀ fuel w octant, LB_visit_r exactArith U fuel w octant = LB_visit U fuel w octant := by
  intro fuel
  induction fuel with
  | zero => intro w octant; rfl
  | succ fuel ih =>
    intro w octant
    rw [LB_visit_r, LB_visit]
    cases hcost : LB_costs_value { w with DFS_Part_Count := w.DFS_Part_Count + 1 } octant with
    | error e => rfl
    | ok cost =>
      simp only [ok_bind, LB_visit_behind_r_exact, LB_visit_fits_r_exact,
        LB_visit_decide_r_exact, exactArith_op]
      by_cases hf : cost = 0 ∨
          w.pcost + cost ≤ w.optcost + ((w.partition : ℚ) * w.optcost - w.total)
      · simp only [decide_eq_true hf, if_true, if_pos hf]
        rfl
      · simp only [decide_eq_false hf, Bool.false_eq_true, if_false, if_neg hf, ih]
        rfl

theorem LB_visit_all_subtrees_r_exact (U : OctUtil) (fuel : Nat) (w : World) :
    LB_visit_all_subtrees_r exactArith U fuel w = LB_visit_all_subtrees U fuel w := by
  unfold LB_visit_all_subtrees_r LB_visit_all_subtrees
  simp only [LB_visit_r_exact]

/-- Over the exact arithmetic the seeding is the exact seeding, when the quotient
`prefcost/optcost` is in the range of the conversion to `int`. -/
theorem LB_dfs_partition_seed_r_exact (N : Int) (G S : ℚ) (w : World)
    (hr : -(2 : ℚ) ^ 31 - 1 < S / (G / (N : ℚ)) ∧ S / (G / (N : ℚ)) < (2 : ℚ) ^ 31) :
    LB_dfs_partition_seed_r exactArith N G S w = LB_dfs_partition_seed N G S w := by
  unfold LB_dfs_partition_seed_r LB_dfs_partition_seed
  simp only [exactArith_op, exactArith_toInt, ok_bind]
  by_cases hN : (N : ℚ) = 0
  · simp [fdiv, hN]
  · simp only [fdiv, if_neg hN, ok_bind]
    by_cases hG : G / (N : ℚ) = 0
    · simp [hG]
    · simp only [if_neg hG, ok_bind, float_to_int32, if_pos hr]

/-- Over the exact arithmetic a pass is the exact pass, when the quotient `prefcost/optcost`
is in the range of the conversion to `int`. -/
theorem LB_dfs_partition_r_exact (U : OctUtil) (fuel : Nat) (N : Int) (m G S : ℚ) (w : World)
    (hr : -(2 : ℚ) ^ 31 - 1 < S / (G / (N : ℚ)) ∧ S / (G / (N : ℚ)) < (2 : ℚ) ^ 31) :
    LB_dfs_partition_r exactArith U fuel N m G S w = LB_dfs_partition U fuel N m G S w := by
  unfold LB_dfs_partition_r LB_dfs_partition
  rw [LB_dfs_partition_seed_r_exact N G S w hr]
  simp only [exactArith_op, ok_bind, LB_visit_all_subtrees_r_exact]

/-- The transfer from the exact run: a pass that returns in exact arithmetic, with the
quotient of the seeding in the range of `int`, returns the same result over every arithmetic
whose checked run is not the fault `inexact`. -/
theorem pass_transfer (ρ : Arith) {U : OctUtil} {fuel : Nat} {N : Int} {m G S : ℚ} {w : World}
    {x : World × Int × ℚ} (hx : LB_dfs_partition U fuel N m G S w = .ok x)
    (hr : -(2 : ℚ) ^ 31 - 1 < S / (G / (N : ℚ)) ∧ S / (G / (N : ℚ)) < (2 : ℚ) ^ 31)
    (hc : faultOf (LB_dfs_partition_r (checkedArith ρ) U fuel N m G S w) ≠ some Fault.inexact) :
    LB_dfs_partition_r (checkedArith ρ) U fuel N m G S w = .ok x ∧
    LB_dfs_partition_r ρ U fuel N m G S w = .ok x := by
  rw [← LB_dfs_partition_r_exact U fuel N m G S w hr] at hx
  have hck : LB_dfs_partition_r (checkedArith ρ) U fuel N m G S w = .ok x := by
    rcases sim_pass (exact_checked ρ) U fuel N m G S w x hx with h | ⟨_, h⟩
    · exact h
    · rw [h] at hc
      exact absurd rfl hc
  refine ⟨hck, ?_⟩
  rcases sim_pass (checked_self Fault.inexact ρ) U fuel N m G S w x hck with h | ⟨hF, _⟩
  · exact h
  · exact hF.elim

/-- A pass that returns in the checked arithmetic returns the same result in the arithmetic
itself and in the exact one. -/
theorem pass_checked (ρ : Arith) {U : OctUtil} {fuel : Nat} {N : Int} {m G S : ℚ} {w : World}
    {x : World × Int × ℚ} (hx : LB_dfs_partition_r (checkedArith ρ) U fuel N m G S w = .ok x) :
    LB_dfs_partition_r ρ U fuel N m G S w = .ok x ∧
    LB_dfs_partition_r exactArith U fuel N m G S w = .ok x := by
  constructor
  · rcases sim_pass (checked_self Fault.inexact ρ) U fuel N m G S w x hx with h | ⟨hF, _⟩
    · exact h
    · exact hF.elim
  · rcases sim_pass (checked_exact Fault.inexact ρ) U fuel N m G S w x hx with h | ⟨hF, _⟩
    · exact h
    · exact hF.elim

/-- The transfer for a call of `LB_visit`. -/
theorem visit_transfer (ρ : Arith) {U : OctUtil} {fuel : Nat} {w w' : World} {octant : pOctant}
    (hx : LB_visit U fuel w octant = .ok w')
    (hc : faultOf (LB_visit_r (checkedArith ρ) U fuel w octant) ≠ some Fault.inexact) :
    LB_visit_r (checkedArith ρ) U fuel w octant = .ok w' ∧
    LB_visit_r ρ U fuel w octant = .ok w' := by
  rw [← LB_visit_r_exact U fuel w octant] at hx
  have hck : LB_visit_r (checkedArith ρ) U fuel w octant = .ok w' := by
    rcases sim_visit (exact_checked ρ) U fuel w octant w' hx with h | ⟨_, h⟩
    · exact h
    · rw [h] at hc
      exact absurd rfl hc
  refine ⟨hck, ?_⟩
  rcases sim_visit (checked_self Fault.inexact ρ) U fuel w octant w' hck with h | ⟨hF, _⟩
  · exact h
  · exact hF.elim

/-- A call of `LB_visit` that returns in the checked arithmetic returns the same state in the
arithmetic itself and in exact arithmetic. -/
theorem visit_checked (ρ : Arith) {U : OctUtil} {fuel : Nat} {w w' : World} {octant : pOctant}
    (hx : LB_visit_r (checkedArith ρ) U fuel w octant = .ok w') :
    LB_visit_r ρ U fuel w octant = .ok w' ∧ LB_visit U fuel w octant = .ok w' := by
  constructor
  · rcases sim_visit (checked_self Fault.inexact ρ) U fuel w octant w' hx with h | ⟨hF, _⟩
    · exact h
    · exact hF.elim
  · rw [← LB_visit_r_exact U fuel w octant]
    rcases sim_visit (checked_exact Fault.inexact ρ) U fuel w octant w' hx with h | ⟨hF, _⟩
    · exact h
    · exact hF.elim

/-! ## The seeding under a rounding -/

/-- The seeding under the rounding `R`, when the two divisors are not 0 and the quotient is in
the range of `int`. -/
theorem seed_r_eq (R : Site → ℚ → ℚ) (N : Int) (G S : ℚ) (w : World)
    (hc : R .count (N : ℚ) ≠ 0) (ho : seed_optcost R N G ≠ 0)
    (hq : -(2 : ℚ) ^ 31 - 1 < seed_quotient R N G S ∧ seed_quotient R N G S < (2 : ℚ) ^ 31) :
    LB_dfs_partition_seed_r (roundedArith R) N G S w =
      .ok { w with
        DFS_Part_Count := 0
        optcost := seed_optcost R N G
        partition := seed_partition R N G S
        total := R .seedTotal (seed_product R N G S)
        pcost := R .seedPcost (R .prefcost S - seed_product R N G S)
        pmass := 0
        pcoord := vector_set_comp 0 0 0 } := by
  unfold LB_dfs_partition_seed_r
  have ho' : R .optcost (R .globalcost G / R .count (N : ℚ)) ≠ 0 := ho
  have hq' : -(2 : ℚ) ^ 31 - 1 <
      R .quotient (R .prefcost S / R .optcost (R .globalcost G / R .count (N : ℚ))) ∧
      R .quotient (R .prefcost S / R .optcost (R .globalcost G / R .count (N : ℚ))) <
        (2 : ℚ) ^ 31 := hq
  simp only [roundedArith, ok_bind, fdiv, if_neg hc, if_neg ho', float_to_int32, if_pos hq']
  by_cases hp : float_to_int
      (R .quotient (R .prefcost S / R .optcost (R .globalcost G / R .count (N : ℚ)))) = N
  · simp only [seed_partition, seed_quotient, seed_optcost, seed_product, if_pos hp]
    rfl
  · simp only [seed_partition, seed_quotient, seed_optcost, seed_product, if_neg hp]
    rfl

/-- The quotient `prefcost/optcost` of the exact seeding is in the range of `int`. -/
theorem quotient_range {N : Int} {G S : ℚ} (hN : 1 ≤ N) (hN31 : (N : ℚ) < (2 : ℚ) ^ 31)
    (hG : 0 < G) (h0 : 0 ≤ S) (h1 : S ≤ G) :
    -(2 : ℚ) ^ 31 - 1 < S / (G / (N : ℚ)) ∧ S / (G / (N : ℚ)) < (2 : ℚ) ^ 31 := by
  have hPq : (0 : ℚ) < N := by exact_mod_cast (show (0 : Int) < N by omega)
  have ho : 0 < G / (N : ℚ) := div_pos hG hPq
  have hq0 : 0 ≤ S / (G / N) := div_nonneg h0 ho.le
  have hqP : S / (G / N) ≤ N := by
    rw [div_le_iff₀ ho]
    have : (N : ℚ) * (G / N) = G := by field_simp
    rw [this]
    exact h1
  constructor
  · have : -(2 : ℚ) ^ 31 - 1 < 0 := by norm_num
    linarith
  · linarith

/-- A pass that returns over the exact arithmetic returns in the exact functions. -/
theorem pass_r_exact_ok {U : OctUtil} {fuel : Nat} {N : Int} {m G S : ℚ} {w : World}
    {x : World × Int × ℚ} (h : LB_dfs_partition_r exactArith U fuel N m G S w = .ok x) :
    LB_dfs_partition U fuel N m G S w = .ok x := by
  by_cases hr : -(2 : ℚ) ^ 31 - 1 < S / (G / (N : ℚ)) ∧ S / (G / (N : ℚ)) < (2 : ℚ) ^ 31
  · rwa [LB_dfs_partition_r_exact U fuel N m G S w hr] at h
  · exfalso
    unfold LB_dfs_partition_r LB_dfs_partition_seed_r at h
    simp only [exactArith_op, exactArith_toInt, ok_bind, fdiv] at h
    by_cases hN : (N : ℚ) = 0
    · simp [hN] at h
    · simp only [if_neg hN, ok_bind] at h
      by_cases hG : G / (N : ℚ) = 0
      · simp [hG] at h
      · simp only [if_neg hG, ok_bind, float_to_int32, if_neg hr] at h
        simp at h

/-- The passes of all processes over an arithmetic whose checked runs are not the fault
`inexact` are the passes in exact arithmetic, for fewer than `2^31` processes. -/
theorem passes_transfer (ρ : Arith) (U : OctUtil) (fuel : Nat) (P : Int) (G : ℚ)
    (hP : 1 ≤ P) (hP31 : (P : ℚ) < (2 : ℚ) ^ 31) (hG : 0 < G) :
    ∀ (procs : List World) (S : ℚ), 0 ≤ S → S + (procs.map localCost).sum ≤ G →
      (∀ w ∈ procs, 0 ≤ localCost w) →
      (∀ res ∈ passes U fuel P G S procs, ∃ w' c m, res = .ok (w', c, m)) →
      (∀ res ∈ passes_r (checkedArith ρ) U fuel P G S procs,
        faultOf res ≠ some Fault.inexact) →
      passes_r ρ U fuel P G S procs = passes U fuel P G S procs := by
  intro procs
  induction procs with
  | nil => intro S _ _ _ _ _; rfl
  | cons w rest ih =>
    intro S h0 hsum hnn hres hck
    simp only [List.map_cons, List.sum_cons] at hsum
    have hw0 : 0 ≤ localCost w := hnn w (List.mem_cons_self _ _)
    have hrest0 : 0 ≤ (rest.map localCost).sum := by
      apply List.sum_nonneg
      intro q hq
      obtain ⟨v, hv, rfl⟩ := List.mem_map.1 hq
      exact hnn v (List.mem_cons_of_mem _ hv)
    obtain ⟨w', c, m, hx⟩ := hres (LB_dfs_partition U fuel P (localCost w) G S w)
      (by simp only [passes, List.mem_cons, true_or])
    have hr := quotient_range hP hP31 hG h0 (by linarith)
    have hhead := (pass_transfer ρ hx hr
      (hck (LB_dfs_partition_r (checkedArith ρ) U fuel P (localCost w) G S w)
        (by simp only [passes_r, List.mem_cons, true_or]))).2
    have htail := ih (S + localCost w) (by linarith) (by linarith)
      (fun v hv => hnn v (List.mem_cons_of_mem _ hv))
      (fun res hres' => hres res (by simp only [passes, List.mem_cons]; exact Or.inr hres'))
      (fun res hres' => hck res (by simp only [passes_r, List.mem_cons]; exact Or.inr hres'))
    simp only [passes_r, passes, hhead, hx, htail]

/-! ## The range of the seeded partition under a bounded relative error -/

/-- With `0 ≤ S ≤ G`, `G > 0`, `N ≥ 1` and quotients `o` of `G / N` and `q` of `S / o`
computed with a relative error of at most `u`, where `(2 N + 1) u < 1`: the divisor `o` is
positive and `0 ≤ q < N + 1`. -/
theorem rounded_quotient_range {N : Int} {G S u o q : ℚ} (hN : 1 ≤ N) (hG : 0 < G)
    (h0 : 0 ≤ S) (h1 : S ≤ G) (hu0 : 0 ≤ u) (hu : (2 * (N : ℚ) + 1) * u < 1)
    (hopt : |o - G / (N : ℚ)| ≤ u * (G / (N : ℚ))) (hquo : |q - S / o| ≤ u * (S / o)) :
    0 < o ∧ 0 ≤ q ∧ q < (N : ℚ) + 1 := by
  have hNq : (1 : ℚ) ≤ N := by exact_mod_cast hN
  have hu1 : u < 1 := by nlinarith
  have hg : 0 < G / (N : ℚ) := div_pos hG (by linarith)
  obtain ⟨ho1, ho2⟩ := abs_le.1 hopt
  have ho : G / (N : ℚ) * (1 - u) ≤ o := by linarith
  have hopos : 0 < o := lt_of_lt_of_le (mul_pos hg (by linarith)) ho
  have hso : 0 ≤ S / o := div_nonneg h0 hopos.le
  obtain ⟨hq1, hq2⟩ := abs_le.1 hquo
  have hq0 : 0 ≤ q := by nlinarith
  have hGN : (N : ℚ) * (G / (N : ℚ)) = G := by
    field_simp
  have hkey : S / o * (1 - u) ≤ N := by
    rw [div_mul_eq_mul_div, div_le_iff₀ hopos]
    have h2 : S * (1 - u) ≤ G * (1 - u) := mul_le_mul_of_nonneg_right h1 (by linarith)
    have h3 : (N : ℚ) * (G / (N : ℚ) * (1 - u)) ≤ (N : ℚ) * o :=
      mul_le_mul_of_nonneg_left ho (by linarith)
    have h4 : (N : ℚ) * (G / (N : ℚ) * (1 - u)) = G * (1 - u) := by
      rw [← mul_assoc, hGN]
    linarith
  have h2ut : 2 * u * (S / o) < 1 := by
    by_contra hcon
    push_neg at hcon
    have h5 : (1 - u) * 1 ≤ (1 - u) * (2 * u * (S / o)) :=
      mul_le_mul_of_nonneg_left hcon (by linarith)
    have h6 : 2 * u * (S / o * (1 - u)) ≤ 2 * u * N :=
      mul_le_mul_of_nonneg_left hkey (by linarith)
    nlinarith
  refine ⟨hopos, hq0, ?_⟩
  nlinarith

/-- The seeding under a rounding with a bounded relative error of the two quotients: the partition
is the floor of the computed quotient, clamped, and lies in `[0, Num_Proc - 1]`. -/
theorem seed_r_range (R : Site → ℚ → ℚ) (N : Int) (G S u : ℚ) (w : World)
    (hN : 1 ≤ N) (hN31 : (N : ℚ) + 1 ≤ (2 : ℚ) ^ 31) (hG : 0 < G) (h0 : 0 ≤ S) (h1 : S ≤ G)
    (hcnt : R .count (N : ℚ) = N)
    (hu0 : 0 ≤ u) (hu : (2 * (N : ℚ) + 1) * u < 1)
    (hopt : |seed_optcost R N G - G / (N : ℚ)| ≤ u * (G / (N : ℚ)))
    (hquo : |seed_quotient R N G S - S / seed_optcost R N G| ≤ u * (S / seed_optcost R N G)) :
    ∃ w', LB_dfs_partition_seed_r (roundedArith R) N G S w = .ok w' ∧
      w'.optcost = seed_optcost R N G ∧
      w'.partition = min ⌊seed_quotient R N G S⌋ (N - 1) ∧
      0 ≤ w'.partition ∧ w'.partition ≤ N - 1 := by
  obtain ⟨hopos, hq0, hqN⟩ := rounded_quotient_range hN hG h0 h1 hu0 hu hopt hquo
  have hNq : (1 : ℚ) ≤ N := by exact_mod_cast hN
  have hc : R .count (N : ℚ) ≠ 0 := by
    rw [hcnt]
    linarith
  have hq : -(2 : ℚ) ^ 31 - 1 < seed_quotient R N G S ∧ seed_quotient R N G S < (2 : ℚ) ^ 31 := by
    constructor
    · have : -(2 : ℚ) ^ 31 - 1 < 0 := by norm_num
      linarith
    · linarith
  have hfl : float_to_int (seed_quotient R N G S) = ⌊seed_quotient R N G S⌋ := by
    unfold float_to_int
    rw [if_pos hq0]
  have hf0 : 0 ≤ ⌊seed_quotient R N G S⌋ := Int.floor_nonneg.2 hq0
  have hfN : ⌊seed_quotient R N G S⌋ ≤ N := by
    have : ⌊seed_quotient R N G S⌋ < N + 1 := by
      rw [Int.floor_lt]
      push_cast
      exact hqN
    omega
  have hpart : seed_partition R N G S = min ⌊seed_quotient R N G S⌋ (N - 1) := by
    unfold seed_partition
    rw [hfl]
    by_cases hp : ⌊seed_quotient R N G S⌋ = N
    · rw [if_pos hp, hp]
      omega
    · rw [if_neg hp]
      omega
  refine ⟨_, seed_r_eq R N G S w hc (ne_of_gt hopos) hq, rfl, hpart, ?_, ?_⟩
  · show 0 ≤ seed_partition R N G S
    rw [hpart]
    omega
  · show seed_partition R N G S ≤ N - 1
    rw [hpart]
    omega

/-! ## The sample forests of the floating-point runs -/

theorem rootsWorld_mem {lp : Int} {cs : List ℚ} {a : Nat} {o : Octant}
    (h : (rootsWorld lp cs).mem a = some o) :
    ∃ c ∈ cs, o = { sampleLeaf c with ppid := lp, npid := lp } := by
  have h' : (cs[a]?).map (fun c => { sampleLeaf c with ppid := lp, npid := lp }) = some o := h
  obtain ⟨c, hc, rfl⟩ := Option.map_eq_some'.1 h'
  exact ⟨c, List.getElem?_mem hc, rfl⟩

theorem rootsWorld_roots (lp : Int) (cs : List ℚ) :
    ∀ r ∈ (rootsWorld lp cs).OCT_rootlist, Depth (rootsWorld lp cs) 1 r := by
  intro r hr
  have hlt : r < cs.length := List.mem_range.1 hr
  have hm : (rootsWorld lp cs).mem r =
      some { sampleLeaf cs[r] with ppid := lp, npid := lp } := by
    show (cs[r]?).map _ = _
    rw [List.getElem?_eq_getElem hlt]
    rfl
  exact Depth.node hm (fun i c hch _ => by simp [sampleLeaf] at hch)

theorem rootsWorld_costOK (lp : Int) {cs : List ℚ} (h : ∀ c ∈ cs, 0 ≤ c) :
    CostOK (rootsWorld lp cs) := by
  intro a o hm
  obtain ⟨c, hc, rfl⟩ := rootsWorld_mem hm
  have hz : (slots.map (childCost (rootsWorld lp cs)
      { sampleLeaf c with ppid := lp, npid := lp })).sum = 0 := by
    simp [slots, childCost, sampleLeaf]
  rw [hz]
  exact ⟨h c hc, h c hc⟩

theorem rootsWorld_costExact (lp : Int) {cs : List ℚ} (h : ∀ c ∈ cs, 0 ≤ c) :
    CostExact (rootsWorld lp cs) := by
  intro a o hm
  obtain ⟨c, hc, rfl⟩ := rootsWorld_mem hm
  exact ⟨h c hc, fun hnt => absurd (fun i => rfl) hnt⟩

theorem rootsWorld_costSum (lp : Int) (cs : List ℚ) : CostSum (rootsWorld lp cs) := by
  intro a o hm hnt
  obtain ⟨c, _, rfl⟩ := rootsWorld_mem hm
  exact absurd (fun i => rfl) hnt

theorem roundingWorld_roots :
    ∀ r ∈ roundingWorld.OCT_rootlist, Depth roundingWorld 2 r := by
  intro r hr
  have : r = 0 := by simpa [roundingWorld] using hr
  subst this
  refine Depth.node (o := roundingRoot) rfl (fun i c hch _ => ?_)
  simp only [roundingRoot] at hch
  split at hch
  · cases hch
    have h3 : i.val = 0 ∨ i.val = 1 ∨ i.val = 2 := by omega
    rcases h3 with h | h | h
    · rw [h]
      exact Depth.node (o := sampleLeaf 1) rfl (fun j d hd _ => by simp [sampleLeaf] at hd)
    · rw [h]
      exact Depth.node (o := sampleLeaf (1 - 1 / 2 ^ 24)) rfl
        (fun j d hd _ => by simp [sampleLeaf] at hd)
    · rw [h]
      exact Depth.node (o := sampleLeaf (1 / 2 ^ 24)) rfl
        (fun j d hd _ => by simp [sampleLeaf] at hd)
  · cases hch

theorem roundingWorld_costOK : CostOK roundingWorld := by
  intro a o hm
  match a, hm with
  | 0, hm =>
    have h : some roundingRoot = some o := hm
    cases h
    decide!
  | 1, hm =>
    have h : some (sampleLeaf 1) = some o := hm
    cases h
    decide!
  | 2, hm =>
    have h : some (sampleLeaf (1 - 1 / 2 ^ 24)) = some o := hm
    cases h
    decide!
  | 3, hm =>
    have h : some (sampleLeaf (1 / 2 ^ 24)) = some o := hm
    cases h
    decide!
  | n + 4, hm =>
    have h : (none : Option Octant) = some o := hm
    cases h

end Zoltan

namespace Tempus

/-! ## The escalation of the order in `getNextTimeStep` -/

theorem resetStep_fields (tsc : TimeStepControl) (m : MetaData) :
    (resetStep tsc m).order = m.order ∧ (resetStep tsc m).errorAbs = m.errorAbs ∧
      (resetStep tsc m).errorRel = m.errorRel ∧
      (resetStep tsc m).suggestedDt = m.suggestedDt := by
  unfold resetStep
  by_cases h : m.dt < tsc.dtMin
  · simp only [if_pos h, and_self]
  · simp only [if_neg h, and_self]

/-- One block of the escalation: either the order has grown by one or not at all, according
to the test, and stays within `orderMax`; or the test holds at the order `orderMax`, and the
call returns with `integratorStatus = false`. -/
theorem raiseOrder_cases (tsc : TimeStepControl) (failed : Prop) [Decidable failed]
    (m : MetaData) (h : m.order ≤ tsc.orderMax) :
    (∃ m', raiseOrder tsc failed m = .ok m' ∧
      m'.order = m.order + (if failed then 1 else 0) ∧ m'.order ≤ tsc.orderMax ∧
      m'.suggestedDt = m.suggestedDt ∧ m'.errorAbs = m.errorAbs ∧ m'.errorRel = m.errorRel) ∨
    (raiseOrder tsc failed m = .error ⟨m, false, .returned⟩ ∧ failed ∧
      m.order = tsc.orderMax) := by
  unfold raiseOrder
  by_cases hc : failed
  · by_cases ho : m.order + 1 ≤ tsc.orderMax
    · left
      refine ⟨{ m with order := m.order + 1 }, ?_, ?_, ho, rfl, rfl, rfl⟩
      · rw [if_pos hc, if_pos ho]
        rfl
      · rw [if_pos hc]
    · right
      refine ⟨?_, hc, by omega⟩
      rw [if_pos hc, if_neg ho]
  · left
    refine ⟨m, ?_, ?_, h, rfl, rfl, rfl⟩
    · rw [if_neg hc]
      rfl
    · rw [if_neg hc, add_zero]

/-- The checks after the escalation leave the order and `integratorStatus` as they are,
however they end. -/
theorem constantChecks_keeps (tsc : TimeStepControl) (m : MetaData) (integratorStatus : Bool) :
    ∀ r, (constantChecks tsc m integratorStatus = .ok r ∨
        constantChecks tsc m integratorStatus = .error r) →
      r.metaData.order = m.order ∧ r.integratorStatus = integratorStatus := by
  intro r hr
  unfold constantChecks at hr
  simp only [pure, Except.pure] at hr
  split_ifs at hr <;> rcases hr with hr | hr <;> cases hr <;> (try split) <;> exact ⟨rfl, rfl⟩

/-! ## The tokens of a comma-delimited string -/

theorem findFrom_none {p : Char → Bool} : ∀ {s : List Char} {i : Nat},
    findFrom p s i = none ↔ ∀ c ∈ s, p c = false := by
  intro s
  induction s with
  | nil => intro i; simp [findFrom]
  | cons c rest ih =>
    intro i
    unfold findFrom
    by_cases hc : p c = true
    · simp [hc]
    · have hc' : p c = false := by simpa using hc
      rw [if_neg hc, ih]
      simp [hc']

theorem findFrom_some {p : Char → Bool} : ∀ {s : List Char} {i j : Nat},
    findFrom p s i = some j →
      ∃ pre c post, s = pre ++ c :: post ∧ (∀ x ∈ pre, p x = false) ∧ p c = true ∧
        j = i + pre.length := by
  intro s
  induction s with
  | nil => intro i j h; simp [findFrom] at h
  | cons c rest ih =>
    intro i j h
    unfold findFrom at h
    by_cases hc : p c = true
    · rw [if_pos hc] at h
      cases h
      exact ⟨[], c, rest, rfl, fun x hx => absurd hx (List.not_mem_nil x), hc, rfl⟩
    · have hc' : p c = false := by simpa using hc
      rw [if_neg hc] at h
      obtain ⟨pre, c', post, hs, hpre, hc'', hj⟩ := ih h
      refine ⟨c :: pre, c', post, by rw [hs]; rfl, ?_, hc'', ?_⟩
      · intro x hx
        rcases List.mem_cons.1 hx with rfl | hx
        · exact hc'
        · exact hpre x hx
      · rw [hj, List.length_cons]
        omega

theorem contains_comma (c : Char) : [','].contains c = true ↔ c = ',' := by
  simp

theorem fields_nil : fields [] = [] := rfl

theorem fields_comma (s : List Char) : fields (',' :: s) = fields s := by
  unfold fields List.splitOn
  rw [List.splitOnP_cons]
  simp

theorem fields_skip : ∀ (pre s : List Char), (∀ c ∈ pre, c = ',') →
    fields (pre ++ s) = fields s := by
  intro pre
  induction pre with
  | nil => intro s _; rfl
  | cons c rest ih =>
    intro s h
    have hc : c = ',' := h c (List.mem_cons_self _ _)
    subst hc
    rw [List.cons_append, fields_comma]
    exact ih s (fun x hx => h x (List.mem_cons_of_mem _ hx))

theorem fields_commas (s : List Char) (h : ∀ c ∈ s, c = ',') : fields s = [] := by
  have := fields_skip s [] h
  rw [List.append_nil] at this
  rw [this]
  rfl

theorem fields_last (pre : List Char) (hne : pre ≠ []) (h : ∀ c ∈ pre, c ≠ ',') :
    fields pre = [pre] := by
  unfold fields List.splitOn
  rw [List.splitOnP_eq_single]
  · cases pre with
    | nil => exact absurd rfl hne
    | cons c rest => simp
  · intro x hx
    simpa using h x hx

theorem fields_token (pre rest : List Char) (hne : pre ≠ []) (h : ∀ c ∈ pre, c ≠ ',') :
    fields (pre ++ ',' :: rest) = pre :: fields rest := by
  unfold fields List.splitOn
  rw [List.splitOnP_first]
  · cases pre with
    | nil => exact absurd rfl hne
    | cons c rest => simp
  · intro x hx
    simpa using h x hx
  · simp

theorem bind_ok_elim {α β : Type} {x : Except Thrown α} {f : α → Except Thrown β} {b : β}
    (h : x >>= f = .ok b) : ∃ a, x = .ok a ∧ f a = .ok b := by
  cases x with
  | error e => cases h
  | ok a => exact ⟨a, rfl, h⟩

theorem ok_bind_thrown {α β : Type} (a : α) (f : α → Except Thrown β) :
    (Except.ok a >>= f) = f a := rfl

theorem tokenLoop_done {T : Type} (convert : List Char → Except Thrown T)
    (str delimiters : List Char) (fuel : Nat) (out : List T) :
    tokenLoop convert str delimiters (fuel + 1) none none out = .ok out := by
  rw [tokenLoop]
  simp
  rfl

theorem substr_all {str : List Char} {p : Nat} (hp : p ≤ str.length) :
    substr str (some p) none = .ok (str.drop p) := by
  unfold substr
  simp only
  rw [if_neg (by omega)]

theorem substr_some {str : List Char} {p n : Nat} (hp : p ≤ str.length) :
    substr str (some p) (some n) = .ok ((str.drop p).take n) := by
  unfold substr
  simp only
  rw [if_neg (by omega)]

/-- The loop at its head, with `lastPos` at the start of a token and `pos` the position of
the next comma: the values of the fields from there on are appended. -/
theorem tokenLoop_fields {T : Type} (convert : List Char → Except Thrown T) (str : List Char) :
    ∀ (n fuel p : Nat) (out : List T) (s : List Char), s.length ≤ n → str.drop p = s →
      (∃ c rest, s = c :: rest ∧ c ≠ ',') → n < fuel →
      tokenLoop convert str [','] fuel (some p) (find_first_of str [','] (some p)) out =
        (do let vs ← (fields s).mapM convert; pure (out ++ vs)) := by
  intro n
  induction n with
  | zero =>
    intro fuel p out s hlen _ hs _
    obtain ⟨c, rest, rfl, _⟩ := hs
    simp at hlen
  | succ n ih =>
    intro fuel p out s hlen hdrop hs hfuel
    obtain ⟨c0, rest0, hs0, hc0⟩ := hs
    obtain ⟨f, rfl⟩ : ∃ f, fuel = f + 1 := ⟨fuel - 1, by omega⟩
    have hp : p ≤ str.length := by
      by_contra hgt
      have : str.drop p = [] := List.drop_eq_nil_of_le (by omega)
      rw [hdrop, hs0] at this
      cases this
    have hffo : find_first_of str [','] (some p) =
        findFrom (fun c => [','].contains c) s p := by
      simp only [find_first_of, hdrop]
    rw [hffo]
    cases hpos : findFrom (fun c => [','].contains c) s p with
    | none =>
      have hall : ∀ c ∈ s, c ≠ ',' := by
        intro c hc hcc
        have := findFrom_none.1 hpos c hc
        rw [(contains_comma c).2 hcc] at this
        cases this
      rw [tokenLoop, fields_last s (by rw [hs0]; simp) hall]
      simp only [ne_eq, not_true_eq_false, reduceCtorEq, not_false_eq_true, or_true, if_true,
        countBetween, substr_all hp, hdrop, List.mapM_cons, List.mapM_nil, ok_bind_thrown]
      cases convert s with
      | error e => rfl
      | ok v => rfl
    | some q =>
      obtain ⟨pre, d, post, hsplit, hpre, hd, hq⟩ := findFrom_some hpos
      have hdc : d = ',' := (contains_comma d).1 hd
      subst hdc
      have hpre' : ∀ c ∈ pre, c ≠ ',' := by
        intro c hc hcc
        have := hpre c hc
        rw [(contains_comma c).2 hcc] at this
        cases this
      have hne : pre ≠ [] := by
        intro hnil
        rw [hnil, hs0] at hsplit
        simp only [List.nil_append, List.cons.injEq] at hsplit
        exact hc0 hsplit.1
      have htok : (str.drop p).take (q - p) = pre := by
        rw [hdrop, hsplit, hq]
        simp
      have hdropq : str.drop q = ',' :: post := by
        rw [hq, ← List.drop_drop, hdrop, hsplit]
        simp
      have hcount : countBetween (some q) (some p) = some (q - p) := by
        simp only [countBetween]
        rw [if_pos (by omega)]
      rw [tokenLoop, hsplit, fields_token pre post hne hpre']
      simp only [ne_eq, reduceCtorEq, not_false_eq_true, or_true, if_true, hcount,
        substr_some hp, htok, List.mapM_cons, if_false, ok_bind_thrown]
      have hfn : find_first_not_of str [','] (some q) =
          findFrom (fun c => !([','].contains c)) (',' :: post) q := by
        simp only [find_first_not_of, hdropq]
      rw [hfn]
      cases hlast : findFrom (fun c => !([','].contains c)) (',' :: post) q with
      | none =>
        have hall : ∀ c ∈ post, c = ',' := by
          intro c hc
          have := findFrom_none.1 hlast c (List.mem_cons_of_mem _ hc)
          simp only [Bool.not_eq_false'] at this
          exact (contains_comma c).1 this
        obtain ⟨f', rfl⟩ : ∃ f', f = f' + 1 := ⟨f - 1, by
          have : s.length = pre.length + (post.length + 1) := by
            rw [hsplit]; simp
          have : 0 < pre.length := List.length_pos.2 hne
          omega⟩
        simp only [find_first_of, tokenLoop_done, fields_commas post hall, List.mapM_nil]
        cases convert pre with
        | error e => rfl
        | ok v => rfl
      | some p' =>
        obtain ⟨pre2, c, post2, hsplit2, hpre2, hc, hp'⟩ := findFrom_some hlast
        have hcn : c ≠ ',' := by
          intro hcc
          rw [(contains_comma c).2 hcc] at hc
          cases hc
        have hpre2' : ∀ x ∈ pre2, x = ',' := by
          intro x hx
          have := hpre2 x hx
          simp only [Bool.not_eq_false'] at this
          exact (contains_comma x).1 this
        obtain ⟨pre3, hpre3⟩ : ∃ pre3, pre2 = ',' :: pre3 := by
          cases pre2 with
          | nil =>
            simp only [List.nil_append, List.cons.injEq] at hsplit2
            exact absurd hsplit2.1.symm hcn
          | cons x rest =>
            simp only [List.cons_append, List.cons.injEq] at hsplit2
            exact ⟨rest, by rw [← hsplit2.1]⟩
        have hpost : post = pre3 ++ c :: post2 := by
          rw [hpre3] at hsplit2
          simpa using hsplit2
        have hdrop' : str.drop p' = c :: post2 := by
          rw [hp', ← List.drop_drop, hdropq, hsplit2]
          simp
        have hlen' : (c :: post2).length ≤ n := by
          have h1 : s.length = pre.length + (post.length + 1) := by
            rw [hsplit]; simp
          have h2 : post.length = pre3.length + (post2.length + 1) := by
            rw [hpost]; simp
          have h3 : 0 < pre.length := List.length_pos.2 hne
          simp only [List.length_cons]
          omega
        have hskip : fields post = fields (c :: post2) := by
          rw [hpost]
          exact fields_skip pre3 _
            (fun x hx => hpre2' x (by rw [hpre3]; exact List.mem_cons_of_mem _ hx))
        rw [hskip]
        cases convert pre with
        | error e => rfl
        | ok v =>
          simp only [bind, Except.bind]
          have := ih f p' (out ++ [v]) (c :: post2) hlen' hdrop' ⟨c, post2, rfl, hcn⟩ (by omega)
          simp only [bind, Except.bind] at this
          rw [this]
          cases List.mapM convert (fields (c :: post2)) with
          | error e => rfl
          | ok vs =>
            simp [pure, Except.pure]

/-- With a budget above the length of the string, the tokens converted are the fields of the
string that are not empty, in order. -/
theorem parseList_fields {T : Type} (convert : List Char → Except Thrown T) (fuel : Nat)
    (str : List Char) (hfuel : str.length < fuel) :
    parseList convert fuel str = (fields str).mapM convert := by
  unfold parseList
  simp only
  have hfn : find_first_not_of str [','] (some 0) =
      findFrom (fun c => !([','].contains c)) str 0 := by
    simp only [find_first_not_of, List.drop_zero]
  rw [hfn]
  cases hlast : findFrom (fun c => !([','].contains c)) str 0 with
  | none =>
    have hall : ∀ c ∈ str, c = ',' := by
      intro c hc
      have := findFrom_none.1 hlast c hc
      simp only [Bool.not_eq_false'] at this
      exact (contains_comma c).1 this
    obtain ⟨f, rfl⟩ : ∃ f, fuel = f + 1 := ⟨fuel - 1, by omega⟩
    simp only [find_first_of, tokenLoop_done, fields_commas str hall, List.mapM_nil]
    rfl
  | some p =>
    obtain ⟨pre, c, post, hsplit, hpre, hc, hp⟩ := findFrom_some hlast
    have hcn : c ≠ ',' := by
      intro hcc
      rw [(contains_comma c).2 hcc] at hc
      cases hc
    have hpre' : ∀ x ∈ pre, x = ',' := by
      intro x hx
      have := hpre x hx
      simp only [Bool.not_eq_false'] at this
      exact (contains_comma x).1 this
    have hdrop : str.drop p = c :: post := by
      rw [hp, hsplit]
      simp
    have hlen : (c :: post).length ≤ str.length := by
      rw [hsplit]
      simp
    rw [tokenLoop_fields convert str str.length fuel p [] (c :: post) hlen hdrop
      ⟨c, post, rfl, hcn⟩ hfuel]
    have hskip : fields str = fields (c :: post) := by
      rw [hsplit]
      exact fields_skip pre _ hpre'
    rw [hskip]
    cases List.mapM convert (fields (c :: post)) with
    | error e => rfl
    | ok vs => simp [bind, Except.bind, pure, Except.pure]

theorem tokenLoop_mono {T : Type} (convert : List Char → Except Thrown T)
    (str delimiters : List Char) : ∀ (fuel : Nat) (lastPos pos : Option Nat) (out r : List T),
    tokenLoop convert str delimiters fuel lastPos pos out = .ok r →
      tokenLoop convert str delimiters (fuel + 1) lastPos pos out = .ok r := by
  intro fuel
  induction fuel with
  | zero => intro lastPos pos out r h; cases h
  | succ f ih =>
    intro lastPos pos out r h
    rw [tokenLoop] at h ⊢
    by_cases hc : pos ≠ none ∨ lastPos ≠ none
    · rw [if_pos hc] at h ⊢
      obtain ⟨token, ht, h⟩ := bind_ok_elim h
      obtain ⟨v, hv, h⟩ := bind_ok_elim h
      rw [ht, ok_bind_thrown, hv, ok_bind_thrown]
      simp only at h ⊢
      by_cases hp : pos = none
      · rw [if_pos hp] at h ⊢
        exact h
      · rw [if_neg hp] at h ⊢
        exact ih _ _ _ _ h
    · rw [if_neg hc] at h ⊢
      exact h

theorem tokenLoop_mono_add {T : Type} (convert : List Char → Except Thrown T)
    (str delimiters : List Char) (fuel : Nat) (lastPos pos : Option Nat) (out r : List T)
    (h : tokenLoop convert str delimiters fuel lastPos pos out = .ok r) :
    ∀ k, tokenLoop convert str delimiters (fuel + k) lastPos pos out = .ok r := by
  intro k
  induction k with
  | zero => exact h
  | succ k ih => exact tokenLoop_mono convert str delimiters _ _ _ _ _ ih

/-- Whatever the budget, the values that `parseList` returns are those of the fields of the
string that are not empty, in order. -/
theorem parseList_ok {T : Type} (convert : List Char → Except Thrown T) (fuel : Nat)
    (str : List Char) (r : List T) (h : parseList convert fuel str = .ok r) :
    (fields str).mapM convert = .ok r := by
  rw [← parseList_fields convert (fuel + (str.length + 1)) str (by omega)]
  unfold parseList at h ⊢
  exact tokenLoop_mono_add convert str _ fuel _ _ _ r h _

/-! ## The loop over the output interval -/

theorem intervalLoop_run {T : Type} (narrow : ℚ → T) (max interval : ℚ) :
    ∀ (n fuel : Nat) (x : ℚ) (out : List T), (∀ k : Nat, k < n → x + k * interval ≤ max) →
      ¬ x + n * interval ≤ max → n < fuel →
      intervalLoop narrow max interval fuel x out =
        .ok (out ++ (List.range n).map (fun k : Nat => narrow (x + k * interval))) := by
  intro n
  induction n with
  | zero =>
    intro fuel x out _ hstop hfuel
    obtain ⟨f, rfl⟩ : ∃ f, fuel = f + 1 := ⟨fuel - 1, by omega⟩
    have hx : ¬ x ≤ max := by simpa using hstop
    rw [intervalLoop, if_neg hx]
    simp
    rfl
  | succ n ih =>
    intro fuel x out hrun hstop hfuel
    obtain ⟨f, rfl⟩ : ∃ f, fuel = f + 1 := ⟨fuel - 1, by omega⟩
    have hx : x ≤ max := by simpa using hrun 0 (by omega)
    rw [intervalLoop, if_pos hx, ih f (x + interval) (out ++ [narrow x]) ?_ ?_ (by omega)]
    · rw [List.range_succ_eq_map, List.map_cons, List.map_map, List.append_assoc]
      congr 2
      simp only [List.singleton_append, Nat.cast_zero, zero_mul, add_zero, List.cons.injEq,
        true_and]
      apply List.map_congr_left
      intro k _
      simp only [Function.comp, Nat.cast_succ]
      congr 1
      ring
    · intro k hk
      have := hrun (k + 1) (by omega)
      push_cast at this
      linarith
    · intro h
      apply hstop
      push_cast
      linarith

theorem intervalLoop_mono {T : Type} (narrow : ℚ → T) (max interval : ℚ) :
    ∀ (fuel : Nat) (x : ℚ) (out r : List T),
      intervalLoop narrow max interval fuel x out = .ok r →
      intervalLoop narrow max interval (fuel + 1) x out = .ok r := by
  intro fuel
  induction fuel with
  | zero => intro x out r h; cases h
  | succ f ih =>
    intro x out r h
    rw [intervalLoop] at h ⊢
    by_cases hx : x ≤ max
    · rw [if_pos hx] at h ⊢
      exact ih _ _ _ h
    · rw [if_neg hx] at h ⊢
      exact h

theorem intervalLoop_mono_add {T : Type} (narrow : ℚ → T) (max interval : ℚ) (fuel : Nat)
    (x : ℚ) (out r : List T) (h : intervalLoop narrow max interval fuel x out = .ok r) :
    ∀ k, intervalLoop narrow max interval (fuel + k) x out = .ok r := by
  intro k
  induction k with
  | zero => exact h
  | succ k ih => exact intervalLoop_mono narrow max interval _ _ _ _ ih

theorem scalar_to_int_cast (z : Int) : scalar_to_int (z : ℚ) = z := by
  unfold scalar_to_int
  split <;> simp

/-- The bounds that make `indexProgression` the run of the loop over the index interval. -/
theorem progression_bounds (a d b : Int) (hab : a ≤ b) (hd : 0 < d) :
    (∀ k : Nat, k < ((b - a) / d + 1).toNat → (a : ℚ) + k * (d : ℚ) ≤ (b : ℚ)) ∧
      ¬ (a : ℚ) + (((b - a) / d + 1).toNat : ℕ) * (d : ℚ) ≤ (b : ℚ) := by
  have hq : 0 ≤ (b - a) / d := Int.ediv_nonneg (by omega) (le_of_lt hd)
  have hn : ((((b - a) / d + 1).toNat : ℕ) : Int) = (b - a) / d + 1 :=
    Int.toNat_of_nonneg (by omega)
  constructor
  · intro k hk
    have hk' : (k : Int) < (b - a) / d + 1 := by
      rw [← hn]
      exact_mod_cast hk
    have h1 : (k : Int) * d ≤ (b - a) / d * d :=
      Int.mul_le_mul_of_nonneg_right (by omega) (le_of_lt hd)
    have h2 : (b - a) / d * d ≤ b - a := Int.ediv_mul_le _ (by omega)
    have h3 : a + (k : Int) * d ≤ b := by omega
    exact_mod_cast h3
  · intro h
    have h' : a + ((((b - a) / d + 1).toNat : ℕ) : Int) * d ≤ b := by exact_mod_cast h
    rw [hn] at h'
    have h2 : b - a < ((b - a) / d + 1) * d := Int.lt_ediv_add_one_mul_self _ hd
    omega

/-- The loop over the index interval appends `indexProgression`. -/
theorem intervalLoop_indices (a d b : Int) (hab : a ≤ b) (hd : 0 < d) (fuel : Nat)
    (out r : List Int)
    (h : intervalLoop scalar_to_int (b : ℚ) (d : ℚ) fuel (a : ℚ) out = .ok r) :
    r = out ++ indexProgression a d b := by
  obtain ⟨h1, h2⟩ := progression_bounds a d b hab hd
  have hrun := intervalLoop_run scalar_to_int (b : ℚ) (d : ℚ) ((b - a) / d + 1).toNat
    (fuel + (((b - a) / d + 1).toNat + 1)) (a : ℚ) out h1 h2 (by omega)
  rw [intervalLoop_mono_add scalar_to_int _ _ fuel _ out r h] at hrun
  rw [Except.ok.injEq] at hrun
  rw [hrun]
  congr 1
  unfold indexProgression
  apply List.map_congr_left
  intro k _
  have : (a : ℚ) + (k : ℚ) * (d : ℚ) = ((a + (k : Int) * d : Int) : ℚ) := by push_cast; ring
  rw [this, scalar_to_int_cast]

theorem mem_indexProgression (a d b : Int) (hab : a ≤ b) (hd : 0 < d) (x : Int) :
    x ∈ indexProgression a d b ↔ ∃ k : Nat, x = a + (k : Int) * d ∧ x ≤ b := by
  obtain ⟨h1, h2⟩ := progression_bounds a d b hab hd
  unfold indexProgression
  simp only [List.mem_map, List.mem_range]
  constructor
  · rintro ⟨k, hk, rfl⟩
    refine ⟨k, rfl, ?_⟩
    have := h1 k hk
    exact_mod_cast this
  · rintro ⟨k, rfl, hle⟩
    refine ⟨k, ?_, rfl⟩
    by_contra hge
    apply h2
    have hkn : ((((b - a) / d + 1).toNat : ℕ) : Int) ≤ (k : Int) := by
      exact_mod_cast (not_lt.1 hge)
    have h3 : ((((b - a) / d + 1).toNat : ℕ) : Int) * d ≤ (k : Int) * d :=
      Int.mul_le_mul_of_nonneg_right hkn (le_of_lt hd)
    have h4 : a + ((((b - a) / d + 1).toNat : ℕ) : Int) * d ≤ b := by omega
    exact_mod_cast h4

theorem nodup_indexProgression (a d b : Int) (hd : 0 < d) : (indexProgression a d b).Nodup := by
  unfold indexProgression
  refine (List.nodup_range _).map ?_
  intro k1 k2 h
  simp only [add_right_inj] at h
  have := Int.eq_of_mul_eq_mul_right (by omega) h
  exact_mod_cast this

/-! ## `setParameterList` -/

theorem test_ok {test : Prop} [Decidable test] {e : Thrown} {β : Type}
    {f : Unit → Except Thrown β} {b : β} (h : test_for_exception test e >>= f = .ok b) :
    ¬ test ∧ f () = .ok b := by
  unfold test_for_exception at h
  by_cases ht : test
  · rw [if_pos ht] at h
    cases h
  · rw [if_neg ht] at h
    exact ⟨ht, h⟩

theorem test_pass {test : Prop} [Decidable test] (e : Thrown) (h : ¬ test) :
    test_for_exception test e = .ok () := by
  unfold test_for_exception
  rw [if_neg h]

/-- What an accepted parameter list has gone through, as far as the output indices are
concerned. -/
theorem setParameterList_indices (stod : List Char → Except Thrown ℚ)
    (stoi : List Char → Except Thrown Int) (fuel : Nat) (pList : ParameterList)
    (tsc tsc' : TimeStepControl)
    (h : setParameterList stod stoi fuel (some pList) tsc = .ok tsc') :
    get pList.iStepMin iStepMin_default ≤ get pList.iStepMax iStepMax_default ∧
    ∃ parsed idx,
      parseList stoi fuel (get pList.outputIndexList outputIndexList_default) = .ok parsed ∧
      intervalLoop scalar_to_int ((get pList.iStepMax iStepMax_default : Int) : ℚ)
        ((get pList.outputIndexInterval outputIndexInterval_default : Int) : ℚ) fuel
        ((get pList.iStepMin iStepMin_default : Int) : ℚ) parsed = .ok idx ∧
      tsc'.outputIndices = std_sort idx := by
  unfold setParameterList at h
  simp only at h
  obtain ⟨_, h⟩ := test_ok h
  obtain ⟨_, h⟩ := test_ok h
  obtain ⟨_, h⟩ := test_ok h
  obtain ⟨_, h⟩ := test_ok h
  obtain ⟨hi, h⟩ := test_ok h
  obtain ⟨_, h⟩ := test_ok h
  obtain ⟨_, h⟩ := test_ok h
  obtain ⟨_, h⟩ := test_ok h
  obtain ⟨_, h⟩ := test_ok h
  obtain ⟨_, h⟩ := test_ok h
  obtain ⟨times, _, h⟩ := bind_ok_elim h
  obtain ⟨times', _, h⟩ := bind_ok_elim h
  obtain ⟨parsed, hp, h⟩ := bind_ok_elim h
  obtain ⟨idx, hx, h⟩ := bind_ok_elim h
  cases h
  exact ⟨not_lt.1 hi, parsed, idx, hp, hx, rfl⟩

theorem interval_bounds (a d b : ℚ) (hab : a ≤ b) (hd : 0 < d) :
    (∀ k : Nat, k < (⌊(b - a) / d⌋ + 1).toNat → a + k * d ≤ b) ∧
      ¬ a + ((⌊(b - a) / d⌋ + 1).toNat : ℕ) * d ≤ b := by
  have hq : 0 ≤ (b - a) / d := div_nonneg (by linarith) (le_of_lt hd)
  have hf : 0 ≤ ⌊(b - a) / d⌋ := Int.floor_nonneg.2 hq
  have hn : (((⌊(b - a) / d⌋ + 1).toNat : ℕ) : Int) = ⌊(b - a) / d⌋ + 1 :=
    Int.toNat_of_nonneg (by omega)
  have hnq : (((⌊(b - a) / d⌋ + 1).toNat : ℕ) : ℚ) = (⌊(b - a) / d⌋ : ℚ) + 1 := by
    have h0 : ((((⌊(b - a) / d⌋ + 1).toNat : ℕ) : Int) : ℚ) =
        ((⌊(b - a) / d⌋ + 1 : Int) : ℚ) := by rw [hn]
    rw [Int.cast_natCast] at h0
    rw [h0]
    push_cast
    rfl
  constructor
  · intro k hk
    have hk' : (k : Int) ≤ ⌊(b - a) / d⌋ := by
      have : (k : Int) < ⌊(b - a) / d⌋ + 1 := by
        rw [← hn]
        exact_mod_cast hk
      omega
    have hk2 : (k : ℚ) ≤ (b - a) / d := by
      have : ((k : Int) : ℚ) ≤ (b - a) / d := Int.le_floor.1 hk'
      simpa using this
    have := (le_div_iff₀ hd).1 hk2
    linarith
  · intro h
    rw [hnq] at h
    have h1 : (b - a) / d < (⌊(b - a) / d⌋ : ℚ) + 1 := Int.lt_floor_add_one _
    have h2 := (div_lt_iff₀ hd).1 h1
    linarith

/-- An admissible parameter list is accepted, with every budget from some budget on. -/
theorem setParameterList_returns (stod : List Char → Except Thrown ℚ)
    (stoi : List Char → Except Thrown Int) (pList : ParameterList) (tsc : TimeStepControl)
    (h : Admissible stod stoi pList) :
    ∃ fuel0, ∀ fuel, fuel0 ≤ fuel →
      ∃ tsc', setParameterList stod stoi fuel (some pList) tsc = .ok tsc' := by
  obtain ⟨times, htimes⟩ := h.times
  obtain ⟨parsed, hparsed⟩ := h.indices
  obtain ⟨t1, t2⟩ := interval_bounds _ _ _ h.time h.timeInterval
  obtain ⟨i1, i2⟩ := progression_bounds _ _ _ h.iStep h.indexInterval
  refine ⟨(get pList.outputTimeList outputTimeList_default).length +
    (get pList.outputIndexList outputIndexList_default).length +
    (⌊(get pList.timeMax timeMax_default - get pList.timeMin timeMin_default) /
      get pList.outputTimeInterval outputTimeInterval_default⌋ + 1).toNat +
    ((get pList.iStepMax iStepMax_default - get pList.iStepMin iStepMin_default) /
      get pList.outputIndexInterval outputIndexInterval_default + 1).toNat + 1,
    fun fuel hfuel => ?_⟩
  have hord : 0 ≤ get pList.orderMax orderMax_default := le_trans h.orderMin h.order
  have hdt : 0 ≤ get pList.dtMax dtMax_default := le_trans h.dtMin h.dt
  unfold setParameterList
  simp only
  rw [test_pass _ (not_lt.2 h.time), ok_bind_thrown,
    test_pass _ (not_lt.2 h.dtMin), ok_bind_thrown,
    test_pass _ (not_lt.2 hdt), ok_bind_thrown,
    test_pass _ (not_lt.2 h.dt), ok_bind_thrown,
    test_pass _ (not_lt.2 h.iStep), ok_bind_thrown,
    test_pass _ (not_lt.2 h.errorMaxAbs), ok_bind_thrown,
    test_pass _ (not_lt.2 h.errorMaxRel), ok_bind_thrown,
    test_pass _ (not_lt.2 (by exact_mod_cast h.orderMin)), ok_bind_thrown,
    test_pass _ (not_lt.2 (by exact_mod_cast hord)), ok_bind_thrown,
    test_pass _ (not_lt.2 h.order), ok_bind_thrown,
    parseList_fields stod fuel _ (by omega), htimes, ok_bind_thrown,
    intervalLoop_run id _ _ _ fuel _ times t1 t2 (by omega), ok_bind_thrown,
    parseList_fields stoi fuel _ (by omega), hparsed, ok_bind_thrown,
    intervalLoop_run scalar_to_int _ _ _ fuel _ parsed i1 i2 (by omega), ok_bind_thrown]
  exact ⟨_, rfl⟩

theorem std_sort_sorted (v : List Int) : (std_sort v).Sorted (· ≤ ·) :=
  List.sorted_insertionSort _ v

theorem std_sort_perm (v : List Int) : (std_sort v).Perm v :=
  List.perm_insertionSort _ v

theorem ok_of_toOption {α : Type} {x : Except Thrown α} {a : α} (h : x.toOption = some a) :
    x = .ok a := by
  cases x with
  | error e => cases h
  | ok b =>
    cases h
    rfl

theorem sampleList_admissible : Admissible sampleStod sampleStoi sampleList :=
  ⟨by decide!, by decide!, by decide!, by decide!, by decide!, by decide!, by decide!,
    by decide!, ⟨[], rfl⟩, ⟨[7, 3], rfl⟩, by decide!, by decide!⟩

end Tempus

namespace Zoltan

/-! # The claims -/

/-- C3, two counterexamples in IEEE 754 binary32.  With 25 processes, `globalcost = 1` and
`prefcost = 5368709/134217728` (the binary32 value next to 0.04), which meet
`numProcesses ≥ 1`, `globalcost > 0` and `0 ≤ prefcost ≤ globalcost`, line 87 rounds
`optcost = 1/25` to the same binary32 value, the quotient of line 88 is 1 and the seeding
leaves `partition = 1`, while the floor of `prefcost / (globalcost / numProcesses)` is 0.
With 3 processes and `globalcost = prefcost = 2^-149`, the least positive binary32 value,
line 87 rounds `optcost` to 0 and line 88 divides by it: no partition is seeded (also for
`prefcost = 0`). -/
theorem C3_starting_partition_counterexample :
    ((1 : Int) ≤ 25 ∧ (0 : ℚ) < 1 ∧ (0 : ℚ) ≤ 5368709 / 134217728 ∧
      (5368709 / 134217728 : ℚ) ≤ 1) ∧
    (binary32.op .prefcost (5368709 / 134217728)).toOption = some (5368709 / 134217728) ∧
    (binary32.op .globalcost 1).toOption = some 1 ∧
    (LB_dfs_partition_seed_r binary32 25 1 (5368709 / 134217728) emptyWorld).toOption.map
        (fun w => (w.optcost, w.partition)) = some (5368709 / 134217728, 1) ∧
    min ⌊(5368709 / 134217728 : ℚ) / (1 / ((25 : Int) : ℚ))⌋ (25 - 1) = 0 ∧
    ((1 : Int) ≤ 3 ∧ (0 : ℚ) < 1 / 2 ^ 149) ∧
    (binary32.op .globalcost (1 / 2 ^ 149)).toOption = some (1 / 2 ^ 149) ∧
    (binary32.op .optcost (1 / 2 ^ 149 / 3)).toOption = some 0 ∧
    faultOf (LB_dfs_partition_seed_r binary32 3 (1 / 2 ^ 149) (1 / 2 ^ 149) emptyWorld) =
      some Fault.divByZero ∧
    faultOf (LB_dfs_partition_seed_r binary32 3 (1 / 2 ^ 149) 0 emptyWorld) =
      some Fault.divByZero :=
  ⟨by norm_num, by decide!, by decide!, by decide!, by decide!, by norm_num, by decide!,
    by decide!, by decide!, by decide!⟩

/-- C3, amended: for `1 ≤ Num_Proc < 2^31`, `globalcost > 0` and `0 ≤ prefcost ≤ globalcost`,
under a rounding `R` that converts `Num_Proc` exactly and computes the quotients of lines 87
and 88 with a relative error of at most `u`, where `(2 Num_Proc + 1) u < 1`, the seeding of
`LB_dfs_partition` returns and leaves `optcost` the computed quotient
`globalcost / Num_Proc` and `partition = min (floor q) (Num_Proc - 1)`, where `q` is the
computed quotient `prefcost / optcost`; so `0 ≤ partition ≤ Num_Proc - 1`. -/
theorem C3_starting_partition_amended (R : Site → ℚ → ℚ) (Num_Proc : Int)
    (globalcost prefcost u : ℚ) (w : World)
    (hP : 1 ≤ Num_Proc) (hP31 : (Num_Proc : ℚ) + 1 ≤ (2 : ℚ) ^ 31) (hg : 0 < globalcost)
    (h0 : 0 ≤ prefcost) (h1 : prefcost ≤ globalcost)
    (hcnt : R .count (Num_Proc : ℚ) = Num_Proc)
    (hu0 : 0 ≤ u) (hu : (2 * (Num_Proc : ℚ) + 1) * u < 1)
    (hopt : |seed_optcost R Num_Proc globalcost - globalcost / (Num_Proc : ℚ)| ≤
      u * (globalcost / (Num_Proc : ℚ)))
    (hquo : |seed_quotient R Num_Proc globalcost prefcost -
        prefcost / seed_optcost R Num_Proc globalcost| ≤
      u * (prefcost / seed_optcost R Num_Proc globalcost)) :
    ∃ w', LB_dfs_partition_seed_r (roundedArith R) Num_Proc globalcost prefcost w = .ok w' ∧
      w'.optcost = R .optcost (R .globalcost globalcost / R .count (Num_Proc : ℚ)) ∧
      w'.partition =
        min ⌊R .quotient (R .prefcost prefcost / w'.optcost)⌋ (Num_Proc - 1) ∧
      0 ≤ w'.partition ∧ w'.partition ≤ Num_Proc - 1 := by
  obtain ⟨w', hw', ho, hp, hlo, hhi⟩ :=
    seed_r_range R Num_Proc globalcost prefcost u w hP hP31 hg h0 h1 hcnt hu0 hu hopt hquo
  refine ⟨w', hw', ho, ?_, hlo, hhi⟩
  rw [hp, ho]
  rfl

/-- C3 amended, in binary32 (`u = 2^-24`) on 25 processes with `globalcost = 1` and
`prefcost = 5368709/134217728`: the seeded partition is 1.  The scenario of two processes
with `globalcost = 4` gives partition 1 for `prefcost = 3` and for `prefcost = 4`. -/
theorem C3_starting_partition_amended_witness :
    (∃ w', LB_dfs_partition_seed_r (roundedArith round32) 25 1 (5368709 / 134217728)
        emptyWorld = .ok w' ∧
      w'.optcost = round32 .optcost (round32 .globalcost 1 / round32 .count ((25 : Int) : ℚ)) ∧
      w'.partition =
        min ⌊round32 .quotient (round32 .prefcost (5368709 / 134217728) / w'.optcost)⌋
          (25 - 1) ∧
      0 ≤ w'.partition ∧ w'.partition ≤ 25 - 1) ∧
    seed_partition round32 25 1 (5368709 / 134217728) = 1 ∧
    seed_partition round32 2 4 3 = 1 ∧ seed_partition round32 2 4 4 = 1 :=
  ⟨C3_starting_partition_amended round32 25 1 (5368709 / 134217728) (1 / 2 ^ 24) emptyWorld
      (by norm_num) (by norm_num) (by norm_num) (by norm_num) (by norm_num) (by decide!)
      (by norm_num) (by norm_num) (by decide!) (by decide!),
    by decide!, by decide!, by decide!⟩

/-- C4: whatever state `w` a previous pass left, under every rounding `R` for which the two
divisors of lines 87 and 88 are not 0 and the quotient of line 88 is in the range of `int`,
the seeding of `LB_dfs_partition` returns a state with `optcost` the computed
`globalcost / Num_Proc`, `partition` the truncated computed quotient `prefcost / optcost`
clamped from `Num_Proc` to `Num_Proc - 1`, `total` the computed `partition * optcost`,
`pcost` the computed `prefcost - partition * optcost`, `pmass = 0`, `pcoord = 0` and the
visit counter 0.  When the store to `total` keeps the product and the difference 0 is kept,
the `behind` that the first visit computes (line 185, after its increment of the counter)
is 0. -/
theorem C4_seeding (R : Site → ℚ → ℚ) (Num_Proc : Int) (globalcost prefcost : ℚ) (w : World)
    (hc : R .count (Num_Proc : ℚ) ≠ 0) (ho : seed_optcost R Num_Proc globalcost ≠ 0)
    (hq : -(2 : ℚ) ^ 31 - 1 < seed_quotient R Num_Proc globalcost prefcost ∧
      seed_quotient R Num_Proc globalcost prefcost < (2 : ℚ) ^ 31)
    (hstore : R .seedTotal (seed_product R Num_Proc globalcost prefcost) =
      seed_product R Num_Proc globalcost prefcost)
    (hzero : R .behind 0 = 0) :
    ∃ w', LB_dfs_partition_seed_r (roundedArith R) Num_Proc globalcost prefcost w = .ok w' ∧
      w'.optcost = R .optcost (R .globalcost globalcost / R .count (Num_Proc : ℚ)) ∧
      w'.partition =
        (if float_to_int (R .quotient (R .prefcost prefcost / w'.optcost)) = Num_Proc then
          Num_Proc - 1
        else float_to_int (R .quotient (R .prefcost prefcost / w'.optcost))) ∧
      w'.total = R .seedTotal (R .product (R .index (w'.partition : ℚ) * w'.optcost)) ∧
      w'.pcost = R .seedPcost
        (R .prefcost prefcost - R .product (R .index (w'.partition : ℚ) * w'.optcost)) ∧
      w'.pmass = 0 ∧ w'.pcoord = ⟨0, 0, 0⟩ ∧ w'.DFS_Part_Count = 0 ∧
      LB_visit_behind_r (roundedArith R)
        { w' with DFS_Part_Count := w'.DFS_Part_Count + 1 } = .ok 0 := by
  refine ⟨_, seed_r_eq R Num_Proc globalcost prefcost w hc ho hq, rfl, rfl, rfl, rfl, rfl, rfl,
    rfl, ?_⟩
  show Except.ok (R .behind (R .product (R .index (seed_partition R Num_Proc globalcost prefcost : ℚ) *
    seed_optcost R Num_Proc globalcost) -
      R .seedTotal (seed_product R Num_Proc globalcost prefcost))) = Except.ok 0
  rw [hstore]
  show Except.ok (R .behind (seed_product R Num_Proc globalcost prefcost -
    seed_product R Num_Proc globalcost prefcost)) = Except.ok 0
  rw [sub_self, hzero]

/-- C4 in binary32 on a state left with `partition = 0` and `optcost = 3` by earlier
activity, reseeded for 25 processes with `globalcost = 1` and
`prefcost = 5368709/134217728`. -/
theorem C4_seeding_witness :
    ∃ w', LB_dfs_partition_seed_r (roundedArith round32) 25 1 (5368709 / 134217728)
        overflowWorld = .ok w' ∧
      w'.optcost = round32 .optcost (round32 .globalcost 1 / round32 .count ((25 : Int) : ℚ)) ∧
      w'.partition =
        (if float_to_int (round32 .quotient (round32 .prefcost (5368709 / 134217728) /
            w'.optcost)) = 25 then 25 - 1
        else float_to_int (round32 .quotient (round32 .prefcost (5368709 / 134217728) /
            w'.optcost))) ∧
      w'.total = round32 .seedTotal (round32 .product (round32 .index (w'.partition : ℚ) *
        w'.optcost)) ∧
      w'.pcost = round32 .seedPcost
        (round32 .prefcost (5368709 / 134217728) -
          round32 .product (round32 .index (w'.partition : ℚ) * w'.optcost)) ∧
      w'.pmass = 0 ∧ w'.pcoord = ⟨0, 0, 0⟩ ∧ w'.DFS_Part_Count = 0 ∧
      LB_visit_behind_r (roundedArith round32)
        { w' with DFS_Part_Count := w'.DFS_Part_Count + 1 } = .ok 0 :=
  C4_seeding round32 25 1 (5368709 / 134217728) overflowWorld (by decide!) (by decide!)
    (by decide!) (by decide!) (by decide!)

/-- C8, the code at the failing input: the root of `gapWorld` does not fit, its slot 1 is
tagged with the local process and empty, and the mode is nearest-centroid.  The first pick of
`LB_visit_by_dist` is slot 1, `LB_visit` is called on the null pointer found there and the
execution ends in a fault, whatever the depth budget; in index order the same call returns. -/
theorem C8_by_dist_visits_empty_slot :
    sampleRootGap.child 1 = none ∧ sampleRootGap.cpid 1 = gapWorld.OCT_localpid ∧
    (LB_visit_by_dist_pick sampleUtil gapWorld (some 0)
      (LB_visit_by_dist_corigin sampleUtil sampleRootGap.min sampleRootGap.max)
      initDistLocals).toOption.map (fun r => r.2.2) = some (some 1) ∧
    faultOf (LB_visit sampleUtil 2 gapWorld (some 0)) = some Fault.segfault ∧
    faultOf (LB_visit sampleUtil 9 gapWorld (some 0)) = some Fault.segfault ∧
    faultOf (LB_visit sampleUtil 2 { gapWorld with CLOSE := 0 } (some 0)) = none := by
  decide!

/-- C9, the claim as stated fails: at the first pick on the root of `farWorld` (`pmass = 0`,
centroid the zero vector) the slots 0 and 7 are local and not yet visited, the origin of
slot 0 is at squared distance 3/4 from the centroid and that of slot 7 at 27/4, and the scan
picks slot 7; accordingly the whole call assigns the first partition to the octant of slot 7
(address 2) and the next one to the octant of slot 0 (address 1). -/
theorem C9_nearest_centroid_counterexample :
    (LB_visit_by_dist_pick sampleUtil farWorld (some 0)
      (LB_visit_by_dist_corigin sampleUtil sampleRootFar.min sampleRootFar.max)
      initDistLocals).toOption = some (⟨0, 0, 0⟩, 27 / 4, some 7) ∧
    sampleRootFar.cpid 0 = farWorld.OCT_localpid ∧ initDistLocals.visited 0 = false ∧
    sampleUtil.vector_dist ⟨0, 0, 0⟩
      (LB_visit_by_dist_corigin sampleUtil sampleRootFar.min sampleRootFar.max 0) = 3 / 4 ∧
    sampleUtil.vector_dist ⟨0, 0, 0⟩
      (LB_visit_by_dist_corigin sampleUtil sampleRootFar.min sampleRootFar.max 7) = 27 / 4 ∧
    (LB_visit sampleUtil 2 farWorld (some 0)).toOption.map
      (fun w' => ((w'.mem 1).map (fun o => o.npid), (w'.mem 2).map (fun o => o.npid)))
      = some (some 1, some 0) := by
  decide!

/-- C9, amended: every iteration of the outer loop of `LB_visit_by_dist` on an octant `a`
computes a pick and returns when there is none, else passes the child in the picked slot to
`LB_visit` and goes on with that slot marked visited.  The centroid is `pcoord / pmass` when
`pmass > 0` and the last computed centroid otherwise; there is no pick exactly when no slot is
tagged local and not yet visited; the picked slot is tagged local and not yet visited; when
`pmass ≠ 0` its origin has minimal distance to the centroid among the slots tagged local and
not yet visited; when `pmass = 0` it is the highest of these slots, whatever the distances. -/
theorem C9_nearest_centroid_amended (U : OctUtil) (visit : World → pOctant → Except Fault World)
    (children : Fin 8 → pOctant) (corigin : Fin 8 → COORD) (n : Nat) (w : World) (a : Nat)
    (o : Octant) (L : DistLocals) (hm : w.mem a = some o) :
    ∃ pc md mc, LB_visit_by_dist_pick U w (some a) corigin L = .ok (pc, md, mc) ∧
      LB_visit_by_dist_loop U visit (some a) children corigin (n + 1) w L =
        (match mc with
         | none => .ok w
         | some i => visit w (children i) >>= fun w' =>
            LB_visit_by_dist_loop U visit (some a) children corigin n w'
              { mindist := md, pcentroid := pc, visited := Function.update L.visited i true }) ∧
      pc = (if w.pmass > 0 then
          ⟨w.pcoord.c0 / w.pmass, w.pcoord.c1 / w.pmass, w.pcoord.c2 / w.pmass⟩
        else L.pcentroid) ∧
      (mc = none ↔ ∀ i, ¬ (o.cpid i = w.OCT_localpid ∧ L.visited i = false)) ∧
      ∀ i, mc = some i →
        (o.cpid i = w.OCT_localpid ∧ L.visited i = false) ∧
        (w.pmass ≠ 0 → ∀ j, o.cpid j = w.OCT_localpid ∧ L.visited j = false →
          U.vector_dist pc (corigin i) ≤ U.vector_dist pc (corigin j)) ∧
        (w.pmass = 0 → ∀ j, o.cpid j = w.OCT_localpid ∧ L.visited j = false → j ≤ i) := by
  obtain ⟨pc, md, mc, hpick, hpc, hscan⟩ := pick_spec U hm corigin L
  obtain ⟨md2, mc2, hscan2, hnone, hsome⟩ :=
    scan_spec U hm corigin pc L.visited slots L.mindist none
  rw [hscan] at hscan2
  cases hscan2
  have hcand : ∀ i, mc = some i → o.cpid i = w.OCT_localpid ∧ L.visited i = false := by
    intro i hi
    rcases hsome i hi with h | ⟨_, h⟩
    · cases h
    · exact h
  refine ⟨pc, md, mc, hpick, ?_, centroid_eq w L.pcentroid pc hpc, ⟨fun h i => ?_, fun h => ?_⟩,
    fun i hi => ⟨hcand i hi, fun hp j hj => ?_, fun hp j hj => ?_⟩⟩
  · rw [LB_visit_by_dist_loop]
    simp only [hpick, ok_bind]
    cases mc <;> rfl
  · exact (hnone h).2 i (mem_slots i)
  · cases hmc : mc with
    | none => rfl
    | some i => exact absurd (hcand i hmc) (h i)
  · exact (scan_min U hm hp corigin pc L.visited slots L.mindist none md mc
      (fun i0 h0 => by cases h0) hscan i hi).2.1 j (mem_slots j) hj
  · exact (scan_last U hm hp corigin pc L.visited slots L.mindist none md mc slots_sorted
      (fun i0 h0 => by cases h0) hscan i hi).1 j (mem_slots j) hj

/-- C9 amended, at the first iteration on the root of `farWorld`. -/
theorem C9_nearest_centroid_amended_witness :
    ∃ pc md mc, LB_visit_by_dist_pick sampleUtil farWorld (some 0)
        (LB_visit_by_dist_corigin sampleUtil sampleRootFar.min sampleRootFar.max)
        initDistLocals = .ok (pc, md, mc) ∧
      pc = (if farWorld.pmass > 0 then
          ⟨farWorld.pcoord.c0 / farWorld.pmass, farWorld.pcoord.c1 / farWorld.pmass,
            farWorld.pcoord.c2 / farWorld.pmass⟩
        else initDistLocals.pcentroid) ∧
      ∀ i, mc = some i →
        (sampleRootFar.cpid i = farWorld.OCT_localpid ∧ initDistLocals.visited i = false) ∧
        (farWorld.pmass = 0 → ∀ j, sampleRootFar.cpid j = farWorld.OCT_localpid ∧
          initDistLocals.visited j = false → j ≤ i) := by
  obtain ⟨pc, md, mc, h1, _, h3, _, h5⟩ := C9_nearest_centroid_amended sampleUtil
    (fun w c => LB_visit sampleUtil 1 w c) sampleRootFar.child
    (LB_visit_by_dist_corigin sampleUtil sampleRootFar.min sampleRootFar.max) 8 farWorld 0
    sampleRootFar initDistLocals rfl
  exact ⟨pc, md, mc, h1, h3, fun i hi => ⟨(h5 i hi).1, (h5 i hi).2.2⟩⟩


/-- C11: for every octant `a` with a finite local subtree and every partition index `p`,
`LB_tag_subtree(a, p)` returns, and running it again on the state it produced returns that
same state: every `npid`, every other field and every global is as after the first run. -/
theorem C11_tag_subtree_idempotent (fuel n : Nat) (w : World) (a : Nat) (p : Int)
    (hd : Depth w n a) (hn : n ≤ fuel) :
    ∃ w1, LB_tag_subtree fuel w (some a) p = .ok w1 ∧
      LB_tag_subtree fuel w1 (some a) p = .ok w1 := by
  obtain ⟨w1, h1, hT1⟩ := LB_tag_subtree_spec p fuel w n a hd hn
  obtain ⟨w2, h2, hT2⟩ := LB_tag_subtree_spec p fuel w1 n a (hT1.frame.depth hd) hn
  have hmem : w2.mem = w1.mem := by
    funext b
    by_cases hb : Reach w a b
    · rw [hT2.2.1 b (hT1.frame.reach_iff.2 hb), hT1.2.1 b hb]
      cases w.mem b <;> rfl
    · exact hT2.2.2 b (fun h => hb (hT1.frame.reach_iff.1 h))
  have h21 : w2 = w1 := by
    rw [hT2.1, hmem]
  rw [h21] at h2
  exact ⟨w1, h1, h2⟩

/-- C11 at the root of the four-leaf sample tree, tagged twice with partition 7. -/
theorem C11_tag_subtree_idempotent_witness :
    ∃ w1, LB_tag_subtree 2 fourLeafWorld (some 0) 7 = .ok w1 ∧
      LB_tag_subtree 2 w1 (some 0) 7 = .ok w1 :=
  C11_tag_subtree_idempotent 2 2 fourLeafWorld 0 7 fourLeafWorld_depth (le_refl 2)


/-- C14, the code at the failing input: one process whose only octant has cost 0, so that
`globalcost = 0` and `prefcost = 0`.  The first division, `globalcost / Num_Proc`, has the
divisor 1 and gives `optcost = 0`; the second, `prefcost / optcost`, then has the divisor 0,
and the pass ends there, for one process as for two. -/
theorem C14_zero_globalcost_divides_by_zero :
    localCost zeroLeafWorld = 0 ∧ spec_globalcost [0] = 0 ∧
    (fdiv 0 ((1 : Int) : ℚ)).toOption = some 0 ∧
    faultOf (fdiv 0 0) = some Fault.divByZero ∧
    faultOf (LB_dfs_partition_seed 1 0 0 zeroLeafWorld) = some Fault.divByZero ∧
    faultOf (LB_dfs_partition sampleUtil 1 1 0 0 0 zeroLeafWorld) = some Fault.divByZero ∧
    faultOf (LB_dfs_partition sampleUtil 1 2 0 0 0 zeroLeafWorld) = some Fault.divByZero := by
  decide!


/-- C16, the code at the failing input: the sample tree of five octants, all with the valid
`npid` 0 on one process, while `POC_nOctants()` is 0.  The count differs from the five
octants that the enumeration from the local root yields, so the claim has `LB_dfs_migrate`
abort; but `docts` and `dpids` are allocated only when `POC_nOctants()` is not 0, and the
first store `docts[0]=oct` goes through `NULL`, a memory fault in the loop, before the count
is compared.  With every other count the count check is reached: with the count 4 or 6 it
aborts, and with the count 5 the forest is handed over; with no valid process id the first
check aborts, and so does a failing allocation. -/
theorem C16_count_check_after_null_store :
    (dfsEnumerate zeroCountWorld 10).toOption = some [0, 1, 3, 4, 2] ∧
    ([0, 1, 3, 4, 2].map (npidAt zeroCountWorld)) = [0, 0, 0, 0, 0] ∧
    POC_nOctants zeroCountWorld = 0 ∧
    faultOf (LB_dfs_migrate zeroCountWorld 1 true 10) = some Fault.segfault ∧
    faultOf (LB_dfs_migrate zeroCountWorld 1 true 100) = some Fault.segfault ∧
    faultOf (LB_dfs_migrate zeroCountWorld 1 false 10) = some Fault.segfault ∧
    faultOf (LB_dfs_migrate shortCountWorld 1 true 10) = some Fault.abort ∧
    faultOf (LB_dfs_migrate { treeWorld with OCT_count := 6 } 1 true 10) = some Fault.abort ∧
    (LB_dfs_migrate treeWorld 1 true 10).toOption =
      some [(0, 0), (1, 0), (3, 0), (4, 0), (2, 0)] ∧
    faultOf (LB_dfs_migrate treeWorld 0 true 10) = some Fault.abort ∧
    faultOf (LB_dfs_migrate treeWorld 1 false 10) = some Fault.abort := by
  decide

/-- C17, a counterexample: a local root whose parent is an octant of another process.
`POC_setparent(oct, parent, 1)` on process 0 puts the octant on the local root list and
stores the pointer `parent` (here the address 9, at which process 0 holds no octant).  In the
resulting forest the octant at address 0 is the only live octant and the only local root, its
`npid` 0 is valid for two processes and `POC_nOctants()` is 1; `LB_dfs_migrate` reads the
`npid`, and `POC_nextDfs` then follows the parent pointer, which is not `NULL`: a read outside
the octants of the process, and no list is handed over. -/
theorem C17_migrate_list_counterexample :
    (POC_setparent loneWorld (some 0) (some 9) 1 true).toOption.map
        (fun w => (w.OCT_rootlist, (w.mem 0).map (fun o => (o.parent, o.ppid, o.npid)),
          w.OCT_count, w.OCT_localpid)) =
      some ([0], some (some 9, 1, 0), 1, 0) ∧
    POC_localroots remoteRootWorld = [0] ∧
    (remoteRootWorld.mem 0).map (fun o => (o.parent, o.ppid, o.npid)) = some (some 9, 1, 0) ∧
    (List.range 32).filter (fun a => (remoteRootWorld.mem a).isSome) = [0] ∧
    POC_nOctants remoteRootWorld = 1 ∧
    (POC_data_newpid remoteRootWorld (some 0)).toOption = some 0 ∧
    faultOf (POC_nextDfs remoteRootWorld 10 (some 0)) = some Fault.segfault ∧
    faultOf (LB_dfs_migrate remoteRootWorld 2 true 10) = some Fault.segfault ∧
    faultOf (LB_dfs_migrate remoteRootWorld 2 true 100) = some Fault.segfault ∧
    faultOf ((POC_setparent loneWorld (some 0) (some 9) 1 true).bind
      (fun w => LB_dfs_migrate w 2 true 10)) = some Fault.segfault :=
  ⟨by decide, by decide, by decide, by decide, by decide, by decide, by decide, by decide,
    by decide, by decide⟩

/-- C17, amended: in a forest whose child and parent links agree, whose local roots have a `NULL`
parent pointer and subtrees of at most `h` levels, in which each live octant lies below exactly
one entry of the local root list, `POC_nOctants()` is the number of live octants and every
`npid` is in `[0, Num_Proc)`, `LB_dfs_migrate` (its allocations succeeding) does not abort: it
hands over the list of the pre-order listings of the local roots in root-list order, each octant
paired with its `npid`; the list has `POC_nOctants()` entries and holds every live octant
exactly once. -/
theorem C17_migrate_list_amended (w : World) (Num_Proc : Int) (h : Nat) (live : Finset Nat)
    (hpl : ParentLinked w)
    (hroots : ∀ r ∈ POC_localroots w, ∃ o, w.mem r = some o ∧ o.parent = none ∧ Height w h r)
    (hnd : (POC_localroots w).Nodup)
    (hone : ∀ a o, w.mem a = some o → ∃ r ∈ POC_localroots w, Desc w r a ∧
      ∀ r' ∈ POC_localroots w, Desc w r' a → r' = r)
    (hlive : ∀ a, a ∈ live ↔ ∃ o, w.mem a = some o)
    (hcount : POC_nOctants w = (live.card : Int))
    (hvalid : ∀ a o, w.mem a = some o → 0 ≤ o.npid ∧ o.npid < Num_Proc)
    (fuel : Nat) (hfuel : live.card + (h + 1) ≤ fuel) :
    LB_dfs_migrate w Num_Proc true fuel = .ok (migrateList w h) ∧
    ((migrateList w h).length : Int) = POC_nOctants w ∧
    (migrateList w h).map Prod.fst = (POC_localroots w).flatMap (dfsList w h) ∧
    ((migrateList w h).map Prod.fst).Nodup ∧
    (∀ a, a ∈ (migrateList w h).map Prod.fst ↔ a ∈ live) ∧
    (∀ a p, (a, p) ∈ migrateList w h → ∃ o, w.mem a = some o ∧ p = o.npid) := by
  have hH : ∀ r ∈ POC_localroots w, Height w h r := fun r hr => by
    obtain ⟨_, _, _, hh⟩ := hroots r hr
    exact hh
  obtain ⟨hnodup, hmem⟩ := roots_listing hpl.uniqueParent (POC_localroots w) hH hnd hone
  have hfst : (migrateList w h).map Prod.fst = (POC_localroots w).flatMap (dfsList w h) := by
    simp [migrateList, Function.comp_def]
  have hfin : ((POC_localroots w).flatMap (dfsList w h)).toFinset = live := by
    ext a
    rw [List.mem_toFinset, hmem, hlive]
  have hlen : ((POC_localroots w).flatMap (dfsList w h)).length = live.card := by
    rw [← hfin, List.toFinset_card_of_nodup hnodup]
  have hlen' : (migrateList w h).length = live.card := by
    rw [← hlen]
    simp [migrateList]
  refine ⟨?_, by rw [hlen', hcount], hfst, by rw [hfst]; exact hnodup,
    fun a => by rw [hfst, hmem, hlive], ?_⟩
  · have hfold := migrate_fold (N := Num_Proc) hpl hvalid fuel (POC_localroots w) [] hroots
      (by rw [hlen, hcount]; simp) (by rw [hlen]; exact hfuel)
    have hne : ¬ ((migrateList w h).length : Int) ≠ POC_nOctants w := by
      rw [hlen', hcount]
      simp
    have hal : ¬ (POC_nOctants w ≠ 0 ∧ true = false) := by simp
    unfold LB_dfs_migrate
    rw [if_neg hal, hfold, ok_bind]
    simp only [List.nil_append]
    change (if ((migrateList w h).length : Int) ≠ POC_nOctants w then Except.error Fault.abort
      else pure (migrateList w h)) = _
    rw [if_neg hne]
    rfl
  · intro a p hap
    simp only [migrateList, List.mem_map, Prod.mk.injEq] at hap
    obtain ⟨b, hb, rfl, rfl⟩ := hap
    obtain ⟨o, hm⟩ := (hmem b).1 hb
    exact ⟨o, hm, npidAt_some hm⟩

/-- C17 amended, on the sample tree of five octants with one local root, on one process. -/
theorem C17_migrate_list_amended_witness :
    LB_dfs_migrate treeWorld 1 true 9 = .ok (migrateList treeWorld 3) ∧
    ((migrateList treeWorld 3).length : Int) = POC_nOctants treeWorld ∧
    (migrateList treeWorld 3).map Prod.fst =
      (POC_localroots treeWorld).flatMap (dfsList treeWorld 3) ∧
    ((migrateList treeWorld 3).map Prod.fst).Nodup ∧
    (∀ a, a ∈ (migrateList treeWorld 3).map Prod.fst ↔ a ∈ ({0, 1, 2, 3, 4} : Finset Nat)) ∧
    (∀ a p, (a, p) ∈ migrateList treeWorld 3 → ∃ o, treeWorld.mem a = some o ∧ p = o.npid) :=
  C17_migrate_list_amended treeWorld 1 3 {0, 1, 2, 3, 4} treeWorld_linked
    (fun r hr => by
      have : r = 0 := by simpa [POC_localroots, treeWorld] using hr
      subst this
      exact ⟨treeRoot, rfl, rfl, treeWorld_height⟩)
    (by decide)
    (fun a o hm => ⟨0, by decide, treeWorld_desc hm, fun r' hr' _ => by
      simpa [POC_localroots, treeWorld] using hr'⟩)
    (fun a => by
      rw [treeWorld_live]
      simp only [Finset.mem_insert, Finset.mem_singleton]
      omega)
    (by decide)
    (fun a o hm => by rw [treeWorld_npid hm]; decide)
    9 (by decide)

/-- C18: in a tree whose child and parent links agree and whose root `r` has no parent pointer
and a subtree of at most `h` levels, iterating `POC_nextDfs` from `r` until it returns `NULL`
terminates and yields a list `L` that starts with `r`, has no repetition and holds exactly the
octants of the subtree of `r`; each octant of `L` is followed under `POC_nextDfs` by the next
one and the last one by `NULL`, so the iteration takes exactly as many steps as the subtree has
octants. -/
theorem C18_nextDfs_complete (w : World) (r h : Nat) (o : Octant)
    (hpl : ParentLinked w) (hr : w.mem r = some o) (hpar : o.parent = none)
    (hh : Height w h r) :
    ∃ L : List Nat,
      (∀ f, L.length + (h + 1) ≤ f → dfsWalk w f (some r) = .ok L) ∧
      NextChain w (h + 1) L none ∧
      L.head? = some r ∧ L.Nodup ∧ (∀ b, b ∈ L ↔ Desc w r b) := by
  refine ⟨dfsList w h r, fun f hf => walk_root hpl hr hpar hh f hf,
    chain_root hpl hr hpar hh, ?_, nodup_dfsList hpl.uniqueParent h r hh,
    fun b => mem_dfsList h r hh⟩
  obtain ⟨tl, htl⟩ := dfsList_head hh
  rw [htl]
  rfl

/-- C18 on the sample tree of five octants, from its root. -/
theorem C18_nextDfs_complete_witness :
    ∃ L : List Nat,
      (∀ f, L.length + (3 + 1) ≤ f → dfsWalk treeWorld f (some 0) = .ok L) ∧
      NextChain treeWorld (3 + 1) L none ∧
      L.head? = some 0 ∧ L.Nodup ∧ (∀ b, b ∈ L ↔ Desc treeWorld 0 b) :=
  C18_nextDfs_complete treeWorld 0 3 treeRoot treeWorld_linked rfl rfl treeWorld_height

/-- C19: in a tree whose child and parent links agree, below a root `r` without parent pointer,
for every octant `n` of the tree `POC_nextDfs(n)` returns the element that follows `n` in the
canonical pre-order listing of the tree (`NULL` after the last element), and `n` stands at one
place of that listing only; it is the first non-empty child of `n` when there is one; for an
octant without children it is `NULL` when `n` has no parent, and the first non-empty slot after
`n` of its parent when there is one; and `POC_nextDfs(NULL)` is `NULL`. -/
theorem C19_preorder_successor (w : World) (r h : Nat) (o : Octant)
    (hpl : ParentLinked w) (hr : w.mem r = some o) (hpar : o.parent = none)
    (hh : Height w h r) (n : Nat) (hn : Desc w r n) (f : Nat) (hf : h + 1 ≤ f) :
    (∃ i, (dfsList w h r)[i]? = some n ∧
      (∀ j, (dfsList w h r)[j]? = some n → j = i) ∧
      POC_nextDfs w f (some n) = .ok (dfsList w h r)[i + 1]?) ∧
    (∀ oc c, w.mem n = some oc → firstChild oc slots = some c →
      POC_nextDfs w f (some n) = .ok (some c)) ∧
    (∀ oc, w.mem n = some oc → firstChild oc slots = none → oc.parent = none →
      POC_nextDfs w f (some n) = .ok none) ∧
    (∀ oc p op i c, w.mem n = some oc → firstChild oc slots = none →
      w.mem p = some op → op.child i = some n →
      firstChild op (slots.filter (fun j => decide (i < j))) = some c →
      POC_nextDfs w f (some n) = .ok (some c)) ∧
    POC_nextDfs w f none = .ok none := by
  obtain ⟨f', rfl⟩ : ∃ f', f = f' + 1 := ⟨f - 1, by omega⟩
  refine ⟨?_, ?_, ?_, ?_, rfl⟩
  · have hmem : n ∈ dfsList w h r := (mem_dfsList h r hh).2 hn
    obtain ⟨i, hi⟩ := List.getElem?_of_mem hmem
    refine ⟨i, hi, ?_, ?_⟩
    · intro j hj
      have hnd := nodup_dfsList hpl.uniqueParent h r hh
      have hi' := List.getElem?_eq_some_iff.1 hi
      have hj' := List.getElem?_eq_some_iff.1 hj
      obtain ⟨hil, hie⟩ := hi'
      obtain ⟨hjl, hje⟩ := hj'
      exact (List.Nodup.getElem_inj_iff hnd).1 (hje.trans hie.symm)
    · have hs := NextChain.step_at _ i n (chain_root hpl hr hpar hh) hi (f' + 1) hf
      rw [hs]
      cases (dfsList w h r)[i + 1]? <;> rfl
  · intro oc c hm hc
    simp only [POC_nextDfs, deref, hm, ok_bind, hc]
    rfl
  · intro oc hm hc hp
    simp only [POC_nextDfs, deref, hm, ok_bind, hc]
    exact up_of_root hm hp (f' + 1) (by omega)
  · intro oc p op i c hm hc hp hch hsib
    have hfilter : slots.filter (fun j => decide (i < j)) =
        slots.filter (fun j => decide (((i.val : Nat) : Int) < ((j.val : Nat) : Int))) := by
      congr 1
      funext j
      have : (((i.val : Nat) : Int) < ((j.val : Nat) : Int)) ↔ i < j := by
        rw [Fin.lt_def]
        exact Int.ofNat_lt
      simp only [this]
    rw [hfilter] at hsib
    simp only [POC_nextDfs, deref, hm, ok_bind, hc]
    rw [up_of_child hpl hp hch f', hsib]

/-- C19 on the sample tree at octant 4, the last child of octant 1: its successor is octant 2,
found two levels up. -/
theorem C19_preorder_successor_witness :
    (∃ i, (dfsList treeWorld 3 0)[i]? = some 4 ∧
      (∀ j, (dfsList treeWorld 3 0)[j]? = some 4 → j = i) ∧
      POC_nextDfs treeWorld 4 (some 4) = .ok (dfsList treeWorld 3 0)[i + 1]?) ∧
    (∀ oc c, treeWorld.mem 4 = some oc → firstChild oc slots = some c →
      POC_nextDfs treeWorld 4 (some 4) = .ok (some c)) ∧
    (∀ oc, treeWorld.mem 4 = some oc → firstChild oc slots = none → oc.parent = none →
      POC_nextDfs treeWorld 4 (some 4) = .ok none) ∧
    (∀ oc p op i c, treeWorld.mem 4 = some oc → firstChild oc slots = none →
      treeWorld.mem p = some op → op.child i = some 4 →
      firstChild op (slots.filter (fun j => decide (i < j))) = some c →
      POC_nextDfs treeWorld 4 (some 4) = .ok (some c)) ∧
    POC_nextDfs treeWorld 4 none = .ok none :=
  C19_preorder_successor treeWorld 0 3 treeRoot treeWorld_linked rfl rfl treeWorld_height 4
    (Relation.ReflTransGen.tail
      (Relation.ReflTransGen.single ⟨treeRoot, 1, rfl, rfl⟩) ⟨treeInner, 7, rfl, rfl⟩)
    4 (le_refl 4)

/-- C20: in every arena state, when `malloc` returns a fresh address `a`, `POC_new` returns
`a`; the octant stored there has all 8 child slots empty, so that `POC_isTerminal` is true,
all child-owner tags -1, no parent, parent-owner and `npid` equal to the local process, id
the old id counter, child number -1, an empty region list and cost 0; `POC_nOctants()` has
grown by exactly 1, no octant that existed before is changed, and the local root list is
unchanged. -/
theorem C20_create (w : World) (a : Nat) (raw : Octant) (hfresh : w.mem a = none) :
    ∃ w' o, POC_new w (some a) raw = .ok (w', a) ∧ w'.mem a = some o ∧
      (∀ i, o.child i = none) ∧ POC_isTerminal w' (some a) = .ok true ∧
      (∀ i, o.cpid i = -1) ∧ o.parent = none ∧ o.ppid = w.OCT_localpid ∧
      o.npid = w.OCT_localpid ∧ o.id = w.OCT_idcount ∧ o.which = -1 ∧ o.numChild = 0 ∧
      o.list = [] ∧ o.cost = 0 ∧
      POC_nOctants w' = POC_nOctants w + 1 ∧
      (∀ b o', w.mem b = some o' → w'.mem b = some o') ∧
      (∀ b, b ≠ a → w'.mem b = w.mem b) ∧
      w'.OCT_rootlist = w.OCT_rootlist ∧ w'.OCT_localpid = w.OCT_localpid := by
  obtain ⟨h1, _, _⟩ := POC_new_clear_spec slots raw
  have hch : ∀ i, (POC_new_clear raw slots).child i = none := fun i => (h1 i (mem_slots i)).1
  have hcp : ∀ i, (POC_new_clear raw slots).cpid i = -1 := fun i => (h1 i (mem_slots i)).2
  refine ⟨_, _, POC_new_eq w a raw, Function.update_same _ _ _, hch, ?_, hcp, rfl, rfl, rfl, rfl,
    rfl, rfl, rfl, rfl, rfl, fun b o' hb => ?_, fun b hb => Function.update_noteq hb _ _, rfl,
    rfl⟩
  · rw [POC_isTerminal_eq]
    simp only [Function.update_same]
    simp [hch]
  · have hba : b ≠ a := fun h => by
      rw [h, hfresh] at hb
      cases hb
    show Function.update w.mem a _ b = _
    rw [Function.update_noteq hba]
    exact hb

/-- C20 in the four-leaf sample state, with `malloc` returning the free address 9 and a block
holding the bits of an unrelated octant. -/
theorem C20_create_witness :
    ∃ w' o, POC_new fourLeafWorld (some 9) sampleRoot4 = .ok (w', 9) ∧ w'.mem 9 = some o ∧
      (∀ i, o.child i = none) ∧ POC_isTerminal w' (some 9) = .ok true ∧
      (∀ i, o.cpid i = -1) ∧ o.parent = none ∧ o.ppid = fourLeafWorld.OCT_localpid ∧
      o.npid = fourLeafWorld.OCT_localpid ∧ o.id = fourLeafWorld.OCT_idcount ∧ o.which = -1 ∧
      o.numChild = 0 ∧ o.list = [] ∧ o.cost = 0 ∧
      POC_nOctants w' = POC_nOctants fourLeafWorld + 1 ∧
      (∀ b o', fourLeafWorld.mem b = some o' → w'.mem b = some o') ∧
      (∀ b, b ≠ 9 → w'.mem b = fourLeafWorld.mem b) ∧
      w'.OCT_rootlist = fourLeafWorld.OCT_rootlist ∧
      w'.OCT_localpid = fourLeafWorld.OCT_localpid :=
  C20_create fourLeafWorld 9 sampleRoot4 (by decide)


/-- C21: in every state reached from `POC_init` by calls of `POC_new`, `POC_setparent`,
`POC_setchild` and `POC_free`, any two distinct octants of the arena have different ids; the
id counter is the number of octants created so far, every id in the arena is at least 0 and
below it, and the next `POC_new` hands out exactly that number, so that ids are given out as
0, 1, 2, ... in creation order and never again. -/
theorem C21_unique_ids (ops : List ArenaOp) (w : World)
    (h : Reached [OpKind.new, OpKind.setparent, OpKind.setchild, OpKind.free] anyCall ops w) :
    (∀ a b oa ob, w.mem a = some oa → w.mem b = some ob → a ≠ b → oa.id ≠ ob.id) ∧
    w.OCT_idcount = (creations ops : Int) ∧
    (∀ a o, w.mem a = some o → 0 ≤ o.id ∧ o.id < (creations ops : Int)) ∧
    (∀ a raw, w.mem a = none →
      ∃ w' o, POC_new w (some a) raw = .ok (w', a) ∧ w'.mem a = some o ∧
        o.id = (creations ops : Int)) := by
  obtain ⟨hinv, hid⟩ := h.arena_inv
  refine ⟨?_, hid, ?_, ?_⟩
  · intro a b oa ob ha hb hab hids
    exact hab (hinv.id_inj a b oa ob ha hb hids)
  · intro a o ha
    rw [← hid]
    exact hinv.id_lt a o ha
  · intro a raw _
    refine ⟨_, _, POC_new_eq w a raw, mem_update_same _ _ _, ?_⟩
    exact hid

/-- C21 after two creations, a `POC_setchild`, the `POC_free` of the first octant and a third
creation in the freed block: the octant in the reused block has id 2, the other one id 1. -/
theorem C21_unique_ids_witness :
    ((∀ a b oa ob, (stateAfter reuseOps).mem a = some oa → (stateAfter reuseOps).mem b = some ob →
        a ≠ b → oa.id ≠ ob.id) ∧
      (stateAfter reuseOps).OCT_idcount = (creations reuseOps : Int) ∧
      (∀ a o, (stateAfter reuseOps).mem a = some o →
        0 ≤ o.id ∧ o.id < (creations reuseOps : Int)) ∧
      (∀ a raw, (stateAfter reuseOps).mem a = none →
        ∃ w' o, POC_new (stateAfter reuseOps) (some a) raw = .ok (w', a) ∧ w'.mem a = some o ∧
          o.id = (creations reuseOps : Int))) ∧
    creations reuseOps = 3 ∧
    ((stateAfter reuseOps).mem 0).map (fun o => o.id) = some 2 ∧
    ((stateAfter reuseOps).mem 1).map (fun o => o.id) = some 1 :=
  ⟨C21_unique_ids reuseOps (stateAfter reuseOps)
      (reached_arenaInit _ _
        (Runs.cons _ (by decide) rfl trivial rfl <|
         Runs.cons _ (by decide) rfl trivial rfl <|
         Runs.cons _ (by decide) trivial trivial rfl <|
         Runs.cons _ (by decide) trivial trivial rfl <|
         Runs.cons _ (by decide) rfl trivial rfl <| Runs.nil _)),
    by decide, by decide, by decide⟩

/-- C22, the code where pointers have 64 bits and `int` has 32: line 344 of `octant.c`
converts each child pointer with `(int)`, which keeps the low 32 bits of the address, so that
`POC_isTerminal` returns 1 exactly when every child slot converts to 0, for every layout of
the memory.  At the failing input, the octant of `gapWorld` whose slot 0 holds the octant of
block 1, with block 1 at the address `2^32`, the slot is not empty and `POC_isTerminal`
returns 1; the test of the pointer against `NULL` gives 0 there.  In a layout below `2^32` the
same octant gives 0 and its child gives 1. -/
theorem C22_isTerminal_pointer_cast :
    (∀ (addr : Nat → Nat) (w : World) (oct : pOctant),
      POC_isTerminal_int addr w oct =
        (deref w oct).map (fun o =>
          if ∀ i, pointer_to_int addr (o.child i) = 0 then (1 : Int) else 0)) ∧
    wideLayout 1 = 2 ^ 32 ∧ gapWorld.mem 0 = some sampleRootGap ∧
    sampleRootGap.child 0 = some 1 ∧
    pointer_to_int wideLayout (some 1) = 0 ∧
    (POC_isTerminal_int wideLayout gapWorld (some 0)).toOption = some 1 ∧
    (POC_isTerminal gapWorld (some 0)).toOption = some false ∧
    (POC_isTerminal_int lowLayout gapWorld (some 0)).toOption = some 0 ∧
    (POC_isTerminal_int lowLayout gapWorld (some 1)).toOption = some 1 ∧
    (POC_isTerminal_int wideLayout treeWorld (some 0)).toOption = some 0 :=
  ⟨POC_isTerminal_int_eq, by decide, rfl, rfl, by decide, by decide, by decide,
    by decide, by decide, by decide⟩

/-- C23: in every state reached from `POC_init` by arena operations and for every octant `o`
of the arena, `POC_setparent(o, parent, ppid)` returns (when the allocation of a list entry
succeeds) and leaves `o` with parent pointer `parent` and parent-owner `ppid`; if the previous
parent-owner was the local process and `ppid` is not, `o` is appended to the end of the local
root list; if the previous parent-owner was not the local process and `ppid` is, `o` was in
the list and its entry is removed, the other entries staying in order; in the two remaining
cases the list is unchanged; no other octant and no counter is modified. -/
theorem C23_setparent (ops : List ArenaOp) (w : World) (a : Nat) (o : Octant)
    (parent : pOctant) (ppid : Int) (h : Reached allKinds anyCall ops w)
    (hm : w.mem a = some o) :
    ∃ w', POC_setparent w (some a) parent ppid true = .ok w' ∧
      w'.mem a = some { o with parent := parent, ppid := ppid } ∧
      (∀ b, b ≠ a → w'.mem b = w.mem b) ∧
      (o.ppid = w.OCT_localpid → ppid ≠ w.OCT_localpid →
        w'.OCT_rootlist = w.OCT_rootlist ++ [a]) ∧
      (o.ppid ≠ w.OCT_localpid → ppid = w.OCT_localpid →
        a ∈ w.OCT_rootlist ∧
        w'.OCT_rootlist = w.OCT_rootlist.filter (fun r => decide (r ≠ a))) ∧
      (o.ppid = w.OCT_localpid → ppid = w.OCT_localpid →
        w'.OCT_rootlist = w.OCT_rootlist) ∧
      (o.ppid ≠ w.OCT_localpid → ppid ≠ w.OCT_localpid →
        w'.OCT_rootlist = w.OCT_rootlist) ∧
      w'.OCT_count = w.OCT_count ∧ w'.OCT_idcount = w.OCT_idcount ∧
      w'.OCT_localpid = w.OCT_localpid := by
  obtain ⟨hinv, _⟩ := h.arena_inv
  refine ⟨_, POC_setparent_inv_eq hinv hm parent ppid, mem_update_same _ _ _,
    fun b hb => mem_update_other _ _ hb, ?_, ?_, ?_, ?_, rfl, rfl, rfl⟩
  · intro h1 h2
    show rootsAfterSetparent w a o ppid = _
    unfold rootsAfterSetparent
    rw [if_pos h1, if_pos h2]
  · intro h1 h2
    refine ⟨(hinv.listed a).2 ⟨o, hm, h1⟩, ?_⟩
    show rootsAfterSetparent w a o ppid = _
    unfold rootsAfterSetparent
    rw [if_neg h1, if_pos h2, hinv.nodup.erase_eq_filter]
    congr 1
    funext r
    by_cases hr : r = a
    · simp [hr]
    · simp [hr]
  · intro h1 h2
    show rootsAfterSetparent w a o ppid = _
    unfold rootsAfterSetparent
    rw [if_pos h1, if_neg (not_not.2 h2)]
  · intro h1 h2
    show rootsAfterSetparent w a o ppid = _
    unfold rootsAfterSetparent
    rw [if_neg h1, if_neg h2]

/-- C23 after three creations and two calls that made the octants 0 and 2 local roots: giving
octant 0 the local parent 1 removes its entry from the root list `[0, 2]`, and giving octant 1
a parent on process 4 appends it. -/
theorem C23_setparent_witness :
    (∃ w', POC_setparent (stateAfter rootsOps) (some 0) (some 1) 0 true = .ok w' ∧
      w'.mem 0 = some { octAt (stateAfter rootsOps) 0 with parent := some 1, ppid := 0 } ∧
      (∀ b, b ≠ 0 → w'.mem b = (stateAfter rootsOps).mem b) ∧
      ((octAt (stateAfter rootsOps) 0).ppid = (stateAfter rootsOps).OCT_localpid →
        (0 : Int) ≠ (stateAfter rootsOps).OCT_localpid →
        w'.OCT_rootlist = (stateAfter rootsOps).OCT_rootlist ++ [0]) ∧
      ((octAt (stateAfter rootsOps) 0).ppid ≠ (stateAfter rootsOps).OCT_localpid →
        (0 : Int) = (stateAfter rootsOps).OCT_localpid →
        0 ∈ (stateAfter rootsOps).OCT_rootlist ∧
        w'.OCT_rootlist =
          (stateAfter rootsOps).OCT_rootlist.filter (fun r => decide (r ≠ 0))) ∧
      ((octAt (stateAfter rootsOps) 0).ppid = (stateAfter rootsOps).OCT_localpid →
        (0 : Int) = (stateAfter rootsOps).OCT_localpid →
        w'.OCT_rootlist = (stateAfter rootsOps).OCT_rootlist) ∧
      ((octAt (stateAfter rootsOps) 0).ppid ≠ (stateAfter rootsOps).OCT_localpid →
        (0 : Int) ≠ (stateAfter rootsOps).OCT_localpid →
        w'.OCT_rootlist = (stateAfter rootsOps).OCT_rootlist) ∧
      w'.OCT_count = (stateAfter rootsOps).OCT_count ∧
      w'.OCT_idcount = (stateAfter rootsOps).OCT_idcount ∧
      w'.OCT_localpid = (stateAfter rootsOps).OCT_localpid) ∧
    (stateAfter rootsOps).OCT_rootlist = [0, 2] ∧
    (POC_setparent (stateAfter rootsOps) (some 0) (some 1) 0 true).toOption.map
      (fun s => s.OCT_rootlist) = some [2] ∧
    (POC_setparent (stateAfter rootsOps) (some 1) (some 7) 4 true).toOption.map
      (fun s => s.OCT_rootlist) = some [0, 2, 1] :=
  ⟨C23_setparent rootsOps (stateAfter rootsOps) 0 (octAt (stateAfter rootsOps) 0) (some 1) 0
      (reached_arenaInit _ _
        (Runs.cons _ (by decide) rfl trivial rfl <|
         Runs.cons _ (by decide) rfl trivial rfl <|
         Runs.cons _ (by decide) rfl trivial rfl <|
         Runs.cons _ (by decide) trivial trivial rfl <|
         Runs.cons _ (by decide) trivial trivial rfl <| Runs.nil _))
      rfl,
    by decide, by decide, by decide⟩

/-- C24, as stated, fails: after `POC_init` and one call of `POC_new` the arena holds one
octant, which has no parent at all, and the local root list is empty. -/
theorem C24_root_membership_counterexample :
    Reached [OpKind.new, OpKind.setparent, OpKind.setchild, OpKind.free, OpKind.delTree] anyCall
      [ArenaOp.new 0 sampleRoot4] (stateAfter [ArenaOp.new 0 sampleRoot4]) ∧
    (stateAfter [ArenaOp.new 0 sampleRoot4]).OCT_rootlist = [] ∧
    ((stateAfter [ArenaOp.new 0 sampleRoot4]).mem 0).map (fun o => o.parent) = some none ∧
    ¬ (∀ (ops : List ArenaOp) (w : World) (a : Nat) (o : Octant),
        Reached [OpKind.new, OpKind.setparent, OpKind.setchild, OpKind.free, OpKind.delTree]
          anyCall ops w →
        w.mem a = some o →
        (a ∈ w.OCT_rootlist ↔ (o.ppid ≠ w.OCT_localpid ∨ o.parent = none))) := by
  have hr : Reached [OpKind.new, OpKind.setparent, OpKind.setchild, OpKind.free, OpKind.delTree]
      anyCall [ArenaOp.new 0 sampleRoot4] (stateAfter [ArenaOp.new 0 sampleRoot4]) :=
    reached_arenaInit _ _ (Runs.cons _ (by decide) rfl trivial rfl <| Runs.nil _)
  refine ⟨hr, by decide, by decide, fun hall => ?_⟩
  have h := (hall _ _ 0 (octAt (stateAfter [ArenaOp.new 0 sampleRoot4]) 0) hr rfl).2 (Or.inr rfl)
  revert h
  decide

/-- C24, amended: in every state reached from `POC_init` by calls of `POC_new`,
`POC_setparent`, `POC_setchild`, `POC_free` and `POC_delTree`, an octant of the arena is in the
local root list if and only if its parent-owner is not the local process (as after
`POC_setparent(o, NULL, -1)` for the global root); every entry of the list is an octant of the
arena and occurs once. -/
theorem C24_root_membership_amended (ops : List ArenaOp) (w : World)
    (h : Reached [OpKind.new, OpKind.setparent, OpKind.setchild, OpKind.free, OpKind.delTree]
      anyCall ops w) :
    (∀ a o, w.mem a = some o → (a ∈ w.OCT_rootlist ↔ o.ppid ≠ w.OCT_localpid)) ∧
    (∀ a ∈ w.OCT_rootlist, ∃ o, w.mem a = some o) ∧
    w.OCT_rootlist.Nodup := by
  obtain ⟨hinv, _⟩ := h.arena_inv
  refine ⟨?_, hinv.roots_live, hinv.nodup⟩
  intro a o hm
  rw [hinv.listed a]
  constructor
  · rintro ⟨o', ho', hne⟩
    rw [hm] at ho'
    cases ho'
    exact hne
  · intro hne
    exact ⟨o, hm, hne⟩

/-- C24, amended, after three creations and two calls that gave the octants 0 and 2 a
parent-owner other than the local process: the root list is `[0, 2]`, and octant 1, which has
no parent, is not in it. -/
theorem C24_root_membership_amended_witness :
    ((∀ a o, (stateAfter rootsOps).mem a = some o →
        (a ∈ (stateAfter rootsOps).OCT_rootlist ↔ o.ppid ≠ (stateAfter rootsOps).OCT_localpid)) ∧
      (∀ a ∈ (stateAfter rootsOps).OCT_rootlist, ∃ o, (stateAfter rootsOps).mem a = some o) ∧
      (stateAfter rootsOps).OCT_rootlist.Nodup) ∧
    (stateAfter rootsOps).OCT_rootlist = [0, 2] ∧
    ((stateAfter rootsOps).mem 1).map (fun o => (o.parent, o.ppid)) = some (none, 0) :=
  ⟨C24_root_membership_amended rootsOps (stateAfter rootsOps)
      (reached_arenaInit _ _
        (Runs.cons _ (by decide) rfl trivial rfl <|
         Runs.cons _ (by decide) rfl trivial rfl <|
         Runs.cons _ (by decide) rfl trivial rfl <|
         Runs.cons _ (by decide) trivial trivial rfl <|
         Runs.cons _ (by decide) trivial trivial rfl <| Runs.nil _)),
    by decide, by decide⟩

/-- C25, as stated, fails: on the root of the sample tree, whose slots 1 and 5 hold children,
`POC_addRegion` returns and the root then holds the region; on that state `POC_remRegion` and
`POC_clearRegions` return as well and leave the root, still with its children, with an empty
region list. -/
theorem C25_region_mutation_counterexample :
    treeWorld.mem 0 = some treeRoot ∧ treeRoot.child 1 ≠ none ∧ treeRoot.list = [] ∧
    ∃ w1 w2 w3 o1,
      POC_addRegion treeWorld (some 0) (sampleRegion 7) true = .ok w1 ∧
      w1.mem 0 = some o1 ∧ o1.child 1 ≠ none ∧ o1.list = [sampleRegion 7] ∧
      POC_remRegion w1 (some 0) (sampleRegion 7) = .ok w2 ∧
      (w2.mem 0).map (fun o => o.list) = some [] ∧
      POC_clearRegions w1 (some 0) = .ok w3 ∧
      (w3.mem 0).map (fun o => o.list) = some [] := by
  have hm : treeWorld.mem 0 = some treeRoot := rfl
  have hm1 : ({ treeWorld with
      mem := Function.update treeWorld.mem 0
        (some { treeRoot with list := sampleRegion 7 :: treeRoot.list }) } : World).mem 0 =
      some { treeRoot with list := sampleRegion 7 :: treeRoot.list } := mem_update_same _ _ _
  refine ⟨rfl, by decide, rfl, _, _, _, _, POC_addRegion_eq hm _, hm1, by decide, rfl,
    POC_remRegion_eq hm1 _, ?_, POC_clearRegions_eq hm1, ?_⟩
  · rw [mem_update_same]
    simp [POC_remRegion_loop, LB_EQ_GID]
    rfl
  · rw [mem_update_same]
    rfl

/-- C25, amended: the region mutators do not look at the child slots.  For every octant of the
arena, with or without children, `POC_addRegion` (when its allocation succeeds) returns with a
copy of the region at the head of the list, `POC_remRegion` returns with the first entry that
has the global id of the region removed, and `POC_clearRegions` returns with an empty list;
no other field and no other octant changes.  `POC_addRegion` aborts for a `NULL` octant and
when its allocation fails. -/
theorem C25_region_mutation_amended (w : World) (a : Nat) (o : Octant) (r : Region)
    (hm : w.mem a = some o) :
    POC_addRegion w (some a) r true =
      .ok { w with mem := Function.update w.mem a (some { o with list := r :: o.list }) } ∧
    POC_remRegion w (some a) r =
      .ok { w with
            mem := Function.update w.mem a
              (some { o with
                      list := o.list.eraseP (fun e => decide (e.Global_ID = r.Global_ID)) }) } ∧
    POC_clearRegions w (some a) =
      .ok { w with mem := Function.update w.mem a (some { o with list := [] }) } ∧
    POC_addRegion w none r true = .error .abort ∧
    POC_addRegion w (some a) r false = .error .abort := by
  refine ⟨POC_addRegion_eq hm r, ?_, POC_clearRegions_eq hm, rfl, rfl⟩
  rw [POC_remRegion_eq hm, POC_remRegion_loop_eq]

/-- C25, amended, on the root of the sample tree, which has children. -/
theorem C25_region_mutation_amended_witness :
    POC_addRegion treeWorld (some 0) (sampleRegion 7) true =
      .ok { treeWorld with
            mem := Function.update treeWorld.mem 0
              (some { treeRoot with list := sampleRegion 7 :: treeRoot.list }) } ∧
    POC_remRegion treeWorld (some 0) (sampleRegion 7) =
      .ok { treeWorld with
            mem := Function.update treeWorld.mem 0
              (some { treeRoot with
                      list := treeRoot.list.eraseP
                        (fun e => decide (e.Global_ID = (sampleRegion 7).Global_ID)) }) } ∧
    POC_clearRegions treeWorld (some 0) =
      .ok { treeWorld with
            mem := Function.update treeWorld.mem 0 (some { treeRoot with list := [] }) } ∧
    POC_addRegion treeWorld none (sampleRegion 7) true = .error .abort ∧
    POC_addRegion treeWorld (some 0) (sampleRegion 7) false = .error .abort :=
  C25_region_mutation_amended treeWorld 0 treeRoot (sampleRegion 7) rfl

/-- C26: for every octant `o` of the arena, `POC_nRegions(o)` and `POC_regionlist(o)` return
normally exactly when `POC_isTerminal(o)` is true and abort otherwise; when they return,
`POC_nRegions(o)` is the length of the region list of `o` and `POC_regionlist(o)` is that list.
For a `NULL` octant `POC_nRegions` aborts. -/
theorem C26_region_queries (w : World) (a : Nat) (o : Octant) (hm : w.mem a = some o) :
    ((∃ n, POC_nRegions w (some a) = .ok n) ↔ POC_isTerminal w (some a) = .ok true) ∧
    ((∃ l, POC_regionlist w (some a) = .ok l) ↔ POC_isTerminal w (some a) = .ok true) ∧
    (POC_isTerminal w (some a) = .ok true →
      POC_nRegions w (some a) = .ok (o.list.length : Int) ∧
      POC_regionlist w (some a) = .ok o.list) ∧
    (POC_isTerminal w (some a) ≠ .ok true →
      POC_isTerminal w (some a) = .ok false ∧
      POC_nRegions w (some a) = .error .abort ∧
      POC_regionlist w (some a) = .error .abort) ∧
    POC_nRegions w none = .error .abort := by
  rw [POC_isTerminal_some hm, POC_nRegions_eq hm, POC_regionlist_eq hm]
  by_cases h : ∀ i, o.child i = none
  · simp [h, POC_nRegions]
  · simp [h, POC_nRegions]

/-- C26 in the sample tree: the queries abort on the root (address 0, not terminal) and return
on the octant at address 2 (terminal, no regions). -/
theorem C26_region_queries_witness :
    (((∃ n, POC_nRegions treeWorld (some 0) = .ok n) ↔
        POC_isTerminal treeWorld (some 0) = .ok true) ∧
      ((∃ l, POC_regionlist treeWorld (some 0) = .ok l) ↔
        POC_isTerminal treeWorld (some 0) = .ok true) ∧
      (POC_isTerminal treeWorld (some 0) = .ok true →
        POC_nRegions treeWorld (some 0) = .ok (treeRoot.list.length : Int) ∧
        POC_regionlist treeWorld (some 0) = .ok treeRoot.list) ∧
      (POC_isTerminal treeWorld (some 0) ≠ .ok true →
        POC_isTerminal treeWorld (some 0) = .ok false ∧
        POC_nRegions treeWorld (some 0) = .error .abort ∧
        POC_regionlist treeWorld (some 0) = .error .abort) ∧
      POC_nRegions treeWorld none = .error .abort) ∧
    POC_nRegions treeWorld (some 0) = .error .abort ∧
    POC_nRegions treeWorld (some 2) = .ok 0 :=
  ⟨C26_region_queries treeWorld 0 treeRoot rfl, rfl, rfl⟩

/-- C27, as stated, fails: after `POC_init`, two calls of `POC_new`, `POC_addRegion` on the
first octant and `POC_setchild` storing the second octant in slot 0 of the first, the first
octant has a region and a child. -/
theorem C27_payload_exclusion_counterexample :
    Reached [OpKind.new, OpKind.setchild, OpKind.setchildren, OpKind.addRegion,
        OpKind.remRegion, OpKind.clearRegions, OpKind.setparent] anyCall
      mixedOps (stateAfter mixedOps) ∧
    ((stateAfter mixedOps).mem 0).map (fun o => (o.list.length, o.child 0)) =
      some (1, some 1) ∧
    ¬ Exclusive (stateAfter mixedOps) := by
  refine ⟨reached_arenaInit _ _
      (Runs.cons _ (by decide) rfl trivial rfl <|
       Runs.cons _ (by decide) rfl trivial rfl <|
       Runs.cons _ (by decide) trivial trivial rfl <|
       Runs.cons _ (by decide) trivial trivial rfl <| Runs.nil _),
    by decide, fun hex => ?_⟩
  have h := hex 0 (octAt (stateAfter mixedOps) 0) rfl
  rcases h with h | h
  · exact absurd (congrArg List.length h) (by decide)
  · exact absurd (h 0) (by decide)

/-- C27, amended: in every state reached from `POC_init` by calls of `POC_new`,
`POC_setchild`, `POC_setchildren`, `POC_addRegion`, `POC_remRegion`, `POC_clearRegions` and
`POC_setparent` in which `POC_addRegion` is applied to terminal octants only and a non-`NULL`
child is stored only in an octant with an empty region list, no octant has both a non-empty
region list and a non-empty child slot. -/
theorem C27_payload_exclusion_amended (ops : List ArenaOp) (w : World)
    (h : Reached [OpKind.new, OpKind.setchild, OpKind.setchildren, OpKind.addRegion,
        OpKind.remRegion, OpKind.clearRegions, OpKind.setparent] Disciplined ops w) :
    ∀ a o, w.mem a = some o → ¬ (o.list ≠ [] ∧ ∃ i, o.child i ≠ none) := by
  obtain ⟨w0, pid, dim, hempty, hruns⟩ := h
  have h0 : Exclusive (POC_init w0 pid dim) := by
    intro a o ha
    rw [(POC_init_inv w0 pid dim hempty).2.2.2.1, hempty a] at ha
    cases ha
  have hex := hruns.exclusive ⟨by decide, by decide⟩ h0
  rintro a o hm ⟨hl, i, hi⟩
  rcases hex a o hm with h | h
  · exact hl h
  · exact hi (h i)

/-- C27, amended, after two creations, `POC_addRegion` on the second octant, which is
terminal, and `POC_setchild` storing it in slot 0 of the first, which has no region. -/
theorem C27_payload_exclusion_amended_witness :
    (∀ a o, (stateAfter tidyOps).mem a = some o → ¬ (o.list ≠ [] ∧ ∃ i, o.child i ≠ none)) ∧
    ((stateAfter tidyOps).mem 0).map (fun o => (o.list.length, o.child 0)) =
      some (0, some 1) ∧
    ((stateAfter tidyOps).mem 1).map (fun o => (o.list.length, o.child 0)) =
      some (1, none) :=
  ⟨C27_payload_exclusion_amended tidyOps (stateAfter tidyOps)
      (reached_arenaInit _ _
        (Runs.cons _ (by decide) rfl trivial rfl <|
         Runs.cons _ (by decide) rfl trivial rfl <|
         Runs.cons _ (by decide) trivial rfl rfl <|
         Runs.cons _ (by decide) trivial (Or.inr ⟨_, rfl, rfl⟩) rfl <| Runs.nil _)),
    by decide, by decide⟩

/-- C29: for every prior state, every `pid` and every `dim`, after `POC_init(pid, dim)` the
process-wide dimension is `dim` when `dim` is 2 or 3 and the default 3 for every other `dim`;
in all cases the octant count is 0, the id counter is 0, the local root list is empty and the
local process id is `pid`; the octants and the statics of `dfs.c` are not touched. -/
theorem C29_init_dimension (w : World) (pid dim : Int) :
    (POC_init w pid dim).OCT_dimension = (if dim = 2 ∨ dim = 3 then dim else 3) ∧
    POC_nOctants (POC_init w pid dim) = 0 ∧
    (POC_init w pid dim).OCT_idcount = 0 ∧
    POC_localroots (POC_init w pid dim) = [] ∧
    (POC_init w pid dim).OCT_localpid = pid ∧
    (POC_init w pid dim).mem = w.mem ∧
    (POC_init w pid dim).CLOSE = w.CLOSE := by
  unfold POC_init POC_nOctants POC_localroots
  by_cases h : dim > 3 ∨ dim < 2
  · have h2 : ¬ (dim = 2 ∨ dim = 3) := by omega
    rw [if_pos h, if_neg h2]
    exact ⟨rfl, rfl, rfl, rfl, rfl, rfl, rfl⟩
  · have h2 : dim = 2 ∨ dim = 3 := by omega
    rw [if_neg h, if_pos h2]
    exact ⟨rfl, rfl, rfl, rfl, rfl, rfl, rfl⟩

/-- C30: `LB_dfs_set_visit_criterion(v)` stores `v` when `v` is 0 or 1, but for any other `v`
it leaves the mode as it was instead of falling back to the default 0 that its warning
announces: after the mode was set to 1, the call with `v = 2` (or `v = -1`) leaves
`CLOSE = 1`, the nearest-centroid order. -/
theorem C30_invalid_criterion_keeps_mode :
    (∀ (w : World) (v : Int),
      (LB_dfs_set_visit_criterion w v).CLOSE = (if v = 0 ∨ v = 1 then v else w.CLOSE)) ∧
    emptyWorld.CLOSE = 0 ∧
    (LB_dfs_set_visit_criterion emptyWorld 1).CLOSE = 1 ∧
    (LB_dfs_set_visit_criterion (LB_dfs_set_visit_criterion emptyWorld 1) 2).CLOSE = 1 ∧
    (LB_dfs_set_visit_criterion (LB_dfs_set_visit_criterion emptyWorld 1) (-1)).CLOSE = 1 ∧
    (LB_dfs_set_visit_criterion (LB_dfs_set_visit_criterion emptyWorld 1) 2).CLOSE ≠ 0 := by
  refine ⟨fun w v => ?_, rfl, by decide, by decide, by decide, by decide⟩
  unfold LB_dfs_set_visit_criterion
  by_cases h : v < 0 ∨ v > 1
  · have h2 : ¬ (v = 0 ∨ v = 1) := by omega
    rw [if_pos h, if_neg h2]
  · have h2 : v = 0 ∨ v = 1 := by omega
    rw [if_neg h, if_pos h2]

/-- C32: for every terminal octant `o` of the arena and every region `r`, `POC_addRegion(o, r)`
(its allocation succeeding) returns; afterwards the region list of `o` is an entry with the
coordinate, weight, global id, local id and owning process of `r`, followed by the previous
list, unchanged and in the same order; `POC_nRegions(o)` has grown by exactly 1; the octant is
otherwise unchanged, and so is every other octant. -/
theorem C32_addRegion (w : World) (a : Nat) (o : Octant) (r : Region)
    (hm : w.mem a = some o) (ht : ∀ i, o.child i = none) :
    ∃ w' e, POC_addRegion w (some a) r true = .ok w' ∧
      w'.mem a = some { o with list := e :: o.list } ∧
      e.Coord = r.Coord ∧ e.Weight = r.Weight ∧ e.Global_ID = r.Global_ID ∧
      e.Local_ID = r.Local_ID ∧ e.Proc = r.Proc ∧
      POC_regionlist w (some a) = .ok o.list ∧
      POC_regionlist w' (some a) = .ok (e :: o.list) ∧
      POC_nRegions w (some a) = .ok (o.list.length : Int) ∧
      POC_nRegions w' (some a) = .ok ((o.list.length : Int) + 1) ∧
      (∀ b, b ≠ a → w'.mem b = w.mem b) := by
  have hm' : ({ w with mem := Function.update w.mem a (some { o with list := r :: o.list }) } :
      World).mem a = some { o with list := r :: o.list } := mem_update_same _ _ _
  refine ⟨_, r, POC_addRegion_eq hm r, hm', rfl, rfl, rfl, rfl, rfl, ?_, ?_, ?_, ?_,
    fun b hb => mem_update_other _ _ hb⟩
  · rw [POC_regionlist_eq hm, if_pos ht]
  · rw [POC_regionlist_eq hm', if_pos ht]
  · rw [POC_nRegions_eq hm, if_pos ht]
  · rw [POC_nRegions_eq hm', if_pos ht]
    simp only [List.length_cons, Nat.cast_add, Nat.cast_one]

/-- C32 on the terminal octant at address 2 of the sample tree, which has no region: after
`POC_addRegion` it has one. -/
theorem C32_addRegion_witness :
    (∃ w' e, POC_addRegion treeWorld (some 2) (sampleRegion 7) true = .ok w' ∧
      w'.mem 2 = some { treeLeaf 0 5 with list := e :: (treeLeaf 0 5).list } ∧
      e.Coord = (sampleRegion 7).Coord ∧ e.Weight = (sampleRegion 7).Weight ∧
      e.Global_ID = (sampleRegion 7).Global_ID ∧
      e.Local_ID = (sampleRegion 7).Local_ID ∧ e.Proc = (sampleRegion 7).Proc ∧
      POC_regionlist treeWorld (some 2) = .ok (treeLeaf 0 5).list ∧
      POC_regionlist w' (some 2) = .ok (e :: (treeLeaf 0 5).list) ∧
      POC_nRegions treeWorld (some 2) = .ok ((treeLeaf 0 5).list.length : Int) ∧
      POC_nRegions w' (some 2) = .ok (((treeLeaf 0 5).list.length : Int) + 1) ∧
      (∀ b, b ≠ 2 → w'.mem b = treeWorld.mem b)) ∧
    POC_nRegions treeWorld (some 2) = .ok 0 :=
  ⟨C32_addRegion treeWorld 2 (treeLeaf 0 5) (sampleRegion 7) rfl (by decide), rfl⟩

/-- C33: for every octant `o` of the arena and every region `r`, `POC_remRegion(o, r)` returns
and deletes exactly the first entry of the region list of `o` whose global id is that of `r`,
keeping all other entries in their order; when no entry has that global id the list is
unchanged; nothing else changes; and `POC_addRegion(o, r)` followed by `POC_remRegion(o, r)`
leaves the octant as it was. -/
theorem C33_remRegion (w : World) (a : Nat) (o : Octant) (r : Region)
    (hm : w.mem a = some o) :
    ∃ w', POC_remRegion w (some a) r = .ok w' ∧
      w'.mem a =
        some { o with list := o.list.eraseP (fun e => decide (e.Global_ID = r.Global_ID)) } ∧
      (∀ l1 e l2, o.list = l1 ++ e :: l2 → (∀ x ∈ l1, x.Global_ID ≠ r.Global_ID) →
        e.Global_ID = r.Global_ID →
        o.list.eraseP (fun e => decide (e.Global_ID = r.Global_ID)) = l1 ++ l2) ∧
      ((∀ x ∈ o.list, x.Global_ID ≠ r.Global_ID) →
        o.list.eraseP (fun e => decide (e.Global_ID = r.Global_ID)) = o.list) ∧
      (∀ b, b ≠ a → w'.mem b = w.mem b) ∧
      ∃ w1 w2, POC_addRegion w (some a) r true = .ok w1 ∧
        POC_remRegion w1 (some a) r = .ok w2 ∧ w2.mem a = some o ∧
        ∀ b, w2.mem b = w.mem b := by
  have hm1 : ({ w with mem := Function.update w.mem a (some { o with list := r :: o.list }) } :
      World).mem a = some { o with list := r :: o.list } := mem_update_same _ _ _
  refine ⟨_, POC_remRegion_eq hm r, ?_, ?_, ?_, fun b hb => mem_update_other _ _ hb,
    _, _, POC_addRegion_eq hm r, POC_remRegion_eq hm1 r, ?_, ?_⟩
  · rw [mem_update_same, POC_remRegion_loop_eq]
  · intro l1 e l2 hl hl1 he
    have h1 : ∀ x ∈ l1, ¬ (decide (x.Global_ID = r.Global_ID) = true) := fun x hx => by
      simpa using hl1 x hx
    rw [hl, List.eraseP_append_right _ h1, List.eraseP_cons]
    simp [he]
  · intro hno
    exact List.eraseP_of_forall_not (fun x hx => by simpa using hno x hx)
  · rw [mem_update_same]
    simp [POC_remRegion_loop, LB_EQ_GID]
  · intro b
    by_cases hb : b = a
    · rw [hb, mem_update_same, hm]
      simp [POC_remRegion_loop, LB_EQ_GID]
    · rw [mem_update_other _ _ hb]
      exact mem_update_other _ _ hb

/-- C33 on the octant at address 3 of the sample arena, which holds the regions with the
global ids 8 and 7, in this order: removing the region with the global id 7 leaves the one with
the global id 8. -/
theorem C33_remRegion_witness :
    (∃ w', POC_remRegion (stateAfter delOps) (some 3) (sampleRegion 7) = .ok w' ∧
      w'.mem 3 =
        some { octAt (stateAfter delOps) 3 with
               list := (octAt (stateAfter delOps) 3).list.eraseP
                 (fun e => decide (e.Global_ID = (sampleRegion 7).Global_ID)) } ∧
      (∀ l1 e l2, (octAt (stateAfter delOps) 3).list = l1 ++ e :: l2 →
        (∀ x ∈ l1, x.Global_ID ≠ (sampleRegion 7).Global_ID) →
        e.Global_ID = (sampleRegion 7).Global_ID →
        (octAt (stateAfter delOps) 3).list.eraseP
          (fun e => decide (e.Global_ID = (sampleRegion 7).Global_ID)) = l1 ++ l2) ∧
      ((∀ x ∈ (octAt (stateAfter delOps) 3).list, x.Global_ID ≠ (sampleRegion 7).Global_ID) →
        (octAt (stateAfter delOps) 3).list.eraseP
          (fun e => decide (e.Global_ID = (sampleRegion 7).Global_ID)) =
            (octAt (stateAfter delOps) 3).list) ∧
      (∀ b, b ≠ 3 → w'.mem b = (stateAfter delOps).mem b) ∧
      ∃ w1 w2, POC_addRegion (stateAfter delOps) (some 3) (sampleRegion 7) true = .ok w1 ∧
        POC_remRegion w1 (some 3) (sampleRegion 7) = .ok w2 ∧
        w2.mem 3 = some (octAt (stateAfter delOps) 3) ∧
        ∀ b, w2.mem b = (stateAfter delOps).mem b) ∧
    ((stateAfter delOps).mem 3).map (fun o => o.list.map (fun e => e.Global_ID)) =
      some [8, 7] ∧
    ((POC_remRegion (stateAfter delOps) (some 3) (sampleRegion 7)).toOption.bind
      (fun s => (s.mem 3).map (fun o => o.list.map (fun e => e.Global_ID)))) = some [8] :=
  ⟨C33_remRegion (stateAfter delOps) 3 (octAt (stateAfter delOps) 3) (sampleRegion 7) rfl,
    by decide, by decide⟩

/-- C35: in every state reached from `POC_init` by calls of `POC_new`, `POC_setparent` and
`POC_free`, the local root list contains exactly the octants of the arena whose parent-owner
differs from the local process, each exactly once, in the order in which they became
non-local: each listed octant became non-local at one of the calls made, and along the list
the positions of these calls grow. -/
theorem C35_root_list_order (ops : List ArenaOp) (w w0 : World) (pid dim : Int)
    (hempty : ∀ a, w0.mem a = none)
    (hruns : Runs [OpKind.new, OpKind.setparent, OpKind.free] anyCall (POC_init w0 pid dim)
      ops w) :
    (∀ a, a ∈ w.OCT_rootlist ↔ ∃ o, w.mem a = some o ∧ o.ppid ≠ w.OCT_localpid) ∧
    w.OCT_rootlist.Nodup ∧
    (∀ x ∈ w.OCT_rootlist, ∃ i,
      nonlocalSince (POC_init w0 pid dim) ops 0 (fun _ => none) x = some i ∧ i < ops.length) ∧
    w.OCT_rootlist.Pairwise
      (EarlierNonlocal (nonlocalSince (POC_init w0 pid dim) ops 0 (fun _ => none))) := by
  obtain ⟨hinv0, _, _, _, hrl0⟩ := POC_init_inv w0 pid dim hempty
  obtain ⟨hinv, _, _⟩ := hruns.keeps_inv hinv0
  have h0 : RootOrder (POC_init w0 pid dim) (fun _ => none) 0 := by
    constructor
    · intro x hx
      rw [hrl0] at hx
      cases hx
    · rw [hrl0]
      exact List.Pairwise.nil
  have h := RootOrder.along ops _ w _ 0 hruns hinv0 h0
  rw [Nat.zero_add] at h
  exact ⟨hinv.listed, hinv.nodup, h.1, h.2⟩

/-- C35 after three creations and four calls of `POC_setparent`: octant 0 became non-local at
call 3, octant 2 at call 4, then octant 0 was made local at call 5 and non-local again at call
6; the root list is `[2, 0]`. -/
theorem C35_root_list_order_witness :
    ((∀ a, a ∈ (stateAfter orderOps).OCT_rootlist ↔
        ∃ o, (stateAfter orderOps).mem a = some o ∧
          o.ppid ≠ (stateAfter orderOps).OCT_localpid) ∧
      (stateAfter orderOps).OCT_rootlist.Nodup ∧
      (∀ x ∈ (stateAfter orderOps).OCT_rootlist, ∃ i,
        nonlocalSince (POC_init emptyWorld 0 3) orderOps 0 (fun _ => none) x = some i ∧
          i < orderOps.length) ∧
      (stateAfter orderOps).OCT_rootlist.Pairwise
        (EarlierNonlocal (nonlocalSince (POC_init emptyWorld 0 3) orderOps 0 (fun _ => none)))) ∧
    (stateAfter orderOps).OCT_rootlist = [2, 0] ∧
    nonlocalSince (POC_init emptyWorld 0 3) orderOps 0 (fun _ => none) 2 = some 4 ∧
    nonlocalSince (POC_init emptyWorld 0 3) orderOps 0 (fun _ => none) 0 = some 6 :=
  ⟨C35_root_list_order orderOps (stateAfter orderOps) emptyWorld 0 3 (fun _ => rfl)
      (Runs.cons _ (by decide) rfl trivial rfl <|
       Runs.cons _ (by decide) rfl trivial rfl <|
       Runs.cons _ (by decide) rfl trivial rfl <|
       Runs.cons _ (by decide) trivial trivial rfl <|
       Runs.cons _ (by decide) trivial trivial rfl <|
       Runs.cons _ (by decide) trivial trivial rfl <|
       Runs.cons _ (by decide) trivial trivial rfl <| Runs.nil _),
    by decide, by decide, by decide⟩

/-- C36, counterexamples in floating point.  (a) One process with two terminal local roots of
the costs 1 and `2^-60`, `globalcost = 1` (the value of the sum in `float`) and
`prefcost = 0`: in binary32 and in binary64 alike the pass returns with `total + pcost = 1`,
not `prefcost +` the sum `1 + 2^-60` of the costs of the local roots; the call of `LB_visit`
on the second root, in the state with `optcost = 1` and `pcost = 1`, assigns the root by the
fits rule (its `npid` becomes the partition 0) and leaves `total + pcost` at 1, though the
cost of the root is not 0.  (b) One process of three with fifteen terminal local roots of
binary32 costs that add up to 6, `globalcost = 6` and `prefcost = 0`: in binary32 the pass
returns with `total + pcost = 6 - 2^-23`. -/
theorem C36_running_cost_counterexample :
    CostSum (rootsWorld 0 tinyCosts) ∧ localCost (rootsWorld 0 tinyCosts) = 1 + 1 / 2 ^ 60 ∧
    (tinyCosts.all (fun c => decide ((binary32.op .cost c).toOption = some c))) = true ∧
    (LB_dfs_partition_r binary32 sampleUtil 1 1 1 1 0 (rootsWorld 0 tinyCosts)).toOption.map
      (fun r => spent r.1) = some 1 ∧
    (LB_dfs_partition_r binary64 sampleUtil 1 1 1 1 0 (rootsWorld 0 tinyCosts)).toOption.map
      (fun r => spent r.1) = some 1 ∧
    (0 : ℚ) + localCost (rootsWorld 0 tinyCosts) ≠ 1 ∧
    spent { rootsWorld 0 tinyCosts with optcost := 1, pcost := 1 } = 1 ∧
    costAt (rootsWorld 0 tinyCosts) 1 = 1 / 2 ^ 60 ∧
    (LB_visit_r binary32 sampleUtil 1
        { rootsWorld 0 tinyCosts with optcost := 1, pcost := 1 } (some 1)).toOption.map
      (fun v => (spent v, (v.mem 1).map (fun o => o.npid), v.partition)) =
      some (1, some 0, 0) ∧
    CostSum (rootsWorld 0 absorbCosts) ∧ localCost (rootsWorld 0 absorbCosts) = 6 ∧
    (absorbCosts.all (fun c => decide ((binary32.op .cost c).toOption = some c))) = true ∧
    (LB_dfs_partition_r binary32 sampleUtil 1 3 6 6 0 (rootsWorld 0 absorbCosts)).toOption.map
      (fun r => spent r.1) = some (6 - 1 / 2 ^ 23) :=
  ⟨rootsWorld_costSum 0 tinyCosts, by decide!, by decide!, by decide!, by decide!, by decide!,
    by decide!, by decide!, by decide!, rootsWorld_costSum 0 absorbCosts, by decide!,
    by decide!, by decide!⟩

/-- C36, amended (running-cost conservation where no operation is inexact, in index order).
Let `ρ` be a floating-point arithmetic and `CLOSE = 0`.  Every call of `LB_visit` that
returns over the checked arithmetic of `ρ`, that is, with no inexact operation, returns the
same state over `ρ` and is matched by
the copy that logs the octants assigned by the fits rule and the terminal rule with their
costs, and `total + pcost` after the call is `total + pcost` before it plus the sum of the
logged costs; closing a partition without an inexact sum leaves `total + pcost` unchanged and
makes the old `togo` the new `behind`.  Hence, in a state in which the cost of every octant
with children is the sum of the costs of its children in non-empty, locally tagged slots,
every such call on an octant grows `total + pcost` by exactly the cost of that octant, and
every such pass ends with `total + pcost = prefcost +` the sum of the costs of the local
roots.  The call and the pass over `ρ` do return, with these values, when the local subtrees
are finite and the run over the checked arithmetic does not end in the fault `inexact`. -/
theorem C36_running_cost_amended (ρ : Arith) (U : OctUtil) (n : Nat) (w : World) (a : Nat)
    (o : Octant) (P : Int) (G S : ℚ) (hm : w.mem a = some o) (hd : Depth w n a)
    (hroots : ∀ r ∈ w.OCT_rootlist, Depth w n r)
    (hmode : w.CLOSE = 0) (hsum : CostSum w) (hP : P ≠ 0) (hg : G ≠ 0)
    (hr : -(2 : ℚ) ^ 31 - 1 < S / (G / (P : ℚ)) ∧ S / (G / (P : ℚ)) < (2 : ℚ) ^ 31) :
    (∀ (fuel : Nat) (v v' : World) (oct : pOctant) (lg : CostLog), v.CLOSE = 0 →
      LB_visit_r (checkedArith ρ) U fuel v oct = .ok v' →
      LB_visit_r ρ U fuel v oct = .ok v' ∧
      ∃ new, LB_visit_acct U fuel (v, lg) oct = .ok (v', lg ++ new) ∧
        spent v' = spent v + (new.map Prod.snd).sum) ∧
    (∀ v v' : World, LB_visit_close_r (checkedArith ρ) v = .ok v' →
      LB_visit_close_r ρ v = .ok v' ∧ spent v' = spent v ∧ behindOf v' = togoOf v) ∧
    (∀ (fuel : Nat) (v v' : World) (b : Nat) (ob : Octant), v.CLOSE = 0 → CostSum v →
      v.mem b = some ob → LB_visit_r (checkedArith ρ) U fuel v (some b) = .ok v' →
      LB_visit_r ρ U fuel v (some b) = .ok v' ∧ spent v' = spent v + ob.cost) ∧
    (∀ fuel, n ≤ fuel →
      faultOf (LB_visit_r (checkedArith ρ) U fuel w (some a)) ≠ some Fault.inexact →
      ∃ w', LB_visit_r ρ U fuel w (some a) = .ok w' ∧ spent w' = spent w + o.cost) ∧
    (∀ (fuel : Nat) (v v' : World) (cnt : Int) (c1 mycost : ℚ), v.CLOSE = 0 → CostSum v →
      LB_dfs_partition_r (checkedArith ρ) U fuel P mycost G S v = .ok (v', cnt, c1) →
      LB_dfs_partition_r ρ U fuel P mycost G S v = .ok (v', cnt, c1) ∧
      spent v' = S + localCost v) ∧
    (∀ fuel, n ≤ fuel →
      faultOf (LB_dfs_partition_r (checkedArith ρ) U fuel P (localCost w) G S w) ≠
        some Fault.inexact →
      ∃ w', LB_dfs_partition_r ρ U fuel P (localCost w) G S w =
          .ok (w', w'.DFS_Part_Count, localCost w) ∧
        spent w' = S + localCost w) := by
  refine ⟨fun fuel v v' oct lg _ h => ?_, fun v v' h => ?_, fun fuel v v' b ob _ hs hb h => ?_,
    fun fuel hn hx => ?_, fun fuel v v' cnt c1 mycost _ hs h => ?_, fun fuel hn hx => ?_⟩
  · obtain ⟨h1, h2⟩ := visit_checked ρ h
    exact ⟨h1, LB_visit_logged U lg h2⟩
  · unfold LB_visit_close_r at h ⊢
    obtain ⟨t, ht, h⟩ := bind_ok_inv h
    obtain ⟨rfl, hρ⟩ := checked_op_ok ht
    cases h
    rw [hρ]
    exact ⟨rfl, closePartition_spent v⟩
  · obtain ⟨h1, h2⟩ := visit_checked ρ h
    exact ⟨h1, (LB_visit_exact U fuel v v' b ob hs hb h2).2⟩
  · obtain ⟨w', hv, _⟩ := LB_visit_post U fuel w n a o hm hd hn (Or.inl hmode)
    exact ⟨w', (visit_transfer ρ hv hx).2, (LB_visit_exact U fuel w w' a o hsum hm hv).2⟩
  · obtain ⟨h1, h2⟩ := pass_checked ρ h
    exact ⟨h1, pass_exact U hs (pass_r_exact_ok h2)⟩
  · obtain ⟨_, w', _, _, _, _, _, _, hrun, _⟩ :=
      pass_trace U fuel n w P (localCost w) G S hP hg hroots hn (Or.inl hmode)
    exact ⟨w', (pass_transfer ρ hrun hr hx).2, pass_exact U hsum hrun⟩

/-- C36 amended, in binary32 on the sample root of cost 4 with four leaves of cost 1, as the
only process; neither the call on the root nor the pass has an inexact operation. -/
theorem C36_running_cost_amended_witness :
    ((∀ (fuel : Nat) (v v' : World) (oct : pOctant) (lg : CostLog), v.CLOSE = 0 →
      LB_visit_r (checkedArith binary32) sampleUtil fuel v oct = .ok v' →
      LB_visit_r binary32 sampleUtil fuel v oct = .ok v' ∧
      ∃ new, LB_visit_acct sampleUtil fuel (v, lg) oct = .ok (v', lg ++ new) ∧
        spent v' = spent v + (new.map Prod.snd).sum) ∧
    (∀ v v' : World, LB_visit_close_r (checkedArith binary32) v = .ok v' →
      LB_visit_close_r binary32 v = .ok v' ∧ spent v' = spent v ∧ behindOf v' = togoOf v) ∧
    (∀ (fuel : Nat) (v v' : World) (b : Nat) (ob : Octant), v.CLOSE = 0 → CostSum v →
      v.mem b = some ob →
      LB_visit_r (checkedArith binary32) sampleUtil fuel v (some b) = .ok v' →
      LB_visit_r binary32 sampleUtil fuel v (some b) = .ok v' ∧
      spent v' = spent v + ob.cost) ∧
    (∀ fuel, 2 ≤ fuel →
      faultOf (LB_visit_r (checkedArith binary32) sampleUtil fuel fourLeafWorld (some 0)) ≠
        some Fault.inexact →
      ∃ w', LB_visit_r binary32 sampleUtil fuel fourLeafWorld (some 0) = .ok w' ∧
        spent w' = spent fourLeafWorld + sampleRoot4.cost) ∧
    (∀ (fuel : Nat) (v v' : World) (cnt : Int) (c1 mycost : ℚ), v.CLOSE = 0 → CostSum v →
      LB_dfs_partition_r (checkedArith binary32) sampleUtil fuel 1 mycost 4 0 v =
        .ok (v', cnt, c1) →
      LB_dfs_partition_r binary32 sampleUtil fuel 1 mycost 4 0 v = .ok (v', cnt, c1) ∧
      spent v' = 0 + localCost v) ∧
    (∀ fuel, 2 ≤ fuel →
      faultOf (LB_dfs_partition_r (checkedArith binary32) sampleUtil fuel 1
        (localCost fourLeafWorld) 4 0 fourLeafWorld) ≠ some Fault.inexact →
      ∃ w', LB_dfs_partition_r binary32 sampleUtil fuel 1 (localCost fourLeafWorld) 4 0
          fourLeafWorld = .ok (w', w'.DFS_Part_Count, localCost fourLeafWorld) ∧
        spent w' = 0 + localCost fourLeafWorld)) ∧
    faultOf (LB_visit_r (checkedArith binary32) sampleUtil 2 fourLeafWorld (some 0)) = none ∧
    faultOf (LB_dfs_partition_r (checkedArith binary32) sampleUtil 2 1
      (localCost fourLeafWorld) 4 0 fourLeafWorld) = none :=
  ⟨C36_running_cost_amended binary32 sampleUtil 2 fourLeafWorld 0 sampleRoot4 1 4 0 rfl
      fourLeafWorld_depth fourLeafWorld_roots rfl fourLeafWorld_costSum (by decide)
      (by norm_num) (by norm_num),
    by decide!, by decide!⟩

/-- C37: `POC_setchild` adds 1 to `numChild` on every call, also when the slot already holds a
child or the child stored is `NULL`, so that the value returned by `POC_children` is the number
of calls and not the number of non-empty slots.  After `POC_new` and two calls
`POC_setchild(o, 0, c)` it is 2 for one non-empty slot; after `POC_new` and
`POC_setchildren(o, children, cpids)` with eight `NULL` children it is 8 for no non-empty slot.
The array that `POC_children` fills is the 8 slots in every state, and the count is right when
each slot is set once with a non-`NULL` child. -/
theorem C37_numChild_counts_calls :
    (∀ (w : World) (a : Nat) (o : Octant), w.mem a = some o →
      POC_children w (some a) = .ok (o.numChild, o.child)) ∧
    (∀ (w : World) (a : Nat) (o : Octant) (i : Fin 8) (c : pOctant), w.mem a = some o →
      ∃ w', POC_setchild w (some a) i c = .ok w' ∧
        POC_children w' (some a) = .ok (o.numChild + 1, Function.update o.child i c)) ∧
    (POC_children (stateAfter twiceOps) (some 0)).toOption.map (fun r => r.1) = some 2 ∧
    ((stateAfter twiceOps).mem 0).map childCount = some 1 ∧
    (POC_children (stateAfter nullOps) (some 0)).toOption.map (fun r => r.1) = some 8 ∧
    ((stateAfter nullOps).mem 0).map childCount = some 0 ∧
    (POC_children (stateAfter onceOps) (some 0)).toOption.map (fun r => r.1) = some 2 ∧
    ((stateAfter onceOps).mem 0).map childCount = some 2 := by
  refine ⟨fun w a o hm => ?_, fun w a o i c hm => ?_, by decide, by decide, by decide,
    by decide, by decide, by decide⟩
  · rw [POC_children_eq, hm]
  · refine ⟨_, POC_setchild_eq hm i c, ?_⟩
    rw [POC_children_eq, mem_update_same]

/-- C38: for every octant whose local subtree is finite (at most `n` levels) and every running
state, in index order, and in nearest-centroid order when every locally tagged slot holds an
octant, `LB_visit` returns for every recursion depth of at least `n`.  The outer loop of
`LB_visit_by_dist`, started with no slot marked, returns within a budget of 9 iterations
whenever the visits it makes return and leave the tags of the octant alone; and an iteration
that picks a slot picks one that is tagged local and not yet marked, which it then marks. -/
theorem C38_visit_terminates (U : OctUtil) (n : Nat) (w : World) (a : Nat) (o : Octant)
    (hm : w.mem a = some o) (hd : Depth w n a) (hmode : w.CLOSE = 0 ∨ LocalSlotsFilled w) :
    (∀ fuel, n ≤ fuel → ∃ w', LB_visit U fuel w (some a) = .ok w') ∧
    (∀ (visit : World → pOctant → Except Fault World) (children : Fin 8 → pOctant)
        (corigin : Fin 8 → COORD) (N : Nat), 9 ≤ N →
      (∀ s c, (∃ o', s.mem a = some o' ∧ o'.cpid = o.cpid ∧
            s.OCT_localpid = w.OCT_localpid) →
        ∃ s', visit s c = .ok s' ∧
          ∃ o', s'.mem a = some o' ∧ o'.cpid = o.cpid ∧ s'.OCT_localpid = w.OCT_localpid) →
      ∃ s', LB_visit_by_dist_loop U visit (some a) children corigin N w initDistLocals =
        .ok s') ∧
    (∀ (s : World) (os : Octant) (corigin : Fin 8 → COORD) (L : DistLocals) (pc : COORD)
        (md : ℚ) (i : Fin 8), s.mem a = some os →
      LB_visit_by_dist_pick U s (some a) corigin L = .ok (pc, md, some i) →
      os.cpid i = s.OCT_localpid ∧ L.visited i = false) := by
  refine ⟨fun fuel hf => ?_, fun visit children corigin N hN hvisit => ?_,
    fun s os corigin L pc md i hs hpick => ?_⟩
  · obtain ⟨w', hv, _⟩ := LB_visit_post U fuel w n a o hm hd hf hmode
    exact ⟨w', hv⟩
  · obtain ⟨s', _, hloop, _⟩ := by_dist_loop_inv U visit a o w.OCT_localpid children corigin
      (fun _ s => ∃ o', s.mem a = some o' ∧ o'.cpid = o.cpid ∧ s.OCT_localpid = w.OCT_localpid)
      (fun _ s hI => hI) (fun _ x s _ hI _ => hvisit s (children x) hI)
      N [] w initDistLocals List.nodup_nil
      (fun i => by simp [initDistLocals]) (fun i hi => by cases hi) ⟨o, hm, rfl, rfl⟩
      (by simpa using hN)
    exact ⟨s', hloop⟩
  · obtain ⟨pc', md', mc', hpick', _, hscan⟩ := pick_spec U hs corigin L
    rw [hpick] at hpick'
    cases hpick'
    obtain ⟨md2, mc2, hscan2, _, hsome⟩ :=
      scan_spec U hs corigin pc L.visited slots L.mindist none
    rw [hscan] at hscan2
    cases hscan2
    rcases hsome i rfl with h | ⟨_, h1, h2⟩
    · cases h
    · exact ⟨h1, h2⟩

/-- C38 on the sample root with four leaves, in index order. -/
theorem C38_visit_terminates_witness :
    (∀ fuel, 2 ≤ fuel → ∃ w', LB_visit sampleUtil fuel fourLeafWorld (some 0) = .ok w') ∧
    (∀ (visit : World → pOctant → Except Fault World) (children : Fin 8 → pOctant)
        (corigin : Fin 8 → COORD) (N : Nat), 9 ≤ N →
      (∀ s c, (∃ o', s.mem 0 = some o' ∧ o'.cpid = sampleRoot4.cpid ∧
            s.OCT_localpid = fourLeafWorld.OCT_localpid) →
        ∃ s', visit s c = .ok s' ∧
          ∃ o', s'.mem 0 = some o' ∧ o'.cpid = sampleRoot4.cpid ∧
            s'.OCT_localpid = fourLeafWorld.OCT_localpid) →
      ∃ s', LB_visit_by_dist_loop sampleUtil visit (some 0) children corigin N fourLeafWorld
        initDistLocals = .ok s') ∧
    (∀ (s : World) (os : Octant) (corigin : Fin 8 → COORD) (L : DistLocals) (pc : COORD)
        (md : ℚ) (i : Fin 8), s.mem 0 = some os →
      LB_visit_by_dist_pick sampleUtil s (some 0) corigin L = .ok (pc, md, some i) →
      os.cpid i = s.OCT_localpid ∧ L.visited i = false) :=
  C38_visit_terminates sampleUtil 2 fourLeafWorld 0 sampleRoot4 rfl fourLeafWorld_depth
    (Or.inl rfl)

end Zoltan

namespace Tempus

/-- C31 (half-open time range).  The documentation of `timeInRange` (line 316) says that the
range includes `timeMin` and excludes `timeMax`; the test multiplies both bounds by
`1 - relTol`.  So `timeInRange(timeMin)` holds exactly when `timeMin` is not negative and
below the scaled `timeMax`, and `timeInRange(timeMax)` holds exactly when `timeMax` is
negative and the scaled `timeMin` is at most `timeMax`: with `timeMin = -2 < timeMax = -1`
the range excludes `timeMin` and includes `timeMax`, and with `timeMin = 1` and
`timeMax = 1 + 10^-15` it excludes `timeMin`. -/
theorem C31_time_range_sign (tsc : TimeStepControl) :
    (timeInRange tsc tsc.timeMin = true ↔
      0 ≤ tsc.timeMin ∧ tsc.timeMin < tsc.timeMax * (1 - 1 / 10 ^ 14)) ∧
    (timeInRange tsc tsc.timeMax = true ↔
      tsc.timeMax < 0 ∧ tsc.timeMin * (1 - 1 / 10 ^ 14) ≤ tsc.timeMax) ∧
    timeInRange { blankControl with timeMin := -2, timeMax := -1 } (-2) = false ∧
    timeInRange { blankControl with timeMin := -2, timeMax := -1 } (-1) = true ∧
    timeInRange { blankControl with timeMin := 1, timeMax := 1 + 1 / 10 ^ 15 } 1 = false := by
  refine ⟨?_, ?_, by decide!, by decide!, by decide!⟩
  · simp only [timeInRange, Bool.and_eq_true, decide_eq_true_eq]
    constructor
    · rintro ⟨h1, h2⟩
      refine ⟨?_, h2⟩
      nlinarith
    · rintro ⟨h1, h2⟩
      refine ⟨?_, h2⟩
      nlinarith
  · simp only [timeInRange, Bool.and_eq_true, decide_eq_true_eq]
    constructor
    · rintro ⟨h1, h2⟩
      refine ⟨?_, h1⟩
      nlinarith
    · rintro ⟨h1, h2⟩
      refine ⟨h2, ?_⟩
      nlinarith

/-- C39 (constant-step order escalation).  In the constant-step mode, with
`order <= orderMax` on entry and `k` the number of the conditions "the stepper failed",
`errorAbs > errorMaxAbs` and `errorRel > errorMaxRel` that hold: when `order + k <= orderMax`,
`getNextTimeStep` leaves the order at `order + k` and `integratorStatus` as it was; otherwise
it sets `integratorStatus` to `false` and returns with the order `orderMax` and with
`suggestedDt` as it was. -/
theorem C39_order_escalation (tsc : TimeStepControl) (m : MetaData)
    (stepperStatus integratorStatus : Bool)
    (hconst : tsc.stepType = StepType.CONSTANT_STEP_SIZE) (hord : m.order ≤ tsc.orderMax) :
    (m.order + failureCount tsc m stepperStatus ≤ tsc.orderMax →
      (getNextTimeStep tsc m stepperStatus integratorStatus).metaData.order =
          m.order + failureCount tsc m stepperStatus ∧
        (getNextTimeStep tsc m stepperStatus integratorStatus).integratorStatus =
          integratorStatus) ∧
    (¬ m.order + failureCount tsc m stepperStatus ≤ tsc.orderMax →
      (getNextTimeStep tsc m stepperStatus integratorStatus).integratorStatus = false ∧
        (getNextTimeStep tsc m stepperStatus integratorStatus).ending = Ending.returned ∧
        (getNextTimeStep tsc m stepperStatus integratorStatus).metaData.order = tsc.orderMax ∧
        (getNextTimeStep tsc m stepperStatus integratorStatus).metaData.suggestedDt =
          m.suggestedDt) := by
  obtain ⟨f1, f2, f3, f4⟩ := resetStep_fields tsc m
  have hk : failureCount tsc m stepperStatus =
      (if stepperStatus ≠ true then 1 else 0) + (if m.errorAbs > tsc.errorMaxAbs then 1 else 0) +
        (if m.errorRel > tsc.errorMaxRel then 1 else 0) := by
    unfold failureCount
    cases stepperStatus <;> simp
  have hA : (0 : Int) ≤ (if m.errorAbs > tsc.errorMaxAbs then 1 else 0) := by
    split <;> omega
  have hR : (0 : Int) ≤ (if m.errorRel > tsc.errorMaxRel then 1 else 0) := by
    split <;> omega
  rw [hk]
  unfold getNextTimeStep getNextTimeStep_body
  simp only [hconst, if_true]
  rcases raiseOrder_cases tsc (stepperStatus ≠ true) (resetStep tsc m) (by rw [f1]; exact hord)
    with ⟨m1, e1, o1, b1, s1, a1, r1⟩ | ⟨e1, c1, q1⟩
  · rw [e1]
    simp only [bind, Except.bind]
    rw [f1] at o1
    rw [f2] at a1
    rw [f3] at r1
    rw [f4] at s1
    rcases raiseOrder_cases tsc (m1.errorAbs > tsc.errorMaxAbs) m1 b1
      with ⟨m2, e2, o2, b2, s2, a2, r2⟩ | ⟨e2, c2, q2⟩
    · rw [e2]
      simp only
      rw [a1] at o2
      rcases raiseOrder_cases tsc (m2.errorRel > tsc.errorMaxRel) m2 b2
        with ⟨m3, e3, o3, b3, s3, a3, r3⟩ | ⟨e3, c3, q3⟩
      · rw [e3]
        simp only
        rw [r2, r1] at o3
        have hsum : m3.order = m.order + ((if stepperStatus ≠ true then 1 else 0) +
            (if m.errorAbs > tsc.errorMaxAbs then 1 else 0) +
            (if m.errorRel > tsc.errorMaxRel then 1 else 0)) := by
          rw [o3, o2, o1]
          ring
        constructor
        · intro _
          cases hcc : constantChecks tsc m3 integratorStatus with
          | ok r =>
            obtain ⟨k1, k2⟩ := constantChecks_keeps tsc m3 integratorStatus r (Or.inl hcc)
            exact ⟨k1.trans hsum, k2⟩
          | error r =>
            obtain ⟨k1, k2⟩ := constantChecks_keeps tsc m3 integratorStatus r (Or.inr hcc)
            exact ⟨k1.trans hsum, k2⟩
        · intro hgt
          rw [← hsum] at hgt
          exact absurd b3 hgt
      · rw [e3]
        simp only
        have hc3 : m.errorRel > tsc.errorMaxRel := by
          rw [← r1, ← r2]
          exact c3
        rw [if_pos hc3]
        constructor
        · intro hle
          omega
        · intro _
          exact ⟨trivial, trivial, q3, s2.trans s1⟩
    · rw [e2]
      simp only
      have hc2 : m.errorAbs > tsc.errorMaxAbs := by
        rw [← a1]
        exact c2
      rw [if_pos hc2]
      constructor
      · intro hle
        omega
      · intro _
        exact ⟨trivial, trivial, q2, s1⟩
  · rw [e1]
    simp only [bind, Except.bind]
    rw [if_pos c1]
    rw [f1] at q1
    constructor
    · intro hle
      omega
    · intro _
      exact ⟨trivial, trivial, f1.trans q1, f4⟩

/-- C39 on a control object with `orderMax = 3`: from the order 2 with a stepper that
succeeded and both errors too large. -/
theorem C39_order_escalation_witness :
    ((sampleMetaData.order + failureCount constantControl sampleMetaData true ≤
        constantControl.orderMax →
      (getNextTimeStep constantControl sampleMetaData true true).metaData.order =
          sampleMetaData.order + failureCount constantControl sampleMetaData true ∧
        (getNextTimeStep constantControl sampleMetaData true true).integratorStatus = true) ∧
    (¬ sampleMetaData.order + failureCount constantControl sampleMetaData true ≤
        constantControl.orderMax →
      (getNextTimeStep constantControl sampleMetaData true true).integratorStatus = false ∧
        (getNextTimeStep constantControl sampleMetaData true true).ending = Ending.returned ∧
        (getNextTimeStep constantControl sampleMetaData true true).metaData.order =
          constantControl.orderMax ∧
        (getNextTimeStep constantControl sampleMetaData true true).metaData.suggestedDt =
          sampleMetaData.suggestedDt)) ∧
    failureCount constantControl sampleMetaData true = 2 ∧
    (getNextTimeStep constantControl sampleMetaData true true).integratorStatus = false ∧
    (getNextTimeStep constantControl sampleMetaData true true).metaData.order = 3 :=
  ⟨C39_order_escalation constantControl sampleMetaData true true rfl (by decide),
    by decide!, by decide!, by decide!⟩

end Tempus
